import Mathlib

/-!
CPU-scheduling simulator (Lab_3.cpp): embedding and verified properties.

The five engines of `Lab_3.cpp` are embedded as Lean functions.

Modelling conventions.
* A C++ `int` is an `Int` between `-2147483648` and `2147483647`.  Every addition and
  subtraction of the source whose exact result can leave this range (the advance of a
  clock, a finish time, a waiting time, a turnaround time) is followed by `wrap32`,
  which gives the 32-bit two's complement value that the machine leaves.  The
  decrements of `remainingTime` and `priority` are taken from values above their floor
  and stay in the range.  The constant `INT_MAX`, which the source uses as a sentinel,
  is the value `2147483647`.
* A `double` is the rational number it stands for.  `toDouble` rounds a rational to the
  nearest binary64 value, ties to even; every `double` addition and division of the
  source is the exact operation followed by `toDouble`.  The conversion of an `int` to
  `double` is exact.
* A `std::vector` is a `List`, indexed by position; `std::queue<int>` is a `List Nat`
  with the head at the front.
* A `while` loop is a step function `σ → Option σ` (`none` when the loop is left,
  through its condition or through `break`), run by `iterate` (the state after a
  number of iterations) and by `runLoop` (the state in which the loop is left, when
  a given number of iterations suffices).
* The rows that an engine prints (the execution log and the result table) are part
  of the value the embedded engine returns.
-/

namespace Lab3

/-! ## Data model -/

/-- The constant `INT_MAX` of `<climits>` (32-bit `int`). -/
def INT_MAX : Int := 2147483647

/-- The value that an `int` addition or subtraction leaves when its exact result is `x`:
the 32-bit two's complement number congruent to `x`.  It is `x` itself when `x` is
between `-2147483648` and `2147483647`, and the wrapped value otherwise, as on the
machine the program runs on. -/
def wrap32 (x : Int) : Int := (x + 2147483648) % 4294967296 - 2147483648

/-- The power `2 ^ e` of an integer exponent. -/
def pow2 (e : Int) : ℚ :=
  if 0 ≤ e then ((2 ^ e.toNat : Nat) : ℚ) else 1 / ((2 ^ (-e).toNat : Nat) : ℚ)

/-- The integer nearest to `x`, the even one of the two when `x` lies half way. -/
def roundEven (x : ℚ) : Int :=
  if x - x.floor < 1 / 2 then x.floor
  else if 1 / 2 < x - x.floor then x.floor + 1
  else if x.floor % 2 = 0 then x.floor else x.floor + 1

/-- The number of times `n` can be halved before it is below `2`, counted in at most
`fuel` steps. -/
def log2Fuel : Nat → Nat → Nat
  | 0, _ => 0
  | fuel + 1, n => if 2 ≤ n then log2Fuel fuel (n / 2) + 1 else 0

/-- The exponent of the largest power of `2` that is at most `n`, for `n ≥ 1`. -/
def floorLog2 (n : Nat) : Nat := log2Fuel n n

/-- The binary exponent of a positive rational `q`: the `e` with `2 ^ e ≤ q < 2 ^ (e + 1)`. -/
def expOf (q : ℚ) : Int :=
  if pow2 ((floorLog2 q.num.natAbs : Int) - (floorLog2 q.den : Int)) ≤ q then
    (floorLog2 q.num.natAbs : Int) - (floorLog2 q.den : Int)
  else (floorLog2 q.num.natAbs : Int) - (floorLog2 q.den : Int) - 1

/-- The value that a `double` addition or division leaves when its exact result is `q`:
the IEEE 754 binary64 number nearest to `q`, the one with the even significand when `q`
lies half way between two.  The significand has 53 bits, so the spacing of the numbers
around `q` is `2 ^ (e - 52)` for the binary exponent `e` of `|q|`, and `2 ^ (-1074)` below
`2 ^ (-1022)`.  A result of magnitude `2 ^ 1024` or more, which rounds to infinity, cannot
arise here: the operands are sums of `int` values and their quotients by a count. -/
def toDouble (q : ℚ) : ℚ :=
  if q = 0 then 0
  else if q < 0 then
    -((roundEven (-q / pow2 (max (expOf (-q)) (-1022) - 52)) : ℚ) *
      pow2 (max (expOf (-q)) (-1022) - 52))
  else
    (roundEven (q / pow2 (max (expOf q) (-1022) - 52)) : ℚ) *
      pow2 (max (expOf q) (-1022) - 52)

/-- The `double` nearest to a positive rational `a`. -/
def rnd (a : ℚ) : ℚ :=
  (roundEven (a / pow2 (max (expOf a) (-1022) - 52)) : ℚ) * pow2 (max (expOf a) (-1022) - 52)

/-- Record `ResultSummary` of the source. -/
structure ResultSummary where
  avgWaiting : ℚ
  avgTurnaround : ℚ
  name : String
deriving DecidableEq

/-- Record `Process` of the source. -/
structure Process where
  id : Int
  arrivalTime : Int
  burstTime : Int
  priority : Int
  initialPriority : Int
  remainingTime : Int
  startTime : Int
  finishTime : Int
  waitingTime : Int
  turnaroundTime : Int
deriving DecidableEq, Inhabited

/-- One process as `generateProcesses` initialises it, for a given id, arrival time,
burst time and priority. -/
def mkProcess (id arrivalTime burstTime priority : Int) : Process :=
  { id := id, arrivalTime := arrivalTime, burstTime := burstTime,
    priority := priority, initialPriority := priority,
    remainingTime := burstTime, startTime := -1, finishTime := -1,
    waitingTime := 0, turnaroundTime := 0 }

/-! ## Loops -/

/-- State after at most `k` iterations of the loop whose body is `step`. -/
def iterate {σ : Type} (step : σ → Option σ) : Nat → σ → σ
  | 0, s => s
  | k + 1, s =>
    match step s with
    | none => s
    | some s' => iterate step k s'

/-- State in which the loop is left, if at most `fuel` iterations are run before. -/
def runLoop {σ : Type} (step : σ → Option σ) : Nat → σ → Option σ
  | 0, s =>
    match step s with
    | none => some s
    | some _ => none
  | fuel + 1, s =>
    match step s with
    | none => some s
    | some s' => runLoop step fuel s'

/-! ## State reset at the head of an engine -/

/-- The reset loop at the head of `simulateRoundRobin` and of `simulateSJF`. -/
def resetRun (p : Process) : Process :=
  { p with remainingTime := p.burstTime, startTime := -1, finishTime := -1,
           waitingTime := 0, turnaroundTime := 0 }

/-- The reset loop at the head of `simulatePriority` and of `simulateDynamicPriority`,
which also restores `priority` from `initialPriority`. -/
def resetRunPriority (p : Process) : Process :=
  { resetRun p with priority := p.initialPriority }

/-- The summary an engine returns without simulating. -/
def zeroSummary (name : String) : ResultSummary :=
  { avgWaiting := 0, avgTurnaround := 0, name := name }

/-- The assignment `if (p.startTime == -1) p.startTime = currentTime;`. -/
def startIfUnset (currentTime : Int) (p : Process) : Process :=
  if p.startTime = -1 then { p with startTime := currentTime } else p

/-- The assignment `p.remainingTime -= runTime;` (and `p.remainingTime--;` for a run
time of `1`).  The subtraction is kept exact: in `simulateRoundRobin` the run time is
`min(quantum, remainingTime)` with `quantum ≥ 1`, in `simulateDynamicPriority` it is `1`
taken from a `remainingTime > 0`, so the result lies between `0` and `remainingTime` (or
is `0`) and never leaves the `int` range. -/
def consume (runTime : Int) (p : Process) : Process :=
  { p with remainingTime := p.remainingTime - runTime }

/-- The three assignments made when a process completes at clock `currentTime`, in
`simulateRoundRobin` and in `simulateDynamicPriority`. -/
def finishAt (currentTime : Int) (p : Process) : Process :=
  let p := { p with finishTime := currentTime }
  let p := { p with turnaroundTime := wrap32 (p.finishTime - p.arrivalTime) }
  { p with waitingTime := wrap32 (p.turnaroundTime - p.burstTime) }

/-! ## FCFS -/

/-- The comparator passed to `std::sort` in `simulateFCFS`. -/
def fcfsLess (a b : Process) : Bool :=
  if a.arrivalTime = b.arrivalTime then decide (a.id < b.id)
  else decide (a.arrivalTime < b.arrivalTime)

/-- Order `a` not after `b`: the comparator does not put `b` before `a`. -/
def fcfsLe (a b : Process) : Prop := fcfsLess b a = false

instance : DecidableRel fcfsLe := fun a b => by unfold fcfsLe; infer_instance

/-- The order is total: of two processes, one is not after the other. -/
instance : IsTotal Process fcfsLe :=
  ⟨fun a b => by
    have key : ∀ x y : Process, fcfsLe x y ↔ x.arrivalTime < y.arrivalTime ∨
        (x.arrivalTime = y.arrivalTime ∧ x.id ≤ y.id) := by
      intro x y
      unfold fcfsLe fcfsLess
      by_cases h : y.arrivalTime = x.arrivalTime
      · simp [h]
      · simp only [h, if_false, decide_eq_false_iff_not, not_lt]
        omega
    rw [key, key]
    omega⟩

/-- The order is transitive. -/
instance : IsTrans Process fcfsLe :=
  ⟨fun a b c => by
    have key : ∀ x y : Process, fcfsLe x y ↔ x.arrivalTime < y.arrivalTime ∨
        (x.arrivalTime = y.arrivalTime ∧ x.id ≤ y.id) := by
      intro x y
      unfold fcfsLe fcfsLess
      by_cases h : y.arrivalTime = x.arrivalTime
      · simp [h]
      · simp only [h, if_false, decide_eq_false_iff_not, not_lt]
        omega
    rw [key, key, key]
    omega⟩

/-- Body of the `for` loop of `simulateFCFS` for one process, at clock `currentTime`. -/
def fcfsBody (currentTime : Int) (p : Process) : Process :=
  let currentTime := if currentTime < p.arrivalTime then p.arrivalTime else currentTime
  let p := { p with startTime := currentTime }
  let p := { p with finishTime := wrap32 (currentTime + p.burstTime) }
  let p := { p with waitingTime := wrap32 (p.startTime - p.arrivalTime) }
  { p with turnaroundTime := wrap32 (p.finishTime - p.arrivalTime) }

/-- The `for` loop of `simulateFCFS`: the processes with their times filled in, and the
two totals. -/
def fcfsLoop : List Process → Int → ℚ → ℚ → List Process × ℚ × ℚ
  | [], _, totalWaiting, totalTurnaround => ([], totalWaiting, totalTurnaround)
  | p :: rest, currentTime, totalWaiting, totalTurnaround =>
    let q := fcfsBody currentTime p
    let r := fcfsLoop rest q.finishTime (toDouble (totalWaiting + q.waitingTime))
      (toDouble (totalTurnaround + q.turnaroundTime))
    (q :: r.1, r.2.1, r.2.2)

/-- Function `simulateFCFS`: the summary and the rows of the table, in the order they are
printed.  `std::sort` is a sort by the comparator; the order it gives to processes that
the comparator does not separate (same arrival time and same id) is the one of a stable
sort here. -/
def simulateFCFS (processes : List Process) : ResultSummary × List Process :=
  let n := processes.length
  if n = 0 then
    (zeroSummary "FCFS", [])
  else
    let sorted := processes.insertionSort fcfsLe
    let r := fcfsLoop sorted 0 0 0
    ({ avgWaiting := toDouble (r.2.1 / n), avgTurnaround := toDouble (r.2.2 / n), name := "FCFS" }, r.1)

/-! ## Round Robin -/

/-- One line of the execution log of `simulateRoundRobin`: the slice `t=start .. stop`,
the id printed, the run length and the remaining time.  `idx` is the position in the
process list of the process the line is about. -/
structure Slice where
  idx : Nat
  start : Int
  stop : Int
  id : Int
  runTime : Int
  remaining : Int
deriving DecidableEq

/-- The variables of `simulateRoundRobin` that its main loop reads and writes. -/
structure RRState where
  processes : List Process
  readyQueue : List Nat
  inQueue : List Bool
  finished : List Bool
  currentTime : Int
  completed : Int
  totalWaiting : ℚ
  totalTurnaround : ℚ
  log : List Slice

/-- Body of the loop of the lambda `addArrived`, at position `i`: `acc` is the ready
queue and the `inQueue` flags. -/
def addArrivedBody (processes : List Process) (finished : List Bool) (time : Int)
    (acc : List Nat × List Bool) (i : Nat) : List Nat × List Bool :=
  if finished.getD i false = false ∧ acc.2.getD i false = false ∧
      (processes.getD i default).arrivalTime ≤ time then
    (acc.1 ++ [i], acc.2.set i true)
  else acc

/-- The lambda `addArrived` of `simulateRoundRobin`: the ready queue and the `inQueue`
flags after the scan. -/
def addArrived (processes : List Process) (finished : List Bool) (time : Int)
    (readyQueue : List Nat) (inQueue : List Bool) : List Nat × List Bool :=
  (List.range processes.length).foldl (addArrivedBody processes finished time)
    (readyQueue, inQueue)

/-- Body of the bootstrap scan of `simulateRoundRobin`, at position `i`: `acc` is
`(firstIndex, earliestArrival)`. -/
def rrBootstrapBody (processes : List Process) (acc : Nat × Int) (i : Nat) : Nat × Int :=
  if (processes.getD i default).arrivalTime < acc.2 then
    (i, (processes.getD i default).arrivalTime)
  else acc

/-- The bootstrap scan of `simulateRoundRobin`: `(firstIndex, earliestArrival)`. -/
def rrBootstrap (processes : List Process) : Nat × Int :=
  (List.range' 1 (processes.length - 1)).foldl (rrBootstrapBody processes)
    (0, (processes.getD 0 default).arrivalTime)

/-- Body of the scan run when the ready queue is empty, at position `i`: `acc` is
`(nextIndex, nextArrival)`, with `none` for the `-1` that `nextIndex` starts with. -/
def rrNextScanBody (processes : List Process) (finished : List Bool)
    (acc : Option Nat × Int) (i : Nat) : Option Nat × Int :=
  if finished.getD i false = false ∧ (processes.getD i default).arrivalTime < acc.2 then
    (some i, (processes.getD i default).arrivalTime)
  else acc

/-- The scan run when the ready queue is empty: `(nextIndex, nextArrival)`. -/
def rrNextScan (processes : List Process) (finished : List Bool) : Option Nat × Int :=
  (List.range processes.length).foldl (rrNextScanBody processes finished) (none, INT_MAX)

/-- The head of the loop body of `simulateRoundRobin`: the ready queue, the `inQueue`
flags and the clock once an empty queue has been refilled; `none` is the `break`. -/
def rrRefill (s : RRState) : Option (List Nat × List Bool × Int) :=
  if s.readyQueue.isEmpty then
    match rrNextScan s.processes s.finished with
    | (none, _) => none
    | (some nextIndex, nextArrival) =>
      some (s.readyQueue ++ [nextIndex], s.inQueue.set nextIndex true, nextArrival)
  else some (s.readyQueue, s.inQueue, s.currentTime)

/-- The loop body of `simulateRoundRobin` from the dequeue on: `idx` is the head of the
queue, `readyQueue` the queue behind it, `inQueue` and `currentTime` the flags and the
clock after the refill. -/
def rrRunSlice (quantum : Int) (s : RRState) (idx : Nat) (readyQueue : List Nat)
    (inQueue : List Bool) (currentTime : Int) : RRState :=
  let inQueue := inQueue.set idx false
  let p := startIfUnset currentTime (s.processes.getD idx default)
  let runTime := min quantum p.remainingTime
  let startSlice := currentTime
  let currentTime := wrap32 (currentTime + runTime)
  let p := consume runTime p
  let log := s.log ++ [{ idx := idx, start := startSlice, stop := currentTime, id := p.id,
                         runTime := runTime, remaining := p.remainingTime }]
  let processes := s.processes.set idx p
  let q := addArrived processes s.finished currentTime readyQueue inQueue
  if p.remainingTime = 0 then
    let p := finishAt currentTime p
    { processes := processes.set idx p, readyQueue := q.1, inQueue := q.2,
      finished := s.finished.set idx true, currentTime := currentTime,
      completed := s.completed + 1,
      totalWaiting := toDouble (s.totalWaiting + p.waitingTime),
      totalTurnaround := toDouble (s.totalTurnaround + p.turnaroundTime), log := log }
  else
    { processes := processes, readyQueue := q.1 ++ [idx],
      inQueue := q.2.set idx true, finished := s.finished,
      currentTime := currentTime, completed := s.completed,
      totalWaiting := s.totalWaiting, totalTurnaround := s.totalTurnaround,
      log := log }

/-- One iteration of the main loop of `simulateRoundRobin`. -/
def rrStep (quantum : Int) (s : RRState) : Option RRState :=
  if s.completed < s.processes.length then
    match rrRefill s with
    | none => none
    | some ([], _, _) => none -- not reached: the queue holds an index after the refill
    | some (idx :: readyQueue, inQueue, currentTime) =>
      some (rrRunSlice quantum s idx readyQueue inQueue currentTime)
  else none

/-- The state of `simulateRoundRobin` when its main loop is entered, for a non-empty
process list. -/
def rrInit (processes : List Process) : RRState :=
  let processes := processes.map resetRun
  let n := processes.length
  let b := rrBootstrap processes
  { processes := processes, readyQueue := [b.1],
    inQueue := (List.replicate n false).set b.1 true,
    finished := List.replicate n false, currentTime := b.2, completed := 0,
    totalWaiting := 0, totalTurnaround := 0, log := [] }

/-- What a run of `simulateRoundRobin` produces: the summary returned, the rows of the
result table and the execution log. -/
structure RRResult where
  summary : ResultSummary
  rows : List Process
  log : List Slice

/-- Function `simulateRoundRobin`; `none` when `fuel` iterations of the main loop do not
end it. -/
def simulateRoundRobin (fuel : Nat) (processes : List Process) (quantum : Int) :
    Option RRResult :=
  let n := processes.length
  if n = 0 then some { summary := zeroSummary "Round Robin", rows := [], log := [] }
  else if quantum ≤ 0 then some { summary := zeroSummary "Round Robin", rows := [], log := [] }
  else
    match runLoop (rrStep quantum) fuel (rrInit processes) with
    | none => none
    | some s =>
      some { summary := { avgWaiting := toDouble (s.totalWaiting / n),
                          avgTurnaround := toDouble (s.totalTurnaround / n), name := "Round Robin" },
             rows := s.processes, log := s.log }

/-! ## Priority and SJF (non-preemptive) -/

/-- The variables of `simulatePriority` and of `simulateSJF` that the main loop reads
and writes. -/
structure SchedState where
  processes : List Process
  done : List Bool
  currentTime : Int
  completed : Int
  totalWaiting : ℚ
  totalTurnaround : ℚ

/-- Body of the selection scan of `simulatePriority`, at position `i`: `acc` is
`(best, bestPriority)`, with `none` for the `-1` that `best` starts with. -/
def prioritySelectBody (processes : List Process) (done : List Bool) (currentTime : Int)
    (acc : Option Nat × Int) (i : Nat) : Option Nat × Int :=
  if done.getD i false = false ∧ (processes.getD i default).arrivalTime ≤ currentTime then
    if (processes.getD i default).priority < acc.2 then
      (some i, (processes.getD i default).priority)
    else acc
  else acc

/-- The selection scan of `simulatePriority`: `(best, bestPriority)`. -/
def prioritySelect (processes : List Process) (done : List Bool) (currentTime : Int) :
    Option Nat × Int :=
  (List.range processes.length).foldl (prioritySelectBody processes done currentTime)
    (none, INT_MAX)

/-- Body of the selection scan of `simulateSJF`, at position `i`: `acc` is
`(best, bestBurst)`, with `none` for the `-1` that `best` starts with. -/
def sjfSelectBody (processes : List Process) (done : List Bool) (currentTime : Int)
    (acc : Option Nat × Int) (i : Nat) : Option Nat × Int :=
  if done.getD i false = false ∧ (processes.getD i default).arrivalTime ≤ currentTime then
    if (processes.getD i default).burstTime < acc.2 then
      (some i, (processes.getD i default).burstTime)
    else if (processes.getD i default).burstTime = acc.2 then
      match acc.1 with
      | some best =>
        if (processes.getD i default).id < (processes.getD best default).id then
          (some i, acc.2)
        else acc
      | none => acc
    else acc
  else acc

/-- The selection scan of `simulateSJF`: `(best, bestBurst)`. -/
def sjfSelect (processes : List Process) (done : List Bool) (currentTime : Int) :
    Option Nat × Int :=
  (List.range processes.length).foldl (sjfSelectBody processes done currentTime)
    (none, INT_MAX)

/-- Body of the scan for the next arrival among the processes whose flag is not set, at
position `i`. -/
def nextArrivalBody (processes : List Process) (done : List Bool) (nextArrival : Int)
    (i : Nat) : Int :=
  if done.getD i false = false ∧ (processes.getD i default).arrivalTime < nextArrival then
    (processes.getD i default).arrivalTime
  else nextArrival

/-- The scan for the next arrival among the processes whose flag is not set, as the
engines run it when no process is ready: `nextArrival`. -/
def nextArrivalScan (processes : List Process) (done : List Bool) : Int :=
  (List.range processes.length).foldl (nextArrivalBody processes done) INT_MAX

/-- Body of the scan for the earliest arrival, at position `i`. -/
def earliestArrivalBody (processes : List Process) (earliestArrival : Int) (i : Nat) : Int :=
  if (processes.getD i default).arrivalTime < earliestArrival then
    (processes.getD i default).arrivalTime
  else earliestArrival

/-- The scan for the earliest arrival at the head of `simulateSJF` and of
`simulateDynamicPriority`: `earliestArrival`. -/
def earliestArrivalScan (processes : List Process) : Int :=
  (List.range processes.length).foldl (earliestArrivalBody processes) INT_MAX

/-- The dispatch of a process to completion at clock `currentTime`, in `simulatePriority`
and in `simulateSJF`. -/
def dispatch (currentTime : Int) (p : Process) : Process :=
  let p := { p with startTime := currentTime }
  let p := { p with finishTime := wrap32 (currentTime + p.burstTime) }
  let p := { p with waitingTime := wrap32 (p.startTime - p.arrivalTime) }
  { p with turnaroundTime := wrap32 (p.finishTime - p.arrivalTime) }

/-- The loop body of `simulatePriority` and of `simulateSJF` once a process is selected:
process `best` is run to completion. -/
def schedDispatch (s : SchedState) (best : Nat) : SchedState :=
  let p := dispatch s.currentTime (s.processes.getD best default)
  { processes := s.processes.set best p, done := s.done.set best true,
    currentTime := p.finishTime, completed := s.completed + 1,
    totalWaiting := toDouble (s.totalWaiting + p.waitingTime),
    totalTurnaround := toDouble (s.totalTurnaround + p.turnaroundTime) }

/-- One iteration of the main loop of `simulatePriority` (with `prioritySelect`) and of
`simulateSJF` (with `sjfSelect`). -/
def schedStep (select : List Process → List Bool → Int → Option Nat × Int)
    (s : SchedState) : Option SchedState :=
  if s.completed < s.processes.length then
    match (select s.processes s.done s.currentTime).1 with
    | none =>
      let nextArrival := nextArrivalScan s.processes s.done
      if nextArrival = INT_MAX then none
      else some { s with currentTime := nextArrival }
    | some best => some (schedDispatch s best)
  else none

/-- One iteration of the main loop of `simulatePriority`. -/
def priorityStep : SchedState → Option SchedState := schedStep prioritySelect

/-- One iteration of the main loop of `simulateSJF`. -/
def sjfStep : SchedState → Option SchedState := schedStep sjfSelect

/-- The state of `simulatePriority` when its main loop is entered. -/
def priorityInit (processes : List Process) : SchedState :=
  { processes := processes.map resetRunPriority,
    done := List.replicate processes.length false, currentTime := 0, completed := 0,
    totalWaiting := 0, totalTurnaround := 0 }

/-- The state of `simulateSJF` when its main loop is entered. -/
def sjfInit (processes : List Process) : SchedState :=
  { processes := processes.map resetRun,
    done := List.replicate processes.length false,
    currentTime := earliestArrivalScan (processes.map resetRun), completed := 0,
    totalWaiting := 0, totalTurnaround := 0 }

/-- Function `simulatePriority`: the summary and the rows of the result table; `none`
when `fuel` iterations of the main loop do not end it. -/
def simulatePriority (fuel : Nat) (processes : List Process) :
    Option (ResultSummary × List Process) :=
  let n := processes.length
  if n = 0 then some (zeroSummary "Priority", [])
  else
    match runLoop priorityStep fuel (priorityInit processes) with
    | none => none
    | some s =>
      some ({ avgWaiting := toDouble (s.totalWaiting / n), avgTurnaround := toDouble (s.totalTurnaround / n),
              name := "Priority" }, s.processes)

/-- Function `simulateSJF`: the summary and the rows of the result table; `none` when
`fuel` iterations of the main loop do not end it. -/
def simulateSJF (fuel : Nat) (processes : List Process) :
    Option (ResultSummary × List Process) :=
  let n := processes.length
  if n = 0 then some (zeroSummary "SJF", [])
  else if earliestArrivalScan (processes.map resetRun) = INT_MAX then
    some (zeroSummary "SJF", [])
  else
    match runLoop sjfStep fuel (sjfInit processes) with
    | none => none
    | some s =>
      some ({ avgWaiting := toDouble (s.totalWaiting / n), avgTurnaround := toDouble (s.totalTurnaround / n),
              name := "SJF" }, s.processes)

/-! ## Dynamic Priority (preemptive, with aging) -/

/-- One line of the execution log of `simulateDynamicPriority`: the time of the step, the
id printed, the priority and the remaining time.  `idx` is the position in the process
list of the process that ran. -/
structure DynLine where
  idx : Nat
  time : Int
  id : Int
  priority : Int
  remaining : Int
deriving DecidableEq

/-- The variables of `simulateDynamicPriority` that its main loop reads and writes. -/
structure DynState where
  processes : List Process
  finished : List Bool
  currentTime : Int
  completed : Int
  totalWaiting : ℚ
  totalTurnaround : ℚ
  log : List DynLine

/-- Body of the selection scan of `simulateDynamicPriority`, at position `i`: `acc` is
`(best, bestPrio)`, with `none` for the `-1` that `best` starts with. -/
def dynSelectBody (processes : List Process) (finished : List Bool) (currentTime : Int)
    (acc : Option Nat × Int) (i : Nat) : Option Nat × Int :=
  if finished.getD i false = false ∧
      (processes.getD i default).arrivalTime ≤ currentTime ∧
      (processes.getD i default).remainingTime > 0 then
    if (processes.getD i default).priority < acc.2 then
      (some i, (processes.getD i default).priority)
    else acc
  else acc

/-- The selection scan of `simulateDynamicPriority`: `(best, bestPrio)`. -/
def dynSelect (processes : List Process) (finished : List Bool) (currentTime : Int) :
    Option Nat × Int :=
  (List.range processes.length).foldl (dynSelectBody processes finished currentTime)
    (none, INT_MAX)

/-- The aging loop of `simulateDynamicPriority`, run at the clock `currentTime` that the
step has already advanced: what it does to the process at position `i`. -/
def ageOne (finished : List Bool) (best : Nat) (currentTime : Int) (i : Nat)
    (p : Process) : Process :=
  if i = best then p
  else if finished.getD i false = false ∧ p.arrivalTime ≤ currentTime ∧
      p.remainingTime > 0 then
    if p.priority > 1 then { p with priority := p.priority - 1 } else p
  else p

/-- The aging loop of `simulateDynamicPriority` over the whole process list. -/
def ageOthers (processes : List Process) (finished : List Bool) (best : Nat)
    (currentTime : Int) : List Process :=
  processes.mapIdx (ageOne finished best currentTime)

/-- The loop body of `simulateDynamicPriority` once a process is selected: process
`best` runs for one time unit and the others age. -/
def dynRunStep (s : DynState) (best : Nat) : DynState :=
  let p := startIfUnset s.currentTime (s.processes.getD best default)
  let startT := s.currentTime
  let p := consume 1 p
  let currentTime := wrap32 (s.currentTime + 1)
  let log := s.log ++ [{ idx := best, time := startT, id := p.id,
                         priority := p.priority, remaining := p.remainingTime }]
  let processes := ageOthers (s.processes.set best p) s.finished best currentTime
  if p.remainingTime = 0 then
    let p := finishAt currentTime p
    { processes := processes.set best p, finished := s.finished.set best true,
      currentTime := currentTime, completed := s.completed + 1,
      totalWaiting := toDouble (s.totalWaiting + p.waitingTime),
      totalTurnaround := toDouble (s.totalTurnaround + p.turnaroundTime), log := log }
  else
    { processes := processes, finished := s.finished, currentTime := currentTime,
      completed := s.completed, totalWaiting := s.totalWaiting,
      totalTurnaround := s.totalTurnaround, log := log }

/-- One iteration of the main loop of `simulateDynamicPriority`. -/
def dynStep (s : DynState) : Option DynState :=
  if s.completed < s.processes.length then
    match (dynSelect s.processes s.finished s.currentTime).1 with
    | none =>
      let nextArrival := nextArrivalScan s.processes s.finished
      if nextArrival = INT_MAX then none
      else some { s with currentTime := nextArrival }
    | some best => some (dynRunStep s best)
  else none

/-- The state of `simulateDynamicPriority` when its main loop is entered. -/
def dynInit (processes : List Process) : DynState :=
  { processes := processes.map resetRunPriority,
    finished := List.replicate processes.length false,
    currentTime := earliestArrivalScan (processes.map resetRunPriority), completed := 0,
    totalWaiting := 0, totalTurnaround := 0, log := [] }

/-- What a run of `simulateDynamicPriority` produces: the summary returned, the rows of
the result table and the execution log. -/
structure DynResult where
  summary : ResultSummary
  rows : List Process
  log : List DynLine

/-- Function `simulateDynamicPriority`; `none` when `fuel` iterations of the main loop do
not end it. -/
def simulateDynamicPriority (fuel : Nat) (processes : List Process) : Option DynResult :=
  let n := processes.length
  if n = 0 then some { summary := zeroSummary "Dynamic Priority", rows := [], log := [] }
  else if earliestArrivalScan (processes.map resetRunPriority) = INT_MAX then
    some { summary := zeroSummary "Dynamic Priority", rows := [], log := [] }
  else
    match runLoop dynStep fuel (dynInit processes) with
    | none => none
    | some s =>
      some { summary := { avgWaiting := toDouble (s.totalWaiting / n),
                          avgTurnaround := toDouble (s.totalTurnaround / n),
                          name := "Dynamic Priority" },
             rows := s.processes, log := s.log }

/-! ## Vocabulary of the statements -/

/-- The descriptor of a process: the fields no engine writes. -/
def descriptor (p : Process) : Int × Int × Int × Int :=
  (p.id, p.arrivalTime, p.burstTime, p.initialPriority)

/-- Strict order by `(arrivalTime, id)`. -/
def keyLt (a b : Process) : Prop :=
  a.arrivalTime < b.arrivalTime ∨ (a.arrivalTime = b.arrivalTime ∧ a.id < b.id)

instance : DecidableRel keyLt := fun a b => by unfold keyLt; infer_instance

/-- The times of a row of a result table: id, start, finish, waiting, turnaround. -/
def timing (p : Process) : Int × Int × Int × Int × Int :=
  (p.id, p.startTime, p.finishTime, p.waitingTime, p.turnaroundTime)

/-- Sum of the run lengths of the slices that the Round Robin log holds for the process at
position `i` of the list. -/
def sliceTotal (log : List Slice) (i : Nat) : Int :=
  ((log.filter (fun l => l.idx = i)).map (fun l => l.runTime)).sum

/-- The list of the worked Round Robin example of the specification:
`{id=1,arrival=0,burst=4}, {id=2,arrival=0,burst=4}`. -/
def rrExample : List Process := [mkProcess 1 0 4 1, mkProcess 2 0 4 1]

/-- The values of type `int`: the numbers between `-2147483648` and `2147483647`. -/
def inInt (x : Int) : Prop := -2147483648 ≤ x ∧ x ≤ 2147483647

instance : DecidablePred inInt := fun x => by unfold inInt; infer_instance

/-- Sum of the burst times of a process list. -/
def totalBurst (ps : List Process) : Int := (ps.map (fun p => p.burstTime)).sum

/-- No clock of a run on `ps` leaves the `int` range: no arrival time and no burst time is
negative, and every arrival time plus the sum of all burst times is at most `INT_MAX`. -/
def fitsInt (ps : List Process) : Prop :=
  ∀ p ∈ ps, 0 ≤ p.arrivalTime ∧ 0 ≤ p.burstTime ∧ p.arrivalTime + totalBurst ps ≤ INT_MAX

instance : DecidablePred fitsInt := fun ps => by unfold fitsInt; infer_instance

/-- No clock of the loop of `simulateFCFS` leaves the `int` range when the loop runs on `l`
from clock `t`. -/
def fcfsFits (t : Int) (l : List Process) : Prop :=
  0 ≤ t ∧ t + totalBurst l ≤ INT_MAX ∧
  ∀ p ∈ l, 0 ≤ p.arrivalTime ∧ 0 ≤ p.burstTime ∧ p.arrivalTime + totalBurst l ≤ INT_MAX

/-- The two equations of a completed process as the machine computes them, in `int`
arithmetic. -/
def metricsWrap (p : Process) : Prop :=
  p.turnaroundTime = wrap32 (p.finishTime - p.arrivalTime) ∧
    p.waitingTime = wrap32 (p.turnaroundTime - p.burstTime)

instance : DecidablePred metricsWrap := fun p => by unfold metricsWrap; infer_instance

/-- The two equations that hold of a completed process. -/
def metricsOk (p : Process) : Prop :=
  p.turnaroundTime = p.finishTime - p.arrivalTime ∧
    p.waitingTime = p.turnaroundTime - p.burstTime

instance : DecidablePred metricsOk := fun p => by unfold metricsOk; infer_instance

/-- Every process whose completion flag is set has the two equations, in `int`
arithmetic, and every process whose flag is not set has its `finishTime` unset (`-1`). -/
def flaggedOk (processes : List Process) (flags : List Bool) : Prop :=
  ∀ i, i < processes.length →
    (flags.getD i false = true → metricsWrap (processes.getD i default)) ∧
    (flags.getD i false = false → (processes.getD i default).finishTime = -1)

/-- Lengths agree and flagged processes are consistent: the invariant of the loops. -/
def flagInv (processes : List Process) (flags : List Bool) : Prop :=
  flags.length = processes.length ∧ flaggedOk processes flags

/-- Process `i` is ready at clock `t`: its flag is not set and it has arrived. -/
def isReady (processes : List Process) (flags : List Bool) (t : Int) (i : Nat) : Prop :=
  flags.getD i false = false ∧ (processes.getD i default).arrivalTime ≤ t

/-- Process `i` can run at clock `t` in `simulateDynamicPriority`: it is not flagged
finished, has arrived and has time remaining. -/
def isRunnable (processes : List Process) (finished : List Bool) (t : Int) (i : Nat) : Prop :=
  finished.getD i false = false ∧ (processes.getD i default).arrivalTime ≤ t ∧
    (processes.getD i default).remainingTime > 0

/-- The process that the iteration of `simulatePriority` entered in state `s` dispatches,
if it dispatches one. -/
def priorityDispatches (s : SchedState) : Option Nat :=
  if s.completed < s.processes.length then
    (prioritySelect s.processes s.done s.currentTime).1
  else none

/-- The process that the iteration of `simulateSJF` entered in state `s` dispatches, if
it dispatches one. -/
def sjfDispatches (s : SchedState) : Option Nat :=
  if s.completed < s.processes.length then
    (sjfSelect s.processes s.done s.currentTime).1
  else none

/-- The working list `processes` has the length of the input list `ps`, and at every
position the input process and the working process are related by `R`. -/
def tracksBy (R : Process → Process → Prop) (ps processes : List Process) : Prop :=
  processes.length = ps.length ∧
    ∀ i, i < ps.length → R (ps.getD i default) (processes.getD i default)

/-- The working process `p` has the descriptor of the input process `q`. -/
def sameDescriptor (q p : Process) : Prop := descriptor p = descriptor q

/-- The working process `p` has the descriptor of the input process `q`, and its
`priority` is the `initialPriority` of `q`. -/
def samePriority (q p : Process) : Prop :=
  descriptor p = descriptor q ∧ p.priority = q.initialPriority

/-- The working process `p` has the descriptor of the input process `q`, and its
`priority` lies between `1` and the `initialPriority` of `q`. -/
def agedPriority (q p : Process) : Prop :=
  descriptor p = descriptor q ∧ 1 ≤ p.priority ∧ p.priority ≤ q.initialPriority

/-- The process that runs in the iteration of `simulateDynamicPriority` entered in state
`s`, if that iteration is a unit step. -/
def dynRuns (s : DynState) : Option Nat :=
  if s.completed < s.processes.length then
    (dynSelect s.processes s.finished s.currentTime).1
  else none

/-- The iteration entered in state `s` is a unit step that runs a process other than the
one at position `i`, while that one has arrived and is not flagged finished. -/
def dynWaitsFlag (s : DynState) (i : Nat) : Prop :=
  (match dynRuns s with
    | some best => best ≠ i
    | none => False) ∧
  s.finished.getD i false = false ∧ (s.processes.getD i default).arrivalTime ≤ s.currentTime

instance (s : DynState) (i : Nat) : Decidable (dynWaitsFlag s i) := by
  unfold dynWaitsFlag
  cases dynRuns s <;> infer_instance

/-- The iteration entered in state `s` is a unit step that runs a process other than the
one at position `i`, while that one has arrived, is not flagged finished and has time
remaining. -/
def dynWaits (s : DynState) (i : Nat) : Prop :=
  dynWaitsFlag s i ∧ (s.processes.getD i default).remainingTime > 0

instance (s : DynState) (i : Nat) : Decidable (dynWaits s i) := by
  unfold dynWaits
  infer_instance

/-- A process list with a process of burst time `0`:
`{id=1,arrival=0,burst=3,priority=1}, {id=2,arrival=0,burst=0,priority=3}`. -/
def zeroBurstExample : List Process := [mkProcess 1 0 3 1, mkProcess 2 0 0 3]

/-- A process list on which a process waits two unit steps:
`{id=1,arrival=0,burst=3,priority=1}, {id=2,arrival=0,burst=2,priority=3}`. -/
def agingExample : List Process := [mkProcess 1 0 3 1, mkProcess 2 0 2 3]

/-- A process has run at or after its arrival and for at least its burst time. -/
def timesOk (p : Process) : Prop :=
  p.arrivalTime ≤ p.startTime ∧ p.arrivalTime + p.burstTime ≤ p.finishTime

instance : DecidablePred timesOk := fun p => by unfold timesOk; infer_instance

/-- A selection scan is sound on the working lists of `ps` that `R` relates to it: it
selects a ready process, and selects nothing only when no process is ready. -/
def selectSound (R : Process → Process → Prop)
    (select : List Process → List Bool → Int → Option Nat × Int) (ps : List Process) : Prop :=
  ∀ processes done t, tracksBy R ps processes →
    ((select processes done t).1 = none →
      ∀ i, i < processes.length → ¬ isReady processes done t i) ∧
    (∀ a, (select processes done t).1 = some a →
      a < processes.length ∧ isReady processes done t a)

/-- The invariant of the main loop of `simulatePriority` and of `simulateSJF`. -/
def schedInv (R : Process → Process → Prop) (ps : List Process) (s : SchedState) : Prop :=
  tracksBy R ps s.processes ∧ s.done.length = ps.length ∧
  s.completed + (s.done.count false : Int) = ps.length

/-- Sum of the burst times of the processes of `ps` whose flag is not set. -/
def pendingBurst : List Process → List Bool → Int
  | p :: ps, d :: ds => (if d = false then p.burstTime else 0) + pendingBurst ps ds
  | _, _ => 0

/-- The clock of `simulatePriority` or `simulateSJF` leaves room for the burst times still
to run: it is not negative, and with the burst times of the processes not yet dispatched
it stays at or below `INT_MAX`. -/
def schedFits (ps : List Process) (s : SchedState) : Prop :=
  0 ≤ s.currentTime ∧ s.currentTime + pendingBurst ps s.done ≤ INT_MAX

/-- The measure that an iteration of `simulatePriority` and of `simulateSJF` decreases:
twice the number of processes not done, plus one when no process is selected. -/
def schedMeasure (select : List Process → List Bool → Int → Option Nat × Int)
    (s : SchedState) : Nat :=
  2 * s.done.count false +
    (if (select s.processes s.done s.currentTime).1 = none then 1 else 0)

/-- What holds at clock `t` of a working process of `simulateDynamicPriority` whose
finished flag is `fin`, as long as the clock stays in the `int` range: a finished process
has run at or after its arrival and for its burst time, and ended at or before the clock;
an unfinished one has time remaining, and either has not started or has started at or
after its arrival and has run no longer than the clock allows. -/
def dynProcOk (t : Int) (fin : Bool) (p : Process) : Prop :=
  (fin = true → timesOk p ∧ p.finishTime ≤ t) ∧
  (fin = false → 0 < p.remainingTime ∧ p.remainingTime ≤ p.burstTime ∧
    ((p.startTime = -1 ∧ p.remainingTime = p.burstTime) ∨
      (p.arrivalTime ≤ p.startTime ∧
        p.startTime + (p.burstTime - p.remainingTime) ≤ t)))

/-- The invariant of the main loop of `simulateDynamicPriority`: the working list keeps
the descriptors, the priorities stay between `1` and the initial priority, the flags are
counted by `completed`, no remaining time is above the burst time, and a process that is
not flagged finished has time remaining. -/
def dynInv (ps : List Process) (s : DynState) : Prop :=
  tracksBy agedPriority ps s.processes ∧ s.finished.length = ps.length ∧
  s.completed + (s.finished.count false : Int) = ps.length ∧
  ∀ i, i < ps.length →
    (s.processes.getD i default).remainingTime ≤ (s.processes.getD i default).burstTime ∧
    (s.finished.getD i false = false → 0 < (s.processes.getD i default).remainingTime)

/-- Sum of the remaining times of a process list. -/
def totalRemaining (l : List Process) : Nat :=
  (l.map (fun p => p.remainingTime.toNat)).sum

/-- The clock of `simulateDynamicPriority` leaves room for the time still to run (it is
not negative, and with the remaining times it stays at or below `INT_MAX`), and every
working process has run as the clock allows. -/
def dynTimes (s : DynState) : Prop :=
  0 ≤ s.currentTime ∧ s.currentTime + (totalRemaining s.processes : Int) ≤ INT_MAX ∧
  ∀ i, i < s.processes.length →
    dynProcOk s.currentTime (s.finished.getD i false) (s.processes.getD i default)

/-- The measure that an iteration of `simulateDynamicPriority` decreases: twice the total
remaining time, plus one when no process is selected. -/
def dynMeasure (s : DynState) : Nat :=
  2 * totalRemaining s.processes +
    (if (dynSelect s.processes s.finished s.currentTime).1 = none then 1 else 0)

/-- A number of iterations that suffices for the main loop of `simulateDynamicPriority`:
twice the total burst time, plus one. -/
def dynFuel (ps : List Process) : Nat :=
  2 * (ps.map (fun p => p.burstTime.toNat)).sum + 1

/-- A process list with one process whose arrival time is `INT_MAX`. -/
def lateArrivalExample : List Process := [mkProcess 1 2147483647 1 1]

/-- A process list with one process whose priority is `INT_MAX`. -/
def maxPriorityExample : List Process := [mkProcess 1 0 1 2147483647]

/-- A process list with one process whose burst time is `INT_MAX`. -/
def maxBurstExample : List Process := [mkProcess 1 0 2147483647 1]

/-- A process list inside the ranges of the process generator. -/
def smallExample : List Process := [mkProcess 1 2 3 2, mkProcess 2 0 2 3, mkProcess 3 9 1 1]

/-- The list of the Priority tie-break example of the specification:
`{id=5,arrival=0,priority=2}` before `{id=3,arrival=0,priority=2}`, both with burst 3. -/
def priorityTieExample : List Process := [mkProcess 5 0 3 2, mkProcess 3 0 3 2]

/-- The list of the SJF tie-break example of the specification:
`{id=2,arrival=0,burst=3}, {id=1,arrival=0,burst=3}`. -/
def sjfTieExample : List Process := [mkProcess 2 0 3 1, mkProcess 1 0 3 1]

/-- Finish time of the row before row `k`, and `t` for the first row. -/
def prevFinishFrom (t : Int) (rows : List Process) : Nat → Int
  | 0 => t
  | k + 1 => (rows.getD k default).finishTime

/-- Finish time of the row before row `k`, and `0` for the first row. -/
def prevFinish (rows : List Process) (k : Nat) : Int := prevFinishFrom 0 rows k

/-- The value `simulateRoundRobin` returns without simulating: the zero summary, no row
of a result table and no line of an execution log. -/
def rrZeroResult : RRResult :=
  { summary := zeroSummary "Round Robin", rows := [], log := [] }

/-- The value `simulateDynamicPriority` returns without simulating. -/
def dynZeroResult : DynResult :=
  { summary := zeroSummary "Dynamic Priority", rows := [], log := [] }

/-- A process list on which a process arrives exactly when the first unit step ends:
`{id=1,arrival=0,burst=3,priority=1}, {id=2,arrival=1,burst=1,priority=9}`. -/
def clockExample : List Process := [mkProcess 1 0 3 1, mkProcess 2 1 1 9]

/-- The order of `simulateFCFS` read on descriptors. -/
def descriptorLe (d e : Int × Int × Int × Int) : Prop :=
  d.2.1 < e.2.1 ∨ (d.2.1 = e.2.1 ∧ d.1 ≤ e.1)

instance : DecidableRel descriptorLe := fun d e => by unfold descriptorLe; infer_instance

/-- The process that `resetRunPriority` makes of a process with descriptor `d`. -/
def ofDescriptor (d : Int × Int × Int × Int) : Process :=
  { id := d.1, arrivalTime := d.2.1, burstTime := d.2.2.1, priority := d.2.2.2,
    initialPriority := d.2.2.2, remainingTime := d.2.2.1, startTime := -1,
    finishTime := -1, waitingTime := 0, turnaroundTime := 0 }

/-- A process with its `priority` field overwritten by `0`. -/
def clearPriority (p : Process) : Process := { p with priority := 0 }

/-- A scheduler state with the `priority` field of every process overwritten by `0`. -/
def SchedState.clearPriority (s : SchedState) : SchedState :=
  { s with processes := s.processes.map Lab3.clearPriority }

/-- A Round Robin state with the `priority` field of every process overwritten by `0`. -/
def RRState.clearPriority (s : RRState) : RRState :=
  { s with processes := s.processes.map Lab3.clearPriority }

/-- A process list, and the same descriptors with every run-state field overwritten, as
an earlier run could leave them. -/
def freshExample : List Process := [mkProcess 1 0 5 1, mkProcess 2 1 3 1]

/-- The descriptors of `freshExample` with other values in every run-state field. -/
def staleExample : List Process :=
  freshExample.map (fun p => { p with priority := 9, remainingTime := 0, startTime := 7,
                                      finishTime := 9, waitingTime := 3, turnaroundTime := 4 })

/-- Sum of the `waitingTime` column of a table. -/
def sumWaiting (rows : List Process) : ℚ := (rows.map (fun p => (p.waitingTime : ℚ))).sum

/-- Sum of the `turnaroundTime` column of a table. -/
def sumTurnaround (rows : List Process) : ℚ :=
  (rows.map (fun p => (p.turnaroundTime : ℚ))).sum

/-- The two averages of a summary are the column sums of the table divided by `n`, as
`double` division leaves them. -/
def averagesOk (n : Nat) (summary : ResultSummary) (rows : List Process) : Prop :=
  summary.avgWaiting = toDouble (sumWaiting rows / n) ∧
    summary.avgTurnaround = toDouble (sumTurnaround rows / n)

/-- The two running totals are the column sums of the working list, in which a process
whose completion flag is not set still has both metrics at `0`, and every metric is a
value of type `int`. -/
def totalsInv (processes : List Process) (flags : List Bool) (tw tt : ℚ) : Prop :=
  flags.length = processes.length ∧
  tw = sumWaiting processes ∧ tt = sumTurnaround processes ∧
  (∀ i, i < processes.length → flags.getD i false = false →
    (processes.getD i default).waitingTime = 0 ∧
    (processes.getD i default).turnaroundTime = 0) ∧
  ∀ i, i < processes.length →
    inInt (processes.getD i default).waitingTime ∧
    inInt (processes.getD i default).turnaroundTime

/-- Number of unit steps of the log of `simulateDynamicPriority` in which the process at
position `i` was the running process. -/
def runCount (log : List DynLine) (i : Nat) : Nat :=
  (log.filter (fun l => decide (l.idx = i))).length

/-- The work done so far in `simulateDynamicPriority`: the unit steps a process has run
and its remaining time add up to its burst time, and a process flagged finished has no
time remaining. -/
def workInv (s : DynState) : Prop :=
  ∀ i, i < s.processes.length →
    (runCount s.log i : Int) + (s.processes.getD i default).remainingTime =
      (s.processes.getD i default).burstTime ∧
    (s.finished.getD i false = true → (s.processes.getD i default).remainingTime = 0)

/-- A process list whose second process has arrival time `INT_MAX`. -/
def lateSecondExample : List Process := [mkProcess 1 0 1 1, mkProcess 2 2147483647 1 1]

/-- Start time of the first unit step of the log of `simulateDynamicPriority` in which
the process at position `i` was the running process, if it ran. -/
def firstRun (log : List DynLine) (i : Nat) : Option Int :=
  (log.find? (fun l => decide (l.idx = i))).map (fun l => l.time)

/-- The flags of `simulateDynamicPriority` are counted by `completed`. -/
def countInv (s : DynState) : Prop :=
  s.finished.length = s.processes.length ∧
  s.completed + (s.finished.count false : Int) = s.processes.length

/-- The arrival times of `simulateDynamicPriority` are not negative, and the `startTime`
of a process is unset (`-1`) as long as it has not run, and the start time of its first
unit step, which is not negative, from then on. -/
def startInv (s : DynState) : Prop :=
  (∀ i, i < s.processes.length → 0 ≤ (s.processes.getD i default).arrivalTime) ∧
  ∀ i, i < s.processes.length →
    (firstRun s.log i = none ∧ (s.processes.getD i default).startTime = -1) ∨
    (firstRun s.log i = some (s.processes.getD i default).startTime ∧
      0 ≤ (s.processes.getD i default).startTime)

/-- A process list with a process that arrives at time `-1`. -/
def negativeArrivalExample : List Process := [mkProcess 1 (-1) 2 1]

/-- A process list with an idle gap between its two processes:
`{id=1,arrival=0,burst=1,priority=2}, {id=2,arrival=3,burst=1,priority=1}`. -/
def gapExample : List Process := [mkProcess 1 0 1 2, mkProcess 2 3 1 1]

/-- The run length of the slice that `rrRunSlice` gives to process `idx` at clock `t`. -/
def rrRunTime (quantum : Int) (s : RRState) (idx : Nat) (t : Int) : Int :=
  min quantum (startIfUnset t (s.processes.getD idx default)).remainingTime

/-- The working process `idx` after its slice in `rrRunSlice`, before it is finalised. -/
def rrRan (quantum : Int) (s : RRState) (idx : Nat) (t : Int) : Process :=
  consume (rrRunTime quantum s idx t) (startIfUnset t (s.processes.getD idx default))

/-- The ready queue and the `inQueue` flags after the call of `addArrived` in
`rrRunSlice`. -/
def rrArrived (quantum : Int) (s : RRState) (idx : Nat) (readyQueue : List Nat)
    (inQueue : List Bool) (t : Int) : List Nat × List Bool :=
  addArrived (s.processes.set idx (rrRan quantum s idx t)) s.finished
    (wrap32 (t + rrRunTime quantum s idx t)) readyQueue (inQueue.set idx false)

/-- A logged slice is about a process of the list `ps`, starts at or after the arrival of
that process and does not end before it starts. -/
def sliceOk (ps : List Process) (sl : Slice) : Prop :=
  sl.idx < ps.length ∧ (ps.getD sl.idx default).arrivalTime ≤ sl.start ∧ sl.start ≤ sl.stop

instance (ps : List Process) : DecidablePred (sliceOk ps) :=
  fun sl => by unfold sliceOk; infer_instance

/-- The invariant of the main loop of `simulateRoundRobin` on an input `ps` without
negative burst times: the working list keeps the arrival times and has no negative
remaining time; every queue entry is a position of a process that has arrived; a set
`inQueue` flag means the position is in the queue; when the queue is empty no unfinished
process has arrived; every logged slice is in order and ends at or before the clock. -/
def rrInv (ps : List Process) (s : RRState) : Prop :=
  s.processes.length = ps.length ∧ s.inQueue.length = ps.length ∧
  s.finished.length = ps.length ∧
  (∀ i, i < ps.length →
    (s.processes.getD i default).arrivalTime = (ps.getD i default).arrivalTime ∧
    0 ≤ (s.processes.getD i default).remainingTime) ∧
  (∀ i ∈ s.readyQueue, i < ps.length ∧ (ps.getD i default).arrivalTime ≤ s.currentTime) ∧
  (∀ i, s.inQueue.getD i false = true → i ∈ s.readyQueue) ∧
  (s.readyQueue ≠ [] ∨ ∀ i, i < ps.length → s.finished.getD i false = false →
    s.currentTime < (ps.getD i default).arrivalTime) ∧
  (∀ sl ∈ s.log, sliceOk ps sl ∧ sl.stop ≤ s.currentTime) ∧
  s.log.Pairwise (fun a b => a.stop ≤ b.start)

/-- A process list with a negative burst time:
`{id=1,arrival=0,burst=3}, {id=2,arrival=1,burst=-5}, {id=3,arrival=2,burst=1}`. -/
def negativeBurstExample : List Process :=
  [mkProcess 1 0 3 1, mkProcess 2 1 (-5) 1, mkProcess 3 2 1 1]

/-- The execution intervals `[startTime, finishTime)` of any two distinct rows of a table
do not overlap: one ends at or before the start of the other. -/
def disjointRows (rows : List Process) : Prop :=
  ∀ i j, i < rows.length → j < rows.length → i ≠ j →
    (rows.getD i default).finishTime ≤ (rows.getD j default).startTime ∨
    (rows.getD j default).finishTime ≤ (rows.getD i default).startTime

/-- The execution interval of a process has the length of its burst time. -/
def exactLength (p : Process) : Prop := p.finishTime - p.startTime = p.burstTime

instance : DecidablePred exactLength := fun p => by unfold exactLength; infer_instance

/-- The processes dispatched so far in `simulatePriority` or `simulateSJF` ran at or after
their arrival, for their burst time, ended at or before the clock, and no two of them
overlap. -/
def intervalInv (s : SchedState) : Prop :=
  (∀ i, i < s.processes.length → s.done.getD i false = true →
    timesOk (s.processes.getD i default) ∧ exactLength (s.processes.getD i default) ∧
    (s.processes.getD i default).finishTime ≤ s.currentTime) ∧
  ∀ i j, i < s.processes.length → j < s.processes.length → i ≠ j →
    s.done.getD i false = true → s.done.getD j false = true →
    (s.processes.getD i default).finishTime ≤ (s.processes.getD j default).startTime ∨
    (s.processes.getD j default).finishTime ≤ (s.processes.getD i default).startTime

/-- The value of a `double` total after `total += w` has run for the values `w` of a list,
in the order of the list. -/
def accumulate (total : ℚ) : List Int → ℚ
  | [] => total
  | w :: rest => accumulate (toDouble (total + w)) rest

/-- Waiting times of processes that arrive together and run one after another with the
burst times of the list, in the order of the list, the first one after a delay `d`: every
process waits for the delay and for the burst times before it. -/
def waitsFrom (d : Int) : List Int → List Int
  | [] => []
  | b :: rest => d :: waitsFrom (d + b) rest

/-- The state of `simulatePriority` or `simulateSJF` on a list `ps` whose processes all
arrive at `a`, read against the order `L` in which positions have been dispatched so far:
`L` lists the positions whose flag is set, the total waiting time is the one accumulated
by running their burst times in that order, and the clock is `a` plus the burst times run
(or still at or before `a` when nothing has run). -/
def orderInv (ps : List Process) (a : Int) (s : SchedState) (L : List Nat) : Prop :=
  L.Nodup ∧ (∀ i, i ∈ L ↔ (i < ps.length ∧ s.done.getD i false = true)) ∧
  s.totalWaiting = accumulate 0 (waitsFrom 0 (L.map (fun i => (ps.getD i default).burstTime))) ∧
  ((L = [] ∧ s.currentTime ≤ a) ∨
    s.currentTime = a + (L.map (fun i => (ps.getD i default).burstTime)).sum)

/-- The positions dispatched so far by `simulateSJF`, in order `L`, have ascending burst
times, none above the burst time of a process not yet dispatched. -/
def ascendingInv (ps : List Process) (s : SchedState) (L : List Nat) : Prop :=
  (L.map (fun i => (ps.getD i default).burstTime)).Sorted (fun x y => x ≤ y) ∧
  ∀ j ∈ L, ∀ i, i < ps.length → s.done.getD i false = false →
    (ps.getD j default).burstTime ≤ (ps.getD i default).burstTime

/-- A process list whose processes all arrive at time `0`:
`{id=1,burst=5,priority=1}, {id=2,burst=2,priority=2}, {id=3,burst=3,priority=3}`. -/
def togetherExample : List Process := [mkProcess 1 0 5 1, mkProcess 2 0 2 2, mkProcess 3 0 3 3]


/-- A process list whose burst times add up to more than `INT_MAX`:
`{id=1,arrival=0,burst=1500000000}, {id=2,arrival=0,burst=1500000000}`. -/
def overflowExample : List Process := [mkProcess 1 0 1500000000 1, mkProcess 2 0 1500000000 1]

/-- A process list whose first two burst times add up to more than `INT_MAX`:
`{id=1,arrival=0,burst=2000000000}, {id=2,arrival=0,burst=2000000000},
{id=3,arrival=0,burst=1}`, with priorities 1, 2, 3. -/
def overflowThreeExample : List Process :=
  [mkProcess 1 0 2000000000 1, mkProcess 2 0 2000000000 2, mkProcess 3 0 1 3]

/-- A process list whose clock passes `INT_MAX` in its second unit step:
`{id=1,arrival=2147483646,burst=3,priority=1},
{id=2,arrival=2147483646,burst=1,priority=5}`. -/
def clockWrapExample : List Process :=
  [mkProcess 1 2147483646 3 1, mkProcess 2 2147483646 1 5]

/-- The clock of `simulateRoundRobin` is an `int` value that leaves room, below `INT_MAX`,
for the time that the working processes still have to run, and so does every arrival time
of the input `ps`. -/
def rrFits (ps : List Process) (s : RRState) : Prop :=
  inInt s.currentTime ∧ s.currentTime + (totalRemaining s.processes : Int) ≤ INT_MAX ∧
  ∀ p ∈ ps, p.arrivalTime + (totalRemaining s.processes : Int) ≤ INT_MAX


/-- A process list whose only process runs past `INT_MAX`:
`{id=1,arrival=2147483646,burst=2,priority=1}`. -/
def lateBurstExample : List Process := [mkProcess 1 2147483646 2 1]

/-- Every process whose completion flag is set has the two equations. -/
def exactFlagged (processes : List Process) (flags : List Bool) : Prop :=
  ∀ i, i < processes.length → flags.getD i false = true → metricsOk (processes.getD i default)

/-- A selection scan selects only a position of the list whose process is ready. -/
def selectReady (select : List Process → List Bool → Int → Option Nat × Int) : Prop :=
  ∀ processes done t a, (select processes done t).1 = some a →
    a < processes.length ∧ isReady processes done t a

/-- The state of `simulateDynamicPriority` on an input `ps` leaves room below `INT_MAX` for
the time still to run: the working list has the descriptors of `ps`, no remaining time is
above the burst time, the clock is not negative and stays at or below `INT_MAX` with all
remaining times added, and every process flagged finished has the two equations. -/
def dynRoom (ps : List Process) (s : DynState) : Prop :=
  tracksBy sameDescriptor ps s.processes ∧
  (∀ i, i < ps.length →
    (s.processes.getD i default).remainingTime ≤ (ps.getD i default).burstTime) ∧
  0 ≤ s.currentTime ∧ s.currentTime + (totalRemaining s.processes : Int) ≤ INT_MAX ∧
  exactFlagged s.processes s.finished

/-- The working list of `simulateRoundRobin` keeps the burst times of the input `ps`, and
every process flagged finished has the two equations. -/
def rrExact (ps : List Process) (s : RRState) : Prop :=
  (∀ i, i < ps.length →
    (s.processes.getD i default).burstTime = (ps.getD i default).burstTime) ∧
  exactFlagged s.processes s.finished

/-- The list of `n` processes with ids `1` to `n` that all arrive at `0`, with burst time
`b` and priority `1` each. -/
def uniformList (n : Nat) (b : Int) : List Process :=
  (List.range n).map (fun i : Nat => mkProcess ((i : Int) + 1) 0 b 1)

/-- The list of `26843547` processes with ids from `1` on that all arrive at `0`, with
burst time `25` each. -/
def manyExample : List Process := uniformList 26843547 25

/-- Sum of the waiting times `0, b, 2b, ...` of the first `k` processes that run one after
another from time `0` with burst time `b` each. -/
def waitSum (b : Int) : Nat → Int
  | 0 => 0
  | k + 1 => waitSum b k + k * b

/-- A process list whose only process has the least arrival time an `int` can hold:
`{id=1,arrival=-2147483648,burst=1,priority=1}`. -/
def minArrivalExample : List Process := [mkProcess 1 (-2147483648) 1 1]

/-- A process list with a negative burst time whose burst times add up to `2000000000`:
`{id=1,arrival=0,burst=2000000000}, {id=2,arrival=0,burst=2000000000},
{id=3,arrival=0,burst=-2000000000}`. -/
def negativeLastExample : List Process :=
  [mkProcess 1 0 2000000000 1, mkProcess 2 0 2000000000 1, mkProcess 3 0 (-2000000000) 1]

/-- A process list with negative arrival times in which every arrival time plus the sum of
all burst times is `INT_MAX`:
`{id=1,arrival=-5,burst=2147483646}, {id=2,arrival=-5,burst=5}, {id=3,arrival=-5,burst=1}`. -/
def earlyArrivalExample : List Process :=
  [mkProcess 1 (-5) 2147483646 1, mkProcess 2 (-5) 5 1, mkProcess 3 (-5) 1 1]

/-! ## Loops: lemmas -/

theorem iterate_inv {σ : Type} (step : σ → Option σ) (Inv : σ → Prop)
    (hstep : ∀ s s', Inv s → step s = some s' → Inv s') :
    ∀ (k : Nat) (s : σ), Inv s → Inv (iterate step k s) := by
  intro k
  induction k with
  | zero => intro s hs; exact hs
  | succ k ih =>
    intro s hs
    unfold iterate
    cases h : step s with
    | none => exact hs
    | some s' => exact ih s' (hstep s s' hs h)

theorem iterate_succ_of_some {σ : Type} (step : σ → Option σ) (k : Nat) (s s' : σ)
    (h : step s = some s') : iterate step (k + 1) s = iterate step k s' := by
  rw [iterate, h]

theorem iterate_add {σ : Type} (step : σ → Option σ) (j k : Nat) (s : σ) :
    iterate step (j + k) s = iterate step k (iterate step j s) := by
  induction j generalizing s with
  | zero => simp [iterate]
  | succ j ih =>
    rw [Nat.add_right_comm]
    cases h : step s with
    | none =>
      have h1 : ∀ m, iterate step m s = s := by
        intro m
        cases m with
        | zero => rfl
        | succ m => rw [iterate, h]
      rw [h1, h1, h1]
    | some s' =>
      rw [iterate_succ_of_some step _ s s' h, iterate_succ_of_some step _ s s' h, ih]

theorem runLoop_eq_iterate {σ : Type} (step : σ → Option σ) :
    ∀ (fuel : Nat) (s r : σ), runLoop step fuel s = some r →
      r = iterate step fuel s ∧ step r = none := by
  intro fuel
  induction fuel with
  | zero =>
    intro s r h
    unfold runLoop at h
    cases hs : step s with
    | none =>
      rw [hs] at h
      cases h
      exact ⟨rfl, hs⟩
    | some s' =>
      rw [hs] at h
      cases h
  | succ fuel ih =>
    intro s r h
    unfold runLoop at h
    unfold iterate
    cases hs : step s with
    | none =>
      rw [hs] at h
      cases h
      exact ⟨rfl, hs⟩
    | some s' =>
      rw [hs] at h
      exact ih s' r h

theorem runLoop_add {σ : Type} (step : σ → Option σ) :
    ∀ (fuel k : Nat) (s r : σ), runLoop step fuel s = some r →
      runLoop step (fuel + k) s = some r := by
  intro fuel
  induction fuel with
  | zero =>
    intro k s r h
    unfold runLoop at h
    cases hs : step s with
    | none =>
      rw [hs] at h
      simp only [Option.some.injEq] at h
      subst h
      cases k with
      | zero => simp [runLoop, hs]
      | succ k => simp [runLoop, hs]
    | some s' =>
      rw [hs] at h
      cases h
  | succ fuel ih =>
    intro k s r h
    rw [Nat.add_right_comm]
    unfold runLoop at h ⊢
    cases hs : step s with
    | none =>
      rw [hs] at h
      simpa using h
    | some s' =>
      rw [hs] at h
      exact ih k s' r h

/-- A loop whose body decreases a measure under an invariant is left within as many
iterations as the measure of the state it is entered in. -/
theorem runLoop_of_measure {σ : Type} (step : σ → Option σ) (Inv : σ → Prop)
    (μ : σ → Nat)
    (hstep : ∀ s s', Inv s → step s = some s' → Inv s' ∧ μ s' < μ s) :
    ∀ (fuel : Nat) (s : σ), Inv s → μ s ≤ fuel →
      ∃ r, runLoop step fuel s = some r ∧ Inv r ∧ step r = none := by
  intro fuel
  induction fuel with
  | zero =>
    intro s hs hμ
    cases h : step s with
    | none => exact ⟨s, by simp [runLoop, h], hs, h⟩
    | some s' =>
      have := (hstep s s' hs h).2
      omega
  | succ fuel ih =>
    intro s hs hμ
    cases h : step s with
    | none => exact ⟨s, by simp [runLoop, h], hs, h⟩
    | some s' =>
      obtain ⟨h1, h2⟩ := hstep s s' hs h
      obtain ⟨r, hr⟩ := ih s' h1 (by omega)
      exact ⟨r, by simpa [runLoop, h] using hr.1, hr.2⟩

/-! ## The type `double` -/

theorem pow2_eq (e : Int) : pow2 e = (2:ℚ) ^ e := by
  unfold pow2
  split_ifs with h
  · obtain ⟨n, rfl⟩ := Int.eq_ofNat_of_zero_le h
    simp
  · have h1 : e = -(((-e).toNat : Nat) : Int) := by omega
    conv_rhs => rw [h1]
    rw [zpow_neg, zpow_natCast]
    simp

theorem pow2_pos (e : Int) : 0 < pow2 e := by
  rw [pow2_eq]
  positivity

theorem pow2_mono {a b : Int} (h : a ≤ b) : pow2 a ≤ pow2 b := by
  rw [pow2_eq, pow2_eq]
  exact zpow_le_zpow_right₀ (by norm_num) h

theorem pow2_add (a b : Int) : pow2 (a + b) = pow2 a * pow2 b := by
  rw [pow2_eq, pow2_eq, pow2_eq, zpow_add₀ (by norm_num)]

theorem log2Fuel_spec (fuel n : Nat) (h : n ≤ fuel) (hn : n ≠ 0) :
    2 ^ log2Fuel fuel n ≤ n ∧ n < 2 ^ (log2Fuel fuel n + 1) := by
  induction fuel generalizing n with
  | zero => omega
  | succ fuel ih =>
    unfold log2Fuel
    split_ifs with h2
    · obtain ⟨h3, h4⟩ := ih (n / 2) (by omega) (by omega)
      have e1 : 2 ^ (log2Fuel fuel (n / 2) + 1) = 2 ^ log2Fuel fuel (n / 2) * 2 :=
        pow_succ 2 _
      have e2 : 2 ^ (log2Fuel fuel (n / 2) + 1 + 1) = 2 ^ log2Fuel fuel (n / 2) * 2 * 2 := by
        rw [pow_succ, pow_succ]
      rw [e1] at h4
      rw [e1, e2]
      constructor <;> omega
    · have h1 : n = 1 := by omega
      subst h1
      exact ⟨by decide, by decide⟩

theorem floorLog2_spec (n : Nat) (hn : n ≠ 0) :
    2 ^ floorLog2 n ≤ n ∧ n < 2 ^ (floorLog2 n + 1) :=
  log2Fuel_spec n n (le_refl _) hn

theorem binade_bounds (na d la ld : Nat) (q : ℚ) (hdpos : (0 : ℚ) < d) (hqe : q = (na : ℚ) / d)
    (h1 : 2 ^ la ≤ na) (h2 : na < 2 ^ (la + 1)) (h3 : 2 ^ ld ≤ d) (h4 : d < 2 ^ (ld + 1)) :
    pow2 ((la : Int) - ld - 1) ≤ q ∧ q < pow2 ((la : Int) - ld + 1) := by
  have h1' : (2:ℚ) ^ la ≤ na := by exact_mod_cast h1
  have h2' : (na:ℚ) < 2 ^ (la + 1) := by exact_mod_cast h2
  have h3' : (2:ℚ) ^ ld ≤ d := by exact_mod_cast h3
  have h4' : (d:ℚ) < 2 ^ (ld + 1) := by exact_mod_cast h4
  constructor
  · rw [pow2_eq, hqe, le_div_iff₀ hdpos]
    have : (2:ℚ) ^ ((la : Int) - ld - 1) * 2 ^ (ld + 1) = 2 ^ la := by
      rw [← zpow_natCast, ← zpow_add₀ (by norm_num), ← zpow_natCast]
      congr 1
      push_cast
      ring
    calc (2:ℚ) ^ ((la : Int) - ld - 1) * d ≤ (2:ℚ) ^ ((la : Int) - ld - 1) * 2 ^ (ld + 1) := by
          apply mul_le_mul_of_nonneg_left (le_of_lt h4')
          positivity
      _ = 2 ^ la := this
      _ ≤ na := h1'
  · rw [pow2_eq, hqe, div_lt_iff₀ hdpos]
    have : (2:ℚ) ^ ((la : Int) - ld + 1) * 2 ^ ld = 2 ^ (la + 1) := by
      rw [← zpow_natCast, ← zpow_add₀ (by norm_num), ← zpow_natCast]
      congr 1
      push_cast
      ring
    calc (na : ℚ) < 2 ^ (la + 1) := h2'
      _ = (2:ℚ) ^ ((la : Int) - ld + 1) * 2 ^ ld := this.symm
      _ ≤ (2:ℚ) ^ ((la : Int) - ld + 1) * d := by
        apply mul_le_mul_of_nonneg_left h3'
        positivity

theorem expOf_spec (q : ℚ) (hq : 0 < q) : pow2 (expOf q) ≤ q ∧ q < pow2 (expOf q + 1) := by
  have hnum : 0 < q.num := Rat.num_pos.mpr hq
  have hna : q.num.natAbs ≠ 0 := by omega
  have hden : q.den ≠ 0 := q.den_nz
  have hcast : ((q.num.natAbs : Nat) : ℚ) = (q.num : ℚ) := by
    have h : ((q.num.natAbs : Nat) : Int) = q.num := by omega
    rw [← Int.cast_natCast, h]
  have hqe : q = (q.num.natAbs : ℚ) / (q.den : ℚ) := by
    rw [hcast]
    exact (Rat.num_div_den q).symm
  have hdpos : (0 : ℚ) < q.den := by exact_mod_cast Nat.pos_of_ne_zero hden
  obtain ⟨hlo, hup⟩ := binade_bounds q.num.natAbs q.den (floorLog2 q.num.natAbs)
    (floorLog2 q.den) q hdpos hqe
    (floorLog2_spec _ hna).1 (floorLog2_spec _ hna).2 (floorLog2_spec _ hden).1
    (floorLog2_spec _ hden).2
  unfold expOf
  split_ifs with h
  · exact ⟨h, hup⟩
  · refine ⟨hlo, ?_⟩
    have : (floorLog2 q.num.natAbs : Int) - floorLog2 q.den - 1 + 1 =
        (floorLog2 q.num.natAbs : Int) - floorLog2 q.den := by ring
    rw [this]
    exact lt_of_not_le h

theorem expOf_mono (a b : ℚ) (ha : 0 < a) (hab : a ≤ b) : expOf a ≤ expOf b := by
  by_contra hlt
  have hb : 0 < b := lt_of_lt_of_le ha hab
  have h1 := (expOf_spec a ha).1
  have h2 := (expOf_spec b hb).2
  have h3 : pow2 (expOf b + 1) ≤ pow2 (expOf a) := pow2_mono (by omega)
  linarith

theorem roundEven_cases (x : ℚ) :
    (roundEven x = x.floor ∧ (x - x.floor < 1 / 2 ∨ (x - x.floor = 1 / 2 ∧ x.floor % 2 = 0))) ∨
    (roundEven x = x.floor + 1 ∧
      (1 / 2 < x - x.floor ∨ (x - x.floor = 1 / 2 ∧ x.floor % 2 ≠ 0))) := by
  unfold roundEven
  split_ifs with h1 h2 h3
  · exact Or.inl ⟨rfl, Or.inl h1⟩
  · exact Or.inr ⟨rfl, Or.inl h2⟩
  · exact Or.inl ⟨rfl, Or.inr ⟨le_antisymm (not_lt.mp h2) (not_lt.mp h1), h3⟩⟩
  · exact Or.inr ⟨rfl, Or.inr ⟨le_antisymm (not_lt.mp h2) (not_lt.mp h1), h3⟩⟩

theorem floor_facts (x : ℚ) : (x.floor : ℚ) ≤ x ∧ x < x.floor + 1 := by
  have h : x.floor = ⌊x⌋ := rfl
  rw [h]
  exact ⟨Int.floor_le x, Int.lt_floor_add_one x⟩

theorem roundEven_mono (x y : ℚ) (h : x ≤ y) : roundEven x ≤ roundEven y := by
  have hfl : x.floor ≤ y.floor := by
    have h1 : x.floor = ⌊x⌋ := rfl
    have h2 : y.floor = ⌊y⌋ := rfl
    rw [h1, h2]
    exact Int.floor_mono h
  rcases lt_or_eq_of_le hfl with hlt | heq
  · rcases roundEven_cases x with ⟨hx, -⟩ | ⟨hx, -⟩ <;>
      rcases roundEven_cases y with ⟨hy, -⟩ | ⟨hy, -⟩ <;> omega
  · rcases roundEven_cases x with ⟨hx, -⟩ | ⟨hx, hx'⟩
    · rcases roundEven_cases y with ⟨hy, -⟩ | ⟨hy, -⟩ <;> omega
    · rcases roundEven_cases y with ⟨hy, hy'⟩ | ⟨hy, -⟩
      · exfalso
        rw [heq] at hx'
        rcases hx' with hx' | ⟨hx', hodd⟩ <;> rcases hy' with hy' | ⟨hy', heven⟩
        · linarith
        · linarith
        · linarith
        · exact hodd heven
      · omega

theorem roundEven_int (k : Int) : roundEven (k : ℚ) = k := by
  have hf : (k : ℚ).floor = k := by
    have h : (k : ℚ).floor = ⌊(k : ℚ)⌋ := rfl
    rw [h]
    exact Int.floor_intCast k
  unfold roundEven
  rw [hf]
  simp


theorem toDouble_eq (q : ℚ) :
    toDouble q = if q = 0 then 0 else if q < 0 then -rnd (-q) else rnd q := rfl

theorem rnd_nonneg (a : ℚ) (ha : 0 < a) : 0 ≤ rnd a := by
  unfold rnd
  apply mul_nonneg _ (pow2_pos _).le
  have h0 : roundEven 0 = 0 := by
    have := roundEven_int 0
    simpa using this
  have : roundEven 0 ≤ roundEven (a / pow2 (max (expOf a) (-1022) - 52)) :=
    roundEven_mono _ _ (div_nonneg ha.le (pow2_pos _).le)
  rw [h0] at this
  exact_mod_cast this

/-- The scaled magnitude is below `2 ^ 53`. -/
theorem scaled_lt (a : ℚ) (ha : 0 < a) :
    a / pow2 (max (expOf a) (-1022) - 52) < ((2 ^ 53 : Int) : ℚ) := by
  rw [div_lt_iff₀ (pow2_pos _)]
  have h1 := (expOf_spec a ha).2
  have h2 : pow2 (expOf a + 1) ≤ pow2 (max (expOf a) (-1022) + 1) :=
    pow2_mono (by have := le_max_left (expOf a) (-1022); omega)
  have h3 : ((2 ^ 53 : Int) : ℚ) * pow2 (max (expOf a) (-1022) - 52) =
      pow2 (max (expOf a) (-1022) + 1) := by
    have : max (expOf a) (-1022) + 1 = 53 + (max (expOf a) (-1022) - 52) := by ring
    rw [this, pow2_add]
    congr 1
  rw [h3]
  linarith

theorem rnd_le (a : ℚ) (ha : 0 < a) : rnd a ≤ pow2 (max (expOf a) (-1022) + 1) := by
  have h := roundEven_mono _ _ (scaled_lt a ha).le
  rw [roundEven_int] at h
  have h' : (roundEven (a / pow2 (max (expOf a) (-1022) - 52)) : ℚ) ≤ ((2 ^ 53 : Int) : ℚ) := by
    exact_mod_cast h
  have h3 : ((2 ^ 53 : Int) : ℚ) * pow2 (max (expOf a) (-1022) - 52) =
      pow2 (max (expOf a) (-1022) + 1) := by
    have : max (expOf a) (-1022) + 1 = 53 + (max (expOf a) (-1022) - 52) := by ring
    rw [this, pow2_add]
    congr 1
  unfold rnd
  rw [← h3]
  exact mul_le_mul_of_nonneg_right h' (pow2_pos _).le

theorem rnd_ge (a : ℚ) (ha : 0 < a) (he : -1022 ≤ expOf a) : pow2 (expOf a) ≤ rnd a := by
  have hm : max (expOf a) (-1022) = expOf a := max_eq_left he
  have h1 := (expOf_spec a ha).1
  have h2 : ((2 ^ 52 : Int) : ℚ) ≤ a / pow2 (expOf a - 52) := by
    rw [le_div_iff₀ (pow2_pos _)]
    have : ((2 ^ 52 : Int) : ℚ) * pow2 (expOf a - 52) = pow2 (expOf a) := by
      have h : expOf a = 52 + (expOf a - 52) := by ring
      conv_rhs => rw [h, pow2_add]
      congr 1
    rw [this]
    exact h1
  have h := roundEven_mono _ _ h2
  rw [roundEven_int] at h
  have h' : ((2 ^ 52 : Int) : ℚ) ≤ (roundEven (a / pow2 (expOf a - 52)) : ℚ) := by
    exact_mod_cast h
  have h3 : ((2 ^ 52 : Int) : ℚ) * pow2 (expOf a - 52) = pow2 (expOf a) := by
    have h : expOf a = 52 + (expOf a - 52) := by ring
    conv_rhs => rw [h, pow2_add]
    congr 1
  unfold rnd
  rw [hm, ← h3]
  exact mul_le_mul_of_nonneg_right h' (pow2_pos _).le

theorem rnd_mono (a b : ℚ) (ha : 0 < a) (hab : a ≤ b) : rnd a ≤ rnd b := by
  have hb : 0 < b := lt_of_lt_of_le ha hab
  have he := expOf_mono a b ha hab
  have hm : max (expOf a) (-1022) ≤ max (expOf b) (-1022) := max_le_max he (le_refl _)
  rcases lt_or_eq_of_le hm with hlt | heq
  · have h1 := rnd_le a ha
    have hbe : -1022 ≤ expOf b := by
      by_contra hcon
      have : max (expOf b) (-1022) = -1022 := max_eq_right (by omega)
      have := le_max_right (expOf a) (-1022)
      omega
    have h2 := rnd_ge b hb hbe
    have h3 : pow2 (max (expOf a) (-1022) + 1) ≤ pow2 (expOf b) := by
      apply pow2_mono
      have : max (expOf b) (-1022) = expOf b := max_eq_left hbe
      omega
    linarith
  · unfold rnd
    rw [heq]
    apply mul_le_mul_of_nonneg_right _ (pow2_pos _).le
    have := roundEven_mono (a / pow2 (max (expOf b) (-1022) - 52))
      (b / pow2 (max (expOf b) (-1022) - 52))
      (div_le_div_of_nonneg_right hab (pow2_pos _).le)
    exact_mod_cast this

/-- Rounding to `double` is monotone. -/
theorem toDouble_mono (x y : ℚ) (h : x ≤ y) : toDouble x ≤ toDouble y := by
  rw [toDouble_eq, toDouble_eq]
  rcases lt_trichotomy x 0 with hx | hx | hx
  · rcases lt_trichotomy y 0 with hy | hy | hy
    · rw [if_neg hx.ne, if_pos hx, if_neg hy.ne, if_pos hy]
      have := rnd_mono (-y) (-x) (by linarith) (by linarith)
      linarith
    · rw [if_neg hx.ne, if_pos hx, if_pos hy]
      have := rnd_nonneg (-x) (by linarith)
      linarith
    · rw [if_neg hx.ne, if_pos hx, if_neg hy.ne', if_neg (not_lt.mpr hy.le)]
      have := rnd_nonneg (-x) (by linarith)
      have := rnd_nonneg y hy
      linarith
  · have hy : 0 ≤ y := by linarith
    rw [if_pos hx]
    rcases lt_or_eq_of_le hy with hy | hy
    · rw [if_neg hy.ne', if_neg (not_lt.mpr hy.le)]
      exact rnd_nonneg y hy
    · rw [if_pos hy.symm]
  · have hy : 0 < y := by linarith
    rw [if_neg hx.ne', if_neg (not_lt.mpr hx.le), if_neg hy.ne', if_neg (not_lt.mpr hy.le)]
    exact rnd_mono x y hx h

/-- An integer of magnitude at most `2 ^ 53` is a `double`. -/
theorem rnd_nat (n : Nat) (h0 : 0 < n) (h : n ≤ 2 ^ 53) : rnd (n : ℚ) = n := by
  have hpos : (0 : ℚ) < n := by exact_mod_cast h0
  obtain ⟨h1, h2⟩ := expOf_spec (n : ℚ) hpos
  have hlo : 0 ≤ expOf (n : ℚ) := by
    by_contra hneg
    have : pow2 (expOf (n : ℚ) + 1) ≤ pow2 0 := pow2_mono (by omega)
    have h3 : pow2 0 = 1 := by rw [pow2_eq]; simp
    have : (n : ℚ) < 1 := by linarith
    have : n < 1 := by exact_mod_cast this
    omega
  have hhi : expOf (n : ℚ) ≤ 53 := by
    by_contra hbig
    have : pow2 54 ≤ pow2 (expOf (n : ℚ)) := pow2_mono (by omega)
    have h3 : pow2 54 = ((2 ^ 54 : Nat) : ℚ) := by rw [pow2_eq]; norm_num
    have h4 : ((2 ^ 54 : Nat) : ℚ) ≤ n := by linarith
    have : 2 ^ 54 ≤ n := by exact_mod_cast h4
    omega
  have hm : max (expOf (n : ℚ)) (-1022) = expOf (n : ℚ) := max_eq_left (by omega)
  unfold rnd
  rw [hm]
  rcases lt_or_eq_of_le hhi with hlt | heq
  · obtain ⟨k, hk⟩ : ∃ k : Nat, (52 : Int) - expOf (n : ℚ) = k := ⟨(52 - expOf (n : ℚ)).toNat, by omega⟩
    have hp : pow2 (expOf (n : ℚ) - 52) = 1 / ((2 ^ k : Nat) : ℚ) := by
      have : expOf (n : ℚ) - 52 = -(k : Int) := by omega
      rw [this, pow2_eq, zpow_neg, zpow_natCast]
      simp
    have hsc : (n : ℚ) / pow2 (expOf (n : ℚ) - 52) = (((n * 2 ^ k : Nat) : Int) : ℚ) := by
      rw [hp]
      push_cast
      field_simp
    rw [hsc, roundEven_int, hp]
    push_cast
    field_simp
  · have hn : n = 2 ^ 53 := by
      have h3 : pow2 53 = ((2 ^ 53 : Nat) : ℚ) := by rw [pow2_eq]; norm_num
      rw [heq, h3] at h1
      have : 2 ^ 53 ≤ n := by exact_mod_cast h1
      omega
    have hp : pow2 (expOf (n : ℚ) - 52) = 2 := by
      rw [heq, pow2_eq]
      norm_num
    have hsc : (n : ℚ) / pow2 (expOf (n : ℚ) - 52) = (((2 ^ 52 : Nat) : Int) : ℚ) := by
      rw [hp, hn]
      norm_num
    rw [hsc, roundEven_int, hp, hn]
    norm_num

theorem toDouble_int (z : Int) (h : |z| ≤ 2 ^ 53) : toDouble (z : ℚ) = z := by
  rw [toDouble_eq]
  rcases lt_trichotomy z 0 with hz | hz | hz
  · have h1 : ((z : ℚ) = 0) = False := by
      simp only [Int.cast_eq_zero, eq_iff_iff, iff_false]
      omega
    have h2 : (z : ℚ) < 0 := by exact_mod_cast hz
    rw [if_neg (by exact_mod_cast hz.ne), if_pos h2]
    have h3 : -(z : ℚ) = ((z.natAbs : Nat) : ℚ) := by
      have : ((z.natAbs : Nat) : Int) = -z := by omega
      rw [← Int.cast_natCast, this]
      push_cast
      ring
    rw [h3, rnd_nat _ (by omega) (by
      have := abs_of_neg hz
      omega), ← h3]
    ring
  · subst hz
    simp
  · have h2 : ¬ (z : ℚ) < 0 := by
      have : (0 : ℚ) < z := by exact_mod_cast hz
      linarith
    rw [if_neg (by exact_mod_cast hz.ne'), if_neg h2]
    have h3 : (z : ℚ) = ((z.natAbs : Nat) : ℚ) := by
      have : ((z.natAbs : Nat) : Int) = z := by omega
      rw [← Int.cast_natCast, this]
    rw [h3, rnd_nat _ (by omega) (by
      have := abs_of_pos hz
      omega)]

/-! ## FCFS: lemmas -/

theorem fcfsLe_iff (a b : Process) :
    fcfsLe a b ↔ a.arrivalTime < b.arrivalTime ∨
      (a.arrivalTime = b.arrivalTime ∧ a.id ≤ b.id) := by
  unfold fcfsLe fcfsLess
  by_cases h : b.arrivalTime = a.arrivalTime
  · simp [h]
  · simp only [h, if_false, decide_eq_false_iff_not, not_lt]
    constructor
    · intro hle
      left
      omega
    · rintro (hlt | ⟨he, _⟩)
      · omega
      · exact absurd he.symm h

theorem wrap32_of_inInt (x : Int) (h : inInt x) : wrap32 x = x := by
  unfold inInt at h
  unfold wrap32
  omega

theorem wrap32_of_bounds (x : Int) (h1 : 0 ≤ x) (h2 : x ≤ INT_MAX) : wrap32 x = x := by
  unfold INT_MAX at h2
  unfold wrap32
  omega

theorem inInt_wrap32 (x : Int) : inInt (wrap32 x) := by
  unfold inInt wrap32
  omega

theorem totalBurst_cons (p : Process) (l : List Process) :
    totalBurst (p :: l) = p.burstTime + totalBurst l := by
  simp [totalBurst]

theorem totalBurst_nonneg (l : List Process) (h : ∀ p ∈ l, 0 ≤ p.burstTime) :
    0 ≤ totalBurst l := by
  induction l with
  | nil => simp [totalBurst]
  | cons p rest ih =>
    rw [totalBurst_cons]
    have h1 := h p (List.mem_cons_self _ _)
    have h2 := ih (fun q hq => h q (List.mem_cons_of_mem _ hq))
    omega

theorem totalBurst_perm {l l' : List Process} (h : l.Perm l') :
    totalBurst l = totalBurst l' := by
  unfold totalBurst
  exact (h.map (fun p : Process => p.burstTime)).sum_eq

theorem fitsInt_perm {l l' : List Process} (h : l.Perm l') (hf : fitsInt l) : fitsInt l' := by
  intro p hp
  rw [← totalBurst_perm h]
  exact hf p (h.mem_iff.mpr hp)

theorem fcfsFits_of_fitsInt (l : List Process) (hf : fitsInt l) : fcfsFits 0 l := by
  have hb : 0 ≤ totalBurst l := totalBurst_nonneg l (fun p hp => (hf p hp).2.1)
  refine ⟨le_refl _, ?_, hf⟩
  cases l with
  | nil => simp [totalBurst, INT_MAX]
  | cons p rest =>
    have := hf p (List.mem_cons_self _ _)
    omega

theorem fcfsBody_fields (t : Int) (p : Process) :
    (fcfsBody t p).id = p.id ∧ (fcfsBody t p).arrivalTime = p.arrivalTime ∧
    (fcfsBody t p).burstTime = p.burstTime ∧
    (fcfsBody t p).initialPriority = p.initialPriority ∧
    (fcfsBody t p).startTime = max t p.arrivalTime ∧
    (fcfsBody t p).finishTime = wrap32 (max t p.arrivalTime + p.burstTime) ∧
    (fcfsBody t p).waitingTime = wrap32 (max t p.arrivalTime - p.arrivalTime) ∧
    (fcfsBody t p).turnaroundTime =
      wrap32 (wrap32 (max t p.arrivalTime + p.burstTime) - p.arrivalTime) := by
  have hmax : (if t < p.arrivalTime then p.arrivalTime else t) = max t p.arrivalTime := by
    split_ifs with h
    · exact (max_eq_right (le_of_lt h)).symm
    · exact (max_eq_left (not_lt.mp h)).symm
  simp [fcfsBody, hmax]

/-- The body of the loop of `simulateFCFS` when no value leaves the `int` range: the exact
sums and differences. -/
theorem fcfsBody_exact (t : Int) (p : Process) (ht : 0 ≤ t) (ha : 0 ≤ p.arrivalTime)
    (hb : 0 ≤ p.burstTime) (hfit : max t p.arrivalTime + p.burstTime ≤ INT_MAX) :
    (fcfsBody t p).finishTime = max t p.arrivalTime + p.burstTime ∧
    (fcfsBody t p).waitingTime = max t p.arrivalTime - p.arrivalTime ∧
    (fcfsBody t p).turnaroundTime = max t p.arrivalTime + p.burstTime - p.arrivalTime := by
  obtain ⟨-, -, -, -, -, h6, h7, h8⟩ := fcfsBody_fields t p
  have h1 := le_max_left t p.arrivalTime
  have h2 := le_max_right t p.arrivalTime
  have e1 : wrap32 (max t p.arrivalTime + p.burstTime) = max t p.arrivalTime + p.burstTime :=
    wrap32_of_bounds _ (by omega) hfit
  have e2 : wrap32 (max t p.arrivalTime - p.arrivalTime) = max t p.arrivalTime - p.arrivalTime :=
    wrap32_of_bounds _ (by omega) (by omega)
  have e3 : wrap32 (max t p.arrivalTime + p.burstTime - p.arrivalTime) =
      max t p.arrivalTime + p.burstTime - p.arrivalTime :=
    wrap32_of_bounds _ (by omega) (by omega)
  rw [h6, h7, h8, e1, e2, e3]
  exact ⟨rfl, rfl, rfl⟩

theorem fcfsFits_cons (t : Int) (p : Process) (rest : List Process)
    (h : fcfsFits t (p :: rest)) :
    (0 ≤ t ∧ 0 ≤ p.arrivalTime ∧ 0 ≤ p.burstTime ∧
      max t p.arrivalTime + p.burstTime ≤ INT_MAX) ∧
    fcfsFits (fcfsBody t p).finishTime rest := by
  obtain ⟨h0, h1, h2⟩ := h
  have hp := h2 p (List.mem_cons_self _ _)
  have hrest : 0 ≤ totalBurst rest :=
    totalBurst_nonneg rest (fun q hq => (h2 q (List.mem_cons_of_mem _ hq)).2.1)
  rw [totalBurst_cons] at h1 hp
  have hm : max t p.arrivalTime + p.burstTime + totalBurst rest ≤ INT_MAX := by
    rcases max_cases t p.arrivalTime with ⟨e, -⟩ | ⟨e, -⟩ <;> rw [e] <;> omega
  have hfacts : 0 ≤ t ∧ 0 ≤ p.arrivalTime ∧ 0 ≤ p.burstTime ∧
      max t p.arrivalTime + p.burstTime ≤ INT_MAX := ⟨h0, hp.1, hp.2.1, by omega⟩
  refine ⟨hfacts, ?_⟩
  rw [(fcfsBody_exact t p hfacts.1 hfacts.2.1 hfacts.2.2.1 hfacts.2.2.2).1]
  have h3 := le_max_left t p.arrivalTime
  refine ⟨by omega, by omega, ?_⟩
  intro q hq
  have := h2 q (List.mem_cons_of_mem _ hq)
  rw [totalBurst_cons] at this
  exact ⟨this.1, this.2.1, by omega⟩

theorem fcfsLoop_rows_cons (p : Process) (rest : List Process) (t : Int) (tw tt : ℚ) :
    (fcfsLoop (p :: rest) t tw tt).1 =
      fcfsBody t p :: (fcfsLoop rest (fcfsBody t p).finishTime
        (toDouble (tw + (fcfsBody t p).waitingTime)) (toDouble (tt + (fcfsBody t p).turnaroundTime))).1 := rfl

theorem fcfsLoop_map_descriptor (l : List Process) (t : Int) (tw tt : ℚ) :
    (fcfsLoop l t tw tt).1.map descriptor = l.map descriptor := by
  induction l generalizing t tw tt with
  | nil => rfl
  | cons p rest ih =>
    obtain ⟨h1, h2, h3, h4, -⟩ := fcfsBody_fields t p
    rw [fcfsLoop_rows_cons, List.map_cons, List.map_cons, ih]
    simp [descriptor, h1, h2, h3, h4]


theorem fcfsLoop_rows_nil (t : Int) (tw tt : ℚ) : (fcfsLoop [] t tw tt).1 = [] := rfl

theorem fcfsLoop_recurrence (l : List Process) (t : Int) (tw tt : ℚ) (k : Nat) (p : Process)
    (hfit : fcfsFits t l) (hk : (fcfsLoop l t tw tt).1[k]? = some p) :
    p.startTime = max (prevFinishFrom t (fcfsLoop l t tw tt).1 k) p.arrivalTime ∧
      p.finishTime = p.startTime + p.burstTime ∧
      p.waitingTime = p.startTime - p.arrivalTime ∧
      p.turnaroundTime = p.finishTime - p.arrivalTime := by
  induction l generalizing t tw tt k with
  | nil => simp [fcfsLoop_rows_nil] at hk
  | cons a rest ih =>
    obtain ⟨⟨f1, f2, f3, f4⟩, hrest⟩ := fcfsFits_cons t a rest hfit
    obtain ⟨-, h2, h3, -, h5, -⟩ := fcfsBody_fields t a
    obtain ⟨h6, h7, h8⟩ := fcfsBody_exact t a f1 f2 f3 f4
    rw [fcfsLoop_rows_cons] at hk ⊢
    cases k with
    | zero =>
      simp only [List.getElem?_cons_zero, Option.some.injEq] at hk
      subst hk
      rw [h5, h6, h7, h8, h2, h3]
      exact ⟨rfl, rfl, rfl, rfl⟩
    | succ j =>
      simp only [List.getElem?_cons_succ] at hk
      have := ih _ _ _ j hrest hk
      cases j with
      | zero => simpa [prevFinishFrom] using this
      | succ i => simpa [prevFinishFrom] using this

theorem fcfsLoop_pairwise (l : List Process) (t : Int) (tw tt : ℚ)
    (hfit : fcfsFits t l) :
    (fcfsLoop l t tw tt).1.Pairwise (fun a b => a.finishTime ≤ b.startTime) ∧
      ∀ q ∈ (fcfsLoop l t tw tt).1, t ≤ q.startTime := by
  induction l generalizing t tw tt with
  | nil => simp [fcfsLoop_rows_nil]
  | cons a rest ih =>
    obtain ⟨⟨f1, f2, f3, f4⟩, hrest⟩ := fcfsFits_cons t a rest hfit
    obtain ⟨-, -, -, -, h5, -⟩ := fcfsBody_fields t a
    obtain ⟨h6, -, -⟩ := fcfsBody_exact t a f1 f2 f3 f4
    obtain ⟨ih1, ih2⟩ := ih (fcfsBody t a).finishTime (toDouble (tw + (fcfsBody t a).waitingTime))
      (toDouble (tt + (fcfsBody t a).turnaroundTime)) hrest
    rw [fcfsLoop_rows_cons]
    refine ⟨List.pairwise_cons.mpr ⟨ih2, ih1⟩, ?_⟩
    intro q hq
    rcases List.mem_cons.mp hq with rfl | hq
    · rw [h5]
      exact le_max_left _ _
    · have := ih2 q hq
      rw [h6] at this
      have := le_max_left t a.arrivalTime
      omega

theorem pairwise_mem_cases {α : Type} {R : α → α → Prop} {l : List α} (h : l.Pairwise R)
    {a b : α} (ha : a ∈ l) (hb : b ∈ l) : a = b ∨ R a b ∨ R b a := by
  induction l with
  | nil => simp at ha
  | cons x xs ih =>
    obtain ⟨hx, hxs⟩ := List.pairwise_cons.mp h
    rcases List.mem_cons.mp ha with ha1 | ha1
    · rcases List.mem_cons.mp hb with hb1 | hb1
      · exact Or.inl (ha1.trans hb1.symm)
      · exact Or.inr (Or.inl (ha1 ▸ hx b hb1))
    · rcases List.mem_cons.mp hb with hb1 | hb1
      · exact Or.inr (Or.inr (hb1 ▸ hx a ha1))
      · exact ih hxs ha1 hb1

/-- The rows of `simulateFCFS` carry the descriptors of the sorted input. -/
theorem simulateFCFS_rows (ps : List Process) :
    (simulateFCFS ps).2 = (fcfsLoop (ps.insertionSort fcfsLe) 0 0 0).1 := by
  unfold simulateFCFS
  by_cases h : ps.length = 0
  · have : ps = [] := List.length_eq_zero.mp h
    subst this
    rfl
  · simp [h]

theorem fcfsFits_sorted (ps : List Process) (hfit : fitsInt ps) :
    fcfsFits 0 (ps.insertionSort fcfsLe) :=
  fcfsFits_of_fitsInt _ (fitsInt_perm (List.perm_insertionSort fcfsLe ps).symm hfit)

theorem simulateFCFS_descriptor_perm (ps : List Process) :
    ((simulateFCFS ps).2.map descriptor).Perm (ps.map descriptor) := by
  rw [simulateFCFS_rows, fcfsLoop_map_descriptor]
  exact (List.perm_insertionSort fcfsLe ps).map descriptor

theorem simulateFCFS_rows_sorted (ps : List Process) :
    (simulateFCFS ps).2.Pairwise fcfsLe := by
  rw [simulateFCFS_rows]
  have h1 : (ps.insertionSort fcfsLe).Pairwise fcfsLe := List.sorted_insertionSort fcfsLe ps
  have h2 := fcfsLoop_map_descriptor (ps.insertionSort fcfsLe) 0 0 0
  have key : ∀ l : List Process,
      l.Pairwise fcfsLe ↔ (l.map descriptor).Pairwise
        (fun x y => x.2.1 < y.2.1 ∨ (x.2.1 = y.2.1 ∧ x.1 ≤ y.1)) := by
    intro l
    rw [List.pairwise_map]
    apply Iff.of_eq
    congr 1
    funext a b
    exact propext (fcfsLe_iff a b)
  rw [key, h2, ← key]
  exact h1

theorem simulateFCFS_mem_descriptor (ps : List Process) (q : Process)
    (hq : q ∈ (simulateFCFS ps).2) : ∃ p ∈ ps, descriptor p = descriptor q := by
  have h1 : descriptor q ∈ (simulateFCFS ps).2.map descriptor := List.mem_map_of_mem _ hq
  have h2 := (simulateFCFS_descriptor_perm ps).mem_iff.mp h1
  obtain ⟨p, hp, hpq⟩ := List.mem_map.mp h2
  exact ⟨p, hp, hpq⟩

theorem simulateFCFS_rows_strict (ps : List Process)
    (hid : (ps.map (fun p => p.id)).Nodup) : (simulateFCFS ps).2.Pairwise keyLt := by
  have hperm : ((simulateFCFS ps).2.map (fun p => p.id)).Perm (ps.map (fun p => p.id)) := by
    have := (simulateFCFS_descriptor_perm ps).map (fun d => d.1)
    simpa [List.map_map, Function.comp_def, descriptor] using this
  have hnd : ((simulateFCFS ps).2.map (fun p => p.id)).Nodup := hperm.nodup_iff.mpr hid
  have hne : (simulateFCFS ps).2.Pairwise (fun a b => a.id ≠ b.id) := by
    have := List.pairwise_map.mp hnd
    exact this
  refine ((simulateFCFS_rows_sorted ps).and hne).imp ?_
  intro a b hab
  obtain ⟨hle, hne⟩ := hab
  rw [fcfsLe_iff] at hle
  unfold keyLt
  omega

/-- C1, amended: `simulateFCFS` computes the FCFS recurrence wherever no clock leaves the `int`
range: for a process list with unique ids, no negative arrival or burst time and every
arrival time plus the sum of all burst times at most `INT_MAX`, the rows of the result are
the processes of the list (same descriptors) in strictly ascending `(arrivalTime, id)`
order, and the `k`-th row has `startTime` the larger of the previous row's `finishTime`
(`0` for the first row) and its own `arrivalTime`, `finishTime = startTime + burstTime`,
`waitingTime = startTime - arrivalTime` and `turnaroundTime = finishTime - arrivalTime`.
On the list `{id=1,arrival=0,burst=5}, {id=2,arrival=1,burst=3}` the rows are P1 with
start 0, finish 5, waiting 0, turnaround 5 and P2 with start 5, finish 8, waiting 4,
turnaround 7.  The empty list needs no separate case: it has no rows. -/
theorem simulateFCFS_recurrence (ps : List Process)
    (hid : (ps.map (fun p => p.id)).Nodup) (hfit : fitsInt ps) :
    (((simulateFCFS ps).2.map descriptor).Perm (ps.map descriptor) ∧
      (simulateFCFS ps).2.Pairwise keyLt ∧
      ∀ (k : Nat) (p : Process), (simulateFCFS ps).2[k]? = some p →
        p.startTime = max (prevFinish (simulateFCFS ps).2 k) p.arrivalTime ∧
        p.finishTime = p.startTime + p.burstTime ∧
        p.waitingTime = p.startTime - p.arrivalTime ∧
        p.turnaroundTime = p.finishTime - p.arrivalTime) ∧
    (simulateFCFS [mkProcess 1 0 5 1, mkProcess 2 1 3 1]).2.map timing =
      [(1, 0, 5, 0, 5), (2, 5, 8, 4, 7)] := by
  refine ⟨⟨simulateFCFS_descriptor_perm ps, simulateFCFS_rows_strict ps hid, ?_⟩, by decide⟩
  intro k p hk
  rw [simulateFCFS_rows] at hk ⊢
  exact fcfsLoop_recurrence _ 0 0 0 k p (fcfsFits_sorted ps hfit) hk

/-- C1, at the list `{id=1,arrival=0,burst=5}, {id=2,arrival=1,burst=3}`. -/
theorem simulateFCFS_recurrence_witness :
    ([mkProcess 1 0 5 1, mkProcess 2 1 3 1].map (fun p => p.id)).Nodup ∧
    fitsInt [mkProcess 1 0 5 1, mkProcess 2 1 3 1] ∧
    (simulateFCFS [mkProcess 1 0 5 1, mkProcess 2 1 3 1]).2.Pairwise keyLt ∧
    (simulateFCFS [mkProcess 1 0 5 1, mkProcess 2 1 3 1]).2.map timing =
      [(1, 0, 5, 0, 5), (2, 5, 8, 4, 7)] :=
  ⟨by decide, by decide,
   (simulateFCFS_recurrence [mkProcess 1 0 5 1, mkProcess 2 1 3 1]
     (by decide) (by decide)).1.2.1,
   (simulateFCFS_recurrence [mkProcess 1 0 5 1, mkProcess 2 1 3 1]
     (by decide) (by decide)).2⟩

/-- C1 as stated fails on lists with unique ids.  On
`{id=1,arrival=0,burst=1500000000}, {id=2,arrival=0,burst=1500000000}` the second row
starts at `1500000000` and the sum `startTime + burstTime = 3000000000` does not fit an
`int`; the row gets `finishTime = -1294967296` and `turnaroundTime = -1294967296`.  The
same happens to the second row of `{burst=2000000000}, {burst=2000000000},
{burst=-2000000000}`, whose burst times add up to `2000000000` only.  On
`{id=1,arrival=-2147483648,burst=1}` the row starts at `0` and the difference
`startTime - arrivalTime = 2147483648` does not fit an `int`; the row gets
`waitingTime = -2147483648`. -/
theorem simulateFCFS_recurrence_overflow :
    ((overflowExample.map (fun p => p.id)).Nodup ∧
      (∀ p ∈ overflowExample, 0 ≤ p.arrivalTime ∧ 1 ≤ p.burstTime) ∧
      (simulateFCFS overflowExample).2.map timing =
        [(1, 0, 1500000000, 0, 1500000000),
         (2, 1500000000, -1294967296, 1500000000, -1294967296)] ∧
      (∃ p ∈ (simulateFCFS overflowExample).2, p.finishTime ≠ p.startTime + p.burstTime) ∧
      ¬ fitsInt overflowExample) ∧
    ((negativeLastExample.map (fun p => p.id)).Nodup ∧
      (∀ p ∈ negativeLastExample,
        0 ≤ p.arrivalTime ∧ p.arrivalTime + totalBurst negativeLastExample ≤ INT_MAX) ∧
      (simulateFCFS negativeLastExample).2.map timing =
        [(1, 0, 2000000000, 0, 2000000000),
         (2, 2000000000, -294967296, 2000000000, -294967296),
         (3, 0, -2000000000, 0, -2000000000)] ∧
      ∃ p ∈ (simulateFCFS negativeLastExample).2, p.finishTime ≠ p.startTime + p.burstTime) ∧
    ((minArrivalExample.map (fun p => p.id)).Nodup ∧
      (∀ p ∈ minArrivalExample,
        0 ≤ p.burstTime ∧ p.arrivalTime + totalBurst minArrivalExample ≤ INT_MAX) ∧
      (simulateFCFS minArrivalExample).2.map timing =
        [(1, 0, 1, -2147483648, -2147483647)] ∧
      ∃ p ∈ (simulateFCFS minArrivalExample).2,
        p.waitingTime ≠ p.startTime - p.arrivalTime) :=
  ⟨⟨by decide, by decide, by decide, by decide, by decide⟩,
    ⟨by decide, by decide, by decide, by decide⟩,
    ⟨by decide, by decide, by decide, by decide⟩⟩

/-- C10, amended: `simulateFCFS` schedules in ascending `(arrivalTime, id)` order whatever the
order of the input list, wherever no clock leaves the `int` range: for a list with
`arrivalTime >= 0`, `burstTime >= 1` and every arrival time plus the sum of all burst times
at most `INT_MAX`, the rows are the processes of the list, and of two rows `a`, `b` with
`arrivalTime` of `a` below that of `b`, or the same arrival time and the smaller id for
`a`, row `a` finishes before `b` starts (`finishTime a <= startTime b`) and so starts
first. -/
theorem simulateFCFS_order (ps : List Process) (hb : ∀ p ∈ ps, 1 ≤ p.burstTime)
    (hfit : fitsInt ps) :
    ((simulateFCFS ps).2.map descriptor).Perm (ps.map descriptor) ∧
    ∀ a ∈ (simulateFCFS ps).2, ∀ b ∈ (simulateFCFS ps).2, keyLt a b →
      a.finishTime ≤ b.startTime ∧ a.startTime < b.startTime := by
  refine ⟨simulateFCFS_descriptor_perm ps, ?_⟩
  intro a ha b hb' hab
  have hburst : ∀ q ∈ (simulateFCFS ps).2, 1 ≤ q.burstTime := by
    intro q hq
    obtain ⟨p, hp, hpq⟩ := simulateFCFS_mem_descriptor ps q hq
    have := hb p hp
    simp only [descriptor, Prod.mk.injEq] at hpq
    omega
  have hpw := (simulateFCFS_rows_sorted ps).and
    (by rw [simulateFCFS_rows]; exact (fcfsLoop_pairwise _ 0 0 0 (fcfsFits_sorted ps hfit)).1)
  have hfin : a.finishTime = a.startTime + a.burstTime := by
    obtain ⟨k, hk⟩ := List.mem_iff_getElem?.mp ha
    rw [simulateFCFS_rows] at hk
    exact (fcfsLoop_recurrence _ 0 0 0 k a (fcfsFits_sorted ps hfit) hk).2.1
  have h1 := hburst a ha
  have key : a.finishTime ≤ b.startTime := by
    rcases pairwise_mem_cases hpw ha hb' with heq | h | h
    · subst heq
      unfold keyLt at hab
      omega
    · exact h.2
    · have := (fcfsLe_iff b a).mp h.1
      unfold keyLt at hab
      omega
  exact ⟨key, by omega⟩

/-- C10, at the list `{id=2,arrival=0,burst=3}, {id=1,arrival=0,burst=2}`: the process
with id 1 is scheduled first. -/
theorem simulateFCFS_order_witness :
    (∀ p ∈ [mkProcess 2 0 3 1, mkProcess 1 0 2 1], 1 ≤ p.burstTime) ∧
    fitsInt [mkProcess 2 0 3 1, mkProcess 1 0 2 1] ∧
    (simulateFCFS [mkProcess 2 0 3 1, mkProcess 1 0 2 1]).2.map timing =
      [(1, 0, 2, 0, 2), (2, 2, 5, 2, 5)] ∧
    ∀ a ∈ (simulateFCFS [mkProcess 2 0 3 1, mkProcess 1 0 2 1]).2,
      ∀ b ∈ (simulateFCFS [mkProcess 2 0 3 1, mkProcess 1 0 2 1]).2, keyLt a b →
        a.finishTime ≤ b.startTime ∧ a.startTime < b.startTime :=
  ⟨by decide, by decide, by decide,
   (simulateFCFS_order [mkProcess 2 0 3 1, mkProcess 1 0 2 1] (by decide) (by decide)).2⟩

/-- C10 does not hold of every list with unique ids and `burstTime >= 1`: on
`{id=1,arrival=0,burst=2000000000}, {id=2,arrival=0,burst=2000000000},
{id=3,arrival=0,burst=1}` the second finish time `4000000000` does not fit an `int` and is
left as `-294967296`, so the third process starts at `0`, while the first process, which
is before it in `(arrivalTime, id)` order, finishes at `2000000000`. The bound on the sum of
the burst times does not do without `arrivalTime >= 0`: on
`{id=1,arrival=-5,burst=2147483646}, {id=2,arrival=-5,burst=5}, {id=3,arrival=-5,burst=1}`
every arrival time plus the sum of the burst times is `INT_MAX`, the clock starts at `0`, the
second finish time `2147483651` is left as `-2147483645`, and the third process starts at
`-5`, while the first finishes at `2147483646`. -/
theorem simulateFCFS_order_overflow :
    (overflowThreeExample.map (fun p => p.id)).Nodup ∧
    (∀ p ∈ overflowThreeExample, 0 ≤ p.arrivalTime ∧ 1 ≤ p.burstTime) ∧
    (simulateFCFS overflowThreeExample).2.map timing =
      [(1, 0, 2000000000, 0, 2000000000),
       (2, 2000000000, -294967296, 2000000000, -294967296), (3, 0, 1, 0, 1)] ∧
    (∃ a ∈ (simulateFCFS overflowThreeExample).2,
      ∃ b ∈ (simulateFCFS overflowThreeExample).2,
        keyLt a b ∧ ¬ a.finishTime ≤ b.startTime) ∧
    ¬ fitsInt overflowThreeExample ∧
    (earlyArrivalExample.map (fun p => p.id)).Nodup ∧
    (∀ p ∈ earlyArrivalExample,
      1 ≤ p.burstTime ∧ p.arrivalTime + totalBurst earlyArrivalExample ≤ INT_MAX) ∧
    (simulateFCFS earlyArrivalExample).2.map timing =
      [(1, 0, 2147483646, 5, -2147483645),
       (2, 2147483646, -2147483645, -2147483645, -2147483640), (3, -5, -4, 0, 1)] ∧
    (∃ a ∈ (simulateFCFS earlyArrivalExample).2,
      ∃ b ∈ (simulateFCFS earlyArrivalExample).2,
        keyLt a b ∧ ¬ a.finishTime ≤ b.startTime) := by
  refine ⟨by decide, by decide, by decide, by decide, by decide, by decide, by decide,
    by decide, by decide⟩

/-! ## Lists: reading a position after a write -/

theorem getD_set_self {α : Type} (l : List α) (i : Nat) (a d : α) (h : i < l.length) :
    (l.set i a).getD i d = a := by
  simp [List.getD_eq_getElem?_getD, List.getElem?_set, h]

theorem getD_set_other {α : Type} (l : List α) (i j : Nat) (a d : α) (h : i ≠ j) :
    (l.set i a).getD j d = l.getD j d := by
  simp [List.getD_eq_getElem?_getD, List.getElem?_set, h]

theorem getD_mapIdx {α : Type} (f : Nat → α → α) (l : List α) (i : Nat) (d : α)
    (h : i < l.length) : (l.mapIdx f).getD i d = f i (l.getD i d) := by
  simp [List.getD_eq_getElem?_getD, List.getElem?_mapIdx, List.getElem?_eq_getElem h]

theorem getD_replicate_false (n i : Nat) : (List.replicate n false).getD i false = false := by
  by_cases h : i < n
  · simp [List.getD_eq_getElem?_getD, List.getElem?_replicate, h]
  · simp [List.getD_eq_getElem?_getD, List.getElem?_replicate, h]

theorem getD_map_of_lt {α β : Type} (f : α → β) (l : List α) (i : Nat) (d : α) (e : β)
    (h : i < l.length) : (l.map f).getD i e = f (l.getD i d) := by
  simp [List.getD_eq_getElem?_getD, List.getElem?_eq_getElem h]

/-! ## Completed processes have consistent metrics -/

theorem metricsWrap_dispatch (t : Int) (p : Process) : metricsWrap (dispatch t p) := by
  unfold metricsWrap dispatch
  constructor
  · simp
  · simp only []
    unfold wrap32
    omega

/-- The two shapes of an iteration of `schedStep`: the clock jumps to the next arrival,
or the selected process is dispatched. -/
theorem schedStep_cases (select : List Process → List Bool → Int → Option Nat × Int)
    (s s' : SchedState) (h : schedStep select s = some s') :
    s.completed < s.processes.length ∧
    (((select s.processes s.done s.currentTime).1 = none ∧
        nextArrivalScan s.processes s.done ≠ INT_MAX ∧
        s' = { s with currentTime := nextArrivalScan s.processes s.done }) ∨
      ∃ best, (select s.processes s.done s.currentTime).1 = some best ∧
        s' = schedDispatch s best) := by
  unfold schedStep at h
  split_ifs at h with hc
  refine ⟨hc, ?_⟩
  split at h
  · left
    rename_i hsel
    simp only [] at h
    split_ifs at h with hn
    simp only [Option.some.injEq] at h
    exact ⟨hsel, hn, h.symm⟩
  · right
    rename_i best hsel
    simp only [Option.some.injEq] at h
    exact ⟨best, hsel, h.symm⟩

theorem flagInv_schedStep (select : List Process → List Bool → Int → Option Nat × Int)
    (s s' : SchedState) (hinv : flagInv s.processes s.done)
    (h : schedStep select s = some s') : flagInv s'.processes s'.done := by
  obtain ⟨-, hcase⟩ := schedStep_cases select s s' h
  rcases hcase with ⟨-, -, rfl⟩ | ⟨best, -, rfl⟩
  · exact hinv
  · obtain ⟨hlen, hok⟩ := hinv
    unfold schedDispatch
    refine ⟨by simp [hlen], ?_⟩
    intro i hi
    simp only [List.length_set] at hi
    by_cases hib : best = i
    · subst hib
      simp only []
      rw [getD_set_self _ _ _ _ hi, getD_set_self _ _ _ _ (by omega)]
      exact ⟨fun _ => metricsWrap_dispatch _ _, fun hf => by simp at hf⟩
    · simp only []
      rw [getD_set_other _ _ _ _ _ hib, getD_set_other _ _ _ _ _ hib]
      exact hok i hi

theorem flagInv_init (ps : List Process) (f : Process → Process)
    (hf : ∀ p, (f p).finishTime = -1) :
    flagInv (ps.map f) (List.replicate ps.length false) := by
  refine ⟨by simp, ?_⟩
  intro i hi
  simp only [List.length_map] at hi
  rw [getD_replicate_false, getD_map_of_lt f ps i default default hi]
  exact ⟨fun h => by simp at h, fun _ => hf _⟩

theorem metricsWrap_finishAt (t : Int) (p : Process) : metricsWrap (finishAt t p) := by
  unfold metricsWrap finishAt
  simp

theorem startIfUnset_fields (t : Int) (p : Process) :
    (startIfUnset t p).id = p.id ∧ (startIfUnset t p).arrivalTime = p.arrivalTime ∧
    (startIfUnset t p).burstTime = p.burstTime ∧
    (startIfUnset t p).priority = p.priority ∧
    (startIfUnset t p).initialPriority = p.initialPriority ∧
    (startIfUnset t p).remainingTime = p.remainingTime ∧
    (startIfUnset t p).finishTime = p.finishTime ∧
    (startIfUnset t p).waitingTime = p.waitingTime ∧
    (startIfUnset t p).turnaroundTime = p.turnaroundTime := by
  unfold startIfUnset
  split_ifs <;> simp

theorem consume_fields (r : Int) (p : Process) :
    (consume r p).id = p.id ∧ (consume r p).arrivalTime = p.arrivalTime ∧
    (consume r p).burstTime = p.burstTime ∧ (consume r p).priority = p.priority ∧
    (consume r p).initialPriority = p.initialPriority ∧
    (consume r p).remainingTime = p.remainingTime - r ∧
    (consume r p).startTime = p.startTime ∧
    (consume r p).finishTime = p.finishTime ∧
    (consume r p).waitingTime = p.waitingTime ∧
    (consume r p).turnaroundTime = p.turnaroundTime := by
  simp [consume]

/-- The shape of an iteration of `rrStep`. -/
theorem rrStep_cases (quantum : Int) (s s' : RRState) (h : rrStep quantum s = some s') :
    s.completed < s.processes.length ∧
    ∃ idx readyQueue inQueue currentTime,
      rrRefill s = some (idx :: readyQueue, inQueue, currentTime) ∧
      s' = rrRunSlice quantum s idx readyQueue inQueue currentTime := by
  unfold rrStep at h
  split_ifs at h with hc
  refine ⟨hc, ?_⟩
  split at h
  · cases h
  · cases h
  · rename_i idx rq iq t hre
    simp only [Option.some.injEq] at h
    exact ⟨idx, rq, iq, t, hre, h.symm⟩

theorem flagInv_rrRunSlice (quantum : Int) (s : RRState) (idx : Nat) (rq : List Nat)
    (iq : List Bool) (t : Int) (hinv : flagInv s.processes s.finished) :
    flagInv (rrRunSlice quantum s idx rq iq t).processes
      (rrRunSlice quantum s idx rq iq t).finished := by
  obtain ⟨hlen, hok⟩ := hinv
  obtain ⟨-, h2, h3, -, -, -, h7, h8, h9⟩ :=
    startIfUnset_fields t (s.processes.getD idx default)
  unfold rrRunSlice
  simp only []
  split_ifs with hz
  · refine ⟨by simp [hlen], ?_⟩
    intro i hi
    simp only [List.length_set] at hi
    by_cases hib : idx = i
    · subst hib
      rw [getD_set_self _ _ _ _ (by omega), getD_set_self _ _ _ _ (by simpa using hi)]
      exact ⟨fun _ => metricsWrap_finishAt _ _, fun hf => by simp at hf⟩
    · rw [getD_set_other _ _ _ _ _ hib, getD_set_other _ _ _ _ _ hib,
        getD_set_other _ _ _ _ _ hib]
      exact hok i hi
  · refine ⟨by simp [hlen], ?_⟩
    intro i hi
    simp only [List.length_set] at hi
    by_cases hib : idx = i
    · subst hib
      rw [getD_set_self _ _ _ _ hi]
      have := hok idx hi
      obtain ⟨-, c2, c3, -, -, -, -, c8, c9, c10⟩ := consume_fields
        (min quantum (startIfUnset t (s.processes.getD idx default)).remainingTime)
        (startIfUnset t (s.processes.getD idx default))
      unfold metricsWrap at this ⊢
      rw [c2, c3, c8, c9, c10, h2, h3, h7, h8, h9]
      exact this
    · rw [getD_set_other _ _ _ _ _ hib]
      exact hok i hi

theorem flagInv_rrStep (quantum : Int) (s s' : RRState)
    (hinv : flagInv s.processes s.finished) (h : rrStep quantum s = some s') :
    flagInv s'.processes s'.finished := by
  obtain ⟨-, idx, rq, iq, t, -, rfl⟩ := rrStep_cases quantum s s' h
  exact flagInv_rrRunSlice quantum s idx rq iq t hinv

/-- The shape of an iteration of `dynStep`. -/
theorem dynStep_cases (s s' : DynState) (h : dynStep s = some s') :
    s.completed < s.processes.length ∧
    (((dynSelect s.processes s.finished s.currentTime).1 = none ∧
        nextArrivalScan s.processes s.finished ≠ INT_MAX ∧
        s' = { s with currentTime := nextArrivalScan s.processes s.finished }) ∨
      ∃ best, (dynSelect s.processes s.finished s.currentTime).1 = some best ∧
        s' = dynRunStep s best) := by
  unfold dynStep at h
  split_ifs at h with hc
  refine ⟨hc, ?_⟩
  split at h
  · left
    rename_i hsel
    simp only [] at h
    split_ifs at h with hn
    simp only [Option.some.injEq] at h
    exact ⟨hsel, hn, h.symm⟩
  · right
    rename_i best hsel
    simp only [Option.some.injEq] at h
    exact ⟨best, hsel, h.symm⟩

theorem ageOne_fields (fin : List Bool) (best : Nat) (t : Int) (i : Nat) (p : Process) :
    (ageOne fin best t i p).id = p.id ∧ (ageOne fin best t i p).arrivalTime = p.arrivalTime ∧
    (ageOne fin best t i p).burstTime = p.burstTime ∧
    (ageOne fin best t i p).initialPriority = p.initialPriority ∧
    (ageOne fin best t i p).remainingTime = p.remainingTime ∧
    (ageOne fin best t i p).startTime = p.startTime ∧
    (ageOne fin best t i p).finishTime = p.finishTime ∧
    (ageOne fin best t i p).waitingTime = p.waitingTime ∧
    (ageOne fin best t i p).turnaroundTime = p.turnaroundTime := by
  unfold ageOne
  split_ifs <;> simp

theorem ageOne_best (fin : List Bool) (best : Nat) (t : Int) (p : Process) :
    ageOne fin best t best p = p := by
  simp [ageOne]

theorem ageOthers_length (ps : List Process) (fin : List Bool) (best : Nat) (t : Int) :
    (ageOthers ps fin best t).length = ps.length := by
  simp [ageOthers]

theorem ageOthers_getD (ps : List Process) (fin : List Bool) (best : Nat) (t : Int)
    (i : Nat) (hi : i < ps.length) :
    (ageOthers ps fin best t).getD i default = ageOne fin best t i (ps.getD i default) := by
  unfold ageOthers
  exact getD_mapIdx _ _ _ _ hi

theorem flagInv_dynRunStep (s : DynState) (best : Nat)
    (hinv : flagInv s.processes s.finished) :
    flagInv (dynRunStep s best).processes (dynRunStep s best).finished := by
  obtain ⟨hlen, hok⟩ := hinv
  obtain ⟨-, h2, h3, -, -, -, h7, h8, h9⟩ :=
    startIfUnset_fields s.currentTime (s.processes.getD best default)
  unfold dynRunStep
  simp only []
  split_ifs with hz
  · refine ⟨by simp [hlen, ageOthers_length], ?_⟩
    intro i hi
    simp only [List.length_set, ageOthers_length] at hi
    by_cases hib : best = i
    · subst hib
      rw [getD_set_self _ _ _ _ (by omega),
        getD_set_self _ _ _ _ (by simpa [ageOthers_length] using hi)]
      exact ⟨fun _ => metricsWrap_finishAt _ _, fun hf => by simp at hf⟩
    · rw [getD_set_other _ _ _ _ _ hib, getD_set_other _ _ _ _ _ hib,
        ageOthers_getD _ _ _ _ _ (by simpa using hi), getD_set_other _ _ _ _ _ hib]
      obtain ⟨-, a2, a3, -, -, -, a7, a8, a9⟩ :=
        ageOne_fields s.finished best (wrap32 (s.currentTime + 1)) i (s.processes.getD i default)
      have := hok i hi
      unfold metricsWrap at this ⊢
      simp only [a2, a3, a7, a8, a9]
      exact this
  · refine ⟨by simp [hlen, ageOthers_length], ?_⟩
    intro i hi
    simp only [List.length_set, ageOthers_length] at hi
    rw [ageOthers_getD _ _ _ _ _ (by simpa using hi)]
    obtain ⟨-, a2, a3, -, -, -, a7, a8, a9⟩ :=
      ageOne_fields s.finished best (wrap32 (s.currentTime + 1)) i
        ((s.processes.set best (consume 1
          (startIfUnset s.currentTime (s.processes.getD best default)))).getD i default)
    unfold metricsWrap
    simp only [a2, a3, a7, a8, a9]
    by_cases hib : best = i
    · subst hib
      rw [getD_set_self _ _ _ _ hi]
      have := hok best hi
      obtain ⟨-, c2, c3, -, -, -, -, c8, c9, c10⟩ := consume_fields 1
        (startIfUnset s.currentTime (s.processes.getD best default))
      unfold metricsWrap at this
      rw [c2, c3, c8, c9, c10, h2, h3, h7, h8, h9]
      exact this
    · rw [getD_set_other _ _ _ _ _ hib]
      exact hok i hi

theorem flagInv_dynStep (s s' : DynState) (hinv : flagInv s.processes s.finished)
    (h : dynStep s = some s') : flagInv s'.processes s'.finished := by
  obtain ⟨-, hcase⟩ := dynStep_cases s s' h
  rcases hcase with ⟨-, -, rfl⟩ | ⟨best, -, rfl⟩
  · exact hinv
  · exact flagInv_dynRunStep s best hinv

theorem flagInv_rows (processes : List Process) (flags : List Bool)
    (h : flagInv processes flags) :
    ∀ p ∈ processes, p.finishTime ≠ -1 → metricsWrap p := by
  intro p hp hfin
  obtain ⟨i, hi, hpi⟩ := List.mem_iff_getElem.mp hp
  have hget : processes.getD i default = p := by
    rw [List.getD_eq_getElem _ _ hi, hpi]
  obtain ⟨h1, h2⟩ := h.2 i hi
  rw [hget] at h1 h2
  cases hflag : flags.getD i false with
  | true => exact h1 hflag
  | false => exact absurd (h2 hflag) hfin

theorem resetRun_finishTime (p : Process) : (resetRun p).finishTime = -1 := rfl

theorem resetRunPriority_finishTime (p : Process) : (resetRunPriority p).finishTime = -1 := rfl

theorem flagInv_rr (ps : List Process) (quantum : Int) (k : Nat) :
    flagInv (iterate (rrStep quantum) k (rrInit ps)).processes
      (iterate (rrStep quantum) k (rrInit ps)).finished := by
  apply iterate_inv (rrStep quantum) (fun s => flagInv s.processes s.finished)
    (fun s s' => flagInv_rrStep quantum s s')
  have := flagInv_init ps resetRun resetRun_finishTime
  simpa [rrInit] using this

theorem flagInv_priority (ps : List Process) (k : Nat) :
    flagInv (iterate priorityStep k (priorityInit ps)).processes
      (iterate priorityStep k (priorityInit ps)).done := by
  apply iterate_inv priorityStep (fun s => flagInv s.processes s.done)
    (fun s s' => flagInv_schedStep prioritySelect s s')
  exact flagInv_init ps resetRunPriority resetRunPriority_finishTime

theorem flagInv_sjf (ps : List Process) (k : Nat) :
    flagInv (iterate sjfStep k (sjfInit ps)).processes
      (iterate sjfStep k (sjfInit ps)).done := by
  apply iterate_inv sjfStep (fun s => flagInv s.processes s.done)
    (fun s s' => flagInv_schedStep sjfSelect s s')
  exact flagInv_init ps resetRun resetRun_finishTime

theorem flagInv_dyn (ps : List Process) (k : Nat) :
    flagInv (iterate dynStep k (dynInit ps)).processes
      (iterate dynStep k (dynInit ps)).finished := by
  apply iterate_inv dynStep (fun s => flagInv s.processes s.finished)
    (fun s s' => flagInv_dynStep s s')
  exact flagInv_init ps resetRunPriority resetRunPriority_finishTime

theorem metricsWrap_fcfsBody (t : Int) (p : Process) : metricsWrap (fcfsBody t p) := by
  obtain ⟨-, h2, h3, -, -, h6, h7, h8⟩ := fcfsBody_fields t p
  unfold metricsWrap
  rw [h2, h3, h6, h7, h8]
  constructor
  · rfl
  · unfold wrap32
    omega

theorem fcfsLoop_mem (l : List Process) (t : Int) (tw tt : ℚ) :
    ∀ q ∈ (fcfsLoop l t tw tt).1, ∃ t' p, p ∈ l ∧ q = fcfsBody t' p := by
  induction l generalizing t tw tt with
  | nil => simp [fcfsLoop_rows_nil]
  | cons a rest ih =>
    intro q hq
    rw [fcfsLoop_rows_cons] at hq
    rcases List.mem_cons.mp hq with rfl | hq
    · exact ⟨t, a, List.mem_cons_self _ _, rfl⟩
    · obtain ⟨t', p, hp, hqp⟩ := ih _ _ _ q hq
      exact ⟨t', p, List.mem_cons_of_mem _ hp, hqp⟩

theorem fcfs_rows_metricsWrap (ps : List Process) :
    ∀ p ∈ (simulateFCFS ps).2, metricsWrap p := by
  intro p hp
  rw [simulateFCFS_rows] at hp
  obtain ⟨t', q, -, rfl⟩ := fcfsLoop_mem _ 0 0 0 p hp
  exact metricsWrap_fcfsBody t' q

/-- The rows that `simulateRoundRobin` returns are the processes of the state in which
the main loop is left. -/
theorem simulateRoundRobin_rows (fuel : Nat) (ps : List Process) (quantum : Int)
    (r : RRResult) (h : simulateRoundRobin fuel ps quantum = some r) :
    r.rows = [] ∨ (runLoop (rrStep quantum) fuel (rrInit ps)).map
      (fun s => (s.processes, s.log)) = some (r.rows, r.log) := by
  unfold simulateRoundRobin at h
  simp only [] at h
  split_ifs at h with h0 hq
  · left
    cases h
    rfl
  · left
    cases h
    rfl
  · right
    cases hl : runLoop (rrStep quantum) fuel (rrInit ps) with
    | none => simp [hl] at h
    | some st =>
      simp only [hl, Option.some.injEq] at h
      subst h
      rfl

theorem simulatePriority_rows (fuel : Nat) (ps : List Process)
    (r : ResultSummary × List Process) (h : simulatePriority fuel ps = some r) :
    r.2 = [] ∨ (runLoop priorityStep fuel (priorityInit ps)).map
      (fun s => s.processes) = some r.2 := by
  unfold simulatePriority at h
  simp only [] at h
  split_ifs at h with h0
  · left
    cases h
    rfl
  · right
    cases hl : runLoop priorityStep fuel (priorityInit ps) with
    | none => simp [hl] at h
    | some st =>
      simp only [hl, Option.some.injEq] at h
      subst h
      rfl

theorem simulateSJF_rows (fuel : Nat) (ps : List Process)
    (r : ResultSummary × List Process) (h : simulateSJF fuel ps = some r) :
    r.2 = [] ∨ (runLoop sjfStep fuel (sjfInit ps)).map
      (fun s => s.processes) = some r.2 := by
  unfold simulateSJF at h
  simp only [] at h
  split_ifs at h with h0 he
  · left
    cases h
    rfl
  · left
    cases h
    rfl
  · right
    cases hl : runLoop sjfStep fuel (sjfInit ps) with
    | none => simp [hl] at h
    | some st =>
      simp only [hl, Option.some.injEq] at h
      subst h
      rfl

theorem simulateDynamicPriority_rows (fuel : Nat) (ps : List Process)
    (r : DynResult) (h : simulateDynamicPriority fuel ps = some r) :
    r.rows = [] ∨ (runLoop dynStep fuel (dynInit ps)).map
      (fun s => (s.processes, s.log)) = some (r.rows, r.log) := by
  unfold simulateDynamicPriority at h
  simp only [] at h
  split_ifs at h with h0 he
  · left
    cases h
    rfl
  · left
    cases h
    rfl
  · right
    cases hl : runLoop dynStep fuel (dynInit ps) with
    | none => simp [hl] at h
    | some st =>
      simp only [hl, Option.some.injEq] at h
      subst h
      rfl

/-- Every process that an engine marks as completed has, in `int` arithmetic,
`turnaroundTime = finishTime - arrivalTime` and `waitingTime = turnaroundTime - burstTime`.
For `simulateFCFS` this holds of every row.  For `simulateRoundRobin` (any quantum),
`simulatePriority`, `simulateSJF` and `simulateDynamicPriority` it holds after any number
`k` of iterations of the main loop of every process whose completion flag is set, while a
process whose flag is not set has `finishTime = -1`; so it holds of every row with a
`finishTime` set that the engine returns.  No condition on the input list is needed. -/
theorem completed_wrapped (ps : List Process) (quantum : Int) :
    (∀ p ∈ (simulateFCFS ps).2, metricsWrap p) ∧
    (∀ k, flaggedOk (iterate (rrStep quantum) k (rrInit ps)).processes
      (iterate (rrStep quantum) k (rrInit ps)).finished) ∧
    (∀ k, flaggedOk (iterate priorityStep k (priorityInit ps)).processes
      (iterate priorityStep k (priorityInit ps)).done) ∧
    (∀ k, flaggedOk (iterate sjfStep k (sjfInit ps)).processes
      (iterate sjfStep k (sjfInit ps)).done) ∧
    (∀ k, flaggedOk (iterate dynStep k (dynInit ps)).processes
      (iterate dynStep k (dynInit ps)).finished) ∧
    (∀ fuel r, simulateRoundRobin fuel ps quantum = some r →
      ∀ p ∈ r.rows, p.finishTime ≠ -1 → metricsWrap p) ∧
    (∀ fuel r, simulatePriority fuel ps = some r →
      ∀ p ∈ r.2, p.finishTime ≠ -1 → metricsWrap p) ∧
    (∀ fuel r, simulateSJF fuel ps = some r →
      ∀ p ∈ r.2, p.finishTime ≠ -1 → metricsWrap p) ∧
    (∀ fuel r, simulateDynamicPriority fuel ps = some r →
      ∀ p ∈ r.rows, p.finishTime ≠ -1 → metricsWrap p) := by
  refine ⟨fcfs_rows_metricsWrap ps, fun k => (flagInv_rr ps quantum k).2,
    fun k => (flagInv_priority ps k).2, fun k => (flagInv_sjf ps k).2,
    fun k => (flagInv_dyn ps k).2, ?_, ?_, ?_, ?_⟩
  · intro fuel r h
    rcases simulateRoundRobin_rows fuel ps quantum r h with h0 | hl
    · rw [h0]
      intro p hp
      cases hp
    · cases hs : runLoop (rrStep quantum) fuel (rrInit ps) with
      | none => simp [hs] at hl
      | some st =>
        simp only [hs, Option.map_some', Option.some.injEq, Prod.mk.injEq] at hl
        have := flagInv_rr ps quantum fuel
        rw [← (runLoop_eq_iterate _ fuel _ st hs).1, hl.1] at this
        exact flagInv_rows _ _ this
  · intro fuel r h
    rcases simulatePriority_rows fuel ps r h with h0 | hl
    · rw [h0]
      intro p hp
      cases hp
    · cases hs : runLoop priorityStep fuel (priorityInit ps) with
      | none => simp [hs] at hl
      | some st =>
        simp only [hs, Option.map_some', Option.some.injEq] at hl
        have := flagInv_priority ps fuel
        rw [← (runLoop_eq_iterate _ fuel _ st hs).1, hl] at this
        exact flagInv_rows _ _ this
  · intro fuel r h
    rcases simulateSJF_rows fuel ps r h with h0 | hl
    · rw [h0]
      intro p hp
      cases hp
    · cases hs : runLoop sjfStep fuel (sjfInit ps) with
      | none => simp [hs] at hl
      | some st =>
        simp only [hs, Option.map_some', Option.some.injEq] at hl
        have := flagInv_sjf ps fuel
        rw [← (runLoop_eq_iterate _ fuel _ st hs).1, hl] at this
        exact flagInv_rows _ _ this
  · intro fuel r h
    rcases simulateDynamicPriority_rows fuel ps r h with h0 | hl
    · rw [h0]
      intro p hp
      cases hp
    · cases hs : runLoop dynStep fuel (dynInit ps) with
      | none => simp [hs] at hl
      | some st =>
        simp only [hs, Option.map_some', Option.some.injEq, Prod.mk.injEq] at hl
        have := flagInv_dyn ps fuel
        rw [← (runLoop_eq_iterate _ fuel _ st hs).1, hl.1] at this
        exact flagInv_rows _ _ this

/-! ## The scans -/

theorem foldl_range_succ {β : Type} (f : β → Nat → β) (init : β) (m : Nat) :
    (List.range (m + 1)).foldl f init = f ((List.range m).foldl f init) m := by
  rw [List.range_succ, List.foldl_append]
  rfl

/-- Loop-invariant rule for a `for (i = 0; i < m; ++i)` loop. -/
theorem foldl_range_induction {β : Type} (f : β → Nat → β) (init : β)
    (P : Nat → β → Prop) (h0 : P 0 init)
    (hs : ∀ m acc, P m acc → P (m + 1) (f acc m)) :
    ∀ m, P m ((List.range m).foldl f init) := by
  intro m
  induction m with
  | zero => exact h0
  | succ m ih =>
    rw [foldl_range_succ]
    exact hs m _ ih

/-- What `prioritySelect` returns: nothing only if every ready process has a priority of
`INT_MAX` or more; otherwise a ready process of least priority, the first such one. -/
theorem prioritySelect_spec (ps : List Process) (done : List Bool) (t : Int) :
    ((prioritySelect ps done t).1 = none →
      ∀ i, i < ps.length → isReady ps done t i → INT_MAX ≤ (ps.getD i default).priority) ∧
    (∀ a, (prioritySelect ps done t).1 = some a →
      a < ps.length ∧ isReady ps done t a ∧ (ps.getD a default).priority < INT_MAX ∧
      ∀ i, i < ps.length → isReady ps done t i →
        (ps.getD a default).priority < (ps.getD i default).priority ∨
        ((ps.getD a default).priority = (ps.getD i default).priority ∧ a ≤ i)) := by
  have key := foldl_range_induction (prioritySelectBody ps done t) (none, INT_MAX)
    (fun m acc =>
      (acc.1 = none → acc.2 = INT_MAX ∧
        ∀ i, i < m → isReady ps done t i → INT_MAX ≤ (ps.getD i default).priority) ∧
      (∀ a, acc.1 = some a →
        a < m ∧ isReady ps done t a ∧ acc.2 = (ps.getD a default).priority ∧
        (ps.getD a default).priority < INT_MAX ∧
        ∀ i, i < m → isReady ps done t i →
          (ps.getD a default).priority < (ps.getD i default).priority ∨
          ((ps.getD a default).priority = (ps.getD i default).priority ∧ a ≤ i)))
    ?_ ?_ ps.length
  · unfold prioritySelect
    refine ⟨fun h => (key.1 h).2, fun a h => ?_⟩
    obtain ⟨h1, h2, -, h4, h5⟩ := key.2 a h
    exact ⟨h1, h2, h4, h5⟩
  · constructor
    · intro _
      exact ⟨rfl, fun i hi => absurd hi (Nat.not_lt_zero i)⟩
    · intro a h
      cases h
  · rintro m ⟨best, bp⟩ ⟨hnone, hsome⟩
    unfold prioritySelectBody
    by_cases hr : done.getD m false = false ∧ (ps.getD m default).arrivalTime ≤ t
    · rw [if_pos hr]
      by_cases hlt : (ps.getD m default).priority < bp
      · rw [if_pos hlt]
        refine ⟨fun h => (nomatch h), fun a h => ?_⟩
        simp only [Option.some.injEq] at h
        subst h
        refine ⟨Nat.lt_succ_self _, hr, rfl, ?_, ?_⟩
        · cases best with
          | none =>
            have := (hnone rfl).1
            simp only [] at this
            omega
          | some b =>
            obtain ⟨-, -, h3, h4, -⟩ := hsome b rfl
            simp only [] at h3
            omega
        · intro i hi hri
          rcases Nat.lt_succ_iff_lt_or_eq.mp hi with hi' | rfl
          · cases best with
            | none =>
              have h1 := (hnone rfl).1
              have h2 := (hnone rfl).2 i hi' hri
              simp only [] at h1
              left
              omega
            | some b =>
              obtain ⟨-, -, h3, -, h5⟩ := hsome b rfl
              simp only [] at h3
              have := h5 i hi' hri
              left
              omega
          · right
            exact ⟨rfl, le_refl _⟩
      · rw [if_neg hlt]
        refine ⟨fun h => ?_, fun a h => ?_⟩
        · obtain ⟨h1, h2⟩ := hnone h
          refine ⟨h1, fun i hi hri => ?_⟩
          rcases Nat.lt_succ_iff_lt_or_eq.mp hi with hi' | rfl
          · exact h2 i hi' hri
          · simp only [] at h1
            omega
        · obtain ⟨h1, h2, h3, h4, h5⟩ := hsome a h
          refine ⟨Nat.lt_succ_of_lt h1, h2, h3, h4, fun i hi hri => ?_⟩
          rcases Nat.lt_succ_iff_lt_or_eq.mp hi with hi' | rfl
          · exact h5 i hi' hri
          · simp only [] at h3
            have : a ≤ i := Nat.le_of_lt h1
            omega
    · rw [if_neg hr]
      refine ⟨fun h => ?_, fun a h => ?_⟩
      · obtain ⟨h1, h2⟩ := hnone h
        refine ⟨h1, fun i hi hri => ?_⟩
        rcases Nat.lt_succ_iff_lt_or_eq.mp hi with hi' | rfl
        · exact h2 i hi' hri
        · exact absurd hri hr
      · obtain ⟨h1, h2, h3, h4, h5⟩ := hsome a h
        refine ⟨Nat.lt_succ_of_lt h1, h2, h3, h4, fun i hi hri => ?_⟩
        rcases Nat.lt_succ_iff_lt_or_eq.mp hi with hi' | rfl
        · exact h5 i hi' hri
        · exact absurd hri hr

/-- What `sjfSelect` returns: nothing only if every ready process has a burst time of
`INT_MAX` or more; otherwise a ready process that is least for `(burstTime, id)`. -/
theorem sjfSelect_spec (ps : List Process) (done : List Bool) (t : Int) :
    ((sjfSelect ps done t).1 = none →
      ∀ i, i < ps.length → isReady ps done t i → INT_MAX ≤ (ps.getD i default).burstTime) ∧
    (∀ a, (sjfSelect ps done t).1 = some a →
      a < ps.length ∧ isReady ps done t a ∧ (ps.getD a default).burstTime < INT_MAX ∧
      ∀ i, i < ps.length → isReady ps done t i →
        (ps.getD a default).burstTime < (ps.getD i default).burstTime ∨
        ((ps.getD a default).burstTime = (ps.getD i default).burstTime ∧
          (ps.getD a default).id ≤ (ps.getD i default).id)) := by
  have key := foldl_range_induction (sjfSelectBody ps done t) (none, INT_MAX)
    (fun m acc =>
      (acc.1 = none → acc.2 = INT_MAX ∧
        ∀ i, i < m → isReady ps done t i → INT_MAX ≤ (ps.getD i default).burstTime) ∧
      (∀ a, acc.1 = some a →
        a < m ∧ isReady ps done t a ∧ acc.2 = (ps.getD a default).burstTime ∧
        (ps.getD a default).burstTime < INT_MAX ∧
        ∀ i, i < m → isReady ps done t i →
          (ps.getD a default).burstTime < (ps.getD i default).burstTime ∨
          ((ps.getD a default).burstTime = (ps.getD i default).burstTime ∧
            (ps.getD a default).id ≤ (ps.getD i default).id)))
    ?_ ?_ ps.length
  · unfold sjfSelect
    refine ⟨fun h => (key.1 h).2, fun a h => ?_⟩
    obtain ⟨h1, h2, -, h4, h5⟩ := key.2 a h
    exact ⟨h1, h2, h4, h5⟩
  · constructor
    · intro _
      exact ⟨rfl, fun i hi => absurd hi (Nat.not_lt_zero i)⟩
    · intro a h
      cases h
  · rintro m ⟨best, bp⟩ ⟨hnone, hsome⟩
    have keep : (best = none → bp < (ps.getD m default).burstTime ∨
          bp = (ps.getD m default).burstTime ∨ ¬ isReady ps done t m) →
        (∀ b, best = some b → ¬ isReady ps done t m ∨
          (ps.getD b default).burstTime < (ps.getD m default).burstTime ∨
          ((ps.getD b default).burstTime = (ps.getD m default).burstTime ∧
            (ps.getD b default).id ≤ (ps.getD m default).id)) →
        ((best, bp).1 = none → (best, bp).2 = INT_MAX ∧
          ∀ i, i < m + 1 → isReady ps done t i → INT_MAX ≤ (ps.getD i default).burstTime) ∧
        (∀ a, (best, bp).1 = some a →
          a < m + 1 ∧ isReady ps done t a ∧ (best, bp).2 = (ps.getD a default).burstTime ∧
          (ps.getD a default).burstTime < INT_MAX ∧
          ∀ i, i < m + 1 → isReady ps done t i →
            (ps.getD a default).burstTime < (ps.getD i default).burstTime ∨
            ((ps.getD a default).burstTime = (ps.getD i default).burstTime ∧
              (ps.getD a default).id ≤ (ps.getD i default).id)) := by
      intro hk1 hk2
      refine ⟨fun h => ?_, fun a h => ?_⟩
      · obtain ⟨h1, h2⟩ := hnone h
        refine ⟨h1, fun i hi hri => ?_⟩
        rcases Nat.lt_succ_iff_lt_or_eq.mp hi with hi' | rfl
        · exact h2 i hi' hri
        · simp only [] at h1 h
          rcases hk1 h with h3 | h3 | h3
          · omega
          · omega
          · exact absurd hri h3
      · obtain ⟨h1, h2, h3, h4, h5⟩ := hsome a h
        refine ⟨Nat.lt_succ_of_lt h1, h2, h3, h4, fun i hi hri => ?_⟩
        rcases Nat.lt_succ_iff_lt_or_eq.mp hi with hi' | rfl
        · exact h5 i hi' hri
        · simp only [] at h
          rcases hk2 a h with h6 | h6
          · exact absurd hri h6
          · exact h6
    unfold sjfSelectBody
    by_cases hr : done.getD m false = false ∧ (ps.getD m default).arrivalTime ≤ t
    · rw [if_pos hr]
      by_cases hlt : (ps.getD m default).burstTime < bp
      · rw [if_pos hlt]
        refine ⟨fun h => (nomatch h), fun a h => ?_⟩
        simp only [Option.some.injEq] at h
        subst h
        refine ⟨Nat.lt_succ_self _, hr, rfl, ?_, ?_⟩
        · cases best with
          | none =>
            have := (hnone rfl).1
            simp only [] at this
            omega
          | some b =>
            obtain ⟨-, -, h3, h4, -⟩ := hsome b rfl
            simp only [] at h3
            omega
        · intro i hi hri
          rcases Nat.lt_succ_iff_lt_or_eq.mp hi with hi' | rfl
          · cases best with
            | none =>
              have h1 := (hnone rfl).1
              have h2 := (hnone rfl).2 i hi' hri
              simp only [] at h1
              left
              omega
            | some b =>
              obtain ⟨-, -, h3, -, h5⟩ := hsome b rfl
              simp only [] at h3
              have := h5 i hi' hri
              left
              omega
          · right
            exact ⟨rfl, le_refl _⟩
      · rw [if_neg hlt]
        by_cases heq : (ps.getD m default).burstTime = bp
        · rw [if_pos heq]
          cases best with
          | none =>
            exact keep (fun _ => Or.inr (Or.inl heq.symm)) (fun b hb => nomatch hb)
          | some b =>
            obtain ⟨hb1, hb2, hb3, hb4, hb5⟩ := hsome b rfl
            simp only [] at hb3
            simp only []
            by_cases hid : (ps.getD m default).id < (ps.getD b default).id
            · rw [if_pos hid]
              refine ⟨fun h => (nomatch h), fun a h => ?_⟩
              simp only [Option.some.injEq] at h
              subst h
              refine ⟨Nat.lt_succ_self _, hr, heq.symm, by omega, ?_⟩
              intro i hi hri
              rcases Nat.lt_succ_iff_lt_or_eq.mp hi with hi' | rfl
              · have := hb5 i hi' hri
                omega
              · right
                exact ⟨rfl, le_refl _⟩
            · rw [if_neg hid]
              refine keep (fun h => nomatch h) (fun b' hb' => ?_)
              simp only [Option.some.injEq] at hb'
              subst hb'
              right
              right
              omega
        · rw [if_neg heq]
          refine keep (fun h => ?_) (fun b hb => ?_)
          · left
            omega
          · obtain ⟨-, -, h3, -, -⟩ := hsome b hb
            simp only [] at h3
            right
            left
            omega
    · rw [if_neg hr]
      exact keep (fun _ => Or.inr (Or.inr hr)) (fun b _ => Or.inl hr)

/-- What `dynSelect` returns: nothing only if every runnable process has a priority of
`INT_MAX` or more; otherwise a runnable process of least priority, the first such one. -/
theorem dynSelect_spec (ps : List Process) (fin : List Bool) (t : Int) :
    ((dynSelect ps fin t).1 = none →
      ∀ i, i < ps.length → isRunnable ps fin t i → INT_MAX ≤ (ps.getD i default).priority) ∧
    (∀ a, (dynSelect ps fin t).1 = some a →
      a < ps.length ∧ isRunnable ps fin t a ∧ (ps.getD a default).priority < INT_MAX ∧
      ∀ i, i < ps.length → isRunnable ps fin t i →
        (ps.getD a default).priority < (ps.getD i default).priority ∨
        ((ps.getD a default).priority = (ps.getD i default).priority ∧ a ≤ i)) := by
  have key := foldl_range_induction (dynSelectBody ps fin t) (none, INT_MAX)
    (fun m acc =>
      (acc.1 = none → acc.2 = INT_MAX ∧
        ∀ i, i < m → isRunnable ps fin t i → INT_MAX ≤ (ps.getD i default).priority) ∧
      (∀ a, acc.1 = some a →
        a < m ∧ isRunnable ps fin t a ∧ acc.2 = (ps.getD a default).priority ∧
        (ps.getD a default).priority < INT_MAX ∧
        ∀ i, i < m → isRunnable ps fin t i →
          (ps.getD a default).priority < (ps.getD i default).priority ∨
          ((ps.getD a default).priority = (ps.getD i default).priority ∧ a ≤ i)))
    ?_ ?_ ps.length
  · unfold dynSelect
    refine ⟨fun h => (key.1 h).2, fun a h => ?_⟩
    obtain ⟨h1, h2, -, h4, h5⟩ := key.2 a h
    exact ⟨h1, h2, h4, h5⟩
  · constructor
    · intro _
      exact ⟨rfl, fun i hi => absurd hi (Nat.not_lt_zero i)⟩
    · intro a h
      cases h
  · rintro m ⟨best, bp⟩ ⟨hnone, hsome⟩
    unfold dynSelectBody
    by_cases hr : fin.getD m false = false ∧ (ps.getD m default).arrivalTime ≤ t ∧
        (ps.getD m default).remainingTime > 0
    · rw [if_pos hr]
      by_cases hlt : (ps.getD m default).priority < bp
      · rw [if_pos hlt]
        refine ⟨fun h => (nomatch h), fun a h => ?_⟩
        simp only [Option.some.injEq] at h
        subst h
        refine ⟨Nat.lt_succ_self _, hr, rfl, ?_, ?_⟩
        · cases best with
          | none =>
            have := (hnone rfl).1
            simp only [] at this
            omega
          | some b =>
            obtain ⟨-, -, h3, h4, -⟩ := hsome b rfl
            simp only [] at h3
            omega
        · intro i hi hri
          rcases Nat.lt_succ_iff_lt_or_eq.mp hi with hi' | rfl
          · cases best with
            | none =>
              have h1 := (hnone rfl).1
              have h2 := (hnone rfl).2 i hi' hri
              simp only [] at h1
              left
              omega
            | some b =>
              obtain ⟨-, -, h3, -, h5⟩ := hsome b rfl
              simp only [] at h3
              have := h5 i hi' hri
              left
              omega
          · right
            exact ⟨rfl, le_refl _⟩
      · rw [if_neg hlt]
        refine ⟨fun h => ?_, fun a h => ?_⟩
        · obtain ⟨h1, h2⟩ := hnone h
          refine ⟨h1, fun i hi hri => ?_⟩
          rcases Nat.lt_succ_iff_lt_or_eq.mp hi with hi' | rfl
          · exact h2 i hi' hri
          · simp only [] at h1
            omega
        · obtain ⟨h1, h2, h3, h4, h5⟩ := hsome a h
          refine ⟨Nat.lt_succ_of_lt h1, h2, h3, h4, fun i hi hri => ?_⟩
          rcases Nat.lt_succ_iff_lt_or_eq.mp hi with hi' | rfl
          · exact h5 i hi' hri
          · simp only [] at h3
            have : a ≤ i := Nat.le_of_lt h1
            omega
    · rw [if_neg hr]
      refine ⟨fun h => ?_, fun a h => ?_⟩
      · obtain ⟨h1, h2⟩ := hnone h
        refine ⟨h1, fun i hi hri => ?_⟩
        rcases Nat.lt_succ_iff_lt_or_eq.mp hi with hi' | rfl
        · exact h2 i hi' hri
        · exact absurd hri hr
      · obtain ⟨h1, h2, h3, h4, h5⟩ := hsome a h
        refine ⟨Nat.lt_succ_of_lt h1, h2, h3, h4, fun i hi hri => ?_⟩
        rcases Nat.lt_succ_iff_lt_or_eq.mp hi with hi' | rfl
        · exact h5 i hi' hri
        · exact absurd hri hr

/-- What `nextArrivalScan` returns: the least arrival time below `INT_MAX` of a process
whose flag is not set, and `INT_MAX` when there is none. -/
theorem nextArrivalScan_spec (ps : List Process) (done : List Bool) :
    nextArrivalScan ps done ≤ INT_MAX ∧
    (∀ i, i < ps.length → done.getD i false = false →
      nextArrivalScan ps done ≤ (ps.getD i default).arrivalTime) ∧
    (nextArrivalScan ps done = INT_MAX ∨
      ∃ i, i < ps.length ∧ done.getD i false = false ∧
        (ps.getD i default).arrivalTime = nextArrivalScan ps done) := by
  have key := foldl_range_induction (nextArrivalBody ps done) INT_MAX
    (fun m acc =>
      acc ≤ INT_MAX ∧
      (∀ i, i < m → done.getD i false = false → acc ≤ (ps.getD i default).arrivalTime) ∧
      (acc = INT_MAX ∨
        ∃ i, i < m ∧ done.getD i false = false ∧ (ps.getD i default).arrivalTime = acc))
    ?_ ?_ ps.length
  · unfold nextArrivalScan
    exact key
  · exact ⟨le_refl _, fun i hi => absurd hi (Nat.not_lt_zero i), Or.inl rfl⟩
  · rintro m acc ⟨h1, h2, h3⟩
    unfold nextArrivalBody
    by_cases hr : done.getD m false = false ∧ (ps.getD m default).arrivalTime < acc
    · rw [if_pos hr]
      refine ⟨by omega, fun i hi hd => ?_, Or.inr ⟨m, Nat.lt_succ_self _, hr.1, rfl⟩⟩
      rcases Nat.lt_succ_iff_lt_or_eq.mp hi with hi' | rfl
      · have := h2 i hi' hd
        omega
      · exact le_refl _
    · rw [if_neg hr]
      refine ⟨h1, fun i hi hd => ?_, ?_⟩
      · rcases Nat.lt_succ_iff_lt_or_eq.mp hi with hi' | rfl
        · exact h2 i hi' hd
        · by_contra hc
          exact hr ⟨hd, by omega⟩
      · rcases h3 with h3 | ⟨i, hi, hd, he⟩
        · exact Or.inl h3
        · exact Or.inr ⟨i, Nat.lt_succ_of_lt hi, hd, he⟩

/-- What `earliestArrivalScan` returns: the least arrival time below `INT_MAX` of a
process, and `INT_MAX` when there is none. -/
theorem earliestArrivalScan_spec (ps : List Process) :
    earliestArrivalScan ps ≤ INT_MAX ∧
    (∀ i, i < ps.length → earliestArrivalScan ps ≤ (ps.getD i default).arrivalTime) ∧
    (earliestArrivalScan ps = INT_MAX ∨
      ∃ i, i < ps.length ∧ (ps.getD i default).arrivalTime = earliestArrivalScan ps) := by
  have key := foldl_range_induction (earliestArrivalBody ps) INT_MAX
    (fun m acc =>
      acc ≤ INT_MAX ∧
      (∀ i, i < m → acc ≤ (ps.getD i default).arrivalTime) ∧
      (acc = INT_MAX ∨ ∃ i, i < m ∧ (ps.getD i default).arrivalTime = acc))
    ?_ ?_ ps.length
  · unfold earliestArrivalScan
    exact key
  · exact ⟨le_refl _, fun i hi => absurd hi (Nat.not_lt_zero i), Or.inl rfl⟩
  · rintro m acc ⟨h1, h2, h3⟩
    unfold earliestArrivalBody
    by_cases hr : (ps.getD m default).arrivalTime < acc
    · rw [if_pos hr]
      refine ⟨by omega, fun i hi => ?_, Or.inr ⟨m, Nat.lt_succ_self _, rfl⟩⟩
      rcases Nat.lt_succ_iff_lt_or_eq.mp hi with hi' | rfl
      · have := h2 i hi'
        omega
      · exact le_refl _
    · rw [if_neg hr]
      refine ⟨h1, fun i hi => ?_, ?_⟩
      · rcases Nat.lt_succ_iff_lt_or_eq.mp hi with hi' | rfl
        · exact h2 i hi'
        · omega
      · rcases h3 with h3 | ⟨i, hi, he⟩
        · exact Or.inl h3
        · exact Or.inr ⟨i, Nat.lt_succ_of_lt hi, he⟩

/-! ## The working list keeps the descriptors of the input list -/

theorem tracksBy_set (R : Process → Process → Prop) (ps l : List Process)
    (h : tracksBy R ps l) (i : Nat) (p' : Process)
    (hp : i < ps.length → R (ps.getD i default) p') : tracksBy R ps (l.set i p') := by
  obtain ⟨hlen, hr⟩ := h
  refine ⟨by simp [hlen], fun j hj => ?_⟩
  by_cases hij : i = j
  · subst hij
    rw [getD_set_self _ _ _ _ (by omega)]
    exact hp hj
  · rw [getD_set_other _ _ _ _ _ hij]
    exact hr j hj

theorem tracksBy_map (R : Process → Process → Prop) (ps : List Process)
    (f : Process → Process) (hf : ∀ q, R q (f q)) : tracksBy R ps (ps.map f) := by
  refine ⟨by simp, fun i hi => ?_⟩
  rw [getD_map_of_lt f ps i default default hi]
  exact hf _

theorem dispatch_fields (t : Int) (p : Process) :
    (dispatch t p).id = p.id ∧ (dispatch t p).arrivalTime = p.arrivalTime ∧
    (dispatch t p).burstTime = p.burstTime ∧ (dispatch t p).priority = p.priority ∧
    (dispatch t p).initialPriority = p.initialPriority ∧
    (dispatch t p).remainingTime = p.remainingTime ∧
    (dispatch t p).startTime = t ∧
    (dispatch t p).finishTime = wrap32 (t + p.burstTime) := by
  simp [dispatch]

theorem samePriority_dispatch (q p : Process) (t : Int) (h : samePriority q p) :
    samePriority q (dispatch t p) := by
  obtain ⟨h1, h2, h3, h4, h5, -⟩ := dispatch_fields t p
  unfold samePriority descriptor at h ⊢
  rw [h1, h2, h3, h4, h5]
  exact h

theorem sameDescriptor_dispatch (q p : Process) (t : Int) (h : sameDescriptor q p) :
    sameDescriptor q (dispatch t p) := by
  obtain ⟨h1, h2, h3, -, h5, -⟩ := dispatch_fields t p
  unfold sameDescriptor descriptor at h ⊢
  rw [h1, h2, h3, h5]
  exact h

theorem tracksBy_schedStep (R : Process → Process → Prop)
    (hR : ∀ q p t, R q p → R q (dispatch t p))
    (select : List Process → List Bool → Int → Option Nat × Int) (ps : List Process)
    (s s' : SchedState) (hinv : tracksBy R ps s.processes)
    (h : schedStep select s = some s') : tracksBy R ps s'.processes := by
  obtain ⟨-, hcase⟩ := schedStep_cases select s s' h
  rcases hcase with ⟨-, -, rfl⟩ | ⟨best, -, rfl⟩
  · exact hinv
  · unfold schedDispatch
    exact tracksBy_set R ps _ hinv best _ (fun hb => hR _ _ _ (hinv.2 best hb))

theorem samePriority_priority (ps : List Process) (k : Nat) :
    tracksBy samePriority ps (iterate priorityStep k (priorityInit ps)).processes := by
  apply iterate_inv priorityStep (fun s => tracksBy samePriority ps s.processes)
    (fun s s' => tracksBy_schedStep samePriority samePriority_dispatch prioritySelect ps s s')
  exact tracksBy_map samePriority ps resetRunPriority (fun q => ⟨rfl, rfl⟩)

theorem sameDescriptor_sjf (ps : List Process) (k : Nat) :
    tracksBy sameDescriptor ps (iterate sjfStep k (sjfInit ps)).processes := by
  apply iterate_inv sjfStep (fun s => tracksBy sameDescriptor ps s.processes)
    (fun s s' => tracksBy_schedStep sameDescriptor sameDescriptor_dispatch sjfSelect ps s s')
  exact tracksBy_map sameDescriptor ps resetRun (fun q => rfl)

/-! ## The dispatch rules of Priority and SJF -/

/-- C8. `simulatePriority` dispatches by numerically smallest `initialPriority`, with
ties broken by position in the input list: whenever an iteration of the main loop (the
one entered after `k` iterations) dispatches the process at position `a`, it starts it at
the current clock, `a` was ready, and every other process `b` ready at that moment (not
dispatched yet, arrived by the clock, which is the `startTime` of `a`) has a larger
`initialPriority`, or the same one and a later position in the input list.  No condition
on the list is needed. -/
theorem priority_dispatch_rule (ps : List Process) (k a : Nat)
    (ha : priorityDispatches (iterate priorityStep k (priorityInit ps)) = some a) :
    priorityStep (iterate priorityStep k (priorityInit ps)) =
      some (schedDispatch (iterate priorityStep k (priorityInit ps)) a) ∧
    ((schedDispatch (iterate priorityStep k (priorityInit ps)) a).processes.getD a
      default).startTime = (iterate priorityStep k (priorityInit ps)).currentTime ∧
    a < ps.length ∧
    (iterate priorityStep k (priorityInit ps)).done.getD a false = false ∧
    (ps.getD a default).arrivalTime ≤ (iterate priorityStep k (priorityInit ps)).currentTime ∧
    ∀ b, b < ps.length → b ≠ a →
      (iterate priorityStep k (priorityInit ps)).done.getD b false = false →
      (ps.getD b default).arrivalTime ≤
        (iterate priorityStep k (priorityInit ps)).currentTime →
      (ps.getD a default).initialPriority < (ps.getD b default).initialPriority ∨
      ((ps.getD a default).initialPriority = (ps.getD b default).initialPriority ∧ a < b) := by
  have htr := samePriority_priority ps k
  generalize iterate priorityStep k (priorityInit ps) = s at ha htr ⊢
  obtain ⟨hlen, hrel⟩ := htr
  unfold priorityDispatches at ha
  split_ifs at ha with hc
  obtain ⟨h1, h2, -, h4⟩ := (prioritySelect_spec s.processes s.done s.currentTime).2 a ha
  rw [hlen] at h1
  have hdesc : ∀ i, i < ps.length →
      (s.processes.getD i default).arrivalTime = (ps.getD i default).arrivalTime ∧
      (s.processes.getD i default).priority = (ps.getD i default).initialPriority := by
    intro i hi
    obtain ⟨hd, hp⟩ := hrel i hi
    simp only [descriptor, Prod.mk.injEq] at hd
    exact ⟨hd.2.1, hp⟩
  refine ⟨?_, ?_, h1, h2.1, ?_, ?_⟩
  · unfold priorityStep schedStep
    rw [if_pos hc, ha]
  · unfold schedDispatch
    simp only []
    rw [getD_set_self _ _ _ _ (by omega)]
    exact (dispatch_fields _ _).2.2.2.2.2.2.1
  · rw [← (hdesc a h1).1]
    exact h2.2
  · intro b hb hba hdone harr
    have := h4 b (by omega) ⟨hdone, by rw [(hdesc b hb).1]; exact harr⟩
    rw [(hdesc a h1).2, (hdesc b hb).2] at this
    omega

/-- C8, at the list `{id=5,arrival=0,priority=2}, {id=3,arrival=0,priority=2}` (both with
burst 3): the first iteration dispatches the process at position 0, with id 5, and the
run gives id 5 start 0, finish 3 and id 3 start 3, finish 6. -/
theorem priority_dispatch_rule_witness :
    priorityDispatches (iterate priorityStep 0 (priorityInit priorityTieExample)) = some 0 ∧
    ((priorityTieExample.getD 0 default).initialPriority =
        (priorityTieExample.getD 1 default).initialPriority ∧ 0 < 1) ∧
    (simulatePriority 2 priorityTieExample).map (fun r => r.2.map timing) =
      some [(5, 0, 3, 0, 3), (3, 3, 6, 3, 6)] := by
  refine ⟨by decide, ?_, by decide⟩
  have h := (priority_dispatch_rule priorityTieExample 0 0 (by decide)).2.2.2.2.2 1
    (by decide) (by decide) (by decide) (by decide)
  rcases h with h | h
  · exact absurd h (by decide)
  · exact h

/-- C7. `simulateSJF` dispatches by smallest `burstTime`, with ties broken by smallest
`id`: for a list with unique ids, whenever an iteration of the main loop (the one entered
after `k` iterations) dispatches the process at position `a`, it starts it at the current
clock, `a` was ready, and every other process `b` ready at that moment (not dispatched
yet, arrived by the clock, which is the `startTime` of `a`) has a larger `burstTime`, or
the same one and a larger `id`. -/
theorem sjf_dispatch_rule (ps : List Process) (hid : (ps.map (fun p => p.id)).Nodup)
    (k a : Nat) (ha : sjfDispatches (iterate sjfStep k (sjfInit ps)) = some a) :
    sjfStep (iterate sjfStep k (sjfInit ps)) =
      some (schedDispatch (iterate sjfStep k (sjfInit ps)) a) ∧
    ((schedDispatch (iterate sjfStep k (sjfInit ps)) a).processes.getD a
      default).startTime = (iterate sjfStep k (sjfInit ps)).currentTime ∧
    a < ps.length ∧
    (iterate sjfStep k (sjfInit ps)).done.getD a false = false ∧
    (ps.getD a default).arrivalTime ≤ (iterate sjfStep k (sjfInit ps)).currentTime ∧
    ∀ b, b < ps.length → b ≠ a →
      (iterate sjfStep k (sjfInit ps)).done.getD b false = false →
      (ps.getD b default).arrivalTime ≤ (iterate sjfStep k (sjfInit ps)).currentTime →
      (ps.getD a default).burstTime < (ps.getD b default).burstTime ∨
      ((ps.getD a default).burstTime = (ps.getD b default).burstTime ∧
        (ps.getD a default).id < (ps.getD b default).id) := by
  have htr := sameDescriptor_sjf ps k
  generalize iterate sjfStep k (sjfInit ps) = s at ha htr ⊢
  obtain ⟨hlen, hrel⟩ := htr
  unfold sjfDispatches at ha
  split_ifs at ha with hc
  obtain ⟨h1, h2, -, h4⟩ := (sjfSelect_spec s.processes s.done s.currentTime).2 a ha
  rw [hlen] at h1
  have hdesc : ∀ i, i < ps.length →
      (s.processes.getD i default).id = (ps.getD i default).id ∧
      (s.processes.getD i default).arrivalTime = (ps.getD i default).arrivalTime ∧
      (s.processes.getD i default).burstTime = (ps.getD i default).burstTime := by
    intro i hi
    have hd := hrel i hi
    simp only [sameDescriptor, descriptor, Prod.mk.injEq] at hd
    exact ⟨hd.1, hd.2.1, hd.2.2.1⟩
  refine ⟨?_, ?_, h1, h2.1, ?_, ?_⟩
  · unfold sjfStep schedStep
    rw [if_pos hc, ha]
  · unfold schedDispatch
    simp only []
    rw [getD_set_self _ _ _ _ (by omega)]
    exact (dispatch_fields _ _).2.2.2.2.2.2.1
  · rw [← (hdesc a h1).2.1]
    exact h2.2
  · intro b hb hba hdone harr
    have := h4 b (by omega) ⟨hdone, by rw [(hdesc b hb).2.1]; exact harr⟩
    rw [(hdesc a h1).1, (hdesc b hb).1, (hdesc a h1).2.2, (hdesc b hb).2.2] at this
    have hne : (ps.getD a default).id ≠ (ps.getD b default).id := by
      intro heq
      have hinj := List.nodup_iff_injective_get.mp hid
      have ha' : a < (ps.map (fun p => p.id)).length := by simpa using h1
      have hb' : b < (ps.map (fun p => p.id)).length := by simpa using hb
      have := @hinj ⟨a, ha'⟩ ⟨b, hb'⟩ (by
        simp only [List.get_eq_getElem, List.getElem_map]
        rw [List.getD_eq_getElem _ _ h1, List.getD_eq_getElem _ _ hb] at heq
        exact heq)
      exact hba (Fin.mk.inj this).symm
    omega

/-- C7, at the list `{id=2,arrival=0,burst=3}, {id=1,arrival=0,burst=3}`: the first
iteration dispatches the process at position 1, with id 1, and the run gives id 1 start
0, finish 3 and id 2 start 3, finish 6. -/
theorem sjf_dispatch_rule_witness :
    (sjfTieExample.map (fun p => p.id)).Nodup ∧
    sjfDispatches (iterate sjfStep 0 (sjfInit sjfTieExample)) = some 1 ∧
    ((sjfTieExample.getD 1 default).burstTime = (sjfTieExample.getD 0 default).burstTime ∧
      (sjfTieExample.getD 1 default).id < (sjfTieExample.getD 0 default).id) ∧
    (simulateSJF 2 sjfTieExample).map (fun r => r.2.map timing) =
      some [(2, 3, 6, 3, 6), (1, 0, 3, 0, 3)] := by
  refine ⟨by decide, by decide, ?_, by decide⟩
  have h := (sjf_dispatch_rule sjfTieExample (by decide) 0 1 (by decide)).2.2.2.2.2 0
    (by decide) (by decide) (by decide) (by decide)
  rcases h with h | h
  · exact absurd h (by decide)
  · exact h

/-! ## Dynamic Priority: aging -/

theorem tracksBy_ageOthers (R : Process → Process → Prop) (ps l : List Process)
    (fin : List Bool) (best : Nat) (t : Int) (h : tracksBy R ps l)
    (hR : ∀ q p i, R q p → R q (ageOne fin best t i p)) :
    tracksBy R ps (ageOthers l fin best t) := by
  obtain ⟨hlen, hr⟩ := h
  refine ⟨by rw [ageOthers_length, hlen], fun i hi => ?_⟩
  rw [ageOthers_getD _ _ _ _ _ (by omega)]
  exact hR _ _ _ (hr i hi)

theorem ageOne_priority (fin : List Bool) (best : Nat) (t : Int) (i : Nat) (p : Process) :
    (ageOne fin best t i p).priority = p.priority ∨
    (1 < p.priority ∧ (ageOne fin best t i p).priority = p.priority - 1) := by
  unfold ageOne
  split_ifs with h1 h2 h3
  · exact Or.inl rfl
  · exact Or.inr ⟨h3, rfl⟩
  · exact Or.inl rfl
  · exact Or.inl rfl

theorem agedPriority_ageOne (fin : List Bool) (best : Nat) (t : Int) (q p : Process)
    (i : Nat) (h : agedPriority q p) : agedPriority q (ageOne fin best t i p) := by
  obtain ⟨a1, a2, a3, a4, -⟩ := ageOne_fields fin best t i p
  obtain ⟨hd, hlo, hhi⟩ := h
  refine ⟨?_, ?_, ?_⟩
  · unfold descriptor at hd ⊢
    rw [a1, a2, a3, a4]
    exact hd
  · rcases ageOne_priority fin best t i p with hp | ⟨hgt, hp⟩ <;> omega
  · rcases ageOne_priority fin best t i p with hp | ⟨hgt, hp⟩ <;> omega

theorem finishAt_fields (t : Int) (p : Process) :
    (finishAt t p).id = p.id ∧ (finishAt t p).arrivalTime = p.arrivalTime ∧
    (finishAt t p).burstTime = p.burstTime ∧ (finishAt t p).priority = p.priority ∧
    (finishAt t p).initialPriority = p.initialPriority ∧
    (finishAt t p).remainingTime = p.remainingTime ∧
    (finishAt t p).startTime = p.startTime ∧ (finishAt t p).finishTime = t := by
  simp [finishAt]

/-- A relation between input and working process that only reads the descriptor and the
priority survives a unit step of `simulateDynamicPriority`, if aging keeps it. -/
theorem tracksBy_dynRunStep (R : Process → Process → Prop) (ps : List Process)
    (hfield : ∀ q p p', R q p → descriptor p' = descriptor p → p'.priority = p.priority →
      R q p')
    (hage : ∀ fin best t q p i, R q p → R q (ageOne fin best t i p))
    (s : DynState) (best : Nat) (hinv : tracksBy R ps s.processes) :
    tracksBy R ps (dynRunStep s best).processes := by
  obtain ⟨s1, s2, s3, s4, s5, -⟩ :=
    startIfUnset_fields s.currentTime (s.processes.getD best default)
  obtain ⟨c1, c2, c3, c4, c5, -⟩ := consume_fields 1
    (startIfUnset s.currentTime (s.processes.getD best default))
  have hrun : tracksBy R ps (s.processes.set best
      (consume 1 (startIfUnset s.currentTime (s.processes.getD best default)))) := by
    apply tracksBy_set R ps _ hinv
    intro hb
    refine hfield _ _ _ (hinv.2 best hb) ?_ ?_
    · simp only [descriptor, c1, c2, c3, c5, s1, s2, s3, s5]
    · simp only [c4, s4]
  have haged := tracksBy_ageOthers R ps _ s.finished best (wrap32 (s.currentTime + 1)) hrun
    (fun q p i => hage _ _ _ q p i)
  unfold dynRunStep
  simp only []
  split_ifs with hz
  · apply tracksBy_set R ps _ haged
    intro hb
    obtain ⟨f1, f2, f3, f4, f5, -⟩ := finishAt_fields (wrap32 (s.currentTime + 1))
      (consume 1 (startIfUnset s.currentTime (s.processes.getD best default)))
    refine hfield _ _ _ (hinv.2 best hb) ?_ ?_
    · simp only [descriptor, f1, f2, f3, f5, c1, c2, c3, c5, s1, s2, s3, s5]
    · simp only [f4, c4, s4]
  · exact haged

theorem tracksBy_dynStep (R : Process → Process → Prop) (ps : List Process)
    (hfield : ∀ q p p', R q p → descriptor p' = descriptor p → p'.priority = p.priority →
      R q p')
    (hage : ∀ fin best t q p i, R q p → R q (ageOne fin best t i p))
    (s s' : DynState) (hinv : tracksBy R ps s.processes) (h : dynStep s = some s') :
    tracksBy R ps s'.processes := by
  obtain ⟨-, hcase⟩ := dynStep_cases s s' h
  rcases hcase with ⟨-, -, rfl⟩ | ⟨best, -, rfl⟩
  · exact hinv
  · exact tracksBy_dynRunStep R ps hfield hage s best hinv

theorem agedPriority_dyn (ps : List Process) (h1 : ∀ p ∈ ps, 1 ≤ p.initialPriority)
    (k : Nat) : tracksBy agedPriority ps (iterate dynStep k (dynInit ps)).processes := by
  apply iterate_inv dynStep (fun s => tracksBy agedPriority ps s.processes)
    (fun s s' => tracksBy_dynStep agedPriority ps
      (fun q p p' hR hd hp => ⟨hd.trans hR.1, by rw [hp]; exact hR.2.1,
        by rw [hp]; exact hR.2.2⟩)
      (fun fin best t q p i => agedPriority_ageOne fin best t q p i) s s')
  refine ⟨by simp [dynInit], fun i hi => ?_⟩
  have hmem : ps.getD i default ∈ ps := by
    rw [List.getD_eq_getElem _ _ hi]
    exact List.getElem_mem _
  have := h1 _ hmem
  simp only [dynInit]
  rw [getD_map_of_lt resetRunPriority ps i default default hi]
  exact ⟨rfl, this, le_refl _⟩

/-- In a unit step, a process that waits (arrived, not flagged finished, time remaining,
not the one that runs) has its priority lowered by one, with a floor at `1`. -/
theorem dynRunStep_priority_of_waits (s : DynState) (best i : Nat)
    (hi : i < s.processes.length) (hne : best ≠ i)
    (hfin : s.finished.getD i false = false)
    (harr : (s.processes.getD i default).arrivalTime ≤ s.currentTime)
    (hrem : (s.processes.getD i default).remainingTime > 0)
    (hlo : 1 ≤ (s.processes.getD i default).priority)
    (hclock : inInt (s.currentTime + 1)) :
    ((dynRunStep s best).processes.getD i default).priority =
      max 1 ((s.processes.getD i default).priority - 1) := by
  have hget : ((dynRunStep s best).processes.getD i default).priority =
      (ageOne s.finished best (wrap32 (s.currentTime + 1)) i (s.processes.getD i default)).priority := by
    unfold dynRunStep
    simp only []
    split_ifs with hz
    · rw [getD_set_other _ _ _ _ _ hne, ageOthers_getD _ _ _ _ _ (by simpa using hi),
        getD_set_other _ _ _ _ _ hne]
    · rw [ageOthers_getD _ _ _ _ _ (by simpa using hi), getD_set_other _ _ _ _ _ hne]
  rw [hget, wrap32_of_inInt _ hclock]
  unfold ageOne
  rw [if_neg (Ne.symm hne), if_pos ⟨hfin, by omega, hrem⟩]
  split_ifs with hp
  · simp only []
    rw [max_eq_right (by omega)]
  · rw [max_eq_left (by omega)]
    omega

theorem iterate_succ_right {σ : Type} (step : σ → Option σ) (k : Nat) (s s' : σ)
    (h : step (iterate step k s) = some s') : iterate step (k + 1) s = s' := by
  rw [iterate_add, iterate, h]
  rfl

/-- The working process `best` after its unit step, before it is finalised. -/
theorem dynRunStep_fields (s : DynState) (best : Nat) :
    (dynRunStep s best).currentTime = wrap32 (s.currentTime + 1) ∧
    (dynRunStep s best).processes.length = s.processes.length ∧
    ((consume 1 (startIfUnset s.currentTime (s.processes.getD best default))).remainingTime = 0 →
      (dynRunStep s best).finished = s.finished.set best true ∧
      (dynRunStep s best).completed = s.completed + 1 ∧
      (best < s.processes.length → (dynRunStep s best).processes.getD best default =
        finishAt (wrap32 (s.currentTime + 1))
          (consume 1 (startIfUnset s.currentTime (s.processes.getD best default))))) ∧
    ((consume 1 (startIfUnset s.currentTime (s.processes.getD best default))).remainingTime ≠ 0 →
      (dynRunStep s best).finished = s.finished ∧
      (dynRunStep s best).completed = s.completed ∧
      (best < s.processes.length → (dynRunStep s best).processes.getD best default =
        consume 1 (startIfUnset s.currentTime (s.processes.getD best default)))) ∧
    ∀ i, i < s.processes.length → i ≠ best →
      (dynRunStep s best).processes.getD i default =
        ageOne s.finished best (wrap32 (s.currentTime + 1)) i (s.processes.getD i default) := by
  unfold dynRunStep
  simp only []
  split_ifs with hz
  · refine ⟨rfl, by simp [ageOthers_length], fun _ => ⟨rfl, rfl, fun hb => ?_⟩,
      fun h => absurd hz h, fun i hi hib => ?_⟩
    · rw [getD_set_self _ _ _ _ (by simpa [ageOthers_length] using hb)]
    · rw [getD_set_other _ _ _ _ _ (Ne.symm hib),
        ageOthers_getD _ _ _ _ _ (by simpa using hi), getD_set_other _ _ _ _ _ (Ne.symm hib)]
  · refine ⟨rfl, by simp [ageOthers_length], fun h => absurd h hz,
      fun _ => ⟨rfl, rfl, fun hb => ?_⟩, fun i hi hib => ?_⟩
    · rw [ageOthers_getD _ _ _ _ _ (by simpa using hb), getD_set_self _ _ _ _ hb,
        ageOne_best]
    · rw [ageOthers_getD _ _ _ _ _ (by simpa using hi), getD_set_other _ _ _ _ _ (Ne.symm hib)]

/-- A process with burst time at least `1` that is not flagged finished has time
remaining, after any number of iterations of `simulateDynamicPriority`. -/
theorem dyn_unfinished_remaining (ps : List Process) (i : Nat) (hi : i < ps.length)
    (hb : 1 ≤ (ps.getD i default).burstTime) (k : Nat) :
    (iterate dynStep k (dynInit ps)).finished.getD i false = false →
      0 < ((iterate dynStep k (dynInit ps)).processes.getD i default).remainingTime := by
  have key := iterate_inv dynStep
    (fun s => s.processes.length = ps.length ∧ s.finished.length = ps.length ∧
      (s.finished.getD i false = false → 0 < (s.processes.getD i default).remainingTime))
    ?_ k (dynInit ps) ?_
  · exact key.2.2
  · rintro s s' ⟨hlen, hflen, hrem⟩ hstep
    obtain ⟨-, hcase⟩ := dynStep_cases s s' hstep
    rcases hcase with ⟨-, -, rfl⟩ | ⟨best, hsome, rfl⟩
    · exact ⟨hlen, hflen, hrem⟩
    · obtain ⟨hbl, hrun, -, -⟩ :=
        (dynSelect_spec s.processes s.finished s.currentTime).2 best hsome
      obtain ⟨-, f2, f3, f4, f5⟩ := dynRunStep_fields s best
      obtain ⟨-, -, -, -, -, c6, -⟩ := consume_fields 1
        (startIfUnset s.currentTime (s.processes.getD best default))
      obtain ⟨-, -, -, -, -, s6, -⟩ :=
        startIfUnset_fields s.currentTime (s.processes.getD best default)
      have hflen' : (dynRunStep s best).finished.length = ps.length := by
        by_cases hz : (consume 1
            (startIfUnset s.currentTime (s.processes.getD best default))).remainingTime = 0
        · rw [(f3 hz).1]
          simp [hflen]
        · rw [(f4 hz).1]
          exact hflen
      refine ⟨by rw [f2, hlen], hflen', fun hfalse => ?_⟩
      by_cases hib : i = best
      · subst hib
        by_cases hz : (consume 1
            (startIfUnset s.currentTime (s.processes.getD i default))).remainingTime = 0
        · rw [(f3 hz).1, getD_set_self _ _ _ _ (by omega)] at hfalse
          cases hfalse
        · rw [(f4 hz).2.2 hbl]
          have := hrun.2.2
          rw [c6, s6] at hz ⊢
          omega
      · have hflag : (dynRunStep s best).finished.getD i false = s.finished.getD i false := by
          by_cases hz : (consume 1
              (startIfUnset s.currentTime (s.processes.getD best default))).remainingTime = 0
          · rw [(f3 hz).1, getD_set_other _ _ _ _ _ (Ne.symm hib)]
          · rw [(f4 hz).1]
        rw [hflag] at hfalse
        rw [f5 i (by omega) hib, (ageOne_fields _ _ _ _ _).2.2.2.2.1]
        exact hrem hfalse
  · refine ⟨by simp [dynInit], by simp [dynInit], fun _ => ?_⟩
    simp only [dynInit]
    rw [getD_map_of_lt resetRunPriority ps i default default hi]
    exact hb

theorem dynRuns_step (s : DynState) (best : Nat) (h : dynRuns s = some best) :
    dynStep s = some (dynRunStep s best) := by
  unfold dynRuns at h
  split_ifs at h with hc
  unfold dynStep
  rw [if_pos hc, h]

theorem dynWaits_step (s : DynState) (i : Nat) (h : dynWaits s i) :
    ∃ best, best ≠ i ∧ dynStep s = some (dynRunStep s best) := by
  obtain ⟨⟨hrun, -, -⟩, -⟩ := h
  cases hr : dynRuns s with
  | none => simp [hr] at hrun
  | some best =>
    rw [hr] at hrun
    exact ⟨best, hrun, dynRuns_step s best hr⟩

/-- C9, as amended. Aging in `simulateDynamicPriority` lowers priority by one per waited
step with a floor at `1`: for an input with `initialPriority >= 1`, a process (position
`i`) that during each of `k` consecutive unit steps (those entered after `m`, ..,
`m + k - 1` iterations), each of which leaves the clock in the `int` range, has arrived,
is not flagged finished, has `remainingTime > 0` and is not the process that runs, and has
priority `p` at the start of them, has priority `max 1 (p - k)` afterwards; after any
number of iterations every process has
`1 <= priority <= initialPriority`; and a process with `burstTime >= 1` that is not
flagged finished has `remainingTime > 0`, after any number of iterations. -/
theorem dyn_aging (ps : List Process) (h1 : ∀ p ∈ ps, 1 ≤ p.initialPriority)
    (m k i : Nat) (hi : i < ps.length)
    (hwait : ∀ j, j < k → dynWaits (iterate dynStep (m + j) (dynInit ps)) i)
    (hclock : ∀ j, j < k → inInt ((iterate dynStep (m + j) (dynInit ps)).currentTime + 1)) :
    ((iterate dynStep (m + k) (dynInit ps)).processes.getD i default).priority =
      max 1 (((iterate dynStep m (dynInit ps)).processes.getD i default).priority - k) ∧
    (∀ n j, j < ps.length →
      1 ≤ ((iterate dynStep n (dynInit ps)).processes.getD j default).priority ∧
      ((iterate dynStep n (dynInit ps)).processes.getD j default).priority ≤
        (ps.getD j default).initialPriority) ∧
    ∀ n j, j < ps.length → 1 ≤ (ps.getD j default).burstTime →
      (iterate dynStep n (dynInit ps)).finished.getD j false = false →
      0 < ((iterate dynStep n (dynInit ps)).processes.getD j default).remainingTime := by
  have hbound : ∀ n j, j < ps.length →
      1 ≤ ((iterate dynStep n (dynInit ps)).processes.getD j default).priority ∧
      ((iterate dynStep n (dynInit ps)).processes.getD j default).priority ≤
        (ps.getD j default).initialPriority :=
    fun n j hj => ((agedPriority_dyn ps h1 n).2 j hj).2
  refine ⟨?_, hbound, fun n j hj hb => dyn_unfinished_remaining ps j hj hb n⟩
  induction k with
  | zero =>
    have := (hbound m i hi).1
    simp only [Nat.add_zero, Nat.cast_zero, sub_zero]
    rw [max_eq_right this]
  | succ k ih =>
    have ihk := ih (fun j hj => hwait j (Nat.lt_succ_of_lt hj))
      (fun j hj => hclock j (Nat.lt_succ_of_lt hj))
    have hw := hwait k (Nat.lt_succ_self k)
    obtain ⟨best, hne, hstep⟩ := dynWaits_step _ i hw
    have hnext : iterate dynStep (m + (k + 1)) (dynInit ps) =
        dynRunStep (iterate dynStep (m + k) (dynInit ps)) best := by
      rw [← Nat.add_assoc]
      exact iterate_succ_right dynStep (m + k) _ _ hstep
    have hlen := (agedPriority_dyn ps h1 (m + k)).1
    obtain ⟨⟨-, hfin, harr⟩, hrem⟩ := hw
    rw [hnext, dynRunStep_priority_of_waits _ best i (by omega) hne hfin harr hrem
      (hbound (m + k) i hi).1 (hclock k (Nat.lt_succ_self k)), ihk]
    have hp := (hbound m i hi).1
    push_cast
    rcases le_total 1 (((iterate dynStep m (dynInit ps)).processes.getD i default).priority - k)
      with hle | hle
    · rw [max_eq_right hle]
      rcases le_total 1
        (((iterate dynStep m (dynInit ps)).processes.getD i default).priority - k - 1)
        with hle2 | hle2
      · rw [max_eq_right hle2, max_eq_right (by omega)]
        omega
      · rw [max_eq_left hle2, max_eq_left (by omega)]
    · rw [max_eq_left hle, max_eq_left (by omega), max_eq_left (by omega)]

/-- C9 as amended, at the list
`{id=1,arrival=0,burst=3,priority=1}, {id=2,arrival=0,burst=2,priority=3}`: the second
process waits the first three unit steps and its priority goes from 3 to 1. -/
theorem dyn_aging_witness :
    (∀ p ∈ agingExample, 1 ≤ p.initialPriority) ∧
    (∀ j, j < 3 → dynWaits (iterate dynStep (0 + j) (dynInit agingExample)) 1) ∧
    (∀ j, j < 3 → inInt ((iterate dynStep (0 + j) (dynInit agingExample)).currentTime + 1)) ∧
    ((iterate dynStep 0 (dynInit agingExample)).processes.getD 1 default).priority = 3 ∧
    ((iterate dynStep (0 + 2) (dynInit agingExample)).processes.getD 1 default).priority = 1 ∧
    ((iterate dynStep (0 + 3) (dynInit agingExample)).processes.getD 1 default).priority =
      max 1 (((iterate dynStep 0 (dynInit agingExample)).processes.getD 1
        default).priority - (3 : Nat)) :=
  ⟨by decide, by decide, by decide, by decide, by decide,
   (dyn_aging agingExample (by decide) 0 3 1 (by decide) (by decide) (by decide)).1⟩

/-- C9 as stated fails on two lists.  On
`{id=1,arrival=0,burst=3,priority=1}, {id=2,arrival=0,burst=0,priority=3}`, during the
first two unit steps the second process has arrived, is not flagged finished and is not
the process that runs, it has priority 3 at their start, and its priority is still 3
afterwards, not `max 1 (3 - 2) = 1`: a process with no time remaining is not aged.  On
`{id=1,arrival=2147483646,burst=3,priority=1},
{id=2,arrival=2147483646,burst=1,priority=5}` the second process waits, with time
remaining, during the first two unit steps; the second of them starts at clock
`INT_MAX`, the incremented clock does not fit an `int` and is left as `-2147483648`, below
every arrival time, so the process is aged once only: its priority goes from 5 to 4, not
to `max 1 (5 - 2) = 3`. -/
theorem dyn_aging_unaged :
    ((∀ p ∈ zeroBurstExample, 1 ≤ p.initialPriority) ∧
      dynWaitsFlag (iterate dynStep 0 (dynInit zeroBurstExample)) 1 ∧
      dynWaitsFlag (iterate dynStep 1 (dynInit zeroBurstExample)) 1 ∧
      ((iterate dynStep 0 (dynInit zeroBurstExample)).processes.getD 1 default).priority = 3 ∧
      ((iterate dynStep 2 (dynInit zeroBurstExample)).processes.getD 1 default).priority = 3 ∧
      ((iterate dynStep 2 (dynInit zeroBurstExample)).processes.getD 1 default).priority ≠
        max 1 (((iterate dynStep 0 (dynInit zeroBurstExample)).processes.getD 1
          default).priority - (2 : Nat))) ∧
    ((∀ p ∈ clockWrapExample, 1 ≤ p.initialPriority ∧ 1 ≤ p.burstTime ∧ 0 ≤ p.arrivalTime) ∧
      dynWaits (iterate dynStep 0 (dynInit clockWrapExample)) 1 ∧
      dynWaits (iterate dynStep 1 (dynInit clockWrapExample)) 1 ∧
      (iterate dynStep 1 (dynInit clockWrapExample)).currentTime = 2147483647 ∧
      (iterate dynStep 2 (dynInit clockWrapExample)).currentTime = -2147483648 ∧
      ((iterate dynStep 0 (dynInit clockWrapExample)).processes.getD 1 default).priority = 5 ∧
      ((iterate dynStep 2 (dynInit clockWrapExample)).processes.getD 1 default).priority = 4 ∧
      ((iterate dynStep 2 (dynInit clockWrapExample)).processes.getD 1 default).priority ≠
        max 1 (((iterate dynStep 0 (dynInit clockWrapExample)).processes.getD 1
          default).priority - (2 : Nat))) := by
  refine ⟨⟨by decide, by decide, by decide, by decide, by decide, by decide⟩,
    ⟨by decide, by decide, by decide, by decide, by decide, by decide, by decide, by decide⟩⟩

/-! ## Priority and SJF: the main loop ends with every process done -/

theorem count_false_set_true (l : List Bool) (i : Nat) (h : i < l.length)
    (hf : l.getD i false = false) : (l.set i true).count false + 1 = l.count false := by
  induction l generalizing i with
  | nil => simp at h
  | cons x xs ih =>
    cases i with
    | zero =>
      simp only [List.getD_cons_zero] at hf
      subst hf
      simp
    | succ i =>
      simp only [List.getD_cons_succ] at hf
      simp only [List.length_cons, Nat.add_lt_add_iff_right] at h
      have := ih i h hf
      cases x <;> simp [List.count_cons] <;> omega

theorem getD_true_of_count_false_zero (l : List Bool) (h : l.count false = 0) (i : Nat)
    (hi : i < l.length) : l.getD i false = true := by
  have hnot : false ∉ l := List.count_eq_zero.mp h
  rw [List.getD_eq_getElem _ _ hi]
  cases hv : l[i] with
  | true => rfl
  | false => exact absurd (hv ▸ List.getElem_mem hi) hnot

/-- An iteration of `schedStep` keeps the invariant and decreases the measure. -/
theorem schedStep_progress (R : Process → Process → Prop)
    (hRdisp : ∀ q p t, R q p → R q (dispatch t p))
    (select : List Process → List Bool → Int → Option Nat × Int) (ps : List Process)
    (hsel : selectSound R select ps)
    (s s' : SchedState) (hinv : schedInv R ps s) (h : schedStep select s = some s') :
    schedInv R ps s' ∧ schedMeasure select s' < schedMeasure select s := by
  obtain ⟨htr, hlen, hcount⟩ := hinv
  obtain ⟨hc, hcase⟩ := schedStep_cases select s s' h
  rcases hcase with ⟨hnone, hnext, rfl⟩ | ⟨best, hsome, rfl⟩
  · refine ⟨⟨htr, hlen, hcount⟩, ?_⟩
    obtain ⟨-, hmin, hex⟩ := nextArrivalScan_spec s.processes s.done
    rcases hex with hex | ⟨i, hi, hdone, harrive⟩
    · exact absurd hex hnext
    · have hready : isReady s.processes s.done (nextArrivalScan s.processes s.done) i :=
        ⟨hdone, le_of_eq harrive⟩
      have hsel' : (select s.processes s.done (nextArrivalScan s.processes s.done)).1 ≠ none :=
        fun hn => (hsel s.processes s.done _ htr).1 hn i hi hready
      unfold schedMeasure
      simp only [hnone, hsel', if_true, if_false]
      omega
  · obtain ⟨hb, hready⟩ := (hsel s.processes s.done s.currentTime htr).2 best hsome
    have hb' : best < ps.length := by rw [← htr.1]; exact hb
    have hcnt := count_false_set_true s.done best (by omega) hready.1
    refine ⟨⟨?_, ?_, ?_⟩, ?_⟩
    · unfold schedDispatch
      exact tracksBy_set R ps _ htr best _ (fun _ => hRdisp _ _ _ (htr.2 best hb'))
    · unfold schedDispatch
      simp [hlen]
    · unfold schedDispatch
      simp only []
      omega
    · unfold schedMeasure schedDispatch
      simp only []
      split_ifs <;> omega

/-- When `schedStep` leaves the loop under the invariant, every flag is set. -/
theorem schedStep_exit_done (R : Process → Process → Prop)
    (select : List Process → List Bool → Int → Option Nat × Int) (ps : List Process)
    (harr : ∀ p, tracksBy R ps p → ∀ i, i < ps.length →
      (p.getD i default).arrivalTime < INT_MAX)
    (s : SchedState) (hinv : schedInv R ps s) (h : schedStep select s = none) :
    ∀ i, i < ps.length → s.done.getD i false = true := by
  obtain ⟨htr, hlen, hcount⟩ := hinv
  unfold schedStep at h
  split_ifs at h with hc
  · split at h
    · simp only [] at h
      split_ifs at h with hn
      obtain ⟨-, hmin, -⟩ := nextArrivalScan_spec s.processes s.done
      intro i hi
      cases hd : s.done.getD i false with
      | true => rfl
      | false =>
        have h1 := hmin i (by rw [htr.1]; exact hi) hd
        have h2 := harr s.processes htr i hi
        omega
    · cases h
  · intro i hi
    apply getD_true_of_count_false_zero _ _ i (by omega)
    rw [htr.1] at hc
    omega

theorem schedInv_init (R : Process → Process → Prop) (ps : List Process)
    (f : Process → Process) (hf : ∀ q, R q (f q)) (t : Int) :
    schedInv R ps { processes := ps.map f, done := List.replicate ps.length false,
                    currentTime := t, completed := 0, totalWaiting := 0,
                    totalTurnaround := 0 } :=
  ⟨tracksBy_map R ps f hf, by simp, by simp⟩

theorem schedMeasure_le (select : List Process → List Bool → Int → Option Nat × Int)
    (s : SchedState) : schedMeasure select s ≤ 2 * s.done.length + 1 := by
  unfold schedMeasure
  have := List.count_le_length false s.done
  split_ifs <;> omega

theorem rows_descriptor_of_tracks (R : Process → Process → Prop)
    (hRdesc : ∀ q p, R q p → descriptor p = descriptor q) (ps l : List Process)
    (h : tracksBy R ps l) : l.map descriptor = ps.map descriptor := by
  apply List.ext_getElem
  · simp [h.1]
  · intro i h1 h2
    simp only [List.length_map] at h1 h2
    simp only [List.getElem_map]
    have := hRdesc _ _ (h.2 i h2)
    rw [List.getD_eq_getElem _ _ h1, List.getD_eq_getElem _ _ h2] at this
    exact this

/-- The main loop of `simulatePriority` and of `simulateSJF` is left within
`2 * n + 1` iterations, in a state that has every property `Inv` that holds when the loop
is entered and that an iteration keeps. -/
theorem sched_run_exit (R : Process → Process → Prop)
    (hRdisp : ∀ q p t, R q p → R q (dispatch t p))
    (hRdesc : ∀ q p, R q p → descriptor p = descriptor q)
    (select : List Process → List Bool → Int → Option Nat × Int) (ps : List Process)
    (hsel : selectSound R select ps)
    (Inv : SchedState → Prop)
    (hstep : ∀ s s', schedInv R ps s → Inv s → schedStep select s = some s' → Inv s')
    (f : Process → Process) (hf : ∀ q, R q (f q)) (t : Int)
    (hinit : Inv { processes := ps.map f, done := List.replicate ps.length false,
                   currentTime := t, completed := 0, totalWaiting := 0,
                   totalTurnaround := 0 })
    (fuel : Nat) (hfuel : 2 * ps.length + 1 ≤ fuel) :
    ∃ r, runLoop (schedStep select) fuel
        { processes := ps.map f, done := List.replicate ps.length false,
          currentTime := t, completed := 0, totalWaiting := 0, totalTurnaround := 0 } =
        some r ∧
      r.processes.map descriptor = ps.map descriptor ∧ schedInv R ps r ∧ Inv r ∧
      schedStep select r = none := by
  obtain ⟨r, hr, ⟨hinv, hI⟩, hexit⟩ := runLoop_of_measure (schedStep select)
    (fun s => schedInv R ps s ∧ Inv s) (schedMeasure select)
    (fun s s' hi hs =>
      ⟨⟨(schedStep_progress R hRdisp select ps hsel s s' hi.1 hs).1, hstep s s' hi.1 hi.2 hs⟩,
        (schedStep_progress R hRdisp select ps hsel s s' hi.1 hs).2⟩)
    fuel _ ⟨schedInv_init R ps f hf t, hinit⟩ (by
      refine le_trans (schedMeasure_le select _) ?_
      simp only [List.length_replicate]
      omega)
  exact ⟨r, hr, rows_descriptor_of_tracks R hRdesc ps _ hinv.1, hinv, hI, hexit⟩

/-- With arrival times below `INT_MAX`, the main loop of `simulatePriority` and of
`simulateSJF` is left with every flag set. -/
theorem sched_run (R : Process → Process → Prop)
    (hRdisp : ∀ q p t, R q p → R q (dispatch t p))
    (hRdesc : ∀ q p, R q p → descriptor p = descriptor q)
    (select : List Process → List Bool → Int → Option Nat × Int) (ps : List Process)
    (hsel : selectSound R select ps)
    (harr : ∀ p ∈ ps, p.arrivalTime < INT_MAX)
    (Inv : SchedState → Prop)
    (hstep : ∀ s s', schedInv R ps s → Inv s → schedStep select s = some s' → Inv s')
    (f : Process → Process) (hf : ∀ q, R q (f q)) (t : Int)
    (hinit : Inv { processes := ps.map f, done := List.replicate ps.length false,
                   currentTime := t, completed := 0, totalWaiting := 0,
                   totalTurnaround := 0 })
    (fuel : Nat) (hfuel : 2 * ps.length + 1 ≤ fuel) :
    ∃ r, runLoop (schedStep select) fuel
        { processes := ps.map f, done := List.replicate ps.length false,
          currentTime := t, completed := 0, totalWaiting := 0, totalTurnaround := 0 } =
        some r ∧
      r.processes.map descriptor = ps.map descriptor ∧ schedInv R ps r ∧ Inv r ∧
      ∀ i, i < ps.length → r.done.getD i false = true := by
  have harr' : ∀ p, tracksBy R ps p → ∀ i, i < ps.length →
      (p.getD i default).arrivalTime < INT_MAX := by
    intro p hp i hi
    have hd := hRdesc _ _ (hp.2 i hi)
    simp only [descriptor, Prod.mk.injEq] at hd
    rw [hd.2.1]
    apply harr
    rw [List.getD_eq_getElem _ _ hi]
    exact List.getElem_mem _
  obtain ⟨r, hr, hdesc, hinv, hI, hexit⟩ := sched_run_exit R hRdisp hRdesc select ps hsel Inv
    hstep f hf t hinit fuel hfuel
  exact ⟨r, hr, hdesc, hinv, hI, schedStep_exit_done R select ps harr' r hinv hexit⟩

/-! ## Priority and SJF: the clock stays in the `int` range -/

theorem pendingBurst_cons (p : Process) (ps : List Process) (d : Bool) (ds : List Bool) :
    pendingBurst (p :: ps) (d :: ds) =
      (if d = false then p.burstTime else 0) + pendingBurst ps ds := rfl

theorem pendingBurst_set (ps : List Process) (done : List Bool) (i : Nat)
    (hi : i < ps.length) (hlen : done.length = ps.length)
    (hf : done.getD i false = false) :
    pendingBurst ps (done.set i true) + (ps.getD i default).burstTime =
      pendingBurst ps done := by
  induction ps generalizing done i with
  | nil => simp at hi
  | cons p rest ih =>
    cases done with
    | nil => simp at hlen
    | cons d ds =>
      simp only [List.length_cons, Nat.add_right_cancel_iff] at hlen
      cases i with
      | zero =>
        simp only [List.getD_cons_zero] at hf
        subst hf
        simp only [List.set_cons_zero, pendingBurst_cons, List.getD_cons_zero]
        simp only [if_true, Bool.true_eq_false, if_false]
        omega
      | succ i =>
        simp only [List.getD_cons_succ] at hf
        simp only [List.length_cons, Nat.add_lt_add_iff_right] at hi
        have := ih ds i hi hlen hf
        simp only [List.set_cons_succ, pendingBurst_cons, List.getD_cons_succ]
        omega

theorem pendingBurst_bounds (ps : List Process) (done : List Bool)
    (hb : ∀ p ∈ ps, 0 ≤ p.burstTime) :
    0 ≤ pendingBurst ps done ∧ pendingBurst ps done ≤ totalBurst ps := by
  induction ps generalizing done with
  | nil =>
    cases done <;> simp [pendingBurst, totalBurst]
  | cons p rest ih =>
    have hp := hb p (List.mem_cons_self _ _)
    have hrest : ∀ q ∈ rest, 0 ≤ q.burstTime := fun q hq => hb q (List.mem_cons_of_mem _ hq)
    cases done with
    | nil =>
      have := totalBurst_nonneg rest hrest
      rw [totalBurst_cons]
      simp only [pendingBurst]
      omega
    | cons d ds =>
      obtain ⟨h1, h2⟩ := ih ds hrest
      rw [pendingBurst_cons, totalBurst_cons]
      split_ifs <;> omega

/-- The facts about a working process that come from the input list, when no clock of a
run on the input leaves the `int` range. -/
theorem fits_facts (R : Process → Process → Prop)
    (hRdesc : ∀ q p, R q p → descriptor p = descriptor q) (ps l : List Process)
    (htr : tracksBy R ps l) (hfit : fitsInt ps) (i : Nat) (hi : i < ps.length) :
    (l.getD i default).arrivalTime = (ps.getD i default).arrivalTime ∧
    (l.getD i default).burstTime = (ps.getD i default).burstTime ∧
    0 ≤ (l.getD i default).arrivalTime ∧ 0 ≤ (l.getD i default).burstTime ∧
    (l.getD i default).arrivalTime + totalBurst ps ≤ INT_MAX := by
  have hmem : ps.getD i default ∈ ps := by
    rw [List.getD_eq_getElem _ _ hi]
    exact List.getElem_mem _
  obtain ⟨d1, d2, d3⟩ := hfit _ hmem
  have hd := hRdesc _ _ (htr.2 i hi)
  simp only [descriptor, Prod.mk.injEq] at hd
  refine ⟨hd.2.1, hd.2.2.1, by omega, by omega, by omega⟩

theorem schedDispatch_fields (s : SchedState) (best : Nat) :
    (schedDispatch s best).processes =
      s.processes.set best (dispatch s.currentTime (s.processes.getD best default)) ∧
    (schedDispatch s best).done = s.done.set best true ∧
    (schedDispatch s best).currentTime =
      wrap32 (s.currentTime + (s.processes.getD best default).burstTime) ∧
    (schedDispatch s best).totalWaiting = toDouble (s.totalWaiting +
      ((dispatch s.currentTime (s.processes.getD best default)).waitingTime : ℚ)) := by
  refine ⟨rfl, rfl, ?_, rfl⟩
  show (dispatch s.currentTime (s.processes.getD best default)).finishTime = _
  exact (dispatch_fields _ _).2.2.2.2.2.2.2

/-- The dispatch of a ready process in a state whose clock leaves room for the burst times
still to run: no sum or difference leaves the `int` range. -/
theorem dispatch_exact (R : Process → Process → Prop)
    (hRdesc : ∀ q p, R q p → descriptor p = descriptor q) (ps : List Process)
    (hfit : fitsInt ps) (s : SchedState) (hinv : schedInv R ps s) (hf : schedFits ps s)
    (best : Nat) (hb : best < ps.length)
    (hready : isReady s.processes s.done s.currentTime best) :
    0 ≤ (s.processes.getD best default).burstTime ∧
    0 ≤ (s.processes.getD best default).arrivalTime ∧
    s.currentTime + (s.processes.getD best default).burstTime +
      pendingBurst ps (s.done.set best true) ≤ INT_MAX ∧
    0 ≤ pendingBurst ps (s.done.set best true) ∧
    (dispatch s.currentTime (s.processes.getD best default)).finishTime =
      s.currentTime + (s.processes.getD best default).burstTime ∧
    (dispatch s.currentTime (s.processes.getD best default)).waitingTime =
      s.currentTime - (s.processes.getD best default).arrivalTime ∧
    (dispatch s.currentTime (s.processes.getD best default)).turnaroundTime =
      s.currentTime + (s.processes.getD best default).burstTime -
        (s.processes.getD best default).arrivalTime := by
  obtain ⟨htr, hlen, -⟩ := hinv
  obtain ⟨h0, h1⟩ := hf
  obtain ⟨e1, e2, a0, b0, -⟩ := fits_facts R hRdesc ps s.processes htr hfit best hb
  have hset := pendingBurst_set ps s.done best hb hlen hready.1
  have hpos := (pendingBurst_bounds ps (s.done.set best true)
    (fun p hp => (hfit p hp).2.1)).1
  have harr := hready.2
  rw [← e2] at hset
  have w1 : wrap32 (s.currentTime + (s.processes.getD best default).burstTime) =
      s.currentTime + (s.processes.getD best default).burstTime :=
    wrap32_of_bounds _ (by omega) (by omega)
  have w2 : wrap32 (s.currentTime - (s.processes.getD best default).arrivalTime) =
      s.currentTime - (s.processes.getD best default).arrivalTime :=
    wrap32_of_bounds _ (by omega) (by omega)
  have w3 : wrap32 (s.currentTime + (s.processes.getD best default).burstTime -
      (s.processes.getD best default).arrivalTime) =
      s.currentTime + (s.processes.getD best default).burstTime -
        (s.processes.getD best default).arrivalTime :=
    wrap32_of_bounds _ (by omega) (by omega)
  refine ⟨b0, a0, by omega, hpos, ?_, ?_, ?_⟩
  · simp only [dispatch]
    exact w1
  · simp only [dispatch]
    exact w2
  · simp only [dispatch]
    rw [w1]
    exact w3

/-- An iteration of `simulatePriority` or `simulateSJF` keeps the clock in the range that
leaves room for the burst times still to run. -/
theorem schedFits_schedStep (R : Process → Process → Prop)
    (hRdesc : ∀ q p, R q p → descriptor p = descriptor q)
    (select : List Process → List Bool → Int → Option Nat × Int) (ps : List Process)
    (hsel : selectSound R select ps) (hfit : fitsInt ps)
    (s s' : SchedState) (hinv : schedInv R ps s) (hf : schedFits ps s)
    (h : schedStep select s = some s') : schedFits ps s' := by
  obtain ⟨-, hcase⟩ := schedStep_cases select s s' h
  rcases hcase with ⟨hnone, hnext, rfl⟩ | ⟨best, hsome, rfl⟩
  · obtain ⟨-, -, hex⟩ := nextArrivalScan_spec s.processes s.done
    rcases hex with hex | ⟨i, hi, hdone, harrive⟩
    · exact absurd hex hnext
    · have hi' : i < ps.length := by rw [← hinv.1.1]; exact hi
      obtain ⟨-, -, a0, -, a1⟩ := fits_facts R hRdesc ps s.processes hinv.1 hfit i hi'
      have := (pendingBurst_bounds ps s.done (fun p hp => (hfit p hp).2.1)).2
      unfold schedFits
      simp only []
      rw [← harrive]
      exact ⟨a0, by omega⟩
  · obtain ⟨hb, hready⟩ := (hsel s.processes s.done s.currentTime hinv.1).2 best hsome
    have hb' : best < ps.length := by rw [← hinv.1.1]; exact hb
    obtain ⟨b0, -, h1, h2, h3, -⟩ := dispatch_exact R hRdesc ps hfit s hinv hf best hb' hready
    obtain ⟨-, f2, f3, -⟩ := schedDispatch_fields s best
    unfold schedFits
    rw [f2, f3, ← (dispatch_fields _ _).2.2.2.2.2.2.2, h3]
    exact ⟨by have := hf.1; omega, h1⟩

theorem schedFits_init (ps : List Process) (hfit : fitsInt ps) (f : Process → Process)
    (t : Int) (h0 : 0 ≤ t) (ht : t + totalBurst ps ≤ INT_MAX) :
    schedFits ps { processes := ps.map f, done := List.replicate ps.length false,
                   currentTime := t, completed := 0, totalWaiting := 0,
                   totalTurnaround := 0 } := by
  have := (pendingBurst_bounds ps (List.replicate ps.length false)
    (fun p hp => (hfit p hp).2.1)).2
  exact ⟨h0, by show t + pendingBurst ps (List.replicate ps.length false) ≤ INT_MAX; omega⟩

/-- An iteration of `simulatePriority` or `simulateSJF` keeps the dispatched intervals
at or after the arrival, disjoint, of the length of the burst time, and behind the
clock. -/
theorem intervalInv_schedStep (R : Process → Process → Prop)
    (hRdesc : ∀ q p, R q p → descriptor p = descriptor q)
    (select : List Process → List Bool → Int → Option Nat × Int) (ps : List Process)
    (hsel : selectSound R select ps) (hfit : fitsInt ps)
    (s s' : SchedState) (hinv : schedInv R ps s) (hf : schedFits ps s)
    (hint : intervalInv s)
    (h : schedStep select s = some s') : intervalInv s' := by
  obtain ⟨htr, hlen, hcnt⟩ := hinv
  obtain ⟨hone, htwo⟩ := hint
  obtain ⟨-, hcase⟩ := schedStep_cases select s s' h
  rcases hcase with ⟨hnone, hnext, hs'⟩ | ⟨best, hsome, hs'⟩
  · have hclock : s.currentTime ≤ nextArrivalScan s.processes s.done := by
      obtain ⟨-, -, hex⟩ := nextArrivalScan_spec s.processes s.done
      rcases hex with hex | ⟨i, hi, hdone, harrive⟩
      · exact absurd hex hnext
      · have hnr := (hsel s.processes s.done s.currentTime htr).1 hnone i hi
        by_contra hlt
        exact hnr ⟨hdone, by omega⟩
    rw [hs']
    refine ⟨fun i hi hd => ?_, htwo⟩
    obtain ⟨h0, h1, h2⟩ := hone i hi hd
    exact ⟨h0, h1, le_trans h2 hclock⟩
  · obtain ⟨hb, hready⟩ := (hsel s.processes s.done s.currentTime htr).2 best hsome
    have hb' : best < ps.length := by rw [← htr.1]; exact hb
    have hbd : best < s.done.length := by rw [hlen]; exact hb'
    obtain ⟨hbst, -, -, -, e8, -⟩ :=
      dispatch_exact R hRdesc ps hfit s ⟨htr, hlen, hcnt⟩ hf best hb' hready
    obtain ⟨f1, f2, f3, -⟩ := schedDispatch_fields s best
    obtain ⟨-, d2, d3, -, -, -, d7, d8⟩ :=
      dispatch_fields s.currentTime (s.processes.getD best default)
    rw [← d8, e8] at f3
    have hnew : exactLength (dispatch s.currentTime (s.processes.getD best default)) := by
      unfold exactLength
      rw [d3, d7, e8]
      omega
    have hnew' : timesOk (dispatch s.currentTime (s.processes.getD best default)) := by
      unfold timesOk
      rw [d2, d3, d7, e8]
      have := hready.2
      omega
    rw [hs', intervalInv, f1, f2, f3, List.length_set]
    constructor
    · intro i hi hd
      by_cases hib : best = i
      · rw [← hib, getD_set_self _ _ _ _ hb, e8]
        exact ⟨hnew', hnew, le_refl _⟩
      · rw [getD_set_other _ _ _ _ _ hib] at hd ⊢
        obtain ⟨h0, h1, h2⟩ := hone i hi hd
        exact ⟨h0, h1, by omega⟩
    · intro i j hi hj hij hdi hdj
      by_cases hib : best = i
      · have hjb : best ≠ j := fun hbj => hij (hib.symm.trans hbj)
        rw [getD_set_other _ _ _ _ _ hjb] at hdj
        rw [← hib, getD_set_self _ _ _ _ hb, getD_set_other _ _ _ _ _ hjb, d7]
        exact Or.inr (hone j hj hdj).2.2
      · rw [getD_set_other _ _ _ _ _ hib] at hdi
        by_cases hjb : best = j
        · rw [← hjb, getD_set_self _ _ _ _ hb, getD_set_other _ _ _ _ _ hib, d7]
          exact Or.inl (hone i hi hdi).2.2
        · rw [getD_set_other _ _ _ _ _ hjb] at hdj
          rw [getD_set_other _ _ _ _ _ hib, getD_set_other _ _ _ _ _ hjb]
          exact htwo i j hi hj hij hdi hdj

theorem intervalInv_init (ps : List Process) (f : Process → Process) (t : Int) :
    intervalInv { processes := ps.map f, done := List.replicate ps.length false,
                  currentTime := t, completed := 0, totalWaiting := 0,
                  totalTurnaround := 0 } := by
  constructor
  · intro i _ hd
    simp only [] at hd
    rw [getD_replicate_false] at hd
    cases hd
  · intro i j _ _ _ hd _
    simp only [] at hd
    rw [getD_replicate_false] at hd
    cases hd

/-- When no clock of a run on `ps` leaves the `int` range, the main loop of
`simulatePriority` and of `simulateSJF` is left within `2 * n + 1` iterations, in a state
whose processes ran at or after their arrival, one at a time, each for its burst time, and
ended at or before the clock, which is at most `INT_MAX`. -/
theorem sched_run_intervals (R : Process → Process → Prop)
    (hRdisp : ∀ q p t, R q p → R q (dispatch t p))
    (hRdesc : ∀ q p, R q p → descriptor p = descriptor q)
    (select : List Process → List Bool → Int → Option Nat × Int) (ps : List Process)
    (hsel : selectSound R select ps)
    (harr : ∀ p ∈ ps, p.arrivalTime < INT_MAX) (hfit : fitsInt ps)
    (f : Process → Process) (hf : ∀ q, R q (f q)) (t : Int)
    (h0 : 0 ≤ t) (ht : t + totalBurst ps ≤ INT_MAX) (fuel : Nat)
    (hfuel : 2 * ps.length + 1 ≤ fuel) :
    ∃ r, runLoop (schedStep select) fuel
        { processes := ps.map f, done := List.replicate ps.length false,
          currentTime := t, completed := 0, totalWaiting := 0, totalTurnaround := 0 } =
        some r ∧
      r.processes.map descriptor = ps.map descriptor ∧
      r.processes.length = ps.length ∧
      disjointRows r.processes ∧ ∀ p ∈ r.processes, timesOk p ∧ exactLength p := by
  obtain ⟨r, hr, hdesc, hinv, ⟨-, hint⟩, hdone⟩ := sched_run R hRdisp hRdesc select ps hsel
    harr (fun s => schedFits ps s ∧ intervalInv s)
    (fun s s' hi hI hs =>
      ⟨schedFits_schedStep R hRdesc select ps hsel hfit s s' hi hI.1 hs,
        intervalInv_schedStep R hRdesc select ps hsel hfit s s' hi hI.1 hI.2 hs⟩)
    f hf t ⟨schedFits_init ps hfit f t h0 ht, intervalInv_init ps f t⟩ fuel hfuel
  have hl : r.processes.length = ps.length := hinv.1.1
  refine ⟨r, hr, hdesc, hl, ?_, ?_⟩
  · intro i j hi hj hij
    exact hint.2 i j hi hj hij (hdone i (by omega)) (hdone j (by omega))
  · intro p hp
    obtain ⟨i, hi, hpi⟩ := List.mem_iff_getElem.mp hp
    have := hint.1 i hi (hdone i (by omega))
    rw [List.getD_eq_getElem _ _ hi, hpi] at this
    exact ⟨this.1, this.2.1⟩

/-! ## Dynamic Priority: the main loop ends with every process finished -/

theorem totalRemaining_congr (l l' : List Process) (hlen : l'.length = l.length)
    (h : ∀ i, i < l.length →
      (l'.getD i default).remainingTime = (l.getD i default).remainingTime) :
    totalRemaining l' = totalRemaining l := by
  unfold totalRemaining
  congr 1
  apply List.ext_getElem
  · simp [hlen]
  · intro i h1 h2
    simp only [List.length_map] at h1 h2
    simp only [List.getElem_map]
    have := h i h2
    rw [List.getD_eq_getElem _ _ h1, List.getD_eq_getElem _ _ h2] at this
    rw [this]

theorem totalRemaining_step (l l' : List Process) (b : Nat) (hlen : l'.length = l.length)
    (hb : b < l.length)
    (hother : ∀ i, i < l.length → i ≠ b →
      (l'.getD i default).remainingTime = (l.getD i default).remainingTime)
    (hbest : (l'.getD b default).remainingTime = (l.getD b default).remainingTime - 1)
    (hpos : 0 < (l.getD b default).remainingTime) :
    totalRemaining l' + 1 = totalRemaining l := by
  induction l generalizing l' b with
  | nil => simp at hb
  | cons x xs ih =>
    cases l' with
    | nil => simp at hlen
    | cons y ys =>
      simp only [List.length_cons, Nat.add_right_cancel_iff] at hlen
      cases b with
      | zero =>
        simp only [List.getD_cons_zero] at hbest hpos
        have hrest : totalRemaining ys = totalRemaining xs := by
          apply totalRemaining_congr xs ys hlen
          intro i hi
          have := hother (i + 1) (by simpa using hi) (by omega)
          simpa using this
        unfold totalRemaining at hrest ⊢
        simp only [List.map_cons, List.sum_cons]
        rw [hrest, hbest]
        omega
      | succ b =>
        simp only [List.getD_cons_succ] at hbest hpos
        simp only [List.length_cons, Nat.add_lt_add_iff_right] at hb
        have h0 := hother 0 (by simp) (by omega)
        simp only [List.getD_cons_zero] at h0
        have := ih ys b hlen hb
          (fun i hi hib => by
            have := hother (i + 1) (by simpa using hi) (by omega)
            simpa using this)
          hbest hpos
        unfold totalRemaining at this ⊢
        simp only [List.map_cons, List.sum_cons]
        rw [h0]
        omega

theorem startIfUnset_startTime (t : Int) (p : Process) :
    (startIfUnset t p).startTime = if p.startTime = -1 then t else p.startTime := by
  unfold startIfUnset
  split_ifs <;> rfl

theorem dynProcOk_ageOne (t : Int) (fin : Bool) (p : Process) (flags : List Bool)
    (best i : Nat) (h : dynProcOk t fin p) :
    dynProcOk (t + 1) fin (ageOne flags best (t + 1) i p) := by
  obtain ⟨-, a2, a3, -, a5, a6, a7, -⟩ := ageOne_fields flags best (t + 1) i p
  unfold dynProcOk timesOk at h ⊢
  rw [a2, a3, a5, a6, a7]
  refine ⟨fun hf => ⟨(h.1 hf).1, by have := (h.1 hf).2; omega⟩, fun hf => ?_⟩
  obtain ⟨h1, h2, h3⟩ := h.2 hf
  refine ⟨h1, h2, ?_⟩
  rcases h3 with h3 | h3
  · exact Or.inl h3
  · exact Or.inr ⟨h3.1, by omega⟩

/-- The process that runs a unit step at clock `t`, having arrived, and that step is its
last: it has run at or after its arrival and for its burst time. -/
theorem timesOk_run_finish (t : Int) (p : Process) (h : dynProcOk t false p)
    (harr : p.arrivalTime ≤ t)
    (hz : (consume 1 (startIfUnset t p)).remainingTime = 0) :
    timesOk (finishAt (t + 1) (consume 1 (startIfUnset t p))) ∧
    (finishAt (t + 1) (consume 1 (startIfUnset t p))).finishTime ≤ t + 1 := by
  obtain ⟨-, f2, f3, -, -, -, f7, f8⟩ := finishAt_fields (t + 1) (consume 1 (startIfUnset t p))
  obtain ⟨-, c2, c3, -, -, c6, c7, -⟩ := consume_fields 1 (startIfUnset t p)
  obtain ⟨-, s2, s3, -, -, s6, -⟩ := startIfUnset_fields t p
  have s7 := startIfUnset_startTime t p
  rw [c6, s6] at hz
  obtain ⟨h1, h2, h3⟩ := h.2 rfl
  refine ⟨?_, le_of_eq f8⟩
  unfold timesOk
  rw [f2, f3, f7, f8, c2, c3, c7, s2, s3, s7]
  split_ifs with hs
  · omega
  · rcases h3 with h3 | h3
    · exact absurd h3.1 hs
    · omega

/-- The process that runs a unit step at clock `t`, having arrived, and is left with time
remaining. -/
theorem dynProcOk_run_continue (t : Int) (p : Process) (h : dynProcOk t false p)
    (h0 : 0 ≤ p.arrivalTime) (harr : p.arrivalTime ≤ t)
    (hz : (consume 1 (startIfUnset t p)).remainingTime ≠ 0) :
    dynProcOk (t + 1) false (consume 1 (startIfUnset t p)) := by
  obtain ⟨-, c2, c3, -, -, c6, c7, -⟩ := consume_fields 1 (startIfUnset t p)
  obtain ⟨-, s2, s3, -, -, s6, -⟩ := startIfUnset_fields t p
  have s7 := startIfUnset_startTime t p
  rw [c6, s6] at hz
  obtain ⟨h1, h2, h3⟩ := h.2 rfl
  unfold dynProcOk
  refine ⟨fun hf => (nomatch hf), fun _ => ?_⟩
  rw [c2, c3, c6, c7, s2, s3, s6, s7]
  refine ⟨by omega, by omega, Or.inr ?_⟩
  split_ifs with hs
  · rcases h3 with h3 | h3 <;> omega
  · rcases h3 with h3 | h3
    · exact absurd h3.1 hs
    · omega

/-- The facts about a working process of `simulateDynamicPriority` that come from the
conditions on the input list. -/
theorem aged_facts (ps l : List Process) (htr : tracksBy agedPriority ps l)
    (hdom : ∀ p ∈ ps, 0 ≤ p.arrivalTime ∧ p.arrivalTime < INT_MAX ∧ 1 ≤ p.burstTime ∧
      p.initialPriority < INT_MAX)
    (i : Nat) (hi : i < ps.length) :
    0 ≤ (l.getD i default).arrivalTime ∧ (l.getD i default).arrivalTime < INT_MAX ∧
    1 ≤ (l.getD i default).burstTime ∧ (l.getD i default).priority < INT_MAX := by
  have hmem : ps.getD i default ∈ ps := by
    rw [List.getD_eq_getElem _ _ hi]
    exact List.getElem_mem _
  obtain ⟨d1, d2, d3, d4⟩ := hdom _ hmem
  obtain ⟨hd, -, hp⟩ := htr.2 i hi
  simp only [descriptor, Prod.mk.injEq] at hd
  refine ⟨by omega, by omega, by omega, by omega⟩

theorem dyn_no_runnable (ps : List Process) (s : DynState)
    (htr : tracksBy agedPriority ps s.processes)
    (hprio : ∀ p ∈ ps, p.initialPriority < INT_MAX)
    (t : Int) (hnone : (dynSelect s.processes s.finished t).1 = none) :
    ∀ i, i < ps.length → ¬ isRunnable s.processes s.finished t i := by
  intro i hi hrun
  have := (dynSelect_spec s.processes s.finished t).1 hnone i (by rw [htr.1]; exact hi) hrun
  have hmem : ps.getD i default ∈ ps := by
    rw [List.getD_eq_getElem _ _ hi]
    exact List.getElem_mem _
  have := hprio _ hmem
  have := (htr.2 i hi).2.2
  omega

/-- The remaining times after a unit step of `simulateDynamicPriority`: the one of the
process that ran is lower by one, the others are unchanged. -/
theorem dynRunStep_remaining (s : DynState) (best : Nat) (hb : best < s.processes.length) :
    ((dynRunStep s best).processes.getD best default).remainingTime =
      (s.processes.getD best default).remainingTime - 1 ∧
    ((dynRunStep s best).processes.getD best default).burstTime =
      (s.processes.getD best default).burstTime ∧
    ∀ i, i < s.processes.length → i ≠ best →
      ((dynRunStep s best).processes.getD i default).remainingTime =
        (s.processes.getD i default).remainingTime ∧
      ((dynRunStep s best).processes.getD i default).burstTime =
        (s.processes.getD i default).burstTime := by
  obtain ⟨-, -, f3, f4, f5⟩ := dynRunStep_fields s best
  obtain ⟨-, -, c3, -, -, c6, -⟩ := consume_fields 1
    (startIfUnset s.currentTime (s.processes.getD best default))
  obtain ⟨-, -, s3, -, -, s6, -⟩ :=
    startIfUnset_fields s.currentTime (s.processes.getD best default)
  refine ⟨?_, ?_, fun i hi hib => ?_⟩
  · by_cases hz : (consume 1
        (startIfUnset s.currentTime (s.processes.getD best default))).remainingTime = 0
    · rw [(f3 hz).2.2 hb, (finishAt_fields _ _).2.2.2.2.2.1, c6, s6]
    · rw [(f4 hz).2.2 hb, c6, s6]
  · by_cases hz : (consume 1
        (startIfUnset s.currentTime (s.processes.getD best default))).remainingTime = 0
    · rw [(f3 hz).2.2 hb, (finishAt_fields _ _).2.2.1, c3, s3]
    · rw [(f4 hz).2.2 hb, c3, s3]
  · rw [f5 i hi hib]
    exact ⟨(ageOne_fields _ _ _ _ _).2.2.2.2.1, (ageOne_fields _ _ _ _ _).2.2.1⟩

/-- An iteration of `dynStep` keeps the invariant and decreases the measure. -/
theorem dynStep_progress (ps : List Process)
    (hprio : ∀ p ∈ ps, p.initialPriority < INT_MAX)
    (s s' : DynState) (hinv : dynInv ps s) (h : dynStep s = some s') :
    dynInv ps s' ∧ dynMeasure s' < dynMeasure s := by
  obtain ⟨htr, hlen, hcount, hok⟩ := hinv
  have hn : s.processes.length = ps.length := htr.1
  obtain ⟨hc, hcase⟩ := dynStep_cases s s' h
  rcases hcase with ⟨hnone, hnext, rfl⟩ | ⟨best, hsome, rfl⟩
  · refine ⟨⟨htr, hlen, hcount, hok⟩, ?_⟩
    obtain ⟨-, -, hex⟩ := nextArrivalScan_spec s.processes s.finished
    rcases hex with hex | ⟨i, hi, hfin, harrive⟩
    · exact absurd hex hnext
    · rw [hn] at hi
      have hrem := (hok i hi).2 hfin
      have hsel' : (dynSelect s.processes s.finished
          (nextArrivalScan s.processes s.finished)).1 ≠ none :=
        fun hn' => dyn_no_runnable ps s htr hprio _ hn' i hi ⟨hfin, le_of_eq harrive, hrem⟩
      unfold dynMeasure
      simp only [hnone, hsel', if_true, if_false]
      omega
  · obtain ⟨hb, hrun, -, -⟩ := (dynSelect_spec s.processes s.finished s.currentTime).2 best hsome
    have hb' : best < ps.length := by rw [← hn]; exact hb
    obtain ⟨hfin, harr, hrem⟩ := hrun
    obtain ⟨f1, f2, f3, f4, f5⟩ := dynRunStep_fields s best
    obtain ⟨r1, r2, r3⟩ := dynRunStep_remaining s best hb
    have htr' : tracksBy agedPriority ps (dynRunStep s best).processes :=
      tracksBy_dynRunStep agedPriority ps
        (fun q p p' hR hd hp => ⟨hd.trans hR.1, by rw [hp]; exact hR.2.1,
          by rw [hp]; exact hR.2.2⟩)
        (fun fin best t q p i => agedPriority_ageOne fin best t q p i) s best htr
    obtain ⟨-, -, -, -, -, c6, -⟩ := consume_fields 1
      (startIfUnset s.currentTime (s.processes.getD best default))
    obtain ⟨-, -, -, -, -, s6, -⟩ :=
      startIfUnset_fields s.currentTime (s.processes.getD best default)
    have hmeasure : dynMeasure (dynRunStep s best) < dynMeasure s := by
      have := totalRemaining_step s.processes (dynRunStep s best).processes best f2 hb
        (fun i hi hib => (r3 i hi hib).1) r1 hrem
      unfold dynMeasure
      split_ifs <;> omega
    refine ⟨⟨htr', ?_, ?_, ?_⟩, hmeasure⟩
    · by_cases hz : (consume 1
          (startIfUnset s.currentTime (s.processes.getD best default))).remainingTime = 0
      · rw [(f3 hz).1]
        simp [hlen]
      · rw [(f4 hz).1]
        exact hlen
    · by_cases hz : (consume 1
          (startIfUnset s.currentTime (s.processes.getD best default))).remainingTime = 0
      · rw [(f3 hz).1, (f3 hz).2.1]
        have := count_false_set_true s.finished best (by omega) hfin
        omega
      · rw [(f4 hz).1, (f4 hz).2.1]
        exact hcount
    · intro i hi
      by_cases hib : i = best
      · subst hib
        have hle := (hok i hi).1
        rw [r1, r2]
        refine ⟨by omega, fun hfalse => ?_⟩
        by_cases hz : (consume 1
            (startIfUnset s.currentTime (s.processes.getD i default))).remainingTime = 0
        · rw [(f3 hz).1, getD_set_self _ _ _ _ (by omega)] at hfalse
          cases hfalse
        · rw [c6, s6] at hz
          omega
      · have hflag : (dynRunStep s best).finished.getD i false = s.finished.getD i false := by
          by_cases hz : (consume 1
              (startIfUnset s.currentTime (s.processes.getD best default))).remainingTime = 0
          · rw [(f3 hz).1, getD_set_other _ _ _ _ _ (Ne.symm hib)]
          · rw [(f4 hz).1]
        rw [hflag, (r3 i (by omega) hib).1, (r3 i (by omega) hib).2]
        exact hok i hi

/-- When `dynStep` leaves the loop under the invariant, every process is flagged
finished. -/
theorem dynStep_exit (ps : List Process)
    (hdom : ∀ p ∈ ps, 0 ≤ p.arrivalTime ∧ p.arrivalTime < INT_MAX ∧ 1 ≤ p.burstTime ∧
      p.initialPriority < INT_MAX)
    (s : DynState) (hinv : dynInv ps s) (h : dynStep s = none) :
    ∀ i, i < ps.length → s.finished.getD i false = true := by
  obtain ⟨htr, hlen, hcount, hok⟩ := hinv
  unfold dynStep at h
  split_ifs at h with hc
  · split at h
    · simp only [] at h
      split_ifs at h with hn
      obtain ⟨-, hmin, -⟩ := nextArrivalScan_spec s.processes s.finished
      intro i hi
      cases hd : s.finished.getD i false with
      | true => rfl
      | false =>
        have h1 := hmin i (by rw [htr.1]; exact hi) hd
        have h2 := (aged_facts ps s.processes htr hdom i hi).2.1
        omega
    · cases h
  · intro i hi
    apply getD_true_of_count_false_zero _ _ i (by omega)
    rw [htr.1] at hc
    omega

theorem dynInv_init (ps : List Process)
    (hdom : ∀ p ∈ ps, 1 ≤ p.burstTime ∧ 1 ≤ p.initialPriority) : dynInv ps (dynInit ps) := by
  refine ⟨?_, by simp [dynInit], by simp [dynInit], fun i hi => ?_⟩
  · exact agedPriority_dyn ps (fun p hp => (hdom p hp).2) 0
  · have hmem : ps.getD i default ∈ ps := by
      rw [List.getD_eq_getElem _ _ hi]
      exact List.getElem_mem _
    have hb := (hdom _ hmem).1
    simp only [dynInit]
    rw [getD_map_of_lt resetRunPriority ps i default default hi]
    exact ⟨le_refl _, fun _ => hb⟩

theorem dynMeasure_init (ps : List Process) : dynMeasure (dynInit ps) ≤ dynFuel ps := by
  have : totalRemaining (dynInit ps).processes =
      (ps.map (fun p => p.burstTime.toNat)).sum := by
    unfold totalRemaining dynInit
    simp only [List.map_map]
    rfl
  unfold dynMeasure dynFuel
  rw [this]
  split_ifs <;> omega

/-- The main loop of `simulateDynamicPriority` is left within `dynFuel` iterations, in a
state that has every property `Inv` that holds when the loop is entered and that an
iteration keeps. -/
theorem dyn_run_exit (ps : List Process)
    (hdom : ∀ p ∈ ps, 1 ≤ p.burstTime ∧ 1 ≤ p.initialPriority ∧ p.initialPriority < INT_MAX)
    (Inv : DynState → Prop)
    (hstep : ∀ s s', dynInv ps s → Inv s → dynStep s = some s' → Inv s')
    (hinit : Inv (dynInit ps)) (fuel : Nat) (hfuel : dynFuel ps ≤ fuel) :
    ∃ st, runLoop dynStep fuel (dynInit ps) = some st ∧ dynInv ps st ∧ Inv st ∧
      st.processes.map descriptor = ps.map descriptor ∧ dynStep st = none := by
  have hprio : ∀ p ∈ ps, p.initialPriority < INT_MAX := fun p hp => (hdom p hp).2.2
  obtain ⟨st, hst, ⟨hinv, hI⟩, hexit⟩ := runLoop_of_measure dynStep
    (fun s => dynInv ps s ∧ Inv s) dynMeasure
    (fun s s' hi hs => ⟨⟨(dynStep_progress ps hprio s s' hi.1 hs).1, hstep s s' hi.1 hi.2 hs⟩,
      (dynStep_progress ps hprio s s' hi.1 hs).2⟩) fuel (dynInit ps)
    ⟨dynInv_init ps (fun p hp => ⟨(hdom p hp).1, (hdom p hp).2.1⟩), hinit⟩
    (le_trans (dynMeasure_init ps) hfuel)
  exact ⟨st, hst, hinv, hI,
    rows_descriptor_of_tracks agedPriority (fun q p h => h.1) ps _ hinv.1, hexit⟩

/-- With arrival times below `INT_MAX`, the main loop of `simulateDynamicPriority` is left
with every process flagged finished. -/
theorem dyn_run (ps : List Process)
    (hdom : ∀ p ∈ ps, 0 ≤ p.arrivalTime ∧ p.arrivalTime < INT_MAX ∧ 1 ≤ p.burstTime ∧
      1 ≤ p.initialPriority ∧ p.initialPriority < INT_MAX)
    (Inv : DynState → Prop)
    (hstep : ∀ s s', dynInv ps s → Inv s → dynStep s = some s' → Inv s')
    (hinit : Inv (dynInit ps)) (fuel : Nat) (hfuel : dynFuel ps ≤ fuel) :
    ∃ st, runLoop dynStep fuel (dynInit ps) = some st ∧ dynInv ps st ∧ Inv st ∧
      st.processes.map descriptor = ps.map descriptor ∧
      ∀ i, i < ps.length → st.finished.getD i false = true := by
  have hdom' : ∀ p ∈ ps, 0 ≤ p.arrivalTime ∧ p.arrivalTime < INT_MAX ∧ 1 ≤ p.burstTime ∧
      p.initialPriority < INT_MAX :=
    fun p hp => ⟨(hdom p hp).1, (hdom p hp).2.1, (hdom p hp).2.2.1, (hdom p hp).2.2.2.2⟩
  obtain ⟨st, hst, hinv, hI, hdesc, hexit⟩ := dyn_run_exit ps
    (fun p hp => ⟨(hdom p hp).2.2.1, (hdom p hp).2.2.2.1, (hdom p hp).2.2.2.2⟩) Inv hstep hinit
    fuel hfuel
  exact ⟨st, hst, hinv, hI, hdesc, dynStep_exit ps hdom' st hinv hexit⟩

/-! ## Dynamic Priority: the clock stays in the `int` range -/

theorem totalRemaining_cons (p : Process) (l : List Process) :
    totalRemaining (p :: l) = p.remainingTime.toNat + totalRemaining l := by
  simp [totalRemaining]

theorem totalRemaining_le (ps l : List Process) (hlen : l.length = ps.length)
    (h : ∀ i, i < ps.length →
      (l.getD i default).remainingTime ≤ (ps.getD i default).burstTime)
    (hb : ∀ p ∈ ps, 0 ≤ p.burstTime) : (totalRemaining l : Int) ≤ totalBurst ps := by
  induction ps generalizing l with
  | nil =>
    have : l = [] := List.length_eq_zero.mp hlen
    subst this
    simp [totalRemaining, totalBurst]
  | cons p rest ih =>
    cases l with
    | nil => simp at hlen
    | cons q qs =>
      simp only [List.length_cons, Nat.add_right_cancel_iff] at hlen
      have h0 := h 0 (by simp)
      simp only [List.getD_cons_zero] at h0
      have hp := hb p (List.mem_cons_self _ _)
      have := ih qs hlen
        (fun i hi => by
          have := h (i + 1) (by simpa using hi)
          simpa using this)
        (fun x hx => hb x (List.mem_cons_of_mem _ hx))
      rw [totalRemaining_cons, totalBurst_cons]
      push_cast
      omega

/-- An iteration of `simulateDynamicPriority` keeps the clock in the range that leaves
room for the time still to run, and the working processes as the clock allows. -/
theorem dynTimes_dynStep (ps : List Process)
    (hdom : ∀ p ∈ ps, 0 ≤ p.arrivalTime ∧ p.arrivalTime < INT_MAX ∧ 1 ≤ p.burstTime ∧
      p.initialPriority < INT_MAX)
    (hfit : fitsInt ps)
    (s s' : DynState) (hinv : dynInv ps s) (ht : dynTimes s) (h : dynStep s = some s') :
    dynTimes s' := by
  obtain ⟨htr, hlen, hcount, hok⟩ := hinv
  obtain ⟨t0, t1, tok⟩ := ht
  have hn : s.processes.length = ps.length := htr.1
  obtain ⟨hc, hcase⟩ := dynStep_cases s s' h
  rcases hcase with ⟨hnone, hnext, rfl⟩ | ⟨best, hsome, rfl⟩
  · have hnr := dyn_no_runnable ps s htr (fun p hp => (hdom p hp).2.2.2) s.currentTime hnone
    obtain ⟨-, -, hex⟩ := nextArrivalScan_spec s.processes s.finished
    rcases hex with hex | ⟨i, hi, hfin, harrive⟩
    · exact absurd hex hnext
    · rw [hn] at hi
      obtain ⟨e1, e2, a0, -, a1⟩ :=
        fits_facts agedPriority (fun q p h => h.1) ps s.processes htr hfit i hi
      have hrem := (hok i hi).2 hfin
      have hlate : s.currentTime < (s.processes.getD i default).arrivalTime := by
        by_contra hle
        exact hnr i hi ⟨hfin, by omega, hrem⟩
      have htot := totalRemaining_le ps s.processes hn
        (fun j hj => by
          have := (hok j hj).1
          rw [(fits_facts agedPriority (fun q p h => h.1) ps s.processes htr hfit j hj).2.1]
            at this
          exact this)
        (fun p hp => (hfit p hp).2.1)
      unfold dynTimes
      simp only []
      refine ⟨by omega, by omega, fun j hj => ?_⟩
      · obtain ⟨hT, hF⟩ := tok j hj
        refine ⟨fun hf => ⟨(hT hf).1, by have := (hT hf).2; omega⟩, fun hf => ?_⟩
        obtain ⟨h1, h2, h3⟩ := hF hf
        refine ⟨h1, h2, ?_⟩
        rcases h3 with h3 | h3
        · exact Or.inl h3
        · exact absurd ⟨hf, by omega, h1⟩ (hnr j (by omega))
  · obtain ⟨hb, hrun, -, -⟩ := (dynSelect_spec s.processes s.finished s.currentTime).2 best hsome
    have hb' : best < ps.length := by rw [← hn]; exact hb
    obtain ⟨hfin, harr, hrem⟩ := hrun
    obtain ⟨f1, f2, f3, f4, f5⟩ := dynRunStep_fields s best
    obtain ⟨r1, -, r3⟩ := dynRunStep_remaining s best hb
    have hstep := totalRemaining_step s.processes (dynRunStep s best).processes best f2 hb
      (fun i hi hib => (r3 i hi hib).1) r1 hrem
    have hw : wrap32 (s.currentTime + 1) = s.currentTime + 1 :=
      wrap32_of_bounds _ (by omega) (by omega)
    rw [hw] at f1 f3 f5
    have hfacts := aged_facts ps s.processes htr hdom best hb'
    have hokb := tok best hb
    rw [hfin] at hokb
    refine ⟨by rw [f1]; omega, by rw [f1]; omega, fun i hi => ?_⟩
    rw [f2] at hi
    rw [f1]
    by_cases hib : i = best
    · subst hib
      by_cases hz : (consume 1
          (startIfUnset s.currentTime (s.processes.getD i default))).remainingTime = 0
      · rw [(f3 hz).1, (f3 hz).2.2 hb, getD_set_self _ _ _ _ (by omega)]
        exact ⟨fun _ => timesOk_run_finish _ _ hokb harr hz, fun hf => nomatch hf⟩
      · rw [(f4 hz).1, (f4 hz).2.2 hb, hfin]
        exact dynProcOk_run_continue _ _ hokb hfacts.1 harr hz
    · have hflag : (dynRunStep s best).finished.getD i false = s.finished.getD i false := by
        by_cases hz : (consume 1
            (startIfUnset s.currentTime (s.processes.getD best default))).remainingTime = 0
        · rw [(f3 hz).1, getD_set_other _ _ _ _ _ (Ne.symm hib)]
        · rw [(f4 hz).1]
      rw [hflag, f5 i hi hib]
      exact dynProcOk_ageOne _ _ _ _ _ _ (tok i hi)

theorem dynTimes_init (ps : List Process) (hne : ps ≠ []) (hfit : fitsInt ps)
    (hb : ∀ p ∈ ps, 1 ≤ p.burstTime) : dynTimes (dynInit ps) := by
  have hpos : 0 < ps.length := List.length_pos.mpr hne
  obtain ⟨-, hmin, hex⟩ := earliestArrivalScan_spec (ps.map resetRunPriority)
  have hlen : (ps.map resetRunPriority).length = ps.length := by simp
  have htot : (totalRemaining (ps.map resetRunPriority) : Int) ≤ totalBurst ps := by
    apply totalRemaining_le ps _ hlen _ (fun p hp => (hfit p hp).2.1)
    intro i hi
    rw [getD_map_of_lt resetRunPriority ps i default default hi]
    exact le_refl _
  have hmem : ∀ i, i < ps.length → ps.getD i default ∈ ps := by
    intro i hi
    rw [List.getD_eq_getElem _ _ hi]
    exact List.getElem_mem _
  have h0 := hmin 0 (by rw [hlen]; exact hpos)
  rw [getD_map_of_lt resetRunPriority ps 0 default default hpos] at h0
  have hfirst := hfit _ (hmem 0 hpos)
  have hclock : 0 ≤ earliestArrivalScan (ps.map resetRunPriority) := by
    rcases hex with hex | ⟨i, hi, harrive⟩
    · rw [hex]
      decide
    · rw [hlen] at hi
      rw [getD_map_of_lt resetRunPriority ps i default default hi] at harrive
      have := (hfit _ (hmem i hi)).1
      rw [← harrive]
      exact this
  refine ⟨hclock, ?_, fun i hi => ?_⟩
  · show earliestArrivalScan (ps.map resetRunPriority) +
      (totalRemaining (ps.map resetRunPriority) : Int) ≤ INT_MAX
    have : (resetRunPriority (ps.getD 0 default)).arrivalTime =
      (ps.getD 0 default).arrivalTime := rfl
    rw [this] at h0
    omega
  · simp only [dynInit, List.length_map] at hi
    simp only [dynInit]
    rw [getD_replicate_false, getD_map_of_lt resetRunPriority ps i default default hi]
    refine ⟨fun hf => (nomatch hf), fun _ => ?_⟩
    exact ⟨hb _ (hmem i hi), le_refl _, Or.inl ⟨rfl, rfl⟩⟩

/-- On a non-empty list with arrival times below `INT_MAX` the earliest-arrival scan
does not return `INT_MAX`. -/
theorem earliestArrivalScan_ne (ps : List Process) (f : Process → Process)
    (hf : ∀ p, (f p).arrivalTime = p.arrivalTime) (hne : ps ≠ [])
    (harr : ∀ p ∈ ps, p.arrivalTime < INT_MAX) :
    earliestArrivalScan (ps.map f) ≠ INT_MAX := by
  have hpos : 0 < ps.length := List.length_pos.mpr hne
  have h1 := (earliestArrivalScan_spec (ps.map f)).2.1 0 (by simpa using hpos)
  rw [getD_map_of_lt f ps 0 default default hpos, hf] at h1
  have h2 : (ps.getD 0 default).arrivalTime < INT_MAX := by
    apply harr
    rw [List.getD_eq_getElem _ _ hpos]
    exact List.getElem_mem _
  omega

theorem earliestArrivalScan_fits (ps : List Process) (f : Process → Process)
    (hf : ∀ p, (f p).arrivalTime = p.arrivalTime) (hne : ps ≠ []) (hfit : fitsInt ps) :
    0 ≤ earliestArrivalScan (ps.map f) ∧
    earliestArrivalScan (ps.map f) + totalBurst ps ≤ INT_MAX := by
  have hpos : 0 < ps.length := List.length_pos.mpr hne
  obtain ⟨-, hmin, hex⟩ := earliestArrivalScan_spec (ps.map f)
  have hlen : (ps.map f).length = ps.length := by simp
  have hmem : ∀ i, i < ps.length → ps.getD i default ∈ ps := by
    intro i hi
    rw [List.getD_eq_getElem _ _ hi]
    exact List.getElem_mem _
  have h0 := hmin 0 (by rw [hlen]; exact hpos)
  rw [getD_map_of_lt f ps 0 default default hpos, hf] at h0
  have hfirst := hfit _ (hmem 0 hpos)
  refine ⟨?_, by omega⟩
  rcases hex with hex | ⟨i, hi, harrive⟩
  · rw [hex]
    decide
  · rw [hlen] at hi
    rw [getD_map_of_lt f ps i default default hi, hf] at harrive
    have := (hfit _ (hmem i hi)).1
    rw [← harrive]
    exact this

theorem simulateDynamicPriority_of_run (ps : List Process) (hne : ps ≠ [])
    (harr : ∀ p ∈ ps, p.arrivalTime < INT_MAX) (fuel : Nat) (st : DynState)
    (hst : runLoop dynStep fuel (dynInit ps) = some st) :
    simulateDynamicPriority fuel ps =
      some { summary := { avgWaiting := toDouble (st.totalWaiting / ps.length),
                          avgTurnaround := toDouble (st.totalTurnaround / ps.length),
                          name := "Dynamic Priority" },
             rows := st.processes, log := st.log } := by
  have hlen : ps.length ≠ 0 := fun h => hne (List.length_eq_zero.mp h)
  have hearly := earliestArrivalScan_ne ps resetRunPriority (fun _ => rfl) hne harr
  unfold simulateDynamicPriority
  simp only [hlen, hearly, if_false, hst]

/-- With burst times at least `1` and initial priorities in `[1, INT_MAX)`,
`simulateDynamicPriority` returns: the processes of the list, or no row when no arrival
time is below `INT_MAX`. -/
theorem simulateDynamicPriority_returns (ps : List Process) (hne : ps ≠ [])
    (hdom : ∀ p ∈ ps, 1 ≤ p.burstTime ∧ 1 ≤ p.initialPriority ∧ p.initialPriority < INT_MAX)
    (fuel : Nat) (hfuel : dynFuel ps ≤ fuel) :
    ∃ r, simulateDynamicPriority fuel ps = some r ∧
      (r.rows.map descriptor = ps.map descriptor ∨
        (r.rows = [] ∧ ∀ p ∈ ps, INT_MAX ≤ p.arrivalTime)) := by
  have hlen : ps.length ≠ 0 := fun h => hne (List.length_eq_zero.mp h)
  by_cases he : earliestArrivalScan (ps.map resetRunPriority) = INT_MAX
  · refine ⟨dynZeroResult, ?_, Or.inr ⟨rfl, ?_⟩⟩
    · unfold simulateDynamicPriority
      simp only [hlen, he, if_false, if_true]
      rfl
    · intro p hp
      obtain ⟨i, hi, hpi⟩ := List.mem_iff_getElem.mp hp
      have := (earliestArrivalScan_spec (ps.map resetRunPriority)).2.1 i (by simpa using hi)
      rw [getD_map_of_lt resetRunPriority ps i default default hi,
        List.getD_eq_getElem _ _ hi, hpi, he] at this
      exact this
  · obtain ⟨st, hst, -, -, hdesc, -⟩ := dyn_run_exit ps hdom (fun _ => True)
      (fun _ _ _ _ _ => trivial) trivial fuel hfuel
    refine ⟨{ summary := { avgWaiting := toDouble (st.totalWaiting / ps.length),
                           avgTurnaround := toDouble (st.totalTurnaround / ps.length),
                           name := "Dynamic Priority" },
              rows := st.processes, log := st.log }, ?_, Or.inl hdesc⟩
    unfold simulateDynamicPriority
    simp only [hlen, he, if_false, hst]

/-- With arrival times in `[0, INT_MAX)`, burst times at least `1`, initial priorities in
`[1, INT_MAX)` and no clock that leaves the `int` range, `simulateDynamicPriority`
returns, and every row has run at or after its arrival and for its burst time, and has
ended by `INT_MAX`. -/
theorem simulateDynamicPriority_times (ps : List Process) (hne : ps ≠ [])
    (hdom : ∀ p ∈ ps, 0 ≤ p.arrivalTime ∧ p.arrivalTime < INT_MAX ∧ 1 ≤ p.burstTime ∧
      1 ≤ p.initialPriority ∧ p.initialPriority < INT_MAX)
    (hfit : fitsInt ps)
    (fuel : Nat) (hfuel : dynFuel ps ≤ fuel) :
    ∃ r, simulateDynamicPriority fuel ps = some r ∧
      r.rows.map descriptor = ps.map descriptor ∧
      ∀ p ∈ r.rows, timesOk p ∧ p.finishTime ≤ INT_MAX := by
  have hdom' : ∀ p ∈ ps, 0 ≤ p.arrivalTime ∧ p.arrivalTime < INT_MAX ∧ 1 ≤ p.burstTime ∧
      p.initialPriority < INT_MAX :=
    fun p hp => ⟨(hdom p hp).1, (hdom p hp).2.1, (hdom p hp).2.2.1, (hdom p hp).2.2.2.2⟩
  obtain ⟨st, hst, hinv, ht, hdesc, hdone⟩ := dyn_run ps hdom dynTimes
    (fun s s' hi hI hs => dynTimes_dynStep ps hdom' hfit s s' hi hI hs)
    (dynTimes_init ps hne hfit (fun p hp => (hdom p hp).2.2.1)) fuel hfuel
  refine ⟨_, simulateDynamicPriority_of_run ps hne (fun p hp => (hdom p hp).2.1) fuel st hst,
    hdesc, ?_⟩
  intro p hp
  obtain ⟨i, hi, hpi⟩ := List.mem_iff_getElem.mp hp
  have hi' : i < st.processes.length := hi
  have := (ht.2.2 i hi').1 (hdone i (by rw [← hinv.1.1]; exact hi'))
  rw [List.getD_eq_getElem _ _ hi', hpi] at this
  have h1 := ht.1
  have h2 := ht.2.1
  exact ⟨this.1, by have := this.2; omega⟩

theorem selectSound_priority (ps : List Process)
    (hprio : ∀ p ∈ ps, p.initialPriority < INT_MAX) :
    selectSound samePriority prioritySelect ps := by
  intro processes done t htr
  obtain ⟨h1, h2⟩ := prioritySelect_spec processes done t
  refine ⟨fun hnone i hi hready => ?_, fun a ha => ⟨(h2 a ha).1, (h2 a ha).2.1⟩⟩
  have := h1 hnone i hi hready
  have hi' : i < ps.length := by rw [← htr.1]; exact hi
  have hp := (htr.2 i hi').2
  have hmem : ps.getD i default ∈ ps := by
    rw [List.getD_eq_getElem _ _ hi']
    exact List.getElem_mem _
  have := hprio _ hmem
  omega

theorem selectSound_sjf (ps : List Process) (hburst : ∀ p ∈ ps, p.burstTime < INT_MAX) :
    selectSound sameDescriptor sjfSelect ps := by
  intro processes done t htr
  obtain ⟨h1, h2⟩ := sjfSelect_spec processes done t
  refine ⟨fun hnone i hi hready => ?_, fun a ha => ⟨(h2 a ha).1, (h2 a ha).2.1⟩⟩
  have := h1 hnone i hi hready
  have hi' : i < ps.length := by rw [← htr.1]; exact hi
  have hd := htr.2 i hi'
  simp only [sameDescriptor, descriptor, Prod.mk.injEq] at hd
  have hmem : ps.getD i default ∈ ps := by
    rw [List.getD_eq_getElem _ _ hi']
    exact List.getElem_mem _
  have := hburst _ hmem
  omega

theorem simulatePriority_of_run (ps : List Process) (hne : ps ≠ []) (fuel : Nat)
    (st : SchedState) (hst : runLoop priorityStep fuel (priorityInit ps) = some st) :
    simulatePriority fuel ps =
      some ({ avgWaiting := toDouble (st.totalWaiting / ps.length),
              avgTurnaround := toDouble (st.totalTurnaround / ps.length), name := "Priority" },
            st.processes) := by
  have hlen : ps.length ≠ 0 := fun h => hne (List.length_eq_zero.mp h)
  unfold simulatePriority
  simp only [hlen, if_false, hst]

theorem simulateSJF_of_run (ps : List Process) (hne : ps ≠ [])
    (harr : ∀ p ∈ ps, p.arrivalTime < INT_MAX) (fuel : Nat)
    (st : SchedState) (hst : runLoop sjfStep fuel (sjfInit ps) = some st) :
    simulateSJF fuel ps =
      some ({ avgWaiting := toDouble (st.totalWaiting / ps.length),
              avgTurnaround := toDouble (st.totalTurnaround / ps.length), name := "SJF" },
            st.processes) := by
  have hlen : ps.length ≠ 0 := fun h => hne (List.length_eq_zero.mp h)
  have hearly := earliestArrivalScan_ne ps resetRun (fun _ => rfl) hne harr
  unfold simulateSJF
  simp only [hlen, hearly, if_false, hst]

/-- With initial priorities below `INT_MAX`, `simulatePriority` returns the processes of
the list. -/
theorem simulatePriority_returns (ps : List Process) (hne : ps ≠ [])
    (hprio : ∀ p ∈ ps, p.initialPriority < INT_MAX)
    (fuel : Nat) (hfuel : 2 * ps.length + 1 ≤ fuel) :
    ∃ r, simulatePriority fuel ps = some r ∧ r.2.map descriptor = ps.map descriptor := by
  obtain ⟨st, hst, hdesc, -⟩ := sched_run_exit samePriority samePriority_dispatch
    (fun q p h => h.1) prioritySelect ps (selectSound_priority ps hprio)
    (fun _ => True) (fun _ _ _ _ _ => trivial)
    resetRunPriority (fun q => ⟨rfl, rfl⟩) 0 trivial fuel hfuel
  exact ⟨_, simulatePriority_of_run ps hne fuel st hst, hdesc⟩

/-- With burst times below `INT_MAX`, `simulateSJF` returns: the processes of the list, or
no row when no arrival time is below `INT_MAX`. -/
theorem simulateSJF_returns (ps : List Process) (hne : ps ≠ [])
    (hburst : ∀ p ∈ ps, p.burstTime < INT_MAX)
    (fuel : Nat) (hfuel : 2 * ps.length + 1 ≤ fuel) :
    ∃ r, simulateSJF fuel ps = some r ∧
      (r.2.map descriptor = ps.map descriptor ∨
        (r.2 = [] ∧ ∀ p ∈ ps, INT_MAX ≤ p.arrivalTime)) := by
  have hlen : ps.length ≠ 0 := fun h => hne (List.length_eq_zero.mp h)
  by_cases he : earliestArrivalScan (ps.map resetRun) = INT_MAX
  · refine ⟨(zeroSummary "SJF", []), ?_, Or.inr ⟨rfl, ?_⟩⟩
    · unfold simulateSJF
      simp only [hlen, he, if_false, if_true]
    · intro p hp
      obtain ⟨i, hi, hpi⟩ := List.mem_iff_getElem.mp hp
      have := (earliestArrivalScan_spec (ps.map resetRun)).2.1 i (by simpa using hi)
      rw [getD_map_of_lt resetRun ps i default default hi,
        List.getD_eq_getElem _ _ hi, hpi, he] at this
      exact this
  · obtain ⟨st, hst, hdesc, -⟩ := sched_run_exit sameDescriptor sameDescriptor_dispatch
      (fun q p h => h) sjfSelect ps (selectSound_sjf ps hburst)
      (fun _ => True) (fun _ _ _ _ _ => trivial)
      resetRun (fun q => rfl) (earliestArrivalScan (ps.map resetRun)) trivial fuel hfuel
    have hst' : runLoop sjfStep fuel (sjfInit ps) = some st := hst
    refine ⟨({ avgWaiting := toDouble (st.totalWaiting / ps.length),
               avgTurnaround := toDouble (st.totalTurnaround / ps.length), name := "SJF" },
             st.processes), ?_, Or.inl hdesc⟩
    unfold simulateSJF
    simp only [hlen, he, if_false, hst']

theorem totalBurst_fits (ps : List Process) (hne : ps ≠ []) (hfit : fitsInt ps) :
    0 + totalBurst ps ≤ INT_MAX := by
  cases ps with
  | nil => exact absurd rfl hne
  | cons p rest =>
    have := hfit p (List.mem_cons_self _ _)
    omega

/-- With arrival times and initial priorities below `INT_MAX` and no clock that leaves the
`int` range, `simulatePriority` returns the processes of the list, which have run at or
after their arrival, one at a time, each for its burst time. -/
theorem simulatePriority_times (ps : List Process) (hne : ps ≠ [])
    (harr : ∀ p ∈ ps, p.arrivalTime < INT_MAX)
    (hprio : ∀ p ∈ ps, p.initialPriority < INT_MAX) (hfit : fitsInt ps)
    (fuel : Nat) (hfuel : 2 * ps.length + 1 ≤ fuel) :
    ∃ r, simulatePriority fuel ps = some r ∧
      r.2.map descriptor = ps.map descriptor ∧ r.2.length = ps.length ∧
      disjointRows r.2 ∧ ∀ p ∈ r.2, timesOk p ∧ exactLength p := by
  obtain ⟨st, hst, hdesc, hl, hdis, hex⟩ := sched_run_intervals samePriority
    samePriority_dispatch (fun q p h => h.1) prioritySelect ps (selectSound_priority ps hprio)
    harr hfit resetRunPriority (fun q => ⟨rfl, rfl⟩) 0 (le_refl _)
    (totalBurst_fits ps hne hfit) fuel hfuel
  exact ⟨_, simulatePriority_of_run ps hne fuel st hst, hdesc, hl, hdis, hex⟩

/-- With arrival times and burst times below `INT_MAX` and no clock that leaves the `int`
range, `simulateSJF` returns the processes of the list, which have run at or after their
arrival, one at a time, each for its burst time. -/
theorem simulateSJF_times (ps : List Process) (hne : ps ≠ [])
    (harr : ∀ p ∈ ps, p.arrivalTime < INT_MAX)
    (hburst : ∀ p ∈ ps, p.burstTime < INT_MAX) (hfit : fitsInt ps)
    (fuel : Nat) (hfuel : 2 * ps.length + 1 ≤ fuel) :
    ∃ r, simulateSJF fuel ps = some r ∧
      r.2.map descriptor = ps.map descriptor ∧ r.2.length = ps.length ∧
      disjointRows r.2 ∧ ∀ p ∈ r.2, timesOk p ∧ exactLength p := by
  obtain ⟨h0, h1⟩ := earliestArrivalScan_fits ps resetRun (fun _ => rfl) hne hfit
  obtain ⟨st, hst, hdesc, hl, hdis, hex⟩ := sched_run_intervals sameDescriptor
    sameDescriptor_dispatch (fun q p h => h) sjfSelect ps (selectSound_sjf ps hburst) harr
    hfit resetRun (fun q => rfl) (earliestArrivalScan (ps.map resetRun)) h0 h1 fuel hfuel
  exact ⟨_, simulateSJF_of_run ps hne harr fuel st hst, hdesc, hl, hdis, hex⟩

theorem simulateFCFS_times (ps : List Process) (hfit : fitsInt ps) :
    ∀ p ∈ (simulateFCFS ps).2, timesOk p := by
  intro p hp
  obtain ⟨k, hk⟩ := List.mem_iff_getElem?.mp hp
  rw [simulateFCFS_rows] at hk
  obtain ⟨h1, h2, -⟩ := fcfsLoop_recurrence _ 0 0 0 k p (fcfsFits_sorted ps hfit) hk
  have := le_max_right (prevFinishFrom 0 (fcfsLoop (List.insertionSort fcfsLe ps) 0 0 0).1 k)
    p.arrivalTime
  unfold timesOk
  omega

theorem runLoop_none_of_fixed {σ : Type} (step : σ → Option σ) (s : σ)
    (h : step s = some s) : ∀ fuel, runLoop step fuel s = none := by
  intro fuel
  induction fuel with
  | zero => simp [runLoop, h]
  | succ fuel ih => simpa [runLoop, h] using ih

/-! ## More iterations than needed do not change what an engine returns -/

theorem simulatePriority_fuel_add (fuel k : Nat) (ps : List Process)
    (r : ResultSummary × List Process) (h : simulatePriority fuel ps = some r) :
    simulatePriority (fuel + k) ps = some r := by
  unfold simulatePriority at h ⊢
  by_cases hn : ps.length = 0
  · simpa [hn] using h
  · simp only [hn, if_false] at h ⊢
    cases hl : runLoop priorityStep fuel (priorityInit ps) with
    | none => simp [hl] at h
    | some st =>
      rw [runLoop_add priorityStep fuel k _ st hl]
      simpa [hl] using h

theorem simulateSJF_fuel_add (fuel k : Nat) (ps : List Process)
    (r : ResultSummary × List Process) (h : simulateSJF fuel ps = some r) :
    simulateSJF (fuel + k) ps = some r := by
  unfold simulateSJF at h ⊢
  by_cases hn : ps.length = 0
  · simpa [hn] using h
  · by_cases he : earliestArrivalScan (ps.map resetRun) = INT_MAX
    · simpa [hn, he] using h
    · simp only [hn, he, if_false] at h ⊢
      cases hl : runLoop sjfStep fuel (sjfInit ps) with
      | none => simp [hl] at h
      | some st =>
        rw [runLoop_add sjfStep fuel k _ st hl]
        simpa [hl] using h

theorem simulateDynamicPriority_fuel_add (fuel k : Nat) (ps : List Process)
    (r : DynResult) (h : simulateDynamicPriority fuel ps = some r) :
    simulateDynamicPriority (fuel + k) ps = some r := by
  unfold simulateDynamicPriority at h ⊢
  by_cases hn : ps.length = 0
  · simpa [hn] using h
  · by_cases he : earliestArrivalScan (ps.map resetRunPriority) = INT_MAX
    · simpa [hn, he] using h
    · simp only [hn, he, if_false] at h ⊢
      cases hl : runLoop dynStep fuel (dynInit ps) with
      | none => simp [hl] at h
      | some st =>
        rw [runLoop_add dynStep fuel k _ st hl]
        simpa [hl] using h

/-! ## Every process runs after its arrival and for its burst time -/

theorem burst_le_totalBurst (ps : List Process) (hb : ∀ p ∈ ps, 0 ≤ p.burstTime) :
    ∀ p ∈ ps, p.burstTime ≤ totalBurst ps := by
  induction ps with
  | nil => intro p hp; cases hp
  | cons q rest ih =>
    intro p hp
    have hq := hb q (List.mem_cons_self _ _)
    have hrest : ∀ x ∈ rest, 0 ≤ x.burstTime := fun x hx => hb x (List.mem_cons_of_mem _ hx)
    have hpos := totalBurst_nonneg rest hrest
    rw [totalBurst_cons]
    rcases List.mem_cons.mp hp with rfl | hp
    · omega
    · have := ih hrest p hp
      omega

/-- When no clock leaves the `int` range and every burst time is at least `1`, every
arrival time is below `INT_MAX`. -/
theorem arrival_lt_of_fits (ps : List Process) (hfit : fitsInt ps)
    (hb : ∀ p ∈ ps, 1 ≤ p.burstTime) : ∀ p ∈ ps, p.arrivalTime < INT_MAX := by
  intro p hp
  have h1 := hfit p hp
  have h2 := burst_le_totalBurst ps (fun q hq => (hfit q hq).2.1) p hp
  have h3 := hb p hp
  omega

/-- C5, as amended. For `simulateFCFS`, `simulatePriority`, `simulateSJF` and
`simulateDynamicPriority`, for every non-empty input list with `arrivalTime >= 0`,
`1 <= burstTime < INT_MAX`, `1 <= initialPriority < INT_MAX` and every arrival time plus
the sum of all burst times at most `INT_MAX`, the engine returns (the main loop is left
within `2 * n + 1` iterations, within `dynFuel` iterations for Dynamic Priority), and in
what it returns the rows are the processes of the list and every row has
`startTime >= arrivalTime` and `finishTime >= arrivalTime + burstTime`. -/
theorem engines_times (ps : List Process) (hne : ps ≠ [])
    (hdom : ∀ p ∈ ps, 1 ≤ p.burstTime ∧ p.burstTime < INT_MAX ∧
      1 ≤ p.initialPriority ∧ p.initialPriority < INT_MAX)
    (hfit : fitsInt ps) :
    (((simulateFCFS ps).2.map descriptor).Perm (ps.map descriptor) ∧
      ∀ p ∈ (simulateFCFS ps).2, timesOk p) ∧
    ((∀ fuel, 2 * ps.length + 1 ≤ fuel → ∃ r, simulatePriority fuel ps = some r) ∧
      ∀ fuel r, simulatePriority fuel ps = some r →
        r.2.map descriptor = ps.map descriptor ∧ ∀ p ∈ r.2, timesOk p) ∧
    ((∀ fuel, 2 * ps.length + 1 ≤ fuel → ∃ r, simulateSJF fuel ps = some r) ∧
      ∀ fuel r, simulateSJF fuel ps = some r →
        r.2.map descriptor = ps.map descriptor ∧ ∀ p ∈ r.2, timesOk p) ∧
    ((∀ fuel, dynFuel ps ≤ fuel → ∃ r, simulateDynamicPriority fuel ps = some r) ∧
      ∀ fuel r, simulateDynamicPriority fuel ps = some r →
        r.rows.map descriptor = ps.map descriptor ∧ ∀ p ∈ r.rows, timesOk p) := by
  have harr := arrival_lt_of_fits ps hfit (fun p hp => (hdom p hp).1)
  have hP := simulatePriority_times ps hne harr (fun p hp => (hdom p hp).2.2.2) hfit
  have hS := simulateSJF_times ps hne harr (fun p hp => (hdom p hp).2.1) hfit
  have hD := simulateDynamicPriority_times ps hne
    (fun p hp => ⟨(hfit p hp).1, harr p hp, (hdom p hp).1, (hdom p hp).2.2.1,
      (hdom p hp).2.2.2⟩) hfit
  refine ⟨⟨simulateFCFS_descriptor_perm ps, simulateFCFS_times ps hfit⟩, ⟨?_, ?_⟩, ⟨?_, ?_⟩,
    ⟨?_, ?_⟩⟩
  · intro fuel hfuel
    obtain ⟨r, hr, -⟩ := hP fuel hfuel
    exact ⟨r, hr⟩
  · intro fuel r hr
    obtain ⟨r', hr', hd, -, -, hprop⟩ := hP (fuel + (2 * ps.length + 1)) (Nat.le_add_left _ _)
    rw [simulatePriority_fuel_add fuel _ ps r hr] at hr'
    cases hr'
    exact ⟨hd, fun p hp => (hprop p hp).1⟩
  · intro fuel hfuel
    obtain ⟨r, hr, -⟩ := hS fuel hfuel
    exact ⟨r, hr⟩
  · intro fuel r hr
    obtain ⟨r', hr', hd, -, -, hprop⟩ := hS (fuel + (2 * ps.length + 1)) (Nat.le_add_left _ _)
    rw [simulateSJF_fuel_add fuel _ ps r hr] at hr'
    cases hr'
    exact ⟨hd, fun p hp => (hprop p hp).1⟩
  · intro fuel hfuel
    obtain ⟨r, hr, -⟩ := hD fuel hfuel
    exact ⟨r, hr⟩
  · intro fuel r hr
    obtain ⟨r', hr', hd, hprop⟩ := hD (fuel + dynFuel ps) (Nat.le_add_left _ _)
    rw [simulateDynamicPriority_fuel_add fuel _ ps r hr] at hr'
    cases hr'
    exact ⟨hd, fun p hp => (hprop p hp).1⟩

/-- C5 as amended, at the list `{id=1,arrival=2,burst=3,priority=2},
{id=2,arrival=0,burst=2,priority=3}, {id=3,arrival=9,burst=1,priority=1}`. -/
theorem engines_times_witness :
    smallExample ≠ [] ∧
    (∀ p ∈ smallExample, 1 ≤ p.burstTime ∧ p.burstTime < INT_MAX ∧
      1 ≤ p.initialPriority ∧ p.initialPriority < INT_MAX) ∧
    fitsInt smallExample ∧
    (simulatePriority 7 smallExample).map (fun r => r.2.map timing) =
      some [(1, 2, 5, 0, 3), (2, 0, 2, 0, 2), (3, 9, 10, 0, 1)] ∧
    (∃ r, simulatePriority 7 smallExample = some r) ∧
    (∃ r, simulateDynamicPriority 13 smallExample = some r) ∧
    (∀ p ∈ (simulateFCFS smallExample).2, timesOk p) :=
  ⟨by decide, by decide, by decide, by decide,
   (engines_times smallExample (by decide) (by decide) (by decide)).2.1.1 7 (by decide),
   (engines_times smallExample (by decide) (by decide) (by decide)).2.2.2.1 13 (by decide),
   (engines_times smallExample (by decide) (by decide) (by decide)).1.2⟩

theorem priorityStep_maxPriority :
    priorityStep (priorityInit maxPriorityExample) = some (priorityInit maxPriorityExample) := by
  rfl

theorem sjfStep_maxBurst :
    sjfStep (sjfInit maxBurstExample) = some (sjfInit maxBurstExample) := by
  rfl

theorem dynStep_maxPriority :
    dynStep (dynInit maxPriorityExample) = some (dynInit maxPriorityExample) := by
  rfl

/-- C5 as stated fails at the value `INT_MAX = 2147483647`, which the scans use for "none
found yet", and where a clock passes `INT_MAX`.  On the list
`{id=1,arrival=2147483647,burst=1,priority=1}` the main loop of `simulatePriority` is left
at once through its `break` and the row keeps `startTime = -1` and `finishTime = -1`,
below its arrival time.  On `{id=1,arrival=0,burst=1,priority=2147483647}` the selection
scans of `simulatePriority` and of `simulateDynamicPriority` select nothing, the clock is
set to the arrival time again and the iteration leaves the state unchanged, so the engines
do not return; the same holds of `simulateSJF` on
`{id=1,arrival=0,burst=2147483647,priority=1}`.  On
`{id=1,arrival=0,burst=1500000000}, {id=2,arrival=0,burst=1500000000}`, with every value
below `INT_MAX`, the second finish time `3000000000` does not fit an `int`: each of the
four engines returns the second row with `finishTime = -1294967296`, below
`arrivalTime + burstTime = 1500000000`. -/
theorem engines_times_outside :
    (∀ p ∈ lateArrivalExample, 0 ≤ p.arrivalTime ∧ 1 ≤ p.burstTime ∧ 1 ≤ p.initialPriority) ∧
    (simulatePriority 0 lateArrivalExample).map
        (fun r => r.2.map (fun p => (p.arrivalTime, p.burstTime, p.startTime, p.finishTime))) =
      some [(2147483647, 1, -1, -1)] ∧
    (∀ p ∈ maxPriorityExample, 0 ≤ p.arrivalTime ∧ 1 ≤ p.burstTime ∧ 1 ≤ p.initialPriority) ∧
    fitsInt maxPriorityExample ∧
    (∀ fuel, simulatePriority fuel maxPriorityExample = none) ∧
    (∀ fuel, simulateDynamicPriority fuel maxPriorityExample = none) ∧
    (∀ p ∈ maxBurstExample, 0 ≤ p.arrivalTime ∧ 1 ≤ p.burstTime ∧ 1 ≤ p.initialPriority) ∧
    fitsInt maxBurstExample ∧
    (∀ fuel, simulateSJF fuel maxBurstExample = none) ∧
    (∀ p ∈ overflowExample, 0 ≤ p.arrivalTime ∧ 1 ≤ p.burstTime ∧ p.burstTime < INT_MAX ∧
      1 ≤ p.initialPriority ∧ p.initialPriority < INT_MAX) ∧
    ¬ fitsInt overflowExample ∧
    (simulateFCFS overflowExample).2.map
        (fun p => (p.arrivalTime, p.burstTime, p.startTime, p.finishTime)) =
      [(0, 1500000000, 0, 1500000000), (0, 1500000000, 1500000000, -1294967296)] ∧
    (∃ p ∈ (simulateFCFS overflowExample).2, ¬ timesOk p) ∧
    (simulatePriority 5 overflowExample).map
        (fun r => r.2.map (fun p => (p.arrivalTime, p.burstTime, p.startTime, p.finishTime))) =
      some [(0, 1500000000, 0, 1500000000), (0, 1500000000, 1500000000, -1294967296)] ∧
    (simulateSJF 5 overflowExample).map
        (fun r => r.2.map (fun p => (p.arrivalTime, p.burstTime, p.startTime, p.finishTime))) =
      some [(0, 1500000000, 0, 1500000000), (0, 1500000000, 1500000000, -1294967296)] := by
  refine ⟨by decide, by decide, by decide, by decide, fun fuel => ?_, fun fuel => ?_,
    by decide, by decide, fun fuel => ?_, by decide, by decide, by decide, by decide,
    by decide, by decide⟩
  · have h := runLoop_none_of_fixed priorityStep _ priorityStep_maxPriority fuel
    have hlen : maxPriorityExample.length ≠ 0 := by decide
    unfold simulatePriority
    simp only [hlen, if_false, h]
  · have h := runLoop_none_of_fixed dynStep _ dynStep_maxPriority fuel
    have he : earliestArrivalScan (maxPriorityExample.map resetRunPriority) ≠ INT_MAX := by
      decide
    have hlen : maxPriorityExample.length ≠ 0 := by decide
    unfold simulateDynamicPriority
    simp only [hlen, he, if_false, h]
  · have h := runLoop_none_of_fixed sjfStep _ sjfStep_maxBurst fuel
    have he : earliestArrivalScan (maxBurstExample.map resetRun) ≠ INT_MAX := by decide
    have hlen : maxBurstExample.length ≠ 0 := by decide
    unfold simulateSJF
    simp only [hlen, he, if_false, h]

/-! ## Round Robin: the worked example -/

theorem simulateRoundRobin_fuel_add (fuel k : Nat) (ps : List Process) (quantum : Int)
    (r : RRResult) (h : simulateRoundRobin fuel ps quantum = some r) :
    simulateRoundRobin (fuel + k) ps quantum = some r := by
  unfold simulateRoundRobin at h ⊢
  by_cases hn : ps.length = 0
  · simpa [hn] using h
  · by_cases hq : quantum ≤ 0
    · simpa [hn, hq] using h
    · simp only [hn, hq, if_false] at h ⊢
      cases hl : runLoop (rrStep quantum) fuel (rrInit ps) with
      | none => simp [hl] at h
      | some st =>
        rw [runLoop_add (rrStep quantum) fuel k _ st hl]
        simpa [hl] using h

/-- C2, evaluated: on the worked example of the specification
(`{id=1,arrival=0,burst=4}, {id=2,arrival=0,burst=4}`, quantum 2) the main loop of
`simulateRoundRobin` is left after four iterations, and the run logs the slices
P1[0-2], P1[2-4], P2[4-6], P1[6-6]; P1 ends with finish 6, waiting 2, turnaround 6; P2
ends with start 4 and no finish time; the summary has `avgWaiting = 1` and
`avgTurnaround = 5`. -/
theorem simulateRoundRobin_example_run :
    (∀ k, simulateRoundRobin (4 + k) rrExample 2 = simulateRoundRobin 4 rrExample 2) ∧
    (simulateRoundRobin 3 rrExample 2).isSome = false ∧
    (simulateRoundRobin 4 rrExample 2).map
        (fun r => r.log.map (fun l => (l.id, l.start, l.stop))) =
      some [(1, 0, 2), (1, 2, 4), (2, 4, 6), (1, 6, 6)] ∧
    (simulateRoundRobin 4 rrExample 2).map (fun r => r.rows.map timing) =
      some [(1, 0, 6, 2, 6), (2, 4, -1, 0, 0)] ∧
    (simulateRoundRobin 4 rrExample 2).map (fun r => r.summary.avgWaiting) = some 1 ∧
    (simulateRoundRobin 4 rrExample 2).map (fun r => r.summary.avgTurnaround) = some 5 := by
  refine ⟨?_, by decide, by decide, by decide, by with_unfolding_all decide,
    by with_unfolding_all decide⟩
  intro k
  cases h : simulateRoundRobin 4 rrExample 2 with
  | none =>
    have : (simulateRoundRobin 4 rrExample 2).isSome = true := by decide
    rw [h] at this
    cases this
  | some r => exact simulateRoundRobin_fuel_add 4 k _ _ r h

/-- C3, evaluated: on the worked example (quantum 2) the slices logged for the second
process have total run length 2, its `burstTime` is 4 and its `remainingTime` is 2 when
the simulation returns; the slices of the first process have total run length 4. -/
theorem simulateRoundRobin_example_slices :
    (simulateRoundRobin 4 rrExample 2).map
        (fun r => (sliceTotal r.log 1, (r.rows.getD 1 default).burstTime,
          (r.rows.getD 1 default).remainingTime)) = some (2, 4, 2) ∧
    (simulateRoundRobin 4 rrExample 2).map
        (fun r => (sliceTotal r.log 0, (r.rows.getD 0 default).burstTime,
          (r.rows.getD 0 default).remainingTime)) = some (4, 4, 0) := by
  constructor <;> decide

/-- C6, evaluated: on the worked example (quantum 2) the main loop is left after four
iterations with `completed = 2` while only the first process is flagged finished; the
ready queue still holds the first process once and the second twice; the second process
has `remainingTime = 2` and `finishTime = -1`, below its `arrivalTime + burstTime = 4`. -/
theorem simulateRoundRobin_example_unfinished :
    (runLoop (rrStep 2) 4 (rrInit rrExample)).map
        (fun s => (s.completed, s.finished, s.readyQueue)) =
      some (2, [true, false], [0, 1, 1]) ∧
    (runLoop (rrStep 2) 4 (rrInit rrExample)).map
        (fun s => s.processes.map
          (fun p => (p.remainingTime, p.finishTime, p.arrivalTime + p.burstTime))) =
      some [(0, 6, 4), (2, -1, 4)] := by
  constructor <;> decide

/-! ## Inputs on which no simulation is run -/

/-- C14. On the empty process list every engine returns the zero summary
(`avgWaiting = 0`, `avgTurnaround = 0`) under its own name and produces no row:
`simulateFCFS`, `simulateRoundRobin` for every quantum (non-positive ones included),
`simulatePriority`, `simulateSJF` and `simulateDynamicPriority`, whatever the number of
loop iterations allowed; Round Robin and Dynamic Priority log nothing. -/
theorem empty_list_zero (quantum : Int) (fuel : Nat) :
    simulateFCFS [] = (zeroSummary "FCFS", []) ∧
    simulateRoundRobin fuel [] quantum = some rrZeroResult ∧
    simulatePriority fuel [] = some (zeroSummary "Priority", []) ∧
    simulateSJF fuel [] = some (zeroSummary "SJF", []) ∧
    simulateDynamicPriority fuel [] = some dynZeroResult ∧
    (∀ name, (zeroSummary name).avgWaiting = 0 ∧ (zeroSummary name).avgTurnaround = 0 ∧
      (zeroSummary name).name = name) ∧
    rrZeroResult.rows = [] ∧ rrZeroResult.log = [] ∧
    dynZeroResult.rows = [] ∧ dynZeroResult.log = [] :=
  ⟨rfl, rfl, rfl, rfl, rfl, fun _ => ⟨rfl, rfl, rfl⟩, rfl, rfl, rfl, rfl⟩

theorem rr_length (ps : List Process) (quantum : Int) (k : Nat) :
    (iterate (rrStep quantum) k (rrInit ps)).processes.length = ps.length := by
  apply iterate_inv (rrStep quantum) (fun s => s.processes.length = ps.length)
  · intro s s' hs hstep
    obtain ⟨-, idx, rq, iq, t, -, rfl⟩ := rrStep_cases quantum s s' hstep
    unfold rrRunSlice
    simp only []
    split_ifs <;> simpa using hs
  · simp [rrInit]

/-- C15. `simulateRoundRobin` rejects a non-positive quantum: for every process list and
every `quantum <= 0` it returns the zero summary under the name "Round Robin" with no row
and no logged slice, whatever the number of loop iterations allowed; and for a non-empty
list, whenever it returns a result without rows (the early return), `quantum <= 0`. -/
theorem rr_rejects_quantum (ps : List Process) (quantum : Int) (fuel : Nat) :
    (quantum ≤ 0 → simulateRoundRobin fuel ps quantum = some rrZeroResult) ∧
    (ps ≠ [] → ∀ r, simulateRoundRobin fuel ps quantum = some r → r.rows = [] →
      quantum ≤ 0) ∧
    rrZeroResult.summary = zeroSummary "Round Robin" ∧ rrZeroResult.log = [] := by
  refine ⟨fun hq => ?_, fun hne r hr hrows => ?_, rfl, rfl⟩
  · unfold simulateRoundRobin
    by_cases hn : ps.length = 0
    · simp only [hn, if_true]
      rfl
    · simp only [hn, hq, if_true, if_false]
      rfl
  · by_contra hq
    have hn : ps.length ≠ 0 := fun h => hne (List.length_eq_zero.mp h)
    unfold simulateRoundRobin at hr
    simp only [hn, hq, if_false] at hr
    cases hl : runLoop (rrStep quantum) fuel (rrInit ps) with
    | none => simp [hl] at hr
    | some st =>
      simp only [hl, Option.some.injEq] at hr
      subst hr
      simp only [] at hrows
      have := rr_length ps quantum fuel
      rw [← (runLoop_eq_iterate _ fuel _ st hl).1, hrows] at this
      exact hn this.symm

/-- C15, at the worked Round Robin example: with quantum `0` and with quantum `-3` the
zero result is returned; with quantum `2` the result has rows. -/
theorem rr_rejects_quantum_witness :
    (0 : Int) ≤ 0 ∧ rrExample ≠ [] ∧
    simulateRoundRobin 4 rrExample 0 = some rrZeroResult ∧
    simulateRoundRobin 0 rrExample (-3) = some rrZeroResult ∧
    (simulateRoundRobin 4 rrExample 2).map (fun r => r.rows.length) = some 2 :=
  ⟨le_refl _, by decide, (rr_rejects_quantum rrExample 0 4).1 (le_refl _),
   (rr_rejects_quantum rrExample (-3) 0).1 (by decide), by decide⟩

/-! ## Round Robin: the ready queue on the worked example -/

/-- C16, evaluated: on the worked example (quantum 2), after the first iteration of the
main loop the ready queue is `[0, 1, 0]`, with the first process twice; after the second
iteration the first process is flagged finished and is still twice in the ready queue
`[1, 0, 0]`. -/
theorem simulateRoundRobin_example_queue :
    (iterate (rrStep 2) 1 (rrInit rrExample)).readyQueue = [0, 1, 0] ∧
    (iterate (rrStep 2) 1 (rrInit rrExample)).finished = [false, false] ∧
    (iterate (rrStep 2) 2 (rrInit rrExample)).readyQueue = [1, 0, 0] ∧
    (iterate (rrStep 2) 2 (rrInit rrExample)).finished = [true, false] := by
  refine ⟨by decide, by decide, by decide, by decide⟩

/-- C17, evaluated: on the worked example (quantum 2) the first slice, of the first
process, ends at time 2 with `remainingTime = 2`; the second process has arrived by then
and is admitted at the end of that slice; the next slice is again of the first process
(from 2 to 4), and the second process gets its first slice only after it. -/
theorem simulateRoundRobin_example_requeue :
    (iterate (rrStep 2) 1 (rrInit rrExample)).log.map
        (fun l => (l.idx, l.start, l.stop, l.remaining)) = [(0, 0, 2, 2)] ∧
    (rrExample.getD 1 default).arrivalTime ≤ 2 ∧
    (iterate (rrStep 2) 1 (rrInit rrExample)).readyQueue = [0, 1, 0] ∧
    (iterate (rrStep 2) 3 (rrInit rrExample)).log.map
        (fun l => (l.idx, l.start, l.stop, l.remaining)) =
      [(0, 0, 2, 2), (0, 2, 4, 0), (1, 4, 6, 2)] := by
  refine ⟨by decide, by decide, by decide, by decide⟩

/-! ## Dynamic Priority: the clock of the aging loop -/

theorem sameDescriptor_ageOne (fin : List Bool) (best : Nat) (t : Int) (q p : Process)
    (i : Nat) (h : sameDescriptor q p) : sameDescriptor q (ageOne fin best t i p) := by
  obtain ⟨a1, a2, a3, a4, -⟩ := ageOne_fields fin best t i p
  unfold sameDescriptor descriptor at h ⊢
  rw [a1, a2, a3, a4]
  exact h

theorem sameDescriptor_dyn (ps : List Process) (k : Nat) :
    tracksBy sameDescriptor ps (iterate dynStep k (dynInit ps)).processes := by
  apply iterate_inv dynStep (fun s => tracksBy sameDescriptor ps s.processes)
    (fun s s' => tracksBy_dynStep sameDescriptor ps
      (fun q p p' hR hd _ => hd.trans hR)
      (fun fin best t q p i => sameDescriptor_ageOne fin best t q p i) s s')
  exact tracksBy_map sameDescriptor ps resetRunPriority (fun q => rfl)

/-- The priority of the process that runs a unit step is not changed by the step. -/
theorem dynRunStep_priority_best (s : DynState) (best : Nat) (hb : best < s.processes.length) :
    ((dynRunStep s best).processes.getD best default).priority =
      (s.processes.getD best default).priority := by
  obtain ⟨-, -, f3, f4, -⟩ := dynRunStep_fields s best
  obtain ⟨-, -, -, c4, -⟩ := consume_fields 1
    (startIfUnset s.currentTime (s.processes.getD best default))
  obtain ⟨-, -, -, s4, -⟩ := startIfUnset_fields s.currentTime (s.processes.getD best default)
  by_cases hz : (consume 1
      (startIfUnset s.currentTime (s.processes.getD best default))).remainingTime = 0
  · rw [(f3 hz).2.2 hb, (finishAt_fields _ _).2.2.2.1, c4, s4]
  · rw [(f4 hz).2.2 hb, c4, s4]

/-- C19, as amended. Aging in `simulateDynamicPriority` is evaluated against the clock
after its increment: when an iteration of the main loop (the one entered after `k`
iterations) is a unit step that runs the process at position `best` from time `t` to
`t + 1`, and `t + 1` is in the `int` range, every other process that is not flagged
finished, has `arrivalTime <= t + 1` (also `= t + 1`), `remainingTime > 0` and
`priority > 1` has its priority decreased by exactly `1`, and the priority of every
process with `arrivalTime > t + 1`, and of the process that runs, is unchanged by the
step. -/
theorem dyn_aging_clock (ps : List Process) (k best : Nat)
    (hrun : dynRuns (iterate dynStep k (dynInit ps)) = some best)
    (hclock : inInt ((iterate dynStep k (dynInit ps)).currentTime + 1)) :
    iterate dynStep (k + 1) (dynInit ps) =
      dynRunStep (iterate dynStep k (dynInit ps)) best ∧
    (iterate dynStep (k + 1) (dynInit ps)).currentTime =
      (iterate dynStep k (dynInit ps)).currentTime + 1 ∧
    best < ps.length ∧
    (∀ i, i < ps.length → i ≠ best →
      (iterate dynStep k (dynInit ps)).finished.getD i false = false →
      (ps.getD i default).arrivalTime ≤ (iterate dynStep k (dynInit ps)).currentTime + 1 →
      0 < ((iterate dynStep k (dynInit ps)).processes.getD i default).remainingTime →
      1 < ((iterate dynStep k (dynInit ps)).processes.getD i default).priority →
      ((iterate dynStep (k + 1) (dynInit ps)).processes.getD i default).priority =
        ((iterate dynStep k (dynInit ps)).processes.getD i default).priority - 1) ∧
    (∀ i, i < ps.length →
      (iterate dynStep k (dynInit ps)).currentTime + 1 < (ps.getD i default).arrivalTime →
      ((iterate dynStep (k + 1) (dynInit ps)).processes.getD i default).priority =
        ((iterate dynStep k (dynInit ps)).processes.getD i default).priority) ∧
    ((iterate dynStep (k + 1) (dynInit ps)).processes.getD best default).priority =
      ((iterate dynStep k (dynInit ps)).processes.getD best default).priority := by
  have hnext : iterate dynStep (k + 1) (dynInit ps) =
      dynRunStep (iterate dynStep k (dynInit ps)) best :=
    iterate_succ_right dynStep k _ _ (dynRuns_step _ best hrun)
  have htr := sameDescriptor_dyn ps k
  rw [hnext]
  generalize iterate dynStep k (dynInit ps) = s at hrun htr hclock ⊢
  obtain ⟨hlen, hrel⟩ := htr
  have hsel : (dynSelect s.processes s.finished s.currentTime).1 = some best := by
    unfold dynRuns at hrun
    split_ifs at hrun
    exact hrun
  obtain ⟨hb, -, -, -⟩ := (dynSelect_spec s.processes s.finished s.currentTime).2 best hsel
  obtain ⟨f1, -, -, -, f5⟩ := dynRunStep_fields s best
  rw [wrap32_of_inInt _ hclock] at f1 f5
  have harrival : ∀ i, i < ps.length →
      (s.processes.getD i default).arrivalTime = (ps.getD i default).arrivalTime := by
    intro i hi
    have hd := hrel i hi
    simp only [sameDescriptor, descriptor, Prod.mk.injEq] at hd
    exact hd.2.1
  refine ⟨rfl, f1, by omega, ?_, ?_, dynRunStep_priority_best s best hb⟩
  · intro i hi hib hfin harr hrem hprio
    rw [f5 i (by omega) hib]
    unfold ageOne
    rw [if_neg hib, if_pos ⟨hfin, by rw [harrival i hi]; exact harr, hrem⟩, if_pos hprio]
  · intro i hi harr
    by_cases hib : i = best
    · rw [hib]
      exact dynRunStep_priority_best s best hb
    · rw [f5 i (by omega) hib]
      unfold ageOne
      rw [if_neg hib, if_neg (by
        rintro ⟨-, h2, -⟩
        rw [harrival i hi] at h2
        omega)]

/-- C19 as amended, at the list `{id=1,arrival=0,burst=3,priority=1},
{id=2,arrival=1,burst=1,priority=9}`: the first unit step runs the first process from
time 0 to 1; the second process, which arrives at time 1 and could not run at time 0, is
aged from priority 9 to 8 by that step. -/
theorem dyn_aging_clock_witness :
    dynRuns (iterate dynStep 0 (dynInit clockExample)) = some 0 ∧
    inInt ((iterate dynStep 0 (dynInit clockExample)).currentTime + 1) ∧
    (iterate dynStep 0 (dynInit clockExample)).currentTime = 0 ∧
    (clockExample.getD 1 default).arrivalTime = 1 ∧
    ((iterate dynStep 0 (dynInit clockExample)).processes.getD 1 default).priority = 9 ∧
    ((iterate dynStep (0 + 1) (dynInit clockExample)).processes.getD 1 default).priority =
      ((iterate dynStep 0 (dynInit clockExample)).processes.getD 1 default).priority - 1 :=
  ⟨by decide, by decide, by decide, by decide, by decide,
   (dyn_aging_clock clockExample 0 0 (by decide) (by decide)).2.2.2.1 1 (by decide)
     (by decide) (by decide) (by decide) (by decide) (by decide)⟩

/-- C19 as stated fails where the clock passes `INT_MAX`.  On
`{id=1,arrival=2147483646,burst=3,priority=1},
{id=2,arrival=2147483646,burst=1,priority=5}` the second iteration is a unit step that
runs the first process from time `t = 2147483647`; the second process is not flagged
finished, has `arrivalTime = 2147483646 <= t + 1`, `remainingTime = 1 > 0` and
`priority = 4 > 1`; the incremented clock does not fit an `int` and is left as
`-2147483648`, the test `arrivalTime <= currentTime` of the aging loop fails, and the
priority is still 4 after the step. -/
theorem dyn_aging_clock_wrap :
    dynRuns (iterate dynStep 1 (dynInit clockWrapExample)) = some 0 ∧
    (iterate dynStep 1 (dynInit clockWrapExample)).currentTime = 2147483647 ∧
    (iterate dynStep 1 (dynInit clockWrapExample)).finished.getD 1 false = false ∧
    (clockWrapExample.getD 1 default).arrivalTime ≤
      (iterate dynStep 1 (dynInit clockWrapExample)).currentTime + 1 ∧
    0 < ((iterate dynStep 1 (dynInit clockWrapExample)).processes.getD 1
      default).remainingTime ∧
    ((iterate dynStep 1 (dynInit clockWrapExample)).processes.getD 1 default).priority = 4 ∧
    (iterate dynStep (1 + 1) (dynInit clockWrapExample)).currentTime = -2147483648 ∧
    ((iterate dynStep (1 + 1) (dynInit clockWrapExample)).processes.getD 1
      default).priority = 4 ∧
    ((iterate dynStep (1 + 1) (dynInit clockWrapExample)).processes.getD 1
        default).priority ≠
      ((iterate dynStep 1 (dynInit clockWrapExample)).processes.getD 1 default).priority - 1 :=
  ⟨by decide, by decide, by decide, by decide, by decide, by decide, by decide, by decide,
   by decide⟩

/-! ## An engine reads the descriptors only -/

theorem fcfsLoop_timing_congr (l l' : List Process) (h : l.map descriptor = l'.map descriptor)
    (t : Int) (tw tt : ℚ) :
    (fcfsLoop l t tw tt).1.map timing = (fcfsLoop l' t tw tt).1.map timing ∧
    (fcfsLoop l t tw tt).2 = (fcfsLoop l' t tw tt).2 := by
  induction l generalizing l' t tw tt with
  | nil =>
    cases l' with
    | nil => exact ⟨rfl, rfl⟩
    | cons b l' => simp at h
  | cons a l ih =>
    cases l' with
    | nil => simp at h
    | cons b l' =>
      simp only [List.map_cons, List.cons.injEq] at h
      obtain ⟨hab, hrest⟩ := h
      simp only [descriptor, Prod.mk.injEq] at hab
      obtain ⟨a1, a2, a3, -, a5, a6, a7, a8⟩ := fcfsBody_fields t a
      obtain ⟨b1, b2, b3, -, b5, b6, b7, b8⟩ := fcfsBody_fields t b
      have hfin : (fcfsBody t a).finishTime = (fcfsBody t b).finishTime := by
        rw [a6, b6, hab.2.1, hab.2.2.1]
      have hwait : (fcfsBody t a).waitingTime = (fcfsBody t b).waitingTime := by
        rw [a7, b7, hab.2.1]
      have hturn : (fcfsBody t a).turnaroundTime = (fcfsBody t b).turnaroundTime := by
        rw [a8, b8, hab.2.1, hab.2.2.1]
      have htim : timing (fcfsBody t a) = timing (fcfsBody t b) := by
        simp only [timing, a1, b1, a5, b5, hfin, hwait, hturn, hab.1, hab.2.1]
      have := ih l' hrest (fcfsBody t a).finishTime (toDouble (tw + (fcfsBody t a).waitingTime))
        (toDouble (tt + (fcfsBody t a).turnaroundTime))
      rw [hfin, hwait, hturn] at this
      constructor
      · rw [fcfsLoop_rows_cons, fcfsLoop_rows_cons, List.map_cons, List.map_cons, htim,
          hfin, hwait, hturn]
        exact congrArg _ this.1
      · show (fcfsLoop l (fcfsBody t a).finishTime (toDouble (tw + (fcfsBody t a).waitingTime))
            (toDouble (tt + (fcfsBody t a).turnaroundTime))).2 =
          (fcfsLoop l' (fcfsBody t b).finishTime (toDouble (tw + (fcfsBody t b).waitingTime))
            (toDouble (tt + (fcfsBody t b).turnaroundTime))).2
        rw [hfin, hwait, hturn]
        exact this.2

theorem insertionSort_descriptor (ps : List Process) :
    (ps.insertionSort fcfsLe).map descriptor =
      (ps.map descriptor).insertionSort descriptorLe := by
  apply List.map_insertionSort fcfsLe descriptorLe descriptor ps
  intro a _ b _
  rw [fcfsLe_iff]
  rfl

theorem simulateFCFS_congr (ps ps' : List Process)
    (h : ps.map descriptor = ps'.map descriptor) :
    (simulateFCFS ps).1 = (simulateFCFS ps').1 ∧
    (simulateFCFS ps).2.map timing = (simulateFCFS ps').2.map timing := by
  have hlen : ps.length = ps'.length := by
    have := congrArg List.length h
    simpa using this
  have hsorted : (ps.insertionSort fcfsLe).map descriptor =
      (ps'.insertionSort fcfsLe).map descriptor := by
    rw [insertionSort_descriptor, insertionSort_descriptor, h]
  obtain ⟨h1, h2⟩ := fcfsLoop_timing_congr _ _ hsorted 0 0 0
  refine ⟨?_, by rw [simulateFCFS_rows, simulateFCFS_rows]; exact h1⟩
  unfold simulateFCFS
  by_cases hn : ps.length = 0
  · have hn' : ps'.length = 0 := by omega
    simp only [hn, hn', if_true]
  · have hn' : ps'.length ≠ 0 := by omega
    simp only [hn, hn', if_false]
    rw [h2, hlen]

theorem resetRunPriority_eq (p : Process) : resetRunPriority p = ofDescriptor (descriptor p) :=
  rfl

theorem map_resetRunPriority_congr (ps ps' : List Process)
    (h : ps.map descriptor = ps'.map descriptor) :
    ps.map resetRunPriority = ps'.map resetRunPriority := by
  have : ∀ l : List Process, l.map resetRunPriority = (l.map descriptor).map ofDescriptor := by
    intro l
    rw [List.map_map]
    rfl
  rw [this, this, h]

theorem simulatePriority_congr (ps ps' : List Process)
    (h : ps.map descriptor = ps'.map descriptor) (fuel : Nat) :
    simulatePriority fuel ps = simulatePriority fuel ps' := by
  have hlen : ps.length = ps'.length := by
    have := congrArg List.length h
    simpa using this
  have hinit : priorityInit ps = priorityInit ps' := by
    unfold priorityInit
    rw [map_resetRunPriority_congr ps ps' h, hlen]
  unfold simulatePriority
  rw [hinit, hlen]

theorem simulateDynamicPriority_congr (ps ps' : List Process)
    (h : ps.map descriptor = ps'.map descriptor) (fuel : Nat) :
    simulateDynamicPriority fuel ps = simulateDynamicPriority fuel ps' := by
  have hlen : ps.length = ps'.length := by
    have := congrArg List.length h
    simpa using this
  have hinit : dynInit ps = dynInit ps' := by
    unfold dynInit
    rw [map_resetRunPriority_congr ps ps' h, hlen]
  unfold simulateDynamicPriority
  rw [hinit, hlen, map_resetRunPriority_congr ps ps' h]

theorem getD_clearPriority (l : List Process) (i : Nat) :
    (l.map clearPriority).getD i default = clearPriority (l.getD i default) := by
  by_cases h : i < l.length
  · exact getD_map_of_lt clearPriority l i default default h
  · have h1 : l.length ≤ i := Nat.le_of_not_lt h
    have h2 : (l.map clearPriority).length ≤ i := by rw [List.length_map]; exact h1
    rw [List.getD_eq_default _ _ h1, List.getD_eq_default _ _ h2]
    rfl

theorem startIfUnset_clearPriority (t : Int) (p : Process) :
    startIfUnset t (clearPriority p) = clearPriority (startIfUnset t p) := by
  unfold startIfUnset
  by_cases h : p.startTime = -1
  · have h' : (clearPriority p).startTime = -1 := h
    rw [if_pos h, if_pos h']
    rfl
  · have h' : ¬ (clearPriority p).startTime = -1 := h
    rw [if_neg h, if_neg h']

theorem sjfSelectBody_clearPriority (l : List Process) (done : List Bool) (t : Int) :
    sjfSelectBody (l.map clearPriority) done t = sjfSelectBody l done t := by
  funext acc i
  unfold sjfSelectBody
  simp only [getD_clearPriority, clearPriority]

theorem sjfSelect_clearPriority (l : List Process) (done : List Bool) (t : Int) :
    sjfSelect (l.map clearPriority) done t = sjfSelect l done t := by
  unfold sjfSelect
  rw [sjfSelectBody_clearPriority, List.length_map]

theorem nextArrivalScan_clearPriority (l : List Process) (done : List Bool) :
    nextArrivalScan (l.map clearPriority) done = nextArrivalScan l done := by
  have hb : nextArrivalBody (l.map clearPriority) done = nextArrivalBody l done := by
    funext acc i
    unfold nextArrivalBody
    simp only [getD_clearPriority, clearPriority]
  unfold nextArrivalScan
  rw [hb, List.length_map]

theorem earliestArrivalScan_clearPriority (l : List Process) :
    earliestArrivalScan (l.map clearPriority) = earliestArrivalScan l := by
  have hb : earliestArrivalBody (l.map clearPriority) = earliestArrivalBody l := by
    funext acc i
    unfold earliestArrivalBody
    simp only [getD_clearPriority, clearPriority]
  unfold earliestArrivalScan
  rw [hb, List.length_map]

theorem addArrived_clearPriority (l : List Process) (finished : List Bool) (t : Int)
    (q : List Nat) (inQueue : List Bool) :
    addArrived (l.map clearPriority) finished t q inQueue = addArrived l finished t q inQueue := by
  have hb : addArrivedBody (l.map clearPriority) finished t = addArrivedBody l finished t := by
    funext acc i
    unfold addArrivedBody
    simp only [getD_clearPriority, clearPriority]
  unfold addArrived
  rw [hb, List.length_map]

theorem rrNextScan_clearPriority (l : List Process) (finished : List Bool) :
    rrNextScan (l.map clearPriority) finished = rrNextScan l finished := by
  have hb : rrNextScanBody (l.map clearPriority) finished = rrNextScanBody l finished := by
    funext acc i
    unfold rrNextScanBody
    simp only [getD_clearPriority, clearPriority]
  unfold rrNextScan
  rw [hb, List.length_map]

theorem rrBootstrap_clearPriority (l : List Process) :
    rrBootstrap (l.map clearPriority) = rrBootstrap l := by
  have hb : rrBootstrapBody (l.map clearPriority) = rrBootstrapBody l := by
    funext acc i
    unfold rrBootstrapBody
    simp only [getD_clearPriority, clearPriority]
  unfold rrBootstrap
  rw [hb, List.length_map, getD_clearPriority]
  rfl

theorem schedDispatch_clearPriority (s : SchedState) (best : Nat) :
    schedDispatch s.clearPriority best = (schedDispatch s best).clearPriority := by
  unfold schedDispatch SchedState.clearPriority
  simp only [getD_clearPriority, List.map_set]
  rfl

theorem sjfStep_clearPriority (s : SchedState) :
    sjfStep s.clearPriority = (sjfStep s).map SchedState.clearPriority := by
  have h1 : s.clearPriority.completed = s.completed := rfl
  have h2 : s.clearPriority.processes = s.processes.map clearPriority := rfl
  have h3 : s.clearPriority.done = s.done := rfl
  have h4 : s.clearPriority.currentTime = s.currentTime := rfl
  unfold sjfStep schedStep
  rw [h1, h2, h3, h4, List.length_map, sjfSelect_clearPriority, nextArrivalScan_clearPriority]
  by_cases hc : s.completed < s.processes.length
  · rw [if_pos hc, if_pos hc]
    cases (sjfSelect s.processes s.done s.currentTime).1 with
    | none =>
      by_cases hn : nextArrivalScan s.processes s.done = INT_MAX
      · simp only [hn, if_true]
        rfl
      · simp only [hn, if_false]
        rfl
    | some best =>
      simp only [Option.map]
      rw [schedDispatch_clearPriority]
  · rw [if_neg hc, if_neg hc]
    rfl

theorem runLoop_map {σ : Type} (step : σ → Option σ) (φ : σ → σ)
    (h : ∀ s, step (φ s) = (step s).map φ) (fuel : Nat) (s : σ) :
    runLoop step fuel (φ s) = (runLoop step fuel s).map φ := by
  induction fuel generalizing s with
  | zero =>
    unfold runLoop
    rw [h s]
    cases step s <;> rfl
  | succ k ih =>
    unfold runLoop
    rw [h s]
    cases hs : step s with
    | none => rfl
    | some s' => exact ih s'

theorem finishAt_clearPriority (t : Int) (p : Process) :
    finishAt t (clearPriority p) = clearPriority (finishAt t p) := rfl

theorem consume_clearPriority (r : Int) (p : Process) :
    consume r (clearPriority p) = clearPriority (consume r p) := rfl

theorem rrRefill_clearPriority (s : RRState) : rrRefill s.clearPriority = rrRefill s := by
  have h2 : s.clearPriority.processes = s.processes.map clearPriority := rfl
  unfold rrRefill
  rw [h2, rrNextScan_clearPriority]
  rfl

theorem rrRunSlice_clearPriority (quantum : Int) (s : RRState) (idx : Nat) (q : List Nat)
    (inQueue : List Bool) (t : Int) :
    rrRunSlice quantum s.clearPriority idx q inQueue t =
      (rrRunSlice quantum s idx q inQueue t).clearPriority := by
  have h2 : s.clearPriority.processes = s.processes.map clearPriority := rfl
  have hrem : (startIfUnset t (clearPriority (s.processes.getD idx default))).remainingTime =
      (startIfUnset t (s.processes.getD idx default)).remainingTime := by
    rw [startIfUnset_clearPriority]
    rfl
  unfold rrRunSlice
  simp only [h2, getD_clearPriority]
  rw [startIfUnset_clearPriority, consume_clearPriority, ← List.map_set,
    addArrived_clearPriority]
  by_cases hz : (consume (min quantum (startIfUnset t (s.processes.getD idx default)).remainingTime)
      (startIfUnset t (s.processes.getD idx default))).remainingTime = 0
  · have hz' : (clearPriority (consume
        (min quantum (clearPriority (startIfUnset t (s.processes.getD idx default))).remainingTime)
        (startIfUnset t (s.processes.getD idx default)))).remainingTime = 0 := hz
    rw [if_pos hz, if_pos hz', finishAt_clearPriority, ← List.map_set]
    rfl
  · have hz' : ¬ (clearPriority (consume
        (min quantum (clearPriority (startIfUnset t (s.processes.getD idx default))).remainingTime)
        (startIfUnset t (s.processes.getD idx default)))).remainingTime = 0 := hz
    rw [if_neg hz, if_neg hz']
    rfl

theorem rrStep_clearPriority (quantum : Int) (s : RRState) :
    rrStep quantum s.clearPriority = (rrStep quantum s).map RRState.clearPriority := by
  have h1 : s.clearPriority.completed = s.completed := rfl
  have h2 : s.clearPriority.processes = s.processes.map clearPriority := rfl
  unfold rrStep
  rw [rrRefill_clearPriority, h1, h2, List.length_map]
  by_cases hc : s.completed < s.processes.length
  · rw [if_pos hc, if_pos hc]
    rcases rrRefill s with _ | ⟨q, inQueue, t⟩
    · rfl
    · cases q with
      | nil => rfl
      | cons idx q =>
        simp only [Option.map]
        rw [rrRunSlice_clearPriority]
  · rw [if_neg hc, if_neg hc]
    rfl

theorem clearPriority_resetRun_congr (ps ps' : List Process)
    (h : ps.map descriptor = ps'.map descriptor) :
    (ps.map resetRun).map clearPriority = (ps'.map resetRun).map clearPriority := by
  have : ∀ l : List Process, (l.map resetRun).map clearPriority =
      (l.map descriptor).map (fun d => clearPriority (ofDescriptor d)) := by
    intro l
    rw [List.map_map, List.map_map]
    rfl
  rw [this, this, h]

theorem map_timing_of_clearPriority (l l' : List Process)
    (h : l.map clearPriority = l'.map clearPriority) : l.map timing = l'.map timing := by
  have : ∀ m : List Process, (m.map clearPriority).map timing = m.map timing := by
    intro m
    rw [List.map_map]
    rfl
  rw [← this l, ← this l', h]

theorem simulateSJF_congr (ps ps' : List Process)
    (h : ps.map descriptor = ps'.map descriptor) (fuel : Nat) :
    (simulateSJF fuel ps).map (fun r => (r.1, r.2.map timing)) =
      (simulateSJF fuel ps').map (fun r => (r.1, r.2.map timing)) := by
  have hlen : ps.length = ps'.length := by
    have := congrArg List.length h
    simpa using this
  have hcp := clearPriority_resetRun_congr ps ps' h
  have hea : earliestArrivalScan (ps.map resetRun) = earliestArrivalScan (ps'.map resetRun) := by
    rw [← earliestArrivalScan_clearPriority, hcp, earliestArrivalScan_clearPriority]
  have hinit : (sjfInit ps).clearPriority = (sjfInit ps').clearPriority := by
    unfold sjfInit SchedState.clearPriority
    simp only [hcp, hea, hlen]
  have hrun : (runLoop sjfStep fuel (sjfInit ps)).map SchedState.clearPriority =
      (runLoop sjfStep fuel (sjfInit ps')).map SchedState.clearPriority := by
    rw [← runLoop_map sjfStep _ sjfStep_clearPriority,
      ← runLoop_map sjfStep _ sjfStep_clearPriority, hinit]
  unfold simulateSJF
  simp only [hlen, hea]
  by_cases hn : ps'.length = 0
  · simp only [hn, if_true]
  · simp only [hn, if_false]
    by_cases he : earliestArrivalScan (ps'.map resetRun) = INT_MAX
    · simp only [he, if_true]
    · simp only [he, if_false]
      cases h1 : runLoop sjfStep fuel (sjfInit ps) with
      | none =>
        cases h2 : runLoop sjfStep fuel (sjfInit ps') with
        | none => rfl
        | some s' => rw [h1, h2] at hrun; exact absurd hrun (by simp)
      | some s =>
        cases h2 : runLoop sjfStep fuel (sjfInit ps') with
        | none => rw [h1, h2] at hrun; exact absurd hrun (by simp)
        | some s' =>
          rw [h1, h2] at hrun
          have hs : s.clearPriority = s'.clearPriority := Option.some.inj hrun
          have hw : s.totalWaiting = s'.totalWaiting := by
            have hf := congrArg SchedState.totalWaiting hs
            exact hf
          have ht : s.totalTurnaround = s'.totalTurnaround := by
            have hf := congrArg SchedState.totalTurnaround hs
            exact hf
          have hp : s.processes.map timing = s'.processes.map timing :=
            map_timing_of_clearPriority _ _ (congrArg SchedState.processes hs)
          simp only [Option.map, hw, ht, hp]

theorem simulateRoundRobin_congr (ps ps' : List Process)
    (h : ps.map descriptor = ps'.map descriptor) (quantum : Int) (fuel : Nat) :
    (simulateRoundRobin fuel ps quantum).map (fun r => (r.summary, r.rows.map timing, r.log)) =
      (simulateRoundRobin fuel ps' quantum).map
        (fun r => (r.summary, r.rows.map timing, r.log)) := by
  have hlen : ps.length = ps'.length := by
    have := congrArg List.length h
    simpa using this
  have hcp := clearPriority_resetRun_congr ps ps' h
  have hboot : rrBootstrap (ps.map resetRun) = rrBootstrap (ps'.map resetRun) := by
    rw [← rrBootstrap_clearPriority, hcp, rrBootstrap_clearPriority]
  have hinit : (rrInit ps).clearPriority = (rrInit ps').clearPriority := by
    unfold rrInit RRState.clearPriority
    simp only [hcp, hboot, hlen, List.length_map]
  have hrun : (runLoop (rrStep quantum) fuel (rrInit ps)).map RRState.clearPriority =
      (runLoop (rrStep quantum) fuel (rrInit ps')).map RRState.clearPriority := by
    rw [← runLoop_map (rrStep quantum) _ (rrStep_clearPriority quantum),
      ← runLoop_map (rrStep quantum) _ (rrStep_clearPriority quantum), hinit]
  unfold simulateRoundRobin
  simp only [hlen]
  by_cases hn : ps'.length = 0
  · simp only [hn, if_true]
  · simp only [hn, if_false]
    by_cases hq : quantum ≤ 0
    · simp only [hq, if_true]
    · simp only [hq, if_false]
      cases h1 : runLoop (rrStep quantum) fuel (rrInit ps) with
      | none =>
        cases h2 : runLoop (rrStep quantum) fuel (rrInit ps') with
        | none => rfl
        | some s' => rw [h1, h2] at hrun; exact absurd hrun (by simp)
      | some s =>
        cases h2 : runLoop (rrStep quantum) fuel (rrInit ps') with
        | none => rw [h1, h2] at hrun; exact absurd hrun (by simp)
        | some s' =>
          rw [h1, h2] at hrun
          have hs : s.clearPriority = s'.clearPriority := Option.some.inj hrun
          have hw : s.totalWaiting = s'.totalWaiting := by
            have hf := congrArg RRState.totalWaiting hs
            exact hf
          have ht : s.totalTurnaround = s'.totalTurnaround := by
            have hf := congrArg RRState.totalTurnaround hs
            exact hf
          have hl : s.log = s'.log := by
            have hf := congrArg RRState.log hs
            exact hf
          have hp : s.processes.map timing = s'.processes.map timing :=
            map_timing_of_clearPriority _ _ (congrArg RRState.processes hs)
          simp only [Option.map, hw, ht, hp, hl]

/-- C13: no engine observes run state left by an earlier run.  If two input lists have
the same descriptors position by position (`id`, `arrivalTime`, `burstTime`,
`initialPriority`), then, whatever their other fields hold, each of the five engines gives
the same outcome on both: the same summary and the same per-process `startTime`,
`finishTime`, `waitingTime` and `turnaroundTime`; for Round Robin (every quantum) also the
same log, for Priority and Dynamic Priority the same rows in every field.  For the engines
with a main loop the outcomes agree at every bound on the number of iterations, so one run
ends exactly when the other does. -/
theorem engines_independent (ps ps' : List Process)
    (h : ps.map descriptor = ps'.map descriptor) (quantum : Int) (fuel : Nat) :
    ((simulateFCFS ps).1 = (simulateFCFS ps').1 ∧
      (simulateFCFS ps).2.map timing = (simulateFCFS ps').2.map timing) ∧
    (simulateRoundRobin fuel ps quantum).map (fun r => (r.summary, r.rows.map timing, r.log)) =
      (simulateRoundRobin fuel ps' quantum).map
        (fun r => (r.summary, r.rows.map timing, r.log)) ∧
    simulatePriority fuel ps = simulatePriority fuel ps' ∧
    (simulateSJF fuel ps).map (fun r => (r.1, r.2.map timing)) =
      (simulateSJF fuel ps').map (fun r => (r.1, r.2.map timing)) ∧
    simulateDynamicPriority fuel ps = simulateDynamicPriority fuel ps' :=
  ⟨simulateFCFS_congr ps ps' h, simulateRoundRobin_congr ps ps' h quantum fuel,
    simulatePriority_congr ps ps' h fuel, simulateSJF_congr ps ps' h fuel,
    simulateDynamicPriority_congr ps ps' h fuel⟩

/-- The two example lists differ in every run-state field, have the same descriptors, and
the five engines do not tell them apart. -/
theorem engines_independent_witness :
    staleExample ≠ freshExample ∧
    staleExample.map descriptor = freshExample.map descriptor ∧
    (((simulateFCFS staleExample).1 = (simulateFCFS freshExample).1 ∧
      (simulateFCFS staleExample).2.map timing = (simulateFCFS freshExample).2.map timing) ∧
    (simulateRoundRobin 20 staleExample 2).map
        (fun r => (r.summary, r.rows.map timing, r.log)) =
      (simulateRoundRobin 20 freshExample 2).map
        (fun r => (r.summary, r.rows.map timing, r.log)) ∧
    simulatePriority 20 staleExample = simulatePriority 20 freshExample ∧
    (simulateSJF 20 staleExample).map (fun r => (r.1, r.2.map timing)) =
      (simulateSJF 20 freshExample).map (fun r => (r.1, r.2.map timing)) ∧
    simulateDynamicPriority 20 staleExample = simulateDynamicPriority 20 freshExample) :=
  ⟨by decide, by decide, engines_independent staleExample freshExample (by decide) 2 20⟩

/-! ## The averages are the column sums over `n` -/

theorem sum_set_rat (l : List ℚ) (b : Nat) (hb : b < l.length) (a : ℚ) :
    (l.set b a).sum = l.sum - l.getD b 0 + a := by
  induction l generalizing b with
  | nil => simp at hb
  | cons x l ih =>
    cases b with
    | zero =>
      simp only [List.set_cons_zero, List.sum_cons, List.getD_cons_zero]
      ring
    | succ b =>
      have hb' : b < l.length := by simpa using hb
      simp only [List.set_cons_succ, List.sum_cons, List.getD_cons_succ, ih b hb']
      ring

theorem sum_map_pointwise (f : Process → ℚ) (l l' : List Process) (b : Nat)
    (hb : b < l.length) (hlen : l'.length = l.length)
    (h : ∀ i, i < l.length → i ≠ b → f (l'.getD i default) = f (l.getD i default)) :
    (l'.map f).sum = (l.map f).sum - f (l.getD b default) + f (l'.getD b default) := by
  have hset : l'.map f = (l.map f).set b (f (l'.getD b default)) := by
    apply List.ext_getElem
    · simp [hlen]
    · intro i h1 h2
      have hi : i < l.length := by simpa [hlen] using h1
      have hi' : i < l'.length := by rw [hlen]; exact hi
      by_cases hib : i = b
      · subst hib
        simp [List.getD_eq_getElem?_getD, List.getElem?_eq_getElem hi']
      · have := h i hi hib
        simp only [List.getD_eq_getElem?_getD, List.getElem?_eq_getElem hi,
          List.getElem?_eq_getElem hi', Option.getD_some] at this
        rw [List.getElem_set_ne (Ne.symm hib)]
        simpa using this
  have hb' : b < (l.map f).length := by simpa using hb
  rw [hset, sum_set_rat _ b hb']
  have : (l.map f).getD b 0 = f (l.getD b default) := getD_map_of_lt f l b default 0 hb
  rw [this]

theorem sum_cast_int (l : List Process) (f : Process → Int) :
    (l.map (fun p => ((f p : Int) : ℚ))).sum = (((l.map f).sum : Int) : ℚ) := by
  induction l with
  | nil => simp
  | cons p l ih =>
    simp only [List.map_cons, List.sum_cons, ih]
    push_cast
    rfl

theorem sum_inInt_bound (l : List Process) (f : Process → Int) (h : ∀ p ∈ l, inInt (f p)) :
    -((l.length : Int) * 2147483648) ≤ (l.map f).sum ∧
    (l.map f).sum ≤ (l.length : Int) * 2147483648 := by
  induction l with
  | nil => simp
  | cons p l ih =>
    obtain ⟨h1, h2⟩ := ih (fun q hq => h q (List.mem_cons_of_mem _ hq))
    have hp := h p (List.mem_cons_self _ _)
    unfold inInt at hp
    simp only [List.map_cons, List.sum_cons, List.length_cons]
    push_cast
    constructor <;> omega

/-- The sum of a column of at most `4194304` values of type `int` is a `double`: its
magnitude is at most `2 ^ 53`. -/
theorem toDouble_column (l : List Process) (f : Process → Int) (h : ∀ p ∈ l, inInt (f p))
    (hn : l.length ≤ 4194304) :
    toDouble ((l.map (fun p => ((f p : Int) : ℚ))).sum) =
      (l.map (fun p => ((f p : Int) : ℚ))).sum := by
  rw [sum_cast_int]
  apply toDouble_int
  obtain ⟨h1, h2⟩ := sum_inInt_bound l f h
  have h3 : (l.length : Int) ≤ 4194304 := by exact_mod_cast hn
  have h4 : (2 : Int) ^ 53 = 9007199254740992 := by norm_num
  rw [h4, abs_le]
  constructor <;> omega

theorem inInt_of_getD (l : List Process) (f : Process → Int)
    (h : ∀ i, i < l.length → inInt (f (l.getD i default))) : ∀ p ∈ l, inInt (f p) := by
  intro p hp
  obtain ⟨i, hi, hpi⟩ := List.mem_iff_getElem.mp hp
  have := h i hi
  rw [List.getD_eq_getElem _ _ hi, hpi] at this
  exact this

theorem fcfsLoop_length (l : List Process) (t : Int) (tw tt : ℚ) :
    (fcfsLoop l t tw tt).1.length = l.length := by
  induction l generalizing t tw tt with
  | nil => rfl
  | cons p rest ih =>
    rw [fcfsLoop_rows_cons, List.length_cons, List.length_cons, ih]

/-- The totals of the loop of `simulateFCFS`, entered with totals that are sums of `k`
values of type `int`, are those totals plus the column sums of the rows, when `k` and the
rows together are at most `4194304` values. -/
theorem fcfsLoop_totals (l : List Process) (t : Int) (tw tt : ℚ) (zw zt : Int) (k : Nat)
    (hw : tw = zw) (ht : tt = zt)
    (bw : -((k : Int) * 2147483648) ≤ zw ∧ zw ≤ (k : Int) * 2147483648)
    (bt : -((k : Int) * 2147483648) ≤ zt ∧ zt ≤ (k : Int) * 2147483648)
    (hk : k + l.length ≤ 4194304) :
    (fcfsLoop l t tw tt).2.1 = tw + sumWaiting (fcfsLoop l t tw tt).1 ∧
    (fcfsLoop l t tw tt).2.2 = tt + sumTurnaround (fcfsLoop l t tw tt).1 := by
  induction l generalizing t tw tt zw zt k with
  | nil => simp [fcfsLoop, sumWaiting, sumTurnaround]
  | cons p rest ih =>
    have hm := metricsWrap_fcfsBody t p
    have iw : inInt (fcfsBody t p).waitingTime := by rw [hm.2]; exact inInt_wrap32 _
    have it : inInt (fcfsBody t p).turnaroundTime := by rw [hm.1]; exact inInt_wrap32 _
    unfold inInt at iw it
    simp only [List.length_cons] at hk
    have h4 : (2 : Int) ^ 53 = 9007199254740992 := by norm_num
    have hk' : (k : Int) + 1 ≤ 4194304 := by
      have : k + 1 ≤ 4194304 := by omega
      exact_mod_cast this
    have ew : toDouble (tw + (fcfsBody t p).waitingTime) =
        ((zw + (fcfsBody t p).waitingTime : Int) : ℚ) := by
      rw [hw, ← Int.cast_add]
      apply toDouble_int
      rw [h4, abs_le]
      constructor <;> omega
    have et : toDouble (tt + (fcfsBody t p).turnaroundTime) =
        ((zt + (fcfsBody t p).turnaroundTime : Int) : ℚ) := by
      rw [ht, ← Int.cast_add]
      apply toDouble_int
      rw [h4, abs_le]
      constructor <;> omega
    obtain ⟨h1, h2⟩ := ih (fcfsBody t p).finishTime (toDouble (tw + (fcfsBody t p).waitingTime))
      (toDouble (tt + (fcfsBody t p).turnaroundTime)) (zw + (fcfsBody t p).waitingTime)
      (zt + (fcfsBody t p).turnaroundTime) (k + 1) ew et
      (by push_cast; constructor <;> omega) (by push_cast; constructor <;> omega) (by omega)
    constructor
    · show (fcfsLoop rest (fcfsBody t p).finishTime (toDouble (tw + (fcfsBody t p).waitingTime))
          (toDouble (tt + (fcfsBody t p).turnaroundTime))).2.1 = _
      rw [h1, fcfsLoop_rows_cons, ew, hw]
      simp only [sumWaiting, List.map_cons, List.sum_cons]
      push_cast
      ring
    · show (fcfsLoop rest (fcfsBody t p).finishTime (toDouble (tw + (fcfsBody t p).waitingTime))
          (toDouble (tt + (fcfsBody t p).turnaroundTime))).2.2 = _
      rw [h2, fcfsLoop_rows_cons, et, ht]
      simp only [sumTurnaround, List.map_cons, List.sum_cons]
      push_cast
      ring

theorem toDouble_zero : toDouble 0 = 0 := by
  unfold toDouble
  rw [if_pos rfl]

theorem simulateFCFS_averages (ps : List Process) (hn : ps.length ≤ 4194304) :
    averagesOk ps.length (simulateFCFS ps).1 (simulateFCFS ps).2 := by
  obtain ⟨h1, h2⟩ := fcfsLoop_totals (ps.insertionSort fcfsLe) 0 0 0 0 0 0 (by simp) (by simp)
    (by simp) (by simp) (by rw [List.length_insertionSort]; omega)
  rw [zero_add] at h1 h2
  rw [simulateFCFS_rows]
  unfold simulateFCFS averagesOk
  by_cases hz : ps.length = 0
  · have hnil : ps = [] := List.length_eq_zero.mp hz
    subst hnil
    simp [zeroSummary, fcfsLoop, sumWaiting, sumTurnaround, toDouble_zero]
  · simp only [hz, if_false]
    exact ⟨congrArg (fun x => toDouble (x / (ps.length : ℚ))) h1,
      congrArg (fun x => toDouble (x / (ps.length : ℚ))) h2⟩

theorem sum_map_congr_getD (f : Process → ℚ) (l l' : List Process)
    (hlen : l'.length = l.length)
    (h : ∀ i, i < l.length → f (l'.getD i default) = f (l.getD i default)) :
    (l'.map f).sum = (l.map f).sum := by
  have hmap : l'.map f = l.map f := by
    apply List.ext_getElem
    · simp [hlen]
    · intro i h1 h2
      have hi : i < l.length := by simpa using h2
      have hi' : i < l'.length := by rw [hlen]; exact hi
      have := h i hi
      simp only [List.getD_eq_getElem?_getD, List.getElem?_eq_getElem hi,
        List.getElem?_eq_getElem hi', Option.getD_some] at this
      simpa using this
  rw [hmap]

/-- The totals stay the column sums when process `b`, not yet flagged, is flagged and its
metrics are added to the totals, the metrics of the other processes being kept, in a list
of at most `4194304` processes. -/
theorem totalsInv_update (l l' : List Process) (flags : List Bool) (tw tt : ℚ) (b : Nat)
    (hb : b < l.length) (hflag : flags.getD b false = false)
    (hinv : totalsInv l flags tw tt) (hlen : l'.length = l.length)
    (hn : l.length ≤ 4194304)
    (hother : ∀ i, i < l.length → i ≠ b →
      (l'.getD i default).waitingTime = (l.getD i default).waitingTime ∧
      (l'.getD i default).turnaroundTime = (l.getD i default).turnaroundTime)
    (hnew : inInt (l'.getD b default).waitingTime ∧ inInt (l'.getD b default).turnaroundTime) :
    totalsInv l' (flags.set b true) (toDouble (tw + (l'.getD b default).waitingTime))
      (toDouble (tt + (l'.getD b default).turnaroundTime)) := by
  obtain ⟨hfl, hw, ht, hzero, hint⟩ := hinv
  have hbz := hzero b hb hflag
  have hint' : ∀ i, i < l'.length →
      inInt (l'.getD i default).waitingTime ∧ inInt (l'.getD i default).turnaroundTime := by
    intro i hi
    rw [hlen] at hi
    by_cases hib : i = b
    · rw [hib]
      exact hnew
    · obtain ⟨h1, h2⟩ := hother i hi hib
      rw [h1, h2]
      exact hint i hi
  have ew : tw + (l'.getD b default).waitingTime = sumWaiting l' := by
    unfold sumWaiting
    rw [sum_map_pointwise (fun p => (p.waitingTime : ℚ)) l l' b hb hlen
      (fun i hi hib => by simp only [(hother i hi hib).1])]
    simp only [hbz.1, Int.cast_zero, sub_zero]
    rw [hw]
    rfl
  have et : tt + (l'.getD b default).turnaroundTime = sumTurnaround l' := by
    unfold sumTurnaround
    rw [sum_map_pointwise (fun p => (p.turnaroundTime : ℚ)) l l' b hb hlen
      (fun i hi hib => by simp only [(hother i hi hib).2])]
    simp only [hbz.2, Int.cast_zero, sub_zero]
    rw [ht]
    rfl
  refine ⟨by rw [List.length_set, hfl, hlen], ?_, ?_, ?_, hint'⟩
  · rw [ew]
    exact toDouble_column l' (fun p => p.waitingTime)
      (inInt_of_getD l' (fun p => p.waitingTime) (fun i hi => (hint' i hi).1))
      (by rw [hlen]; exact hn)
  · rw [et]
    exact toDouble_column l' (fun p => p.turnaroundTime)
      (inInt_of_getD l' (fun p => p.turnaroundTime) (fun i hi => (hint' i hi).2))
      (by rw [hlen]; exact hn)
  · intro i hi hfi
    rw [hlen] at hi
    by_cases hib : i = b
    · subst hib
      rw [getD_set_self _ _ _ _ (by rw [hfl]; exact hi)] at hfi
      exact absurd hfi (by decide)
    · rw [getD_set_other _ _ _ _ _ (Ne.symm hib)] at hfi
      obtain ⟨h1, h2⟩ := hother i hi hib
      rw [h1, h2]
      exact hzero i hi hfi

/-- The totals stay the column sums when no flag and no metric changes. -/
theorem totalsInv_keep (l l' : List Process) (flags : List Bool) (tw tt : ℚ)
    (hinv : totalsInv l flags tw tt) (hlen : l'.length = l.length)
    (hsame : ∀ i, i < l.length →
      (l'.getD i default).waitingTime = (l.getD i default).waitingTime ∧
      (l'.getD i default).turnaroundTime = (l.getD i default).turnaroundTime) :
    totalsInv l' flags tw tt := by
  obtain ⟨hfl, hw, ht, hzero, hint⟩ := hinv
  refine ⟨by rw [hfl, hlen], ?_, ?_, ?_, ?_⟩
  · unfold sumWaiting
    rw [sum_map_congr_getD (fun p => (p.waitingTime : ℚ)) l l' hlen
      (fun i hi => by simp only [(hsame i hi).1])]
    exact hw
  · unfold sumTurnaround
    rw [sum_map_congr_getD (fun p => (p.turnaroundTime : ℚ)) l l' hlen
      (fun i hi => by simp only [(hsame i hi).2])]
    exact ht
  · intro i hi hfi
    rw [hlen] at hi
    obtain ⟨h1, h2⟩ := hsame i hi
    rw [h1, h2]
    exact hzero i hi hfi
  · intro i hi
    rw [hlen] at hi
    obtain ⟨h1, h2⟩ := hsame i hi
    rw [h1, h2]
    exact hint i hi

theorem totalsInv_init (ps : List Process) (f : Process → Process)
    (hf : ∀ p, (f p).waitingTime = 0 ∧ (f p).turnaroundTime = 0) :
    totalsInv (ps.map f) (List.replicate ps.length false) 0 0 := by
  have hsum : ∀ l : List Process, sumWaiting (l.map f) = 0 ∧ sumTurnaround (l.map f) = 0 := by
    intro l
    induction l with
    | nil => exact ⟨rfl, rfl⟩
    | cons p l ih =>
      obtain ⟨h1, h2⟩ := ih
      unfold sumWaiting at h1 ⊢
      unfold sumTurnaround at h2 ⊢
      simp only [List.map_cons, List.sum_cons, h1, h2, (hf p).1, (hf p).2, Int.cast_zero,
        add_zero, and_self]
  refine ⟨by simp, (hsum ps).1.symm, (hsum ps).2.symm, ?_, ?_⟩
  · intro i hi _
    rw [List.length_map] at hi
    rw [getD_map_of_lt f ps i default default hi]
    exact hf _
  · intro i hi
    rw [List.length_map] at hi
    rw [getD_map_of_lt f ps i default default hi, (hf _).1, (hf _).2]
    exact ⟨by decide, by decide⟩

theorem inInt_dispatch (t : Int) (p : Process) :
    inInt (dispatch t p).waitingTime ∧ inInt (dispatch t p).turnaroundTime := by
  have hm := metricsWrap_dispatch t p
  rw [hm.1, hm.2]
  exact ⟨inInt_wrap32 _, inInt_wrap32 _⟩

theorem inInt_finishAt (t : Int) (p : Process) :
    inInt (finishAt t p).waitingTime ∧ inInt (finishAt t p).turnaroundTime := by
  have hm := metricsWrap_finishAt t p
  rw [hm.1, hm.2]
  exact ⟨inInt_wrap32 _, inInt_wrap32 _⟩

theorem totalsInv_schedStep (select : List Process → List Bool → Int → Option Nat × Int)
    (hsel : ∀ processes done t a, (select processes done t).1 = some a →
      a < processes.length ∧ done.getD a false = false)
    (n : Nat) (hn : n ≤ 4194304)
    (s s' : SchedState)
    (hinv : s.processes.length = n ∧
      totalsInv s.processes s.done s.totalWaiting s.totalTurnaround)
    (h : schedStep select s = some s') :
    s'.processes.length = n ∧
      totalsInv s'.processes s'.done s'.totalWaiting s'.totalTurnaround := by
  obtain ⟨hl, hinv⟩ := hinv
  obtain ⟨-, hcase⟩ := schedStep_cases select s s' h
  rcases hcase with ⟨-, -, hs'⟩ | ⟨best, hbest, hs'⟩
  · rw [hs']
    exact ⟨hl, hinv⟩
  · obtain ⟨hb, hflag⟩ := hsel _ _ _ _ hbest
    have hself : (s.processes.set best (dispatch s.currentTime (s.processes.getD best default))).getD
        best default = dispatch s.currentTime (s.processes.getD best default) :=
      getD_set_self _ _ _ _ hb
    have := totalsInv_update s.processes
      (s.processes.set best (dispatch s.currentTime (s.processes.getD best default)))
      s.done s.totalWaiting s.totalTurnaround best hb hflag hinv (List.length_set _ _ _)
      (by rw [hl]; exact hn)
      (fun i _ hib => by rw [getD_set_other _ _ _ _ _ (Ne.symm hib)]; exact ⟨rfl, rfl⟩)
      (by rw [hself]; exact inInt_dispatch _ _)
    rw [hself] at this
    rw [hs']
    exact ⟨by show (s.processes.set best _).length = n; rw [List.length_set]; exact hl, this⟩

theorem averagesOk_zero (n : Nat) (name : String) : averagesOk n (zeroSummary name) [] := by
  simp [averagesOk, zeroSummary, sumWaiting, sumTurnaround, toDouble_zero]

theorem totalsInv_sched_run (select : List Process → List Bool → Int → Option Nat × Int)
    (hsel : ∀ processes done t a, (select processes done t).1 = some a →
      a < processes.length ∧ done.getD a false = false)
    (fuel : Nat) (s r : SchedState) (hn : s.processes.length ≤ 4194304)
    (hinv : totalsInv s.processes s.done s.totalWaiting s.totalTurnaround)
    (h : runLoop (schedStep select) fuel s = some r) :
    totalsInv r.processes r.done r.totalWaiting r.totalTurnaround := by
  obtain ⟨hr, -⟩ := runLoop_eq_iterate (schedStep select) fuel s r h
  rw [hr]
  exact (iterate_inv (schedStep select)
    (fun x => x.processes.length = s.processes.length ∧
      totalsInv x.processes x.done x.totalWaiting x.totalTurnaround)
    (fun a b ha hab => totalsInv_schedStep select hsel s.processes.length hn a b ha hab)
    fuel s ⟨rfl, hinv⟩).2

theorem prioritySelect_flag (processes : List Process) (done : List Bool) (t : Int) (a : Nat)
    (h : (prioritySelect processes done t).1 = some a) :
    a < processes.length ∧ done.getD a false = false := by
  obtain ⟨h1, h2, -⟩ := (prioritySelect_spec processes done t).2 a h
  exact ⟨h1, h2.1⟩

theorem sjfSelect_flag (processes : List Process) (done : List Bool) (t : Int) (a : Nat)
    (h : (sjfSelect processes done t).1 = some a) :
    a < processes.length ∧ done.getD a false = false := by
  obtain ⟨h1, h2, -⟩ := (sjfSelect_spec processes done t).2 a h
  exact ⟨h1, h2.1⟩

/-- Whenever `simulatePriority` returns on at most `4194304` processes, its averages are
the column sums over `n`, as `double` division leaves them. -/
theorem simulatePriority_averages (fuel : Nat) (ps : List Process) (hn : ps.length ≤ 4194304)
    (r : ResultSummary × List Process) (h : simulatePriority fuel ps = some r) :
    averagesOk ps.length r.1 r.2 := by
  unfold simulatePriority at h
  by_cases hz : ps.length = 0
  · simp only [hz, if_true, Option.some.injEq] at h
    rw [← h]
    exact averagesOk_zero _ _
  · simp only [hz, if_false] at h
    cases hrun : runLoop priorityStep fuel (priorityInit ps) with
    | none => rw [hrun] at h; exact absurd h (by simp)
    | some s =>
      rw [hrun] at h
      simp only [Option.some.injEq] at h
      have hinit : totalsInv (priorityInit ps).processes (priorityInit ps).done
          (priorityInit ps).totalWaiting (priorityInit ps).totalTurnaround :=
        totalsInv_init ps resetRunPriority (fun _ => ⟨rfl, rfl⟩)
      obtain ⟨-, hw, ht, -⟩ := totalsInv_sched_run prioritySelect prioritySelect_flag fuel _ s
        (by simpa [priorityInit] using hn) hinit hrun
      rw [← h]
      exact ⟨congrArg (fun x => toDouble (x / (ps.length : ℚ))) hw,
        congrArg (fun x => toDouble (x / (ps.length : ℚ))) ht⟩

/-- Whenever `simulateSJF` returns on at most `4194304` processes, its averages are the
column sums over `n`, as `double` division leaves them. -/
theorem simulateSJF_averages (fuel : Nat) (ps : List Process) (hn : ps.length ≤ 4194304)
    (r : ResultSummary × List Process) (h : simulateSJF fuel ps = some r) :
    averagesOk ps.length r.1 r.2 := by
  unfold simulateSJF at h
  by_cases hz : ps.length = 0
  · simp only [hz, if_true, Option.some.injEq] at h
    rw [← h]
    exact averagesOk_zero _ _
  · simp only [hz, if_false] at h
    by_cases he : earliestArrivalScan (ps.map resetRun) = INT_MAX
    · simp only [he, if_true, Option.some.injEq] at h
      rw [← h]
      exact averagesOk_zero _ _
    · simp only [he, if_false] at h
      cases hrun : runLoop sjfStep fuel (sjfInit ps) with
      | none => rw [hrun] at h; exact absurd h (by simp)
      | some s =>
        rw [hrun] at h
        simp only [Option.some.injEq] at h
        have hinit : totalsInv (sjfInit ps).processes (sjfInit ps).done
            (sjfInit ps).totalWaiting (sjfInit ps).totalTurnaround :=
          totalsInv_init ps resetRun (fun _ => ⟨rfl, rfl⟩)
        obtain ⟨-, hw, ht, -⟩ := totalsInv_sched_run sjfSelect sjfSelect_flag fuel _ s
          (by simpa [sjfInit] using hn) hinit hrun
        rw [← h]
        exact ⟨congrArg (fun x => toDouble (x / (ps.length : ℚ))) hw,
          congrArg (fun x => toDouble (x / (ps.length : ℚ))) ht⟩

theorem dynRunStep_totals (s : DynState) (best : Nat) :
    ((consume 1 (startIfUnset s.currentTime (s.processes.getD best default))).remainingTime = 0 →
      (dynRunStep s best).totalWaiting = toDouble (s.totalWaiting +
        (finishAt (wrap32 (s.currentTime + 1))
          (consume 1 (startIfUnset s.currentTime (s.processes.getD best default)))).waitingTime) ∧
      (dynRunStep s best).totalTurnaround = toDouble (s.totalTurnaround +
        (finishAt (wrap32 (s.currentTime + 1))
          (consume 1 (startIfUnset s.currentTime
            (s.processes.getD best default)))).turnaroundTime)) ∧
    ((consume 1 (startIfUnset s.currentTime (s.processes.getD best default))).remainingTime ≠ 0 →
      (dynRunStep s best).totalWaiting = s.totalWaiting ∧
      (dynRunStep s best).totalTurnaround = s.totalTurnaround) := by
  constructor
  · intro hz
    unfold dynRunStep
    simp only [hz, if_true, and_self]
  · intro hz
    unfold dynRunStep
    simp only [hz, if_false, and_self]

theorem totalsInv_dynStep (n : Nat) (hn : n ≤ 4194304) (s s' : DynState)
    (hinv : s.processes.length = n ∧
      totalsInv s.processes s.finished s.totalWaiting s.totalTurnaround)
    (h : dynStep s = some s') :
    s'.processes.length = n ∧
      totalsInv s'.processes s'.finished s'.totalWaiting s'.totalTurnaround := by
  obtain ⟨hl, hinv⟩ := hinv
  obtain ⟨-, hcase⟩ := dynStep_cases s s' h
  rcases hcase with ⟨-, -, hs'⟩ | ⟨best, hbest, hs'⟩
  · rw [hs']
    exact ⟨hl, hinv⟩
  · obtain ⟨hb, hrun, -⟩ := (dynSelect_spec s.processes s.finished s.currentTime).2 best hbest
    have hflag : s.finished.getD best false = false := hrun.1
    obtain ⟨-, hlen, hfin, hnot, hother⟩ := dynRunStep_fields s best
    obtain ⟨htfin, htnot⟩ := dynRunStep_totals s best
    have hoth : ∀ i, i < s.processes.length → i ≠ best →
        ((dynRunStep s best).processes.getD i default).waitingTime =
          (s.processes.getD i default).waitingTime ∧
        ((dynRunStep s best).processes.getD i default).turnaroundTime =
          (s.processes.getD i default).turnaroundTime := by
      intro i hi hib
      rw [hother i hi hib]
      obtain ⟨-, -, -, -, -, -, -, h8, h9⟩ :=
        ageOne_fields s.finished best (wrap32 (s.currentTime + 1)) i (s.processes.getD i default)
      exact ⟨h8, h9⟩
    rw [hs']
    refine ⟨by rw [hlen]; exact hl, ?_⟩
    by_cases hz : (consume 1 (startIfUnset s.currentTime
        (s.processes.getD best default))).remainingTime = 0
    · obtain ⟨hf1, -, hf3⟩ := hfin hz
      obtain ⟨hw, ht⟩ := htfin hz
      have := totalsInv_update s.processes (dynRunStep s best).processes s.finished
        s.totalWaiting s.totalTurnaround best hb hflag hinv hlen (by rw [hl]; exact hn) hoth
        (by rw [hf3 hb]; exact inInt_finishAt _ _)
      rw [hf3 hb] at this
      rw [hf1, hw, ht]
      exact this
    · obtain ⟨hf1, -, hf3⟩ := hnot hz
      obtain ⟨hw, ht⟩ := htnot hz
      rw [hf1, hw, ht]
      apply totalsInv_keep s.processes _ s.finished _ _ hinv hlen
      intro i hi
      by_cases hib : i = best
      · rw [hib, hf3 hb]
        obtain ⟨-, -, -, -, -, -, -, -, c9, c10⟩ := consume_fields 1
          (startIfUnset s.currentTime (s.processes.getD best default))
        obtain ⟨-, -, -, -, -, -, -, s8, s9⟩ := startIfUnset_fields s.currentTime
          (s.processes.getD best default)
        rw [c9, c10, s8, s9]
        exact ⟨rfl, rfl⟩
      · exact hoth i hi hib

/-- Whenever `simulateDynamicPriority` returns on at most `4194304` processes, its
averages are the column sums over `n`, as `double` division leaves them. -/
theorem simulateDynamicPriority_averages (fuel : Nat) (ps : List Process)
    (hn : ps.length ≤ 4194304) (r : DynResult)
    (h : simulateDynamicPriority fuel ps = some r) : averagesOk ps.length r.summary r.rows := by
  unfold simulateDynamicPriority at h
  by_cases hz : ps.length = 0
  · simp only [hz, if_true, Option.some.injEq] at h
    rw [← h]
    exact averagesOk_zero _ _
  · simp only [hz, if_false] at h
    by_cases he : earliestArrivalScan (ps.map resetRunPriority) = INT_MAX
    · simp only [he, if_true, Option.some.injEq] at h
      rw [← h]
      exact averagesOk_zero _ _
    · simp only [he, if_false] at h
      cases hrun : runLoop dynStep fuel (dynInit ps) with
      | none => rw [hrun] at h; exact absurd h (by simp)
      | some s =>
        rw [hrun] at h
        simp only [Option.some.injEq] at h
        have hinit : totalsInv (dynInit ps).processes (dynInit ps).finished
            (dynInit ps).totalWaiting (dynInit ps).totalTurnaround :=
          totalsInv_init ps resetRunPriority (fun _ => ⟨rfl, rfl⟩)
        obtain ⟨hr, -⟩ := runLoop_eq_iterate dynStep fuel _ s hrun
        have hfinal := (iterate_inv dynStep
          (fun x => x.processes.length = ps.length ∧
            totalsInv x.processes x.finished x.totalWaiting x.totalTurnaround)
          (fun a b ha hab => totalsInv_dynStep ps.length hn a b ha hab) fuel (dynInit ps)
          ⟨by simp [dynInit], hinit⟩).2
        rw [← hr] at hfinal
        obtain ⟨-, hw, ht, -⟩ := hfinal
        rw [← h]
        exact ⟨congrArg (fun x => toDouble (x / (ps.length : ℚ))) hw,
          congrArg (fun x => toDouble (x / (ps.length : ℚ))) ht⟩

/-- C12, as amended. For `simulateFCFS`, `simulatePriority`, `simulateSJF` and
`simulateDynamicPriority`, on every non-empty list of `n` processes with `n` at most
`4194304`, `1 ≤ burstTime < INT_MAX` and `1 ≤ initialPriority < INT_MAX`, the engine
returns (the two non-preemptive ones with a main loop within `2n+1` iterations,
Dynamic Priority within `dynFuel`), the table has `n` rows (for `simulateSJF` and
`simulateDynamicPriority`: or no row, when no arrival time is below `INT_MAX`), and the
returned `avgWaiting` is the `double` nearest to the sum of the final `waitingTime` of the
rows divided by `n`, the returned `avgTurnaround` the `double` nearest to the sum of the
final `turnaroundTime` divided by `n`. -/
theorem averages_double (ps : List Process) (hne : ps ≠ []) (hn : ps.length ≤ 4194304)
    (hdom : ∀ p ∈ ps, 1 ≤ p.burstTime ∧ p.burstTime < INT_MAX ∧
      1 ≤ p.initialPriority ∧ p.initialPriority < INT_MAX) :
    ((simulateFCFS ps).2.length = ps.length ∧
      averagesOk ps.length (simulateFCFS ps).1 (simulateFCFS ps).2) ∧
    ((∀ fuel, 2 * ps.length + 1 ≤ fuel →
        ∃ r, simulatePriority fuel ps = some r ∧ r.2.length = ps.length) ∧
      ∀ fuel r, simulatePriority fuel ps = some r → averagesOk ps.length r.1 r.2) ∧
    ((∀ fuel, 2 * ps.length + 1 ≤ fuel →
        ∃ r, simulateSJF fuel ps = some r ∧
          (r.2.length = ps.length ∨ (r.2 = [] ∧ ∀ p ∈ ps, INT_MAX ≤ p.arrivalTime))) ∧
      ∀ fuel r, simulateSJF fuel ps = some r → averagesOk ps.length r.1 r.2) ∧
    ((∀ fuel, dynFuel ps ≤ fuel →
        ∃ r, simulateDynamicPriority fuel ps = some r ∧
          (r.rows.length = ps.length ∨ (r.rows = [] ∧ ∀ p ∈ ps, INT_MAX ≤ p.arrivalTime))) ∧
      ∀ fuel r, simulateDynamicPriority fuel ps = some r →
        averagesOk ps.length r.summary r.rows) := by
  have hlen : ∀ l : List Process, l.map descriptor = ps.map descriptor →
      l.length = ps.length := by
    intro l hl
    have := congrArg List.length hl
    simpa using this
  refine ⟨⟨?_, simulateFCFS_averages ps hn⟩,
    ⟨?_, fun fuel r h => simulatePriority_averages fuel ps hn r h⟩,
    ⟨?_, fun fuel r h => simulateSJF_averages fuel ps hn r h⟩,
    ⟨?_, fun fuel r h => simulateDynamicPriority_averages fuel ps hn r h⟩⟩
  · have := (simulateFCFS_descriptor_perm ps).length_eq
    simpa using this
  · intro fuel hfuel
    obtain ⟨r, hr, hd⟩ := simulatePriority_returns ps hne
      (fun p hp => (hdom p hp).2.2.2) fuel hfuel
    exact ⟨r, hr, hlen _ hd⟩
  · intro fuel hfuel
    obtain ⟨r, hr, hd⟩ := simulateSJF_returns ps hne
      (fun p hp => (hdom p hp).2.1) fuel hfuel
    exact ⟨r, hr, hd.imp (hlen _) id⟩
  · intro fuel hfuel
    obtain ⟨r, hr, hd⟩ := simulateDynamicPriority_returns ps hne
      (fun p hp => ⟨(hdom p hp).1, (hdom p hp).2.2.1, (hdom p hp).2.2.2⟩) fuel hfuel
    exact ⟨r, hr, hd.imp (hlen _) id⟩

/-- C12 as amended, at the list of the example of the claim,
`{id=1,arrival=0,burst=5}, {id=2,arrival=1,burst=3}`: it is in the domain, every engine
returns on it with averages that are the column sums over `2`, and FCFS returns
`avgWaiting = 2` and `avgTurnaround = 6`. -/
theorem averages_double_witness :
    (freshExample ≠ [] ∧ freshExample.length ≤ 4194304 ∧
      ∀ p ∈ freshExample, 1 ≤ p.burstTime ∧ p.burstTime < INT_MAX ∧
        1 ≤ p.initialPriority ∧ p.initialPriority < INT_MAX) ∧
    ((simulateFCFS freshExample).1.avgWaiting = 2 ∧
      (simulateFCFS freshExample).1.avgTurnaround = 6) ∧
    averagesOk freshExample.length (simulateFCFS freshExample).1
      (simulateFCFS freshExample).2 ∧
    (∀ fuel r, simulateSJF fuel freshExample = some r →
      averagesOk freshExample.length r.1 r.2) :=
  ⟨⟨by decide, by decide, by decide⟩,
    ⟨by with_unfolding_all decide, by with_unfolding_all decide⟩,
    (averages_double freshExample (by decide) (by decide) (by decide)).1.2,
    (averages_double freshExample (by decide) (by decide) (by decide)).2.2.1.2⟩

theorem waitSum_closed (b : Int) (k : Nat) : 2 * waitSum b k = b * k * (k - 1) := by
  induction k with
  | zero => simp [waitSum]
  | succ k ih =>
    simp only [waitSum]
    push_cast
    linear_combination ih

theorem waitSum_mono (b : Int) (hb : 0 ≤ b) (k m : Nat) (h : k ≤ m) :
    waitSum b k ≤ waitSum b m := by
  induction m, h using Nat.le_induction with
  | base => exact le_refl _
  | succ m _ ih =>
    simp only [waitSum]
    have : (0 : Int) ≤ (m : Int) * b := mul_nonneg (Int.natCast_nonneg _) hb
    omega

theorem waitSum_nonneg (b : Int) (hb : 0 ≤ b) (k : Nat) : 0 ≤ waitSum b k :=
  waitSum_mono b hb 0 k (Nat.zero_le _)

theorem uniformList_sorted (n : Nat) (b : Int) :
    (uniformList n b).insertionSort fcfsLe = uniformList n b := by
  apply List.Sorted.insertionSort_eq
  unfold uniformList
  apply List.pairwise_map.mpr
  apply (List.pairwise_lt_range n).imp
  intro i j hij
  unfold fcfsLe fcfsLess mkProcess
  simp only [if_true, decide_eq_false_iff_not, not_lt]
  omega

theorem uniform_step (b : Int) (hb : 0 ≤ b) (k : Nat)
    (hfit : ((k : Int) + 1) * b ≤ INT_MAX) :
    (fcfsBody ((k : Int) * b) (mkProcess ((k : Int) + 1) 0 b 1)).finishTime = ((k + 1 : Nat) : Int) * b ∧
    (fcfsBody ((k : Int) * b) (mkProcess ((k : Int) + 1) 0 b 1)).waitingTime = (k : Int) * b := by
  have hk : (0 : Int) ≤ (k : Int) * b := mul_nonneg (Int.natCast_nonneg _) hb
  have hmax : max ((k : Int) * b) 0 = (k : Int) * b := max_eq_left hk
  obtain ⟨e1, e2, -⟩ := fcfsBody_exact ((k : Int) * b) (mkProcess ((k : Int) + 1) 0 b 1) hk
    (le_refl _) hb (by
      show max ((k : Int) * b) 0 + b ≤ INT_MAX
      rw [hmax]
      linarith)
  have ha : (mkProcess ((k : Int) + 1) 0 b 1).arrivalTime = 0 := rfl
  have hbt : (mkProcess ((k : Int) + 1) 0 b 1).burstTime = b := rfl
  rw [ha, hbt, hmax] at e1
  rw [ha, hmax] at e2
  refine ⟨?_, by rw [e2]; ring⟩
  rw [e1]
  push_cast
  ring

/-- The total waiting time that the loop of `simulateFCFS` leaves on the last `m` of `n`
processes that all arrive at `0` with burst time `b`, when the sum of the waiting times of
all but the last one is at most `2 ^ 53`: the `double` nearest to the sum of all waiting
times. -/
theorem uniform_total (b : Int) (hb : 0 ≤ b) (n : Nat) (hfit : (n : Int) * b ≤ INT_MAX)
    (hsum : waitSum b (n - 1) ≤ 2 ^ 53) :
    ∀ m k, 1 ≤ m → k + m = n → ∀ tw tt : ℚ, tw = ((waitSum b k : Int) : ℚ) →
      (fcfsLoop ((List.range' k m).map (fun i : Nat => mkProcess ((i : Int) + 1) 0 b 1))
        ((k : Int) * b) tw tt).2.1 = toDouble ((waitSum b n : Int) : ℚ) := by
  intro m
  induction m with
  | zero => intro k h; omega
  | succ m ih =>
    intro k _ hkm tw tt htw
    have hk1 : ((k : Int) + 1) * b ≤ INT_MAX := by
      have h1 : ((k : Int) + 1) ≤ (n : Int) := by omega
      have := mul_le_mul_of_nonneg_right h1 hb
      omega
    obtain ⟨e1, e2⟩ := uniform_step b hb k hk1
    have hstep : (fcfsLoop ((List.range' k (m + 1)).map (fun i : Nat => mkProcess ((i : Int) + 1) 0 b 1))
        ((k : Int) * b) tw tt).2.1 =
        (fcfsLoop ((List.range' (k + 1) m).map (fun i : Nat => mkProcess ((i : Int) + 1) 0 b 1))
          (fcfsBody ((k : Int) * b) (mkProcess ((k : Int) + 1) 0 b 1)).finishTime
          (toDouble (tw + (fcfsBody ((k : Int) * b) (mkProcess ((k : Int) + 1) 0 b 1)).waitingTime))
          (toDouble (tt +
            (fcfsBody ((k : Int) * b) (mkProcess ((k : Int) + 1) 0 b 1)).turnaroundTime))).2.1 := by
      rw [List.range'_succ, List.map_cons]
      rfl
    have hsucc : ((waitSum b (k + 1) : Int) : ℚ) = tw + (((k : Int) * b : Int) : ℚ) := by
      rw [htw]
      simp only [waitSum]
      push_cast
      ring
    rw [hstep, e1, e2, ← hsucc]
    cases m with
    | zero =>
      have hkn : k + 1 = n := by omega
      rw [hkn]
      rfl
    | succ m =>
      have hle : waitSum b (k + 1) ≤ 2 ^ 53 :=
        le_trans (waitSum_mono b hb (k + 1) (n - 1) (by omega)) hsum
      have h0 := waitSum_nonneg b hb (k + 1)
      rw [toDouble_int _ (by rw [abs_of_nonneg h0]; exact hle)]
      exact ih (k + 1) (by omega) (by omega) _ _ rfl

theorem uniform_rows (b : Int) (hb : 0 ≤ b) (n : Nat) (hfit : (n : Int) * b ≤ INT_MAX) :
    ∀ m k, k + m ≤ n → ∀ tw tt : ℚ,
      sumWaiting (fcfsLoop ((List.range' k m).map (fun i : Nat => mkProcess ((i : Int) + 1) 0 b 1))
        ((k : Int) * b) tw tt).1 = ((waitSum b (k + m) - waitSum b k : Int) : ℚ) := by
  intro m
  induction m with
  | zero =>
    intro k _ tw tt
    simp [fcfsLoop, sumWaiting]
  | succ m ih =>
    intro k hkm tw tt
    have hk1 : ((k : Int) + 1) * b ≤ INT_MAX := by
      have h1 : ((k : Int) + 1) ≤ (n : Int) := by omega
      have := mul_le_mul_of_nonneg_right h1 hb
      omega
    obtain ⟨e1, e2⟩ := uniform_step b hb k hk1
    rw [List.range'_succ, List.map_cons, fcfsLoop_rows_cons]
    unfold sumWaiting
    rw [List.map_cons, List.sum_cons, e1, e2]
    have := ih (k + 1) (by omega) (toDouble (tw + ((k : Int) * b : Int)))
      (toDouble (tt + (fcfsBody ((k : Int) * b) (mkProcess ((k : Int) + 1) 0 b 1)).turnaroundTime))
    unfold sumWaiting at this
    rw [this]
    have hidx : k + 1 + m = k + (m + 1) := by omega
    rw [hidx]
    simp only [waitSum]
    push_cast
    ring

theorem simulateFCFS_avgWaiting (ps : List Process) (h : ps.length ≠ 0) :
    (simulateFCFS ps).1.avgWaiting =
      toDouble ((fcfsLoop (ps.insertionSort fcfsLe) 0 0 0).2.1 / ps.length) := by
  unfold simulateFCFS
  simp only [h, if_false]

/-- On `n ≥ 1` processes that all arrive at `0` with burst time `b`, with `n * b` at most
`INT_MAX` and the sum of the waiting times of all but the last one at most `2 ^ 53`,
`simulateFCFS` returns the `double` nearest to the sum of all waiting times, divided by
`n` in `double`, while the waiting times of its rows add up to `waitSum b n`. -/
theorem uniform_average (b : Int) (hb : 0 ≤ b) (n : Nat) (hn : 1 ≤ n)
    (hfit : (n : Int) * b ≤ INT_MAX) (hsum : waitSum b (n - 1) ≤ 2 ^ 53) :
    (simulateFCFS (uniformList n b)).1.avgWaiting =
      toDouble (toDouble ((waitSum b n : Int) : ℚ) / n) ∧
    sumWaiting (simulateFCFS (uniformList n b)).2 = ((waitSum b n : Int) : ℚ) := by
  have hlen : (uniformList n b).length = n := by simp [uniformList]
  have hrange : uniformList n b = (List.range' 0 n).map (fun i : Nat => mkProcess ((i : Int) + 1) 0 b 1) := by
    unfold uniformList
    rw [List.range_eq_range']
  constructor
  · rw [simulateFCFS_avgWaiting _ (by rw [hlen]; omega), uniformList_sorted, hlen, hrange]
    have := uniform_total b hb n hfit hsum n 0 hn (by omega) 0 0 (by simp [waitSum])
    simp only [Nat.cast_zero, zero_mul] at this
    rw [this]
  · rw [simulateFCFS_rows, uniformList_sorted, hrange]
    have := uniform_rows b hb n hfit n 0 (by omega) 0 0
    simp only [Nat.cast_zero, zero_mul, zero_add] at this
    rw [this]
    simp [waitSum]

set_option maxRecDepth 100000 in
theorem manyExample_doubles :
    toDouble (((9007199858720775 : Int) : ℚ)) = 9007199858720776 ∧
    toDouble ((9007199858720776 : ℚ) / ((26843547 : Nat) : ℚ)) =
      5629499618099201 / 16777216 ∧
    toDouble (((9007199858720775 : Int) : ℚ) / ((26843547 : Nat) : ℚ)) = 335544325 :=
  ⟨by decide!, by decide!, by decide!⟩

theorem manyExample_average :
    manyExample.length = 26843547 ∧
    (simulateFCFS manyExample).1.avgWaiting = 5629499618099201 / 16777216 ∧
    sumWaiting (simulateFCFS manyExample).2 = 9007199858720775 ∧
    ¬ averagesOk manyExample.length (simulateFCFS manyExample).1
      (simulateFCFS manyExample).2 := by
  have hlen : manyExample.length = 26843547 := by
    unfold manyExample uniformList
    rw [List.length_map, List.length_range]
  have hprev : waitSum 25 26843546 = 9007199187632125 := by
    have := waitSum_closed 25 26843546
    norm_num at this
    omega
  have hall : waitSum 25 26843547 = 9007199858720775 := by
    have := waitSum_closed 25 26843547
    norm_num at this
    omega
  obtain ⟨h1, h2⟩ := uniform_average 25 (by norm_num) 26843547 (by norm_num)
    (by unfold INT_MAX; norm_num)
    (by
      show waitSum 25 26843546 ≤ 2 ^ 53
      rw [hprev]
      norm_num)
  rw [hall] at h1 h2
  obtain ⟨hA, hX, hY⟩ := manyExample_doubles
  have hval : (simulateFCFS manyExample).1.avgWaiting = 5629499618099201 / 16777216 := by
    unfold manyExample
    rw [h1, hA, hX]
  have hsum : sumWaiting (simulateFCFS manyExample).2 = 9007199858720775 := by
    unfold manyExample
    rw [h2]
    norm_num
  refine ⟨hlen, hval, hsum, ?_⟩
  intro hok
  have h3 := hok.1
  rw [hval, hsum, hlen] at h3
  have hY' : toDouble ((9007199858720775 : ℚ) / ((26843547 : Nat) : ℚ)) = 335544325 := by
    have := hY
    push_cast at this
    exact this
  rw [hY'] at h3
  norm_num at h3

theorem manyExample_domain :
    manyExample ≠ [] ∧
    ∀ p ∈ manyExample, p.arrivalTime = 0 ∧ p.burstTime = 25 ∧ p.initialPriority = 1 := by
  constructor
  · intro h
    have := congrArg List.length h
    rw [manyExample_average.1] at this
    exact absurd this (by simp)
  · intro p hp
    unfold manyExample uniformList at hp
    obtain ⟨i, -, rfl⟩ := List.mem_map.mp hp
    exact ⟨rfl, rfl, rfl⟩

/-- C12 as stated fails in two ways.  The averages are `double` quotients, not exact
rationals: on `{id=1,burst=5}, {id=2,burst=2}, {id=3,burst=3}`, all arriving at `0`,
`simulateSJF` leaves waiting times `5, 0, 2`, whose sum over `3` is `7/3`, and returns
`avgWaiting = 5254199565265579 / 2251799813685248` (the `double` nearest to `7/3`, printed
as `2.3333333333333335`).  The totals are `double` sums as well: on `26843547` processes
with ids from `1` on that all arrive at `0` with burst time `25`, the waiting times of the
rows of `simulateFCFS` add up to `9007199858720775`, above `2 ^ 53`, which is `335544325`
times `26843547`; the total is left as the `double` `9007199858720776` and the average
returned is `5629499618099201 / 16777216` (printed as `335544325.00000006`), not the
`double` nearest to the quotient.  And an engine may not return: the other lists below
are non-empty with `arrivalTime ≥ 0`, `burstTime ≥ 1` and `initialPriority ≥ 1`, and no
bound on the iterations lets `simulatePriority` or `simulateDynamicPriority` return
averages for the process of priority `INT_MAX`, nor `simulateSJF` for the process of burst
time `INT_MAX`. -/
theorem averages_not_exact :
    ((togetherExample ≠ [] ∧ ∀ p ∈ togetherExample,
        0 ≤ p.arrivalTime ∧ 1 ≤ p.burstTime ∧ 1 ≤ p.initialPriority) ∧
      (simulateSJF 7 togetherExample).map (fun r => r.2.map (fun p => p.waitingTime)) =
        some [5, 0, 2] ∧
      (simulateSJF 7 togetherExample).map (fun r => sumWaiting r.2 / 3) = some (7 / 3) ∧
      (simulateSJF 7 togetherExample).map (fun r => r.1.avgWaiting) =
        some (5254199565265579 / 2251799813685248) ∧
      (simulateSJF 7 togetherExample).map (fun r => decide (r.1.avgWaiting = sumWaiting r.2 / 3)) =
        some false) ∧
    ((manyExample ≠ [] ∧ manyExample.length = 26843547 ∧
        ∀ p ∈ manyExample, p.arrivalTime = 0 ∧ p.burstTime = 25 ∧ p.initialPriority = 1) ∧
      sumWaiting (simulateFCFS manyExample).2 = 335544325 * 26843547 ∧
      (simulateFCFS manyExample).1.avgWaiting = 5629499618099201 / 16777216 ∧
      ¬ averagesOk manyExample.length (simulateFCFS manyExample).1
        (simulateFCFS manyExample).2) ∧
    (maxPriorityExample ≠ [] ∧ ∀ p ∈ maxPriorityExample,
      0 ≤ p.arrivalTime ∧ 1 ≤ p.burstTime ∧ 1 ≤ p.initialPriority) ∧
    (∀ fuel, ¬ ∃ r, simulatePriority fuel maxPriorityExample = some r ∧
      averagesOk maxPriorityExample.length r.1 r.2) ∧
    (∀ fuel, ¬ ∃ r, simulateDynamicPriority fuel maxPriorityExample = some r ∧
      averagesOk maxPriorityExample.length r.summary r.rows) ∧
    (maxBurstExample ≠ [] ∧ ∀ p ∈ maxBurstExample,
      0 ≤ p.arrivalTime ∧ 1 ≤ p.burstTime ∧ 1 ≤ p.initialPriority) ∧
    (∀ fuel, ¬ ∃ r, simulateSJF fuel maxBurstExample = some r ∧
      averagesOk maxBurstExample.length r.1 r.2) := by
  obtain ⟨m1, m2, m3, m4⟩ := manyExample_average
  refine ⟨⟨⟨by decide, by decide⟩, by decide, by decide!, by decide!, by decide!⟩,
    ⟨⟨manyExample_domain.1, m1, manyExample_domain.2⟩, by rw [m3]; norm_num, m2, m4⟩,
    ⟨by decide, by decide⟩, fun fuel => ?_, fun fuel => ?_, ⟨by decide, by decide⟩,
    fun fuel => ?_⟩
  · rintro ⟨r, hr, -⟩
    have h := runLoop_none_of_fixed priorityStep _ priorityStep_maxPriority fuel
    have hlen : maxPriorityExample.length ≠ 0 := by decide
    unfold simulatePriority at hr
    simp only [hlen, if_false, h] at hr
    exact absurd hr (by simp)
  · rintro ⟨r, hr, -⟩
    have h := runLoop_none_of_fixed dynStep _ dynStep_maxPriority fuel
    have he : earliestArrivalScan (maxPriorityExample.map resetRunPriority) ≠ INT_MAX := by
      decide
    have hlen : maxPriorityExample.length ≠ 0 := by decide
    unfold simulateDynamicPriority at hr
    simp only [hlen, he, if_false, h] at hr
    exact absurd hr (by simp)
  · rintro ⟨r, hr, -⟩
    have h := runLoop_none_of_fixed sjfStep _ sjfStep_maxBurst fuel
    have he : earliestArrivalScan (maxBurstExample.map resetRun) ≠ INT_MAX := by decide
    have hlen : maxBurstExample.length ≠ 0 := by decide
    unfold simulateSJF at hr
    simp only [hlen, he, if_false, h] at hr
    exact absurd hr (by simp)

/-! ## Dynamic Priority completes all work -/

theorem dynRunStep_runCount (s : DynState) (best i : Nat) :
    runCount (dynRunStep s best).log i = runCount s.log i + (if i = best then 1 else 0) := by
  have hlog : (dynRunStep s best).log = s.log ++
      [{ idx := best, time := s.currentTime,
         id := (consume 1 (startIfUnset s.currentTime (s.processes.getD best default))).id,
         priority :=
           (consume 1 (startIfUnset s.currentTime (s.processes.getD best default))).priority,
         remaining := (consume 1 (startIfUnset s.currentTime
           (s.processes.getD best default))).remainingTime }] := by
    unfold dynRunStep
    by_cases hz : (consume 1 (startIfUnset s.currentTime
        (s.processes.getD best default))).remainingTime = 0
    · simp only [hz, if_true]
    · simp only [hz, if_false]
  rw [hlog]
  unfold runCount
  rw [List.filter_append, List.length_append]
  by_cases hib : i = best
  · subst hib
    simp
  · have : ¬ best = i := fun h => hib h.symm
    simp [hib, this]

theorem workInv_init (ps : List Process) : workInv (dynInit ps) := by
  intro i hi
  have hi' : i < ps.length := by simpa [dynInit] using hi
  have hget : (dynInit ps).processes.getD i default = resetRunPriority (ps.getD i default) :=
    getD_map_of_lt resetRunPriority ps i default default hi'
  rw [hget]
  refine ⟨?_, fun _ => ?_⟩
  · show ((0 : Nat) : Int) + (ps.getD i default).burstTime = (ps.getD i default).burstTime
    simp
  · have hf : (dynInit ps).finished.getD i false = false := getD_replicate_false _ _
    rename_i hfin
    rw [hf] at hfin
    exact absurd hfin (by decide)

theorem workInv_dynStep (s s' : DynState) (hinv : workInv s) (h : dynStep s = some s') : workInv s' := by
  obtain ⟨-, hcase⟩ := dynStep_cases s s' h
  rcases hcase with ⟨-, -, hs'⟩ | ⟨best, hbest, hs'⟩
  · rw [hs']
    exact hinv
  · obtain ⟨hb, hrun, -⟩ := (dynSelect_spec s.processes s.finished s.currentTime).2 best hbest
    have hflag : s.finished.getD best false = false := hrun.1
    obtain ⟨-, hl, hfin, hnot, hother⟩ := dynRunStep_fields s best
    obtain ⟨-, -, c3, -, -, c6, -⟩ := consume_fields 1
      (startIfUnset s.currentTime (s.processes.getD best default))
    obtain ⟨-, -, s3, -, -, s6, -⟩ := startIfUnset_fields s.currentTime
      (s.processes.getD best default)
    rw [hs']
    intro i hi
    rw [hl] at hi
    obtain ⟨hwork, hdone⟩ := hinv i hi
    rw [dynRunStep_runCount]
    by_cases hib : i = best
    · rw [hib] at hwork ⊢
      simp only [if_true]
      by_cases hz : (consume 1 (startIfUnset s.currentTime
          (s.processes.getD best default))).remainingTime = 0
      · obtain ⟨-, -, hf3⟩ := hfin hz
        obtain ⟨-, -, f3, -, -, f6, -⟩ := finishAt_fields (wrap32 (s.currentTime + 1))
          (consume 1 (startIfUnset s.currentTime (s.processes.getD best default)))
        rw [hf3 hb, f3, f6, c3, c6, s3, s6]
        refine ⟨by push_cast; omega, fun _ => ?_⟩
        rw [← s6, ← c6]
        exact hz
      · obtain ⟨hf1, -, hf3⟩ := hnot hz
        rw [hf3 hb, hf1, c3, c6, s3, s6]
        refine ⟨by push_cast; omega, fun hfb => ?_⟩
        rw [hflag] at hfb
        exact absurd hfb (by decide)
    · simp only [hib, if_false, add_zero]
      obtain ⟨-, -, a3, -, a5, -⟩ :=
        ageOne_fields s.finished best (wrap32 (s.currentTime + 1)) i (s.processes.getD i default)
      rw [hother i hi hib, a3, a5]
      refine ⟨hwork, fun hfi => hdone ?_⟩
      by_cases hz : (consume 1 (startIfUnset s.currentTime
          (s.processes.getD best default))).remainingTime = 0
      · rw [(hfin hz).1, getD_set_other _ _ _ _ _ (Ne.symm hib)] at hfi
        exact hfi
      · rw [(hnot hz).1] at hfi
        exact hfi

/-- C18, amended: for every non-empty process list with `0 ≤ arrivalTime < INT_MAX`,
`burstTime ≥ 1` and `1 ≤ initialPriority < INT_MAX`, the main loop of
`simulateDynamicPriority` is left within `dynFuel ps` (twice the total burst time, plus
one) iterations and the engine returns; then every process is flagged finished and has
`remainingTime = 0`, and the log has exactly `burstTime` unit steps in which the process
was the running one. -/
theorem dyn_completes (ps : List Process) (hne : ps ≠ [])
    (hdom : ∀ p ∈ ps, 0 ≤ p.arrivalTime ∧ p.arrivalTime < INT_MAX ∧ 1 ≤ p.burstTime ∧
      1 ≤ p.initialPriority ∧ p.initialPriority < INT_MAX)
    (fuel : Nat) (hfuel : dynFuel ps ≤ fuel) :
    ∃ st r, runLoop dynStep fuel (dynInit ps) = some st ∧
      simulateDynamicPriority fuel ps = some r ∧ r.rows = st.processes ∧ r.log = st.log ∧
      r.rows.length = ps.length ∧
      ∀ i, i < ps.length → st.finished.getD i false = true ∧
        (r.rows.getD i default).remainingTime = 0 ∧
        (runCount r.log i : Int) = (ps.getD i default).burstTime := by
  obtain ⟨st, hst, hinv, hwork, -, hdone⟩ := dyn_run ps hdom workInv
    (fun a b _ ha hab => workInv_dynStep a b ha hab) (workInv_init ps) fuel hfuel
  have hlen : ps.length ≠ 0 := fun h => hne (List.length_eq_zero.mp h)
  have hearly := earliestArrivalScan_ne ps resetRunPriority (fun _ => rfl) hne
    (fun p hp => (hdom p hp).2.1)
  have hres : simulateDynamicPriority fuel ps =
      some { summary := { avgWaiting := toDouble (st.totalWaiting / ps.length),
                          avgTurnaround := toDouble (st.totalTurnaround / ps.length),
                          name := "Dynamic Priority" },
             rows := st.processes, log := st.log } := by
    unfold simulateDynamicPriority
    simp only [hlen, hearly, if_false, hst]
  refine ⟨st, _, hst, hres, rfl, rfl, hinv.1.1, ?_⟩
  intro i hi
  have hfin := hdone i hi
  obtain ⟨hw, hz⟩ := hwork i (by rw [hinv.1.1]; exact hi)
  have hdesc : descriptor (st.processes.getD i default) = descriptor (ps.getD i default) :=
    (hinv.1.2 i hi).1
  have hburst : (st.processes.getD i default).burstTime = (ps.getD i default).burstTime := by
    simp only [descriptor, Prod.mk.injEq] at hdesc
    exact hdesc.2.2.1
  refine ⟨hfin, hz hfin, ?_⟩
  rw [hz hfin, add_zero, hburst] at hw
  exact hw

/-- On the list of the generator ranges the loop is left with all three processes finished,
nothing remaining, and 3, 2 and 1 unit steps in the log. -/
theorem dyn_completes_witness :
    (smallExample ≠ [] ∧
      (∀ p ∈ smallExample, 0 ≤ p.arrivalTime ∧ p.arrivalTime < INT_MAX ∧ 1 ≤ p.burstTime ∧
        1 ≤ p.initialPriority ∧ p.initialPriority < INT_MAX) ∧
      dynFuel smallExample ≤ 13) ∧
    ∃ st r, runLoop dynStep 13 (dynInit smallExample) = some st ∧
      simulateDynamicPriority 13 smallExample = some r ∧ r.rows = st.processes ∧
      r.log = st.log ∧ r.rows.length = smallExample.length ∧
      ∀ i, i < smallExample.length → st.finished.getD i false = true ∧
        (r.rows.getD i default).remainingTime = 0 ∧
        (runCount r.log i : Int) = (smallExample.getD i default).burstTime :=
  ⟨⟨by decide, by decide, by decide⟩,
    dyn_completes smallExample (by decide) (by decide) 13 (by decide)⟩

/-- C18 as stated fails on lists it covers.  With a second process that arrives at
`INT_MAX` the loop is left by the guard `if (nextArrival == INT_MAX) break;` after one
iteration: the second process is not flagged finished, keeps `remainingTime = 1` and has
run in no unit step.  With a process of priority `INT_MAX` the loop is never left. -/
theorem dyn_completes_sentinel :
    (lateSecondExample ≠ [] ∧ ∀ p ∈ lateSecondExample,
      0 ≤ p.arrivalTime ∧ 1 ≤ p.burstTime ∧ 1 ≤ p.initialPriority) ∧
    (runLoop dynStep 1 (dynInit lateSecondExample)).map
        (fun s => (s.finished, s.processes.map (fun p => p.remainingTime),
          runCount s.log 1)) = some ([true, false], [0, 1], 0) ∧
    (simulateDynamicPriority 1 lateSecondExample).map
        (fun r => (r.rows.map (fun p => (p.remainingTime, p.finishTime)), runCount r.log 1)) =
      some ([(0, 1), (1, -1)], 0) ∧
    (maxPriorityExample ≠ [] ∧ ∀ p ∈ maxPriorityExample,
      0 ≤ p.arrivalTime ∧ 1 ≤ p.burstTime ∧ 1 ≤ p.initialPriority) ∧
    ∀ fuel, runLoop dynStep fuel (dynInit maxPriorityExample) = none :=
  ⟨⟨by decide, by decide⟩, by decide, by decide, ⟨by decide, by decide⟩,
    fun fuel => runLoop_none_of_fixed dynStep _ dynStep_maxPriority fuel⟩

/-! ## Dynamic Priority: selection, start time and idle jump -/

theorem dynRunStep_log (s : DynState) (best : Nat) :
    (dynRunStep s best).log = s.log ++
      [{ idx := best, time := s.currentTime,
         id := (consume 1 (startIfUnset s.currentTime (s.processes.getD best default))).id,
         priority :=
           (consume 1 (startIfUnset s.currentTime (s.processes.getD best default))).priority,
         remaining := (consume 1 (startIfUnset s.currentTime
           (s.processes.getD best default))).remainingTime }] := by
  unfold dynRunStep
  by_cases hz : (consume 1 (startIfUnset s.currentTime
      (s.processes.getD best default))).remainingTime = 0
  · simp only [hz, if_true]
  · simp only [hz, if_false]

theorem dynRunStep_firstRun (s : DynState) (best i : Nat) :
    (∀ t, firstRun s.log i = some t → firstRun (dynRunStep s best).log i = some t) ∧
    (firstRun s.log i = none →
      firstRun (dynRunStep s best).log i = if i = best then some s.currentTime else none) := by
  rw [dynRunStep_log]
  unfold firstRun
  rw [List.find?_append]
  constructor
  · intro t ht
    cases hf : s.log.find? (fun l => decide (l.idx = i)) with
    | none => rw [hf] at ht; exact absurd ht (by simp)
    | some l => rw [hf] at ht; simpa using ht
  · intro hn
    cases hf : s.log.find? (fun l => decide (l.idx = i)) with
    | none =>
      by_cases hib : i = best
      · subst hib
        simp
      · have : ¬ best = i := fun h => hib h.symm
        simp [hib, this]
    | some l => rw [hf] at hn; exact absurd hn (by simp)

/-- The arrival time and the `startTime` of every process after a unit step. -/
theorem dynRunStep_start (s : DynState) (best : Nat) (hb : best < s.processes.length) (i : Nat)
    (hi : i < s.processes.length) :
    ((dynRunStep s best).processes.getD i default).arrivalTime =
      (s.processes.getD i default).arrivalTime ∧
    ((dynRunStep s best).processes.getD i default).startTime =
      if i = best then
        (if (s.processes.getD i default).startTime = -1 then s.currentTime
         else (s.processes.getD i default).startTime)
      else (s.processes.getD i default).startTime := by
  obtain ⟨-, -, hfin, hnot, hother⟩ := dynRunStep_fields s best
  by_cases hib : i = best
  · rw [hib, if_pos rfl]
    obtain ⟨-, c2, -, -, -, -, c7, -⟩ := consume_fields 1
      (startIfUnset s.currentTime (s.processes.getD best default))
    obtain ⟨-, s2, -⟩ := startIfUnset_fields s.currentTime (s.processes.getD best default)
    have s7 := startIfUnset_startTime s.currentTime (s.processes.getD best default)
    by_cases hz : (consume 1 (startIfUnset s.currentTime
        (s.processes.getD best default))).remainingTime = 0
    · obtain ⟨-, f2, -, -, -, -, f7, -⟩ := finishAt_fields (wrap32 (s.currentTime + 1))
        (consume 1 (startIfUnset s.currentTime (s.processes.getD best default)))
      rw [(hfin hz).2.2 hb, f2, f7, c2, c7, s2, s7]
      exact ⟨rfl, rfl⟩
    · rw [(hnot hz).2.2 hb, c2, c7, s2, s7]
      exact ⟨rfl, rfl⟩
  · rw [if_neg hib, hother i hi hib]
    obtain ⟨-, a2, -, -, -, a6, -⟩ :=
      ageOne_fields s.finished best (wrap32 (s.currentTime + 1)) i (s.processes.getD i default)
    exact ⟨a2, a6⟩

theorem startInv_dynStep (s s' : DynState) (hinv : startInv s) (h : dynStep s = some s') :
    startInv s' := by
  obtain ⟨harr, hstart⟩ := hinv
  obtain ⟨-, hcase⟩ := dynStep_cases s s' h
  rcases hcase with ⟨-, hnext, hs'⟩ | ⟨best, hbest, hs'⟩
  · rw [hs']
    exact ⟨harr, hstart⟩
  · obtain ⟨hb, hrun, -⟩ := (dynSelect_spec s.processes s.finished s.currentTime).2 best hbest
    obtain ⟨hct, hl, -⟩ := dynRunStep_fields s best
    have hclock : 0 ≤ s.currentTime := le_trans (harr best hb) hrun.2.1
    rw [hs']
    refine ⟨?_, ?_⟩
    · intro i hi
      rw [hl] at hi
      rw [(dynRunStep_start s best hb i hi).1]
      exact harr i hi
    · intro i hi
      rw [hl] at hi
      obtain ⟨hsome, hnone⟩ := dynRunStep_firstRun s best i
      rw [(dynRunStep_start s best hb i hi).2]
      rcases hstart i hi with ⟨hf, hst⟩ | ⟨hf, hst⟩
      · by_cases hib : i = best
        · rw [hnone hf, if_pos hib, if_pos hib, if_pos hst]
          exact Or.inr ⟨rfl, hclock⟩
        · rw [hnone hf, if_neg hib, if_neg hib]
          exact Or.inl ⟨rfl, hst⟩
      · have hne : ¬ (s.processes.getD i default).startTime = -1 := by omega
        rw [hsome _ hf]
        by_cases hib : i = best
        · rw [if_pos hib, if_neg hne]
          exact Or.inr ⟨rfl, hst⟩
        · rw [if_neg hib]
          exact Or.inr ⟨rfl, hst⟩

theorem startInv_init (ps : List Process) (harr : ∀ p ∈ ps, 0 ≤ p.arrivalTime) :
    startInv (dynInit ps) := by
  have hget : ∀ i, i < ps.length →
      (dynInit ps).processes.getD i default = resetRunPriority (ps.getD i default) :=
    fun i hi => getD_map_of_lt resetRunPriority ps i default default hi
  have hlen : (dynInit ps).processes.length = ps.length := by simp [dynInit]
  have harr' : ∀ i, i < (dynInit ps).processes.length →
      0 ≤ ((dynInit ps).processes.getD i default).arrivalTime := by
    intro i hi
    rw [hlen] at hi
    rw [hget i hi]
    have hmem : ps.getD i default ∈ ps := by
      rw [List.getD_eq_getElem _ _ hi]
      exact List.getElem_mem hi
    exact harr (ps.getD i default) hmem
  refine ⟨harr', ?_⟩
  intro i hi
  rw [hlen] at hi
  rw [hget i hi]
  exact Or.inl ⟨rfl, rfl⟩

theorem countInv_init (ps : List Process) : countInv (dynInit ps) := by
  unfold countInv dynInit
  simp [List.count_replicate_self]

theorem countInv_dynStep (s s' : DynState) (hinv : countInv s) (h : dynStep s = some s') :
    countInv s' := by
  obtain ⟨hlen, hcount⟩ := hinv
  obtain ⟨-, hcase⟩ := dynStep_cases s s' h
  rcases hcase with ⟨-, -, hs'⟩ | ⟨best, hbest, hs'⟩
  · rw [hs']
    exact ⟨hlen, hcount⟩
  · obtain ⟨hb, hrun, -⟩ := (dynSelect_spec s.processes s.finished s.currentTime).2 best hbest
    obtain ⟨-, hl, hfin, hnot, -⟩ := dynRunStep_fields s best
    rw [hs']
    unfold countInv
    by_cases hz : (consume 1 (startIfUnset s.currentTime
        (s.processes.getD best default))).remainingTime = 0
    · obtain ⟨hf1, hf2, -⟩ := hfin hz
      have hcnt := count_false_set_true s.finished best (by rw [hlen]; exact hb) hrun.1
      rw [hf1, hf2, hl, List.length_set]
      refine ⟨hlen, ?_⟩
      omega
    · obtain ⟨hf1, hf2, -⟩ := hnot hz
      rw [hf1, hf2, hl]
      exact ⟨hlen, hcount⟩

/-- An iteration entered with no runnable process sets the clock to the least arrival
time of a process not flagged finished, if all arrival times are below `INT_MAX`. -/
theorem dyn_idle_jump (s : DynState) (hcount : countInv s)
    (hlate : ∀ i, i < s.processes.length → (s.processes.getD i default).arrivalTime < INT_MAX)
    (hc : s.completed < s.processes.length)
    (hnr : ∀ i, i < s.processes.length → ¬ isRunnable s.processes s.finished s.currentTime i) :
    dynStep s = some { s with currentTime := nextArrivalScan s.processes s.finished } ∧
    (∃ j, j < s.processes.length ∧ s.finished.getD j false = false ∧
      (s.processes.getD j default).arrivalTime = nextArrivalScan s.processes s.finished) ∧
    ∀ i, i < s.processes.length → s.finished.getD i false = false →
      nextArrivalScan s.processes s.finished ≤ (s.processes.getD i default).arrivalTime := by
  obtain ⟨hlen, hcnt⟩ := hcount
  have hsel : (dynSelect s.processes s.finished s.currentTime).1 = none := by
    cases hv : (dynSelect s.processes s.finished s.currentTime).1 with
    | none => rfl
    | some a =>
      obtain ⟨ha, hrun, -⟩ := (dynSelect_spec s.processes s.finished s.currentTime).2 a hv
      exact absurd hrun (hnr a ha)
  have hpos : 0 < s.finished.count false := by omega
  obtain ⟨j, hj, hjv⟩ := List.mem_iff_getElem.mp (List.count_pos_iff.mp hpos)
  have hjf : s.finished.getD j false = false := by
    rw [List.getD_eq_getElem _ _ hj]
    exact hjv
  have hj' : j < s.processes.length := by rw [← hlen]; exact hj
  obtain ⟨-, hle, hex⟩ := nextArrivalScan_spec s.processes s.finished
  have hne : nextArrivalScan s.processes s.finished ≠ INT_MAX := by
    have h1 := hle j hj' hjf
    have h2 := hlate j hj'
    omega
  refine ⟨?_, ?_, hle⟩
  · unfold dynStep
    rw [if_pos hc, hsel]
    simp only [hne, if_false]
  · rcases hex with hex | hex
    · exact absurd hex hne
    · exact hex

theorem dyn_start_run (ps : List Process) (harr : ∀ p ∈ ps, 0 ≤ p.arrivalTime) (k : Nat) :
    startInv (iterate dynStep k (dynInit ps)) :=
  iterate_inv dynStep startInv (fun a b ha hab => startInv_dynStep a b ha hab) k (dynInit ps)
    (startInv_init ps harr)

theorem dyn_count_run (ps : List Process) (k : Nat) :
    countInv (iterate dynStep k (dynInit ps)) :=
  iterate_inv dynStep countInv (fun a b ha hab => countInv_dynStep a b ha hab) k (dynInit ps)
    (countInv_init ps)

/-- C20, amended: `simulateDynamicPriority` is preemptive by current priority at every
unit step.  For every list with `burstTime ≥ 1` and `0 ≤ arrivalTime < INT_MAX`, in the
state `s` in which the iteration after `k` iterations of the main loop is entered at clock
`t = s.currentTime`:
* if the iteration is a unit step that runs the process at position `best`, the step is
  logged with start time `t`, and `best` is, among the processes not flagged finished with
  `arrivalTime ≤ t` and `remainingTime > 0`, one of least current priority, the earliest
  in the list on ties;
* a process not flagged finished has `remainingTime > 0`;
* the `startTime` of a process is `-1` as long as it has not run, and from then on the
  start time of the first unit step in which it ran; the same holds of the rows and the
  log that the engine returns;
* if the iteration is entered (`completed < n`) and no such process exists, the iteration
  runs no step and sets the clock to the least `arrivalTime` of a process not flagged
  finished. -/
theorem dyn_preemptive (ps : List Process)
    (hdom : ∀ p ∈ ps, 1 ≤ p.burstTime ∧ 0 ≤ p.arrivalTime ∧ p.arrivalTime < INT_MAX)
    (k : Nat) (s : DynState) (hs : s = iterate dynStep k (dynInit ps)) :
    (∀ best, dynRuns s = some best →
      iterate dynStep (k + 1) (dynInit ps) = dynRunStep s best ∧
      (∃ l, (dynRunStep s best).log = s.log ++ [l] ∧ l.idx = best ∧ l.time = s.currentTime) ∧
      best < ps.length ∧ isRunnable s.processes s.finished s.currentTime best ∧
      ∀ i, i < ps.length → isRunnable s.processes s.finished s.currentTime i →
        (s.processes.getD best default).priority < (s.processes.getD i default).priority ∨
        ((s.processes.getD best default).priority = (s.processes.getD i default).priority ∧
          best ≤ i)) ∧
    (∀ i, i < ps.length → s.finished.getD i false = false →
      0 < (s.processes.getD i default).remainingTime) ∧
    (∀ i, i < ps.length →
      (firstRun s.log i = none ∧ (s.processes.getD i default).startTime = -1) ∨
      firstRun s.log i = some (s.processes.getD i default).startTime) ∧
    (∀ fuel r, simulateDynamicPriority fuel ps = some r → ∀ i, i < ps.length →
      (firstRun r.log i = none ∧ (r.rows.getD i default).startTime = -1) ∨
      firstRun r.log i = some (r.rows.getD i default).startTime) ∧
    (s.completed < ps.length →
      (∀ i, i < ps.length → ¬ isRunnable s.processes s.finished s.currentTime i) →
      ∃ m, iterate dynStep (k + 1) (dynInit ps) = { s with currentTime := m } ∧
        (∃ j, j < ps.length ∧ s.finished.getD j false = false ∧
          (ps.getD j default).arrivalTime = m) ∧
        ∀ i, i < ps.length → s.finished.getD i false = false →
          m ≤ (ps.getD i default).arrivalTime) := by
  have harr0 : ∀ p ∈ ps, 0 ≤ p.arrivalTime := fun p hp => (hdom p hp).2.1
  have hmem : ∀ i, i < ps.length → ps.getD i default ∈ ps := by
    intro i hi
    rw [List.getD_eq_getElem _ _ hi]
    exact List.getElem_mem hi
  have htr : tracksBy sameDescriptor ps s.processes := by
    rw [hs]
    exact sameDescriptor_dyn ps k
  have hstart : startInv s := by
    rw [hs]
    exact dyn_start_run ps harr0 k
  have hcount : countInv s := by
    rw [hs]
    exact dyn_count_run ps k
  obtain ⟨hlen, hrel⟩ := htr
  have harrival : ∀ i, i < ps.length →
      (s.processes.getD i default).arrivalTime = (ps.getD i default).arrivalTime := by
    intro i hi
    have hd := hrel i hi
    simp only [sameDescriptor, descriptor, Prod.mk.injEq] at hd
    exact hd.2.1
  refine ⟨?_, ?_, ?_, ?_, ?_⟩
  · intro best hrun
    have hstep := dynRuns_step s best hrun
    have hnext : iterate dynStep (k + 1) (dynInit ps) = dynRunStep s best := by
      apply iterate_succ_right
      rw [← hs]
      exact hstep
    have hsel : (dynSelect s.processes s.finished s.currentTime).1 = some best := by
      unfold dynRuns at hrun
      split_ifs at hrun
      exact hrun
    obtain ⟨hb, hrunnable, -, hmin⟩ :=
      (dynSelect_spec s.processes s.finished s.currentTime).2 best hsel
    refine ⟨hnext, ⟨_, dynRunStep_log s best, rfl, rfl⟩, by omega, hrunnable, ?_⟩
    intro i hi
    exact hmin i (by omega)
  · intro i hi hfin
    rw [hs] at hfin ⊢
    exact dyn_unfinished_remaining ps i hi (hdom _ (hmem i hi)).1 k hfin
  · intro i hi
    rcases hstart.2 i (by omega) with h | h
    · exact Or.inl h
    · exact Or.inr h.1
  · intro fuel r hr i hi
    have hne : ps ≠ [] := by
      intro hnil
      rw [hnil] at hi
      exact absurd hi (by simp)
    have hn : ps.length ≠ 0 := by omega
    have hearly := earliestArrivalScan_ne ps resetRunPriority (fun _ => rfl) hne
      (fun p hp => (hdom p hp).2.2)
    unfold simulateDynamicPriority at hr
    simp only [hn, hearly, if_false] at hr
    cases hloop : runLoop dynStep fuel (dynInit ps) with
    | none => rw [hloop] at hr; exact absurd hr (by simp)
    | some st =>
      rw [hloop] at hr
      simp only [Option.some.injEq] at hr
      obtain ⟨hst, -⟩ := runLoop_eq_iterate dynStep fuel _ st hloop
      have hinv : startInv st := by
        rw [hst]
        exact dyn_start_run ps harr0 fuel
      have hl : st.processes.length = ps.length := by
        rw [hst]
        exact (sameDescriptor_dyn ps fuel).1
      rw [← hr]
      rcases hinv.2 i (by omega) with h | h
      · exact Or.inl h
      · exact Or.inr h.1
  · intro hc hnr
    have hlate : ∀ i, i < s.processes.length →
        (s.processes.getD i default).arrivalTime < INT_MAX := by
      intro i hi
      rw [harrival i (by omega)]
      exact (hdom _ (hmem i (by omega))).2.2
    obtain ⟨hstep, ⟨j, hj, hjf, hjv⟩, hle⟩ := dyn_idle_jump s hcount hlate (by omega)
      (fun i hi => hnr i (by omega))
    refine ⟨nextArrivalScan s.processes s.finished, ?_, ⟨j, by omega, hjf, ?_⟩, ?_⟩
    · apply iterate_succ_right
      rw [← hs]
      exact hstep
    · rw [← harrival j (by omega)]
      exact hjv
    · intro i hi hfi
      rw [← harrival i hi]
      exact hle i (by omega) hfi

/-- On the list with an idle gap: the first iteration runs the first process at time
`0`, the second one is entered at clock `1` with no runnable process and sets the clock to
`3`, the arrival time of the second process, which the third iteration runs. -/
theorem dyn_preemptive_witness :
    (∀ p ∈ gapExample, 1 ≤ p.burstTime ∧ 0 ≤ p.arrivalTime ∧ p.arrivalTime < INT_MAX) ∧
    (dynRuns (dynInit gapExample) = some 0 ∧
      dynRuns (iterate dynStep 1 (dynInit gapExample)) = none ∧
      (iterate dynStep 1 (dynInit gapExample)).currentTime = 1 ∧
      (iterate dynStep 2 (dynInit gapExample)).currentTime = 3 ∧
      dynRuns (iterate dynStep 2 (dynInit gapExample)) = some 1) ∧
    ∃ s, s = iterate dynStep 1 (dynInit gapExample) ∧
    (∀ best, dynRuns s = some best →
      iterate dynStep (1 + 1) (dynInit gapExample) = dynRunStep s best ∧
      (∃ l, (dynRunStep s best).log = s.log ++ [l] ∧ l.idx = best ∧ l.time = s.currentTime) ∧
      best < gapExample.length ∧ isRunnable s.processes s.finished s.currentTime best ∧
      ∀ i, i < gapExample.length → isRunnable s.processes s.finished s.currentTime i →
        (s.processes.getD best default).priority < (s.processes.getD i default).priority ∨
        ((s.processes.getD best default).priority = (s.processes.getD i default).priority ∧
          best ≤ i)) ∧
    (∀ i, i < gapExample.length → s.finished.getD i false = false →
      0 < (s.processes.getD i default).remainingTime) ∧
    (∀ i, i < gapExample.length →
      (firstRun s.log i = none ∧ (s.processes.getD i default).startTime = -1) ∨
      firstRun s.log i = some (s.processes.getD i default).startTime) ∧
    (∀ fuel r, simulateDynamicPriority fuel gapExample = some r →
      ∀ i, i < gapExample.length →
      (firstRun r.log i = none ∧ (r.rows.getD i default).startTime = -1) ∨
      firstRun r.log i = some (r.rows.getD i default).startTime) ∧
    (s.completed < gapExample.length →
      (∀ i, i < gapExample.length → ¬ isRunnable s.processes s.finished s.currentTime i) →
      ∃ m, iterate dynStep (1 + 1) (dynInit gapExample) = { s with currentTime := m } ∧
        (∃ j, j < gapExample.length ∧ s.finished.getD j false = false ∧
          (gapExample.getD j default).arrivalTime = m) ∧
        ∀ i, i < gapExample.length → s.finished.getD i false = false →
          m ≤ (gapExample.getD i default).arrivalTime) :=
  ⟨by decide, by decide,
    ⟨_, rfl, dyn_preemptive gapExample (by decide) 1 _ rfl⟩⟩

/-- C20 as stated fails on lists it covers (non-empty, `burstTime ≥ 1`).  A process that
arrives at time `-1` runs its first unit step at `-1`, which leaves `startTime` at the
value `-1` that means unset, and the second step then overwrites it: the row has
`startTime = 0`, the first step of the log starts at `-1`.  With a second process that
arrives at `INT_MAX`, the iteration after the first one is entered (`completed = 1 < 2`)
with no runnable process and a process not finished, and it leaves the loop instead of
setting the clock. -/
theorem dyn_preemptive_sentinel :
    (negativeArrivalExample ≠ [] ∧ ∀ p ∈ negativeArrivalExample, 1 ≤ p.burstTime) ∧
    (simulateDynamicPriority 5 negativeArrivalExample).map
        (fun r => (firstRun r.log 0, r.rows.map (fun p => p.startTime))) =
      some (some (-1), [0]) ∧
    (lateSecondExample ≠ [] ∧ ∀ p ∈ lateSecondExample, 1 ≤ p.burstTime) ∧
    (iterate dynStep 1 (dynInit lateSecondExample)).completed = 1 ∧
    (iterate dynStep 1 (dynInit lateSecondExample)).finished = [true, false] ∧
    dynRuns (iterate dynStep 1 (dynInit lateSecondExample)) = none ∧
    (dynStep (iterate dynStep 1 (dynInit lateSecondExample))).isSome = false :=
  ⟨⟨by decide, by decide⟩, by decide, ⟨by decide, by decide⟩, by decide, by decide,
    by decide, by decide⟩

/-! ## Round Robin: no slice before the arrival, no step back of the clock -/

/-- What `addArrived` returns: the queue is extended by positions of unfinished processes
that have arrived by `time`, every flag it sets belongs to a position it has queued, and
no unfinished process that has arrived is left without a flag or a queue entry. -/
theorem addArrived_spec (processes : List Process) (finished : List Bool) (time : Int)
    (q : List Nat) (iq : List Bool) :
    (addArrived processes finished time q iq).2.length = iq.length ∧
    (∀ j ∈ (addArrived processes finished time q iq).1,
      j ∈ q ∨ (j < processes.length ∧ (processes.getD j default).arrivalTime ≤ time)) ∧
    (∀ j ∈ q, j ∈ (addArrived processes finished time q iq).1) ∧
    (∀ j, (addArrived processes finished time q iq).2.getD j false = true →
      iq.getD j false = true ∨ j ∈ (addArrived processes finished time q iq).1) ∧
    (∀ j, j < processes.length → finished.getD j false = false →
      (processes.getD j default).arrivalTime ≤ time → j < iq.length →
      iq.getD j false = true ∨ j ∈ (addArrived processes finished time q iq).1) := by
  have key := foldl_range_induction (addArrivedBody processes finished time) (q, iq)
    (fun m acc => acc.2.length = iq.length ∧
      (∀ j ∈ acc.1, j ∈ q ∨ (j < m ∧ (processes.getD j default).arrivalTime ≤ time)) ∧
      (∀ j ∈ q, j ∈ acc.1) ∧
      (∀ j, acc.2.getD j false = true → iq.getD j false = true ∨ j ∈ acc.1) ∧
      (∀ j, j < m → finished.getD j false = false →
        (processes.getD j default).arrivalTime ≤ time → j < iq.length →
        iq.getD j false = true ∨ j ∈ acc.1))
    ⟨rfl, fun j hj => Or.inl hj, fun j hj => hj, fun j hj => Or.inl hj,
      fun j hj => absurd hj (Nat.not_lt_zero j)⟩
    ?_ processes.length
  · obtain ⟨h1, h2, h3, h4, h5⟩ := key
    refine ⟨h1, ?_, h3, h4, h5⟩
    intro j hj
    exact h2 j hj
  · intro m acc ⟨h1, h2, h3, h4, h5⟩
    unfold addArrivedBody
    by_cases hc : finished.getD m false = false ∧ acc.2.getD m false = false ∧
        (processes.getD m default).arrivalTime ≤ time
    · rw [if_pos hc]
      refine ⟨by simp [h1], ?_, ?_, ?_, ?_⟩
      · intro j hj
        rcases List.mem_append.mp hj with hj | hj
        · rcases h2 j hj with h | ⟨h, h'⟩
          · exact Or.inl h
          · exact Or.inr ⟨by omega, h'⟩
        · have : j = m := by simpa using hj
          rw [this]
          exact Or.inr ⟨by omega, hc.2.2⟩
      · intro j hj
        exact List.mem_append.mpr (Or.inl (h3 j hj))
      · intro j hj
        by_cases hjm : m = j
        · right
          rw [← hjm]
          simp
        · rw [getD_set_other _ _ _ _ _ hjm] at hj
          rcases h4 j hj with h | h
          · exact Or.inl h
          · exact Or.inr (List.mem_append.mpr (Or.inl h))
      · intro j hj hf ha hl
        by_cases hjm : j = m
        · right
          rw [hjm]
          simp
        · rcases h5 j (by omega) hf ha hl with h | h
          · exact Or.inl h
          · exact Or.inr (List.mem_append.mpr (Or.inl h))
    · rw [if_neg hc]
      refine ⟨h1, ?_, h3, h4, ?_⟩
      · intro j hj
        rcases h2 j hj with h | ⟨h, h'⟩
        · exact Or.inl h
        · exact Or.inr ⟨by omega, h'⟩
      · intro j hj hf ha hl
        by_cases hjm : j = m
        · rw [hjm] at hf ha ⊢
          have hflag : acc.2.getD m false = true := by
            cases hv : acc.2.getD m false with
            | true => rfl
            | false => exact absurd ⟨hf, hv, ha⟩ hc
          exact h4 m hflag
        · exact h5 j (by omega) hf ha hl

/-- What `rrNextScan` returns: the position of an unfinished process and its arrival
time, if it returns a position. -/
theorem rrNextScan_spec (processes : List Process) (finished : List Bool) (a : Nat)
    (h : (rrNextScan processes finished).1 = some a) :
    a < processes.length ∧ finished.getD a false = false ∧
    (processes.getD a default).arrivalTime = (rrNextScan processes finished).2 := by
  have key := foldl_range_induction (rrNextScanBody processes finished) (none, INT_MAX)
    (fun m acc => ∀ a, acc.1 = some a → a < m ∧ finished.getD a false = false ∧
      (processes.getD a default).arrivalTime = acc.2)
    (fun a ha => by cases ha) ?_ processes.length
  · exact key a h
  · intro m acc ih b hb
    unfold rrNextScanBody at hb ⊢
    by_cases hc : finished.getD m false = false ∧ (processes.getD m default).arrivalTime < acc.2
    · rw [if_pos hc] at hb ⊢
      have : m = b := by simpa using hb
      rw [← this]
      exact ⟨by omega, hc.1, rfl⟩
    · rw [if_neg hc] at hb ⊢
      obtain ⟨h1, h2, h3⟩ := ih b hb
      exact ⟨by omega, h2, h3⟩

/-- What `rrBootstrap` returns on a non-empty list: a position of the list and the
arrival time of its process. -/
theorem rrBootstrap_spec (processes : List Process) (hne : 0 < processes.length) :
    (rrBootstrap processes).1 < processes.length ∧
    (processes.getD (rrBootstrap processes).1 default).arrivalTime =
      (rrBootstrap processes).2 := by
  have key : ∀ (l : List Nat) (acc : Nat × Int), (∀ i ∈ l, i < processes.length) →
      (acc.1 < processes.length ∧ (processes.getD acc.1 default).arrivalTime = acc.2) →
      ((l.foldl (rrBootstrapBody processes) acc).1 < processes.length ∧
        (processes.getD (l.foldl (rrBootstrapBody processes) acc).1 default).arrivalTime =
          (l.foldl (rrBootstrapBody processes) acc).2) := by
    intro l
    induction l with
    | nil => intro acc _ h; exact h
    | cons x l ih =>
      intro acc hl hacc
      rw [List.foldl_cons]
      apply ih
      · intro i hi
        exact hl i (List.mem_cons_of_mem _ hi)
      · unfold rrBootstrapBody
        by_cases hc : (processes.getD x default).arrivalTime < acc.2
        · rw [if_pos hc]
          exact ⟨hl x (List.mem_cons_self _ _), rfl⟩
        · rw [if_neg hc]
          exact hacc
  unfold rrBootstrap
  apply key
  · intro i hi
    rw [List.mem_range'_1] at hi
    omega
  · exact ⟨hne, rfl⟩

/-- The state that `rrRunSlice` returns, field by field. -/
theorem rrRunSlice_fields (quantum : Int) (s : RRState) (idx : Nat) (rq : List Nat)
    (iq : List Bool) (t : Int) :
    (rrRunSlice quantum s idx rq iq t).currentTime = wrap32 (t + rrRunTime quantum s idx t) ∧
    (rrRunSlice quantum s idx rq iq t).log = s.log ++
      [{ idx := idx, start := t, stop := wrap32 (t + rrRunTime quantum s idx t),
         id := (rrRan quantum s idx t).id, runTime := rrRunTime quantum s idx t,
         remaining := (rrRan quantum s idx t).remainingTime }] ∧
    (rrRunSlice quantum s idx rq iq t).processes.length = s.processes.length ∧
    (∀ i, i < s.processes.length →
      ((rrRunSlice quantum s idx rq iq t).processes.getD i default).arrivalTime =
        (s.processes.getD i default).arrivalTime ∧
      ((rrRunSlice quantum s idx rq iq t).processes.getD i default).remainingTime =
        if i = idx then (rrRan quantum s idx t).remainingTime
        else (s.processes.getD i default).remainingTime) ∧
    ((rrRan quantum s idx t).remainingTime = 0 →
      (rrRunSlice quantum s idx rq iq t).readyQueue = (rrArrived quantum s idx rq iq t).1 ∧
      (rrRunSlice quantum s idx rq iq t).inQueue = (rrArrived quantum s idx rq iq t).2 ∧
      (rrRunSlice quantum s idx rq iq t).finished = s.finished.set idx true) ∧
    ((rrRan quantum s idx t).remainingTime ≠ 0 →
      (rrRunSlice quantum s idx rq iq t).readyQueue =
        (rrArrived quantum s idx rq iq t).1 ++ [idx] ∧
      (rrRunSlice quantum s idx rq iq t).inQueue =
        (rrArrived quantum s idx rq iq t).2.set idx true ∧
      (rrRunSlice quantum s idx rq iq t).finished = s.finished) := by
  obtain ⟨-, c2, -, -, -, -, -⟩ := consume_fields (rrRunTime quantum s idx t)
    (startIfUnset t (s.processes.getD idx default))
  obtain ⟨-, s2, -⟩ := startIfUnset_fields t (s.processes.getD idx default)
  have harr : (rrRan quantum s idx t).arrivalTime = (s.processes.getD idx default).arrivalTime := by
    unfold rrRan
    rw [c2, s2]
  obtain ⟨-, f2, -, -, -, f6, -⟩ := finishAt_fields (wrap32 (t + rrRunTime quantum s idx t))
    (rrRan quantum s idx t)
  by_cases hz : (rrRan quantum s idx t).remainingTime = 0
  · have hstate : rrRunSlice quantum s idx rq iq t =
        { processes := (s.processes.set idx (rrRan quantum s idx t)).set idx
            (finishAt (wrap32 (t + rrRunTime quantum s idx t)) (rrRan quantum s idx t)),
          readyQueue := (rrArrived quantum s idx rq iq t).1,
          inQueue := (rrArrived quantum s idx rq iq t).2,
          finished := s.finished.set idx true,
          currentTime := wrap32 (t + rrRunTime quantum s idx t),
          completed := s.completed + 1,
          totalWaiting := toDouble (s.totalWaiting +
            (finishAt (wrap32 (t + rrRunTime quantum s idx t))
              (rrRan quantum s idx t)).waitingTime),
          totalTurnaround := toDouble (s.totalTurnaround +
            (finishAt (wrap32 (t + rrRunTime quantum s idx t))
              (rrRan quantum s idx t)).turnaroundTime),
          log := s.log ++
            [{ idx := idx, start := t, stop := wrap32 (t + rrRunTime quantum s idx t),
               id := (rrRan quantum s idx t).id, runTime := rrRunTime quantum s idx t,
               remaining := (rrRan quantum s idx t).remainingTime }] } := by
      unfold rrRan rrRunTime at hz
      unfold rrRunSlice rrArrived rrRan rrRunTime
      simp only [hz, if_true]
    rw [hstate]
    refine ⟨rfl, rfl, by simp, ?_, fun _ => ⟨rfl, rfl, rfl⟩, fun h => absurd hz h⟩
    intro i hi
    by_cases hib : i = idx
    · rw [hib] at hi ⊢
      rw [if_pos rfl]
      show (((s.processes.set idx (rrRan quantum s idx t)).set idx
        (finishAt (wrap32 (t + rrRunTime quantum s idx t)) (rrRan quantum s idx t))).getD idx
          default).arrivalTime = _ ∧ (((s.processes.set idx (rrRan quantum s idx t)).set idx
        (finishAt (wrap32 (t + rrRunTime quantum s idx t)) (rrRan quantum s idx t))).getD idx
          default).remainingTime = _
      rw [getD_set_self _ _ _ _ (by simpa using hi), f2, f6, harr]
      exact ⟨rfl, rfl⟩
    · rw [if_neg hib]
      show (((s.processes.set idx (rrRan quantum s idx t)).set idx
        (finishAt (wrap32 (t + rrRunTime quantum s idx t)) (rrRan quantum s idx t))).getD i
          default).arrivalTime = _ ∧ (((s.processes.set idx (rrRan quantum s idx t)).set idx
        (finishAt (wrap32 (t + rrRunTime quantum s idx t)) (rrRan quantum s idx t))).getD i
          default).remainingTime = _
      rw [getD_set_other _ _ _ _ _ (Ne.symm hib), getD_set_other _ _ _ _ _ (Ne.symm hib)]
      exact ⟨rfl, rfl⟩
  · have hstate : rrRunSlice quantum s idx rq iq t =
        { processes := s.processes.set idx (rrRan quantum s idx t),
          readyQueue := (rrArrived quantum s idx rq iq t).1 ++ [idx],
          inQueue := (rrArrived quantum s idx rq iq t).2.set idx true,
          finished := s.finished,
          currentTime := wrap32 (t + rrRunTime quantum s idx t),
          completed := s.completed,
          totalWaiting := s.totalWaiting,
          totalTurnaround := s.totalTurnaround,
          log := s.log ++
            [{ idx := idx, start := t, stop := wrap32 (t + rrRunTime quantum s idx t),
               id := (rrRan quantum s idx t).id, runTime := rrRunTime quantum s idx t,
               remaining := (rrRan quantum s idx t).remainingTime }] } := by
      unfold rrRan rrRunTime at hz
      unfold rrRunSlice rrArrived rrRan rrRunTime
      simp only [hz, if_false]
    rw [hstate]
    refine ⟨rfl, rfl, by simp, ?_, fun h => absurd h hz, fun _ => ⟨rfl, rfl, rfl⟩⟩
    intro i hi
    by_cases hib : i = idx
    · rw [hib] at hi ⊢
      rw [if_pos rfl]
      show ((s.processes.set idx (rrRan quantum s idx t)).getD idx default).arrivalTime = _ ∧
        ((s.processes.set idx (rrRan quantum s idx t)).getD idx default).remainingTime = _
      rw [getD_set_self _ _ _ _ hi, harr]
      exact ⟨rfl, rfl⟩
    · rw [if_neg hib]
      show ((s.processes.set idx (rrRan quantum s idx t)).getD i default).arrivalTime = _ ∧
        ((s.processes.set idx (rrRan quantum s idx t)).getD i default).remainingTime = _
      rw [getD_set_other _ _ _ _ _ (Ne.symm hib)]
      exact ⟨rfl, rfl⟩

/-- The queue, the flags and the clock after the refill at the head of an iteration of
`simulateRoundRobin`. -/
theorem rrRefill_facts (ps : List Process) (s : RRState) (hinv : rrInv ps s) (idx : Nat)
    (rq : List Nat) (iq : List Bool) (t : Int)
    (h : rrRefill s = some (idx :: rq, iq, t)) :
    iq.length = ps.length ∧ s.currentTime ≤ t ∧
    (∀ i ∈ idx :: rq, i < ps.length ∧ (ps.getD i default).arrivalTime ≤ t) ∧
    (∀ i, iq.getD i false = true → i ∈ idx :: rq) ∧
    (t = s.currentTime ∨ ∃ a, a < ps.length ∧ (ps.getD a default).arrivalTime = t) := by
  obtain ⟨hlen, hiq, hfl, hproc, hqueue, hflag, hempty, -, -⟩ := hinv
  unfold rrRefill at h
  by_cases hq : s.readyQueue.isEmpty = true
  · rw [if_pos hq] at h
    have hnil : s.readyQueue = [] := List.isEmpty_iff.mp hq
    cases hscan : rrNextScan s.processes s.finished with
    | mk a v =>
      cases a with
      | none =>
        rw [hscan] at h
        exact absurd h (by simp)
      | some a =>
        rw [hscan] at h
        simp only [hnil, List.nil_append, Option.some.injEq, Prod.mk.injEq, List.cons.injEq] at h
        obtain ⟨⟨ha, hrq⟩, hiq', ht⟩ := h
        have hspec := rrNextScan_spec s.processes s.finished a (by rw [hscan])
        rw [hscan] at hspec
        obtain ⟨hal, haf, hav⟩ := hspec
        rw [hlen] at hal
        have harr : (ps.getD a default).arrivalTime = v := by
          rw [← (hproc a hal).1]
          exact hav
        have hlate : s.currentTime < (ps.getD a default).arrivalTime := by
          rcases hempty with hne | hall
          · exact absurd hnil hne
          · exact hall a hal haf
        rw [← ha, ← hrq, ← hiq', ← ht]
        refine ⟨by rw [List.length_set]; exact hiq, by omega, ?_, ?_, Or.inr ⟨a, hal, harr⟩⟩
        · intro i hi
          have : i = a := by simpa using hi
          rw [this]
          exact ⟨hal, le_of_eq harr⟩
        · intro i hi
          by_cases hia : a = i
          · rw [hia]
            simp
          · rw [getD_set_other _ _ _ _ _ hia] at hi
            have := hflag i hi
            rw [hnil] at this
            exact absurd this (List.not_mem_nil i)
  · rw [if_neg hq] at h
    simp only [Option.some.injEq, Prod.mk.injEq] at h
    obtain ⟨hq', hiq', ht⟩ := h
    rw [← hq', ← hiq', ← ht]
    exact ⟨hiq, le_refl _, hqueue, hflag, Or.inl rfl⟩

theorem totalRemaining_sub (l l' : List Process) (b : Nat) (d : Int)
    (hlen : l'.length = l.length) (hb : b < l.length)
    (hother : ∀ i, i < l.length → i ≠ b →
      (l'.getD i default).remainingTime = (l.getD i default).remainingTime)
    (hbest : (l'.getD b default).remainingTime = (l.getD b default).remainingTime - d)
    (hd0 : 0 ≤ d) (hd : d ≤ (l.getD b default).remainingTime) :
    (totalRemaining l' : Int) + d = totalRemaining l := by
  induction l generalizing l' b with
  | nil => simp at hb
  | cons x xs ih =>
    cases l' with
    | nil => simp at hlen
    | cons y ys =>
      simp only [List.length_cons, Nat.add_right_cancel_iff] at hlen
      cases b with
      | zero =>
        simp only [List.getD_cons_zero] at hbest hd
        have hrest : totalRemaining ys = totalRemaining xs := by
          apply totalRemaining_congr xs ys hlen
          intro i hi
          have := hother (i + 1) (by simpa using hi) (by omega)
          simpa using this
        rw [totalRemaining_cons, totalRemaining_cons, hrest, hbest]
        push_cast
        omega
      | succ b =>
        simp only [List.getD_cons_succ] at hbest hd
        simp only [List.length_cons, Nat.add_lt_add_iff_right] at hb
        have h0 := hother 0 (by simp) (by omega)
        simp only [List.getD_cons_zero] at h0
        have := ih ys b hlen hb
          (fun i hi hib => by
            have := hother (i + 1) (by simpa using hi) (by omega)
            simpa using this)
          hbest hd
        rw [totalRemaining_cons, totalRemaining_cons, h0]
        push_cast
        omega

theorem remaining_le_total (l : List Process) (i : Nat) (hi : i < l.length) :
    (l.getD i default).remainingTime ≤ totalRemaining l := by
  induction l generalizing i with
  | nil => simp at hi
  | cons x xs ih =>
    rw [totalRemaining_cons]
    cases i with
    | zero =>
      simp only [List.getD_cons_zero]
      push_cast
      omega
    | succ i =>
      simp only [List.getD_cons_succ]
      have := ih i (by simpa using hi)
      push_cast
      omega

/-- An iteration of `simulateRoundRobin` with a quantum that is not negative, entered with
a clock that leaves room for the time still to run, keeps the invariant and the room, and
does not move the clock back. -/
theorem rrInv_rrStep (ps : List Process) (quantum : Int) (hquantum : 0 ≤ quantum)
    (s s' : RRState) (hinv : rrInv ps s) (hfit : rrFits ps s)
    (h : rrStep quantum s = some s') :
    rrInv ps s' ∧ rrFits ps s' ∧ s.currentTime ≤ s'.currentTime := by
  obtain ⟨-, idx, rq, iq, t, hre, hs'⟩ := rrStep_cases quantum s s' h
  obtain ⟨hiql, hct, hqmem, hiqflag, hclk⟩ := rrRefill_facts ps s hinv idx rq iq t hre
  obtain ⟨hlen, -, hfl, hproc, -, -, -, hlog, hpair⟩ := hinv
  obtain ⟨hidx, harridx⟩ := hqmem idx (List.mem_cons_self _ _)
  obtain ⟨f1, f2, f3, f4, f5, f6⟩ := rrRunSlice_fields quantum s idx rq iq t
  obtain ⟨-, c2, -, -, -, c6, -⟩ := consume_fields (rrRunTime quantum s idx t)
    (startIfUnset t (s.processes.getD idx default))
  obtain ⟨-, s2, -, -, -, s6, -⟩ := startIfUnset_fields t (s.processes.getD idx default)
  have hrem0 : 0 ≤ (s.processes.getD idx default).remainingTime := (hproc idx hidx).2
  have hrt : rrRunTime quantum s idx t =
      min quantum (s.processes.getD idx default).remainingTime := by
    unfold rrRunTime
    rw [s6]
  have hrt0 : 0 ≤ rrRunTime quantum s idx t := by
    rw [hrt]
    exact le_min hquantum hrem0
  have hrtle : rrRunTime quantum s idx t ≤ (s.processes.getD idx default).remainingTime := by
    rw [hrt]
    exact min_le_right _ _
  have hran : 0 ≤ (rrRan quantum s idx t).remainingTime := by
    unfold rrRan
    rw [c6, s6]
    omega
  have hranrem : (rrRan quantum s idx t).remainingTime =
      (s.processes.getD idx default).remainingTime - rrRunTime quantum s idx t := by
    unfold rrRan
    rw [c6, s6]
  obtain ⟨⟨hlo, -⟩, hroom, hroomarr⟩ := hfit
  have htroom : t + (totalRemaining s.processes : Int) ≤ INT_MAX := by
    rcases hclk with hc | ⟨a, ha, hav⟩
    · rw [hc]
      exact hroom
    · rw [← hav]
      apply hroomarr
      rw [List.getD_eq_getElem _ _ ha]
      exact List.getElem_mem _
  have hremtot := remaining_le_total s.processes idx (by omega)
  have hw : wrap32 (t + rrRunTime quantum s idx t) = t + rrRunTime quantum s idx t := by
    apply wrap32_of_inInt
    unfold INT_MAX at htroom
    unfold inInt
    omega
  have hsub : (totalRemaining (rrRunSlice quantum s idx rq iq t).processes : Int) +
      rrRunTime quantum s idx t = totalRemaining s.processes := by
    apply totalRemaining_sub s.processes _ idx _ f3 (by omega)
    · intro i hi hib
      rw [(f4 i hi).2, if_neg hib]
    · rw [(f4 idx (by omega)).2, if_pos rfl, hranrem]
    · exact hrt0
    · exact hrtle
  have hfit' : rrFits ps (rrRunSlice quantum s idx rq iq t) := by
    refine ⟨?_, ?_, ?_⟩
    · rw [f1]
      exact inInt_wrap32 _
    · rw [f1, hw]
      omega
    · intro p hp
      have := hroomarr p hp
      omega
  rw [hw] at f1 f2
  have hranarr : (rrRan quantum s idx t).arrivalTime =
      (s.processes.getD idx default).arrivalTime := by
    unfold rrRan
    rw [c2, s2]
  have harr1 : ∀ j, j < ps.length →
      ((s.processes.set idx (rrRan quantum s idx t)).getD j default).arrivalTime =
        (ps.getD j default).arrivalTime := by
    intro j hj
    by_cases hji : idx = j
    · rw [← hji, getD_set_self _ _ _ _ (by omega), hranarr]
      exact (hproc idx hidx).1
    · rw [getD_set_other _ _ _ _ _ hji]
      exact (hproc j hj).1
  have hlen1 : (s.processes.set idx (rrRan quantum s idx t)).length = ps.length := by
    rw [List.length_set]
    exact hlen
  have hiq1 : ∀ j, j ≠ idx → (iq.set idx false).getD j false = true → j ∈ rq := by
    intro j hj hv
    rw [getD_set_other _ _ _ _ _ (Ne.symm hj)] at hv
    rcases List.mem_cons.mp (hiqflag j hv) with hji | hjr
    · exact absurd hji hj
    · exact hjr
  have hiq1idx : (iq.set idx false).getD idx false = false :=
    getD_set_self _ _ _ _ (by omega)
  obtain ⟨a1, a2, a3, a4, a5⟩ := addArrived_spec (s.processes.set idx (rrRan quantum s idx t))
    s.finished (wrap32 (t + rrRunTime quantum s idx t)) rq (iq.set idx false)
  have hA : rrArrived quantum s idx rq iq t =
      addArrived (s.processes.set idx (rrRan quantum s idx t)) s.finished
        (wrap32 (t + rrRunTime quantum s idx t)) rq (iq.set idx false) := rfl
  rw [← hA] at a1 a2 a3 a4 a5
  rw [hw] at a2 a5
  have hAlen : (rrArrived quantum s idx rq iq t).2.length = ps.length := by
    rw [a1, List.length_set]
    exact hiql
  have hAmem : ∀ j ∈ (rrArrived quantum s idx rq iq t).1,
      j < ps.length ∧ (ps.getD j default).arrivalTime ≤ t + rrRunTime quantum s idx t := by
    intro j hj
    rcases a2 j hj with hq | ⟨hjl, hja⟩
    · obtain ⟨h1, h2⟩ := hqmem j (List.mem_cons_of_mem _ hq)
      exact ⟨h1, by omega⟩
    · rw [hlen1] at hjl
      rw [harr1 j hjl] at hja
      exact ⟨hjl, hja⟩
  have hAflag : ∀ j, (rrArrived quantum s idx rq iq t).2.getD j false = true →
      j ∈ (rrArrived quantum s idx rq iq t).1 := by
    intro j hj
    rcases a4 j hj with hv | hm
    · by_cases hji : j = idx
      · rw [hji, hiq1idx] at hv
        exact absurd hv (by decide)
      · exact a3 j (hiq1 j hji hv)
    · exact hm
  have hAall : ∀ j, j < ps.length → j ≠ idx → s.finished.getD j false = false →
      (ps.getD j default).arrivalTime ≤ t + rrRunTime quantum s idx t →
      j ∈ (rrArrived quantum s idx rq iq t).1 := by
    intro j hj hji hf ha
    rcases a5 j (by rw [hlen1]; exact hj) hf (by rw [harr1 j hj]; exact ha)
      (by rw [List.length_set, hiql]; exact hj) with hv | hm
    · exact a3 j (hiq1 j hji hv)
    · exact hm
  have hproc' : ∀ i, i < ps.length →
      ((rrRunSlice quantum s idx rq iq t).processes.getD i default).arrivalTime =
        (ps.getD i default).arrivalTime ∧
      0 ≤ ((rrRunSlice quantum s idx rq iq t).processes.getD i default).remainingTime := by
    intro i hi
    obtain ⟨g1, g2⟩ := f4 i (by omega)
    rw [g1, g2]
    refine ⟨(hproc i hi).1, ?_⟩
    by_cases hib : i = idx
    · rw [if_pos hib]
      exact hran
    · rw [if_neg hib]
      exact (hproc i hi).2
  have hlog' : ∀ sl ∈ (rrRunSlice quantum s idx rq iq t).log,
      sliceOk ps sl ∧ sl.stop ≤ (rrRunSlice quantum s idx rq iq t).currentTime := by
    intro sl hsl
    rw [f2] at hsl
    rw [f1]
    rcases List.mem_append.mp hsl with hold | hnew
    · obtain ⟨h1, h2⟩ := hlog sl hold
      exact ⟨h1, by omega⟩
    · have hsl' := List.mem_singleton.mp hnew
      rw [hsl']
      exact ⟨⟨hidx, harridx, by show t ≤ t + rrRunTime quantum s idx t; omega⟩, le_refl _⟩
  have hpair' : (rrRunSlice quantum s idx rq iq t).log.Pairwise
      (fun a b => a.stop ≤ b.start) := by
    rw [f2]
    refine List.pairwise_append.mpr ⟨hpair, List.pairwise_singleton _ _, ?_⟩
    intro a ha b hb
    have hb' := List.mem_singleton.mp hb
    rw [hb']
    have := (hlog a ha).2
    show a.stop ≤ t
    omega
  rw [hs']
  refine ⟨?_, hfit', by rw [f1]; omega⟩
  by_cases hz : (rrRan quantum s idx t).remainingTime = 0
  · obtain ⟨g1, g2, g3⟩ := f5 hz
    refine ⟨by rw [f3]; exact hlen, by rw [g2]; exact hAlen,
      by rw [g3, List.length_set]; exact hfl, hproc', ?_, ?_, ?_, hlog', hpair'⟩
    · intro i hi
      rw [g1] at hi
      rw [f1]
      exact hAmem i hi
    · intro i hi
      rw [g2] at hi
      rw [g1]
      exact hAflag i hi
    · by_cases hnil : (rrArrived quantum s idx rq iq t).1 = []
      · right
        intro i hi hfi
        rw [g3] at hfi
        rw [f1]
        by_cases hib : i = idx
        · rw [hib, getD_set_self _ _ _ _ (by omega)] at hfi
          exact absurd hfi (by decide)
        · rw [getD_set_other _ _ _ _ _ (Ne.symm hib)] at hfi
          by_contra hle
          have := hAall i hi hib hfi (by omega)
          rw [hnil] at this
          exact absurd this (List.not_mem_nil i)
      · left
        rw [g1]
        exact hnil
  · obtain ⟨g1, g2, g3⟩ := f6 hz
    refine ⟨by rw [f3]; exact hlen, by rw [g2, List.length_set]; exact hAlen,
      by rw [g3]; exact hfl, hproc', ?_, ?_, ?_, hlog', hpair'⟩
    · intro i hi
      rw [g1] at hi
      rw [f1]
      rcases List.mem_append.mp hi with hm | hm
      · exact hAmem i hm
      · rw [List.mem_singleton.mp hm]
        exact ⟨hidx, by omega⟩
    · intro i hi
      rw [g2] at hi
      rw [g1]
      by_cases hib : idx = i
      · rw [← hib]
        exact List.mem_append.mpr (Or.inr (List.mem_singleton.mpr rfl))
      · rw [getD_set_other _ _ _ _ _ hib] at hi
        exact List.mem_append.mpr (Or.inl (hAflag i hi))
    · left
      rw [g1]
      simp

theorem rrInv_init (ps : List Process) (hne : ps ≠ [])
    (hburst : ∀ p ∈ ps, 0 ≤ p.burstTime) : rrInv ps (rrInit ps) := by
  have hpos : 0 < (ps.map resetRun).length := by
    rw [List.length_map]
    exact List.length_pos.mpr hne
  obtain ⟨hb1, hb2⟩ := rrBootstrap_spec (ps.map resetRun) hpos
  rw [List.length_map] at hb1
  have hget : ∀ i, i < ps.length →
      (ps.map resetRun).getD i default = resetRun (ps.getD i default) :=
    fun i hi => getD_map_of_lt resetRun ps i default default hi
  have hstate : rrInit ps =
      { processes := ps.map resetRun, readyQueue := [(rrBootstrap (ps.map resetRun)).1],
        inQueue := (List.replicate (ps.map resetRun).length false).set
          (rrBootstrap (ps.map resetRun)).1 true,
        finished := List.replicate (ps.map resetRun).length false,
        currentTime := (rrBootstrap (ps.map resetRun)).2, completed := 0,
        totalWaiting := 0, totalTurnaround := 0, log := [] } := rfl
  rw [hstate]
  refine ⟨by simp, by simp, by simp, ?_, ?_, ?_, Or.inl (by simp), ?_, List.Pairwise.nil⟩
  · intro i hi
    show ((ps.map resetRun).getD i default).arrivalTime = _ ∧
      0 ≤ ((ps.map resetRun).getD i default).remainingTime
    rw [hget i hi]
    have hmem : ps.getD i default ∈ ps := by
      rw [List.getD_eq_getElem _ _ hi]
      exact List.getElem_mem hi
    exact ⟨rfl, hburst (ps.getD i default) hmem⟩
  · intro i hi
    have hi' : i = (rrBootstrap (ps.map resetRun)).1 := List.mem_singleton.mp hi
    rw [hi']
    refine ⟨hb1, ?_⟩
    show _ ≤ (rrBootstrap (ps.map resetRun)).2
    rw [← hb2, hget _ hb1]
    exact le_refl _
  · intro i hi
    show i ∈ [(rrBootstrap (ps.map resetRun)).1]
    by_cases hib : (rrBootstrap (ps.map resetRun)).1 = i
    · rw [hib]
      exact List.mem_singleton.mpr rfl
    · have hi' : ((List.replicate (ps.map resetRun).length false).set
          (rrBootstrap (ps.map resetRun)).1 true).getD i false = true := hi
      rw [getD_set_other _ _ _ _ _ hib, getD_replicate_false] at hi'
      exact absurd hi' (by decide)
  · intro sl hsl
    exact absurd hsl (List.not_mem_nil sl)

theorem rrFits_init (ps : List Process) (hne : ps ≠ [])
    (hdom : ∀ p ∈ ps, inInt p.arrivalTime ∧ 0 ≤ p.burstTime ∧
      p.arrivalTime + totalBurst ps ≤ INT_MAX) : rrFits ps (rrInit ps) := by
  have hpos : 0 < (ps.map resetRun).length := by
    rw [List.length_map]
    exact List.length_pos.mpr hne
  obtain ⟨hb1, hb2⟩ := rrBootstrap_spec (ps.map resetRun) hpos
  rw [List.length_map] at hb1
  have hmem : ps.getD (rrBootstrap (ps.map resetRun)).1 default ∈ ps := by
    rw [List.getD_eq_getElem _ _ hb1]
    exact List.getElem_mem _
  have hclock : (rrInit ps).currentTime =
      (ps.getD (rrBootstrap (ps.map resetRun)).1 default).arrivalTime := by
    show (rrBootstrap (ps.map resetRun)).2 = _
    rw [← hb2, getD_map_of_lt resetRun ps _ default default hb1]
    rfl
  have htot : (totalRemaining (rrInit ps).processes : Int) ≤ totalBurst ps := by
    apply totalRemaining_le ps _ (by simp [rrInit]) _ (fun p hp => (hdom p hp).2.1)
    intro i hi
    show ((ps.map resetRun).getD i default).remainingTime ≤ _
    rw [getD_map_of_lt resetRun ps i default default hi]
    exact le_refl _
  obtain ⟨d1, -, d3⟩ := hdom _ hmem
  refine ⟨by rw [hclock]; exact d1, by rw [hclock]; omega, fun p hp => ?_⟩
  have := (hdom p hp).2.2
  omega

theorem rr_inv_run (ps : List Process) (hne : ps ≠ [])
    (hdom : ∀ p ∈ ps, inInt p.arrivalTime ∧ 0 ≤ p.burstTime ∧
      p.arrivalTime + totalBurst ps ≤ INT_MAX)
    (quantum : Int) (hquantum : 0 ≤ quantum) (k : Nat) :
    rrInv ps (iterate (rrStep quantum) k (rrInit ps)) ∧
    rrFits ps (iterate (rrStep quantum) k (rrInit ps)) :=
  iterate_inv (rrStep quantum) (fun s => rrInv ps s ∧ rrFits ps s)
    (fun a b ha hab => ⟨(rrInv_rrStep ps quantum hquantum a b ha.1 ha.2 hab).1,
      (rrInv_rrStep ps quantum hquantum a b ha.1 ha.2 hab).2.1⟩) k (rrInit ps)
    ⟨rrInv_init ps hne (fun p hp => (hdom p hp).2.1), rrFits_init ps hne hdom⟩

/-- C11, amended: in `simulateRoundRobin`, for every non-empty process list of `int`
arrival times and burst times `≥ 0` in which `arrivalTime + (sum of all burst times)` is
at most `INT_MAX` for every process, and every `quantum ≥ 1`, after any number `k` of
iterations of the main loop every logged slice is about a process of the list, starts at
or after the `arrivalTime` of that process and ends at or after its start; a slice logged
later starts at or after the end of every slice logged before; and the next iteration does
not move the clock back.  The same holds of the log of every run that returns. -/
theorem rr_no_early_slice (ps : List Process) (hne : ps ≠ [])
    (hdom : ∀ p ∈ ps, inInt p.arrivalTime ∧ 0 ≤ p.burstTime ∧
      p.arrivalTime + totalBurst ps ≤ INT_MAX)
    (quantum : Int) (hquantum : 1 ≤ quantum) (k : Nat) :
    (∀ sl ∈ (iterate (rrStep quantum) k (rrInit ps)).log, sliceOk ps sl) ∧
    (iterate (rrStep quantum) k (rrInit ps)).log.Pairwise (fun a b => a.stop ≤ b.start) ∧
    (iterate (rrStep quantum) k (rrInit ps)).currentTime ≤
      (iterate (rrStep quantum) (k + 1) (rrInit ps)).currentTime ∧
    (∀ fuel r, simulateRoundRobin fuel ps quantum = some r →
      (∀ sl ∈ r.log, sliceOk ps sl) ∧ r.log.Pairwise (fun a b => a.stop ≤ b.start)) := by
  have hq0 : 0 ≤ quantum := by omega
  obtain ⟨hinv, hfit⟩ := rr_inv_run ps hne hdom quantum hq0 k
  refine ⟨fun sl hsl => (hinv.2.2.2.2.2.2.2.1 sl hsl).1, hinv.2.2.2.2.2.2.2.2, ?_, ?_⟩
  · rw [iterate_add]
    cases hstep : rrStep quantum (iterate (rrStep quantum) k (rrInit ps)) with
    | none =>
      have : iterate (rrStep quantum) 1 (iterate (rrStep quantum) k (rrInit ps)) =
          iterate (rrStep quantum) k (rrInit ps) := by
        simp only [iterate, hstep]
      rw [this]
    | some s' =>
      have : iterate (rrStep quantum) 1 (iterate (rrStep quantum) k (rrInit ps)) = s' := by
        simp only [iterate, hstep]
      rw [this]
      exact (rrInv_rrStep ps quantum hq0 _ s' hinv hfit hstep).2.2
  · intro fuel r hr
    have hn : ps.length ≠ 0 := fun h => hne (List.length_eq_zero.mp h)
    have hq' : ¬ quantum ≤ 0 := by omega
    unfold simulateRoundRobin at hr
    simp only [hn, hq', if_false] at hr
    cases hloop : runLoop (rrStep quantum) fuel (rrInit ps) with
    | none => rw [hloop] at hr; exact absurd hr (by simp)
    | some st =>
      rw [hloop] at hr
      simp only [Option.some.injEq] at hr
      obtain ⟨hst, -⟩ := runLoop_eq_iterate (rrStep quantum) fuel _ st hloop
      have hfinal := (rr_inv_run ps hne hdom quantum hq0 fuel).1
      rw [← hst] at hfinal
      rw [← hr]
      exact ⟨fun sl hsl => (hfinal.2.2.2.2.2.2.2.1 sl hsl).1, hfinal.2.2.2.2.2.2.2.2⟩

/-- On the list of the generator ranges with quantum `2`, nothing is scheduled before its
arrival in the first four iterations, nor in the log returned. -/
theorem rr_no_early_slice_witness :
    (smallExample ≠ [] ∧
      (∀ p ∈ smallExample, inInt p.arrivalTime ∧ 0 ≤ p.burstTime ∧
        p.arrivalTime + totalBurst smallExample ≤ INT_MAX) ∧ (1 : Int) ≤ 2) ∧
    ((∀ sl ∈ (iterate (rrStep 2) 4 (rrInit smallExample)).log, sliceOk smallExample sl) ∧
    (iterate (rrStep 2) 4 (rrInit smallExample)).log.Pairwise (fun a b => a.stop ≤ b.start) ∧
    (iterate (rrStep 2) 4 (rrInit smallExample)).currentTime ≤
      (iterate (rrStep 2) (4 + 1) (rrInit smallExample)).currentTime ∧
    (∀ fuel r, simulateRoundRobin fuel smallExample 2 = some r →
      (∀ sl ∈ r.log, sliceOk smallExample sl) ∧
        r.log.Pairwise (fun a b => a.stop ≤ b.start))) :=
  ⟨⟨by decide, by decide, by decide⟩,
    rr_no_early_slice smallExample (by decide) (by decide) 2 (by decide) 4⟩

/-- C11 as stated fails on lists it covers.  With quantum `2` on
`{arrival=0,burst=3}, {arrival=1,burst=-5}, {arrival=2,burst=1}` the third slice runs the
second process for `min(2, -5) = -5` time units, from `3` to `-2`: the clock moves back,
and the third process, which arrives at `2`, is then scheduled at `-2`.  With quantum `1`
on the one process `{arrival=2147483647,burst=1}` the sum `currentTime + runTime` leaves
the `int` range: the only slice runs from `2147483647` to `-2147483648`, and the clock
moves back. -/
theorem rr_negative_burst :
    negativeBurstExample ≠ [] ∧
    (simulateRoundRobin 10 negativeBurstExample 2).map
        (fun r => r.log.map (fun sl => (sl.idx, sl.start, sl.stop))) =
      some [(0, 0, 2), (0, 2, 3), (1, 3, -2), (2, -2, -1)] ∧
    (negativeBurstExample.getD 2 default).arrivalTime = 2 ∧
    (iterate (rrStep 2) 2 (rrInit negativeBurstExample)).currentTime = 3 ∧
    (iterate (rrStep 2) 3 (rrInit negativeBurstExample)).currentTime = -2 ∧
    (¬ ∀ sl ∈ (iterate (rrStep 2) 4 (rrInit negativeBurstExample)).log,
      sliceOk negativeBurstExample sl) ∧
    (lateArrivalExample ≠ [] ∧ ∀ p ∈ lateArrivalExample, inInt p.arrivalTime ∧ 1 ≤ p.burstTime) ∧
    (simulateRoundRobin 2 lateArrivalExample 1).map
        (fun r => r.log.map (fun sl => (sl.idx, sl.start, sl.stop))) =
      some [(0, 2147483647, -2147483648)] ∧
    (rrInit lateArrivalExample).currentTime = 2147483647 ∧
    (iterate (rrStep 1) 1 (rrInit lateArrivalExample)).currentTime = -2147483648 ∧
    ¬ ∀ sl ∈ (iterate (rrStep 1) 1 (rrInit lateArrivalExample)).log,
      sliceOk lateArrivalExample sl :=
  ⟨by decide, by decide, by decide, by decide, by decide, by decide,
    ⟨by decide, by decide⟩, by decide, by decide, by decide, by decide⟩

/-! ## The non-preemptive engines run one process at a time -/

theorem disjointRows_of_pairwise (rows : List Process)
    (h : rows.Pairwise (fun a b => a.finishTime ≤ b.startTime)) : disjointRows rows := by
  rw [List.pairwise_iff_getElem] at h
  intro i j hi hj hij
  rw [List.getD_eq_getElem _ _ hi, List.getD_eq_getElem _ _ hj]
  rcases Nat.lt_or_gt_of_ne hij with hlt | hgt
  · exact Or.inl (h i j hi hj hlt)
  · exact Or.inr (h j i hj hi hgt)

theorem simulateFCFS_intervals (ps : List Process) (hfit : fitsInt ps) :
    disjointRows (simulateFCFS ps).2 ∧ ∀ p ∈ (simulateFCFS ps).2, exactLength p := by
  have hsorted := fcfsFits_sorted ps hfit
  refine ⟨?_, ?_⟩
  · rw [simulateFCFS_rows]
    exact disjointRows_of_pairwise _ (fcfsLoop_pairwise _ 0 0 0 hsorted).1
  · intro p hp
    obtain ⟨k, hk⟩ := List.mem_iff_getElem?.mp hp
    rw [simulateFCFS_rows] at hk
    obtain ⟨-, h2, -⟩ := fcfsLoop_recurrence _ 0 0 0 k p hsorted hk
    unfold exactLength
    omega

/-- C21, amended: the non-preemptive engines never run two processes at once.  For
`simulateFCFS`, `simulatePriority` and `simulateSJF`, for every non-empty input list with
`arrivalTime ≥ 0`, `1 ≤ burstTime < INT_MAX`, `initialPriority < INT_MAX` and every
arrival time plus the sum of all burst times at most `INT_MAX`, the engine returns (the
two with a main loop within `2n+1` iterations), the rows are the processes of the list,
the execution intervals `[startTime, finishTime)` of any two distinct rows are disjoint
(the `finishTime` of one is at most the `startTime` of the other), and each interval has
length exactly `burstTime`. -/
theorem engines_one_at_a_time (ps : List Process) (hne : ps ≠ [])
    (hdom : ∀ p ∈ ps, 1 ≤ p.burstTime ∧ p.burstTime < INT_MAX ∧ p.initialPriority < INT_MAX)
    (hfit : fitsInt ps) :
    (((simulateFCFS ps).2.map descriptor).Perm (ps.map descriptor) ∧
      disjointRows (simulateFCFS ps).2 ∧ ∀ p ∈ (simulateFCFS ps).2, exactLength p) ∧
    ((∀ fuel, 2 * ps.length + 1 ≤ fuel → ∃ r, simulatePriority fuel ps = some r) ∧
      ∀ fuel r, simulatePriority fuel ps = some r →
        r.2.map descriptor = ps.map descriptor ∧ disjointRows r.2 ∧
        ∀ p ∈ r.2, exactLength p) ∧
    ((∀ fuel, 2 * ps.length + 1 ≤ fuel → ∃ r, simulateSJF fuel ps = some r) ∧
      ∀ fuel r, simulateSJF fuel ps = some r →
        r.2.map descriptor = ps.map descriptor ∧ disjointRows r.2 ∧
        ∀ p ∈ r.2, exactLength p) := by
  have harr := arrival_lt_of_fits ps hfit (fun p hp => (hdom p hp).1)
  have hF := simulateFCFS_intervals ps hfit
  have hP := simulatePriority_times ps hne harr (fun p hp => (hdom p hp).2.2) hfit
  have hS := simulateSJF_times ps hne harr (fun p hp => (hdom p hp).2.1) hfit
  refine ⟨⟨simulateFCFS_descriptor_perm ps, hF.1, hF.2⟩, ⟨?_, ?_⟩, ⟨?_, ?_⟩⟩
  · intro fuel hfuel
    obtain ⟨r, hr, -⟩ := hP fuel hfuel
    exact ⟨r, hr⟩
  · intro fuel r hr
    obtain ⟨r1, hr1, hdesc, -, hdis, hex⟩ :=
      hP (fuel + (2 * ps.length + 1)) (Nat.le_add_left _ _)
    rw [simulatePriority_fuel_add fuel _ ps r hr] at hr1
    cases hr1
    exact ⟨hdesc, hdis, fun p hp => (hex p hp).2⟩
  · intro fuel hfuel
    obtain ⟨r, hr, -⟩ := hS fuel hfuel
    exact ⟨r, hr⟩
  · intro fuel r hr
    obtain ⟨r1, hr1, hdesc, -, hdis, hex⟩ :=
      hS (fuel + (2 * ps.length + 1)) (Nat.le_add_left _ _)
    rw [simulateSJF_fuel_add fuel _ ps r hr] at hr1
    cases hr1
    exact ⟨hdesc, hdis, fun p hp => (hex p hp).2⟩

/-- The list `{id=1,arrival=2,burst=3,priority=2}, {id=2,arrival=0,burst=2,priority=3},
{id=3,arrival=9,burst=1,priority=1}` is in the domain, and on it the three engines run
one process at a time, each for its burst time. -/
theorem engines_one_at_a_time_witness :
    (smallExample ≠ [] ∧
      (∀ p ∈ smallExample, 1 ≤ p.burstTime ∧ p.burstTime < INT_MAX ∧
        p.initialPriority < INT_MAX) ∧ fitsInt smallExample) ∧
    ((((simulateFCFS smallExample).2.map descriptor).Perm (smallExample.map descriptor) ∧
      disjointRows (simulateFCFS smallExample).2 ∧
      ∀ p ∈ (simulateFCFS smallExample).2, exactLength p) ∧
    ((∀ fuel, 2 * smallExample.length + 1 ≤ fuel →
        ∃ r, simulatePriority fuel smallExample = some r) ∧
      ∀ fuel r, simulatePriority fuel smallExample = some r →
        r.2.map descriptor = smallExample.map descriptor ∧ disjointRows r.2 ∧
        ∀ p ∈ r.2, exactLength p) ∧
    ((∀ fuel, 2 * smallExample.length + 1 ≤ fuel →
        ∃ r, simulateSJF fuel smallExample = some r) ∧
      ∀ fuel r, simulateSJF fuel smallExample = some r →
        r.2.map descriptor = smallExample.map descriptor ∧ disjointRows r.2 ∧
        ∀ p ∈ r.2, exactLength p)) :=
  ⟨⟨by decide, by decide, by decide⟩,
    engines_one_at_a_time smallExample (by decide) (by decide) (by decide)⟩

/-- C21 as stated fails on lists it covers (non-empty, `arrivalTime ≥ 0`,
`burstTime ≥ 1`).  On `{id=1,arrival=0,burst=2000000000}, {id=2,arrival=0,burst=2000000000},
{id=3,arrival=0,burst=1}` the second finish time `4000000000` does not fit an `int`:
`simulateFCFS` and `simulatePriority` leave the clock at `-294967296` and start the third
process at time `0`, inside the interval `[0, 2000000000)` of the first, and
`simulateSJF` returns the second process with `finishTime = -294967295`, below its
`startTime = 2000000001`.  A process that arrives at `INT_MAX` is never dispatched by
`simulatePriority`: the guard `if (nextArrival == INT_MAX) break;` leaves the loop and the
row keeps `startTime = finishTime = -1`, an interval of length `0` for a burst time of
`1`.  With a priority of `INT_MAX` in `simulatePriority`, or a burst time of `INT_MAX` in
`simulateSJF`, no bound on the iterations lets the engine return a table. -/
theorem engines_one_at_a_time_sentinel :
    (overflowThreeExample ≠ [] ∧
      ∀ p ∈ overflowThreeExample, 0 ≤ p.arrivalTime ∧ 1 ≤ p.burstTime ∧
        p.burstTime < INT_MAX ∧ p.initialPriority < INT_MAX) ∧
    (simulateFCFS overflowThreeExample).2.map
        (fun p => (p.id, p.startTime, p.finishTime)) =
      [(1, 0, 2000000000), (2, 2000000000, -294967296), (3, 0, 1)] ∧
    ¬ disjointRows (simulateFCFS overflowThreeExample).2 ∧
    (simulatePriority 7 overflowThreeExample).map
        (fun r => r.2.map (fun p => (p.id, p.startTime, p.finishTime))) =
      some [(1, 0, 2000000000), (2, 2000000000, -294967296), (3, 0, 1)] ∧
    (¬ ∃ r, simulatePriority 7 overflowThreeExample = some r ∧ disjointRows r.2) ∧
    (simulateSJF 7 overflowThreeExample).map
        (fun r => r.2.map (fun p => (p.id, p.startTime, p.finishTime))) =
      some [(1, 1, 2000000001), (2, 2000000001, -294967295), (3, 0, 1)] ∧
    (¬ ∃ r, simulateSJF 7 overflowThreeExample = some r ∧ ∀ p ∈ r.2, exactLength p) ∧
    (lateArrivalExample ≠ [] ∧
      ∀ p ∈ lateArrivalExample, 0 ≤ p.arrivalTime ∧ 1 ≤ p.burstTime) ∧
    (simulatePriority 0 lateArrivalExample).map
        (fun r => r.2.map (fun p => (p.startTime, p.finishTime, p.burstTime))) =
      some [(-1, -1, 1)] ∧
    (¬ ∃ r, simulatePriority 0 lateArrivalExample = some r ∧ ∀ p ∈ r.2, exactLength p) ∧
    (maxPriorityExample ≠ [] ∧
      ∀ p ∈ maxPriorityExample, 0 ≤ p.arrivalTime ∧ 1 ≤ p.burstTime) ∧
    fitsInt maxPriorityExample ∧
    (∀ fuel, (simulatePriority fuel maxPriorityExample).isSome = false) ∧
    (maxBurstExample ≠ [] ∧
      ∀ p ∈ maxBurstExample, 0 ≤ p.arrivalTime ∧ 1 ≤ p.burstTime) ∧
    fitsInt maxBurstExample ∧
    (∀ fuel, (simulateSJF fuel maxBurstExample).isSome = false) := by
  have hrows : (simulatePriority 0 lateArrivalExample).map
      (fun r => r.2.map (fun p => (p.startTime, p.finishTime, p.burstTime))) =
      some [(-1, -1, 1)] := by decide
  have hprows : (simulatePriority 7 overflowThreeExample).map
      (fun r => r.2.map (fun p => (p.id, p.startTime, p.finishTime))) =
      some [(1, 0, 2000000000), (2, 2000000000, -294967296), (3, 0, 1)] := by decide
  have hsrows : (simulateSJF 7 overflowThreeExample).map
      (fun r => r.2.map (fun p => (p.id, p.startTime, p.finishTime))) =
      some [(1, 1, 2000000001), (2, 2000000001, -294967295), (3, 0, 1)] := by decide
  refine ⟨⟨by decide, by decide⟩, by decide, ?_, hprows, ?_, hsrows, ?_,
    ⟨by decide, by decide⟩, hrows, ?_, ⟨by decide, by decide⟩, by decide, fun fuel => ?_,
    ⟨by decide, by decide⟩, by decide, fun fuel => ?_⟩
  · intro hdis
    have hlen : (simulateFCFS overflowThreeExample).2.length = 3 := by decide
    have h := hdis 0 2 (by rw [hlen]; decide) (by rw [hlen]; decide) (by decide)
    have e1 : ((simulateFCFS overflowThreeExample).2.getD 0 default).finishTime =
        2000000000 := by decide
    have e2 : ((simulateFCFS overflowThreeExample).2.getD 2 default).startTime = 0 := by
      decide
    have e3 : ((simulateFCFS overflowThreeExample).2.getD 2 default).finishTime = 1 := by
      decide
    have e4 : ((simulateFCFS overflowThreeExample).2.getD 0 default).startTime = 0 := by
      decide
    rw [e1, e2, e3, e4] at h
    omega
  · rintro ⟨r, hr, hdis⟩
    rw [hr] at hprows
    simp only [Option.map_some', Option.some.injEq] at hprows
    match hrow : r.2, hprows with
    | [p1, p2, p3], hprows =>
      simp only [List.map_cons, List.map_nil, List.cons.injEq, Prod.mk.injEq,
        and_true] at hprows
      obtain ⟨⟨-, h1s, h1f⟩, -, ⟨-, h3s, h3f⟩⟩ := hprows
      have h := hdis 0 2 (by rw [hrow]; simp) (by rw [hrow]; simp) (by decide)
      rw [hrow] at h
      simp only [List.getD_cons_zero, List.getD_cons_succ] at h
      omega
    | [], hprows => simp at hprows
    | [_], hprows => simp at hprows
    | [_, _], hprows => simp at hprows
    | _ :: _ :: _ :: _ :: _, hprows => simp at hprows
  · rintro ⟨r, hr, hex⟩
    rw [hr] at hsrows
    simp only [Option.map_some', Option.some.injEq] at hsrows
    match hrow : r.2, hsrows with
    | [p1, p2, p3], hsrows =>
      simp only [List.map_cons, List.map_nil, List.cons.injEq, Prod.mk.injEq,
        and_true] at hsrows
      obtain ⟨-, ⟨-, h2s, h2f⟩, -⟩ := hsrows
      have h := hex p2 (by rw [hrow]; simp)
      have hb : p2.burstTime = 2000000000 := by
        have hall : (simulateSJF 7 overflowThreeExample).map
            (fun r => r.2.map (fun p => p.burstTime)) =
            some [2000000000, 2000000000, 1] := by decide
        rw [hr] at hall
        simp only [Option.map_some', Option.some.injEq, hrow, List.map_cons, List.map_nil,
          List.cons.injEq, and_true] at hall
        exact hall.2.1
      unfold exactLength at h
      omega
    | [], hsrows => simp at hsrows
    | [_], hsrows => simp at hsrows
    | [_, _], hsrows => simp at hsrows
    | _ :: _ :: _ :: _ :: _, hsrows => simp at hsrows
  · rintro ⟨r, hr, hex⟩
    rw [hr] at hrows
    simp only [Option.map_some', Option.some.injEq] at hrows
    cases hrow : r.2 with
    | nil => rw [hrow] at hrows; simp at hrows
    | cons p rest =>
      rw [hrow] at hrows
      simp only [List.map_cons, List.cons.injEq, Prod.mk.injEq] at hrows
      have := hex p (by rw [hrow]; exact List.mem_cons_self _ _)
      unfold exactLength at this
      obtain ⟨⟨h1, h2, h3⟩, -⟩ := hrows
      omega
  · have h := runLoop_none_of_fixed priorityStep _ priorityStep_maxPriority fuel
    have hlen : maxPriorityExample.length ≠ 0 := by decide
    unfold simulatePriority
    simp only [hlen, if_false, h]
    rfl
  · have h := runLoop_none_of_fixed sjfStep _ sjfStep_maxBurst fuel
    have he : earliestArrivalScan (maxBurstExample.map resetRun) ≠ INT_MAX := by decide
    have hlen : maxBurstExample.length ≠ 0 := by decide
    unfold simulateSJF
    simp only [hlen, he, if_false, h]
    rfl

/-! ## Shortest job first minimises the total waiting time -/

theorem accumulate_append (total : ℚ) (l : List Int) (w : Int) :
    accumulate total (l ++ [w]) = toDouble (accumulate total l + w) := by
  induction l generalizing total with
  | nil => rfl
  | cons x l ih => exact ih _

theorem waitsFrom_append (d : Int) (l : List Int) (x : Int) :
    waitsFrom d (l ++ [x]) = waitsFrom d l ++ [d + l.sum] := by
  induction l generalizing d with
  | nil => simp [waitsFrom]
  | cons b l ih =>
    show d :: waitsFrom (d + b) (l ++ [x]) = d :: (waitsFrom (d + b) l ++ [d + (b :: l).sum])
    rw [ih, List.sum_cons, add_assoc]

/-- A total accumulated in `double` grows with the start value and with each value
added. -/
theorem accumulate_mono (l l' : List Int) (h : List.Forall₂ (fun x y => x ≤ y) l l')
    (t t' : ℚ) (ht : t ≤ t') : accumulate t l ≤ accumulate t' l' := by
  induction h generalizing t t' with
  | nil => exact ht
  | cons hxy _ ih =>
    apply ih
    apply toDouble_mono
    have : ((_ : Int) : ℚ) ≤ ((_ : Int) : ℚ) := Int.cast_le.mpr hxy
    linarith

/-- The first `k` values of an ascending list have the least sum among the sums of `k` of
its values. -/
theorem take_sum_le_of_subperm (S : List Int) (hs : S.Sorted (fun a b => a ≤ b)) :
    ∀ T : List Int, T.Subperm S → (S.take T.length).sum ≤ T.sum := by
  induction S with
  | nil =>
    intro T hT
    have : T = [] := List.subperm_nil.mp hT
    subst this
    simp
  | cons s S ih =>
    intro T hT
    have hsorted := List.sorted_cons.mp hs
    have herase : (T.erase s).Subperm S := by
      have := hT.erase s
      rwa [List.erase_cons_head] at this
    by_cases hmem : s ∈ T
    · have hlen : T.length = (T.erase s).length + 1 := by
        rw [List.length_erase_of_mem hmem]
        have := List.length_pos_of_mem hmem
        omega
      have hsum : T.sum = s + (T.erase s).sum := (List.sum_erase hmem).symm
      rw [hlen, List.take_succ_cons, List.sum_cons, hsum]
      have := ih hsorted.2 _ herase
      omega
    · rw [List.erase_of_not_mem hmem] at herase
      have h1 := ih hsorted.2 T herase
      cases hT' : T.length with
      | zero =>
        have : T = [] := List.length_eq_zero.mp hT'
        subst this
        simp
      | succ k =>
        have hle : T.length ≤ S.length := herase.length_le
        have hk : k < S.length := by omega
        rw [hT', List.sum_take_succ S k hk] at h1
        rw [List.take_succ_cons, List.sum_cons]
        have := hsorted.1 S[k] (List.getElem_mem _)
        omega

theorem waitsFrom_le (S B : List Int) (hlen : S.length = B.length) (d d' : Int)
    (h : ∀ k, k < S.length → d + (S.take k).sum ≤ d' + (B.take k).sum) :
    List.Forall₂ (fun x y => x ≤ y) (waitsFrom d S) (waitsFrom d' B) := by
  induction S generalizing B d d' with
  | nil =>
    have : B = [] := List.length_eq_zero.mp hlen.symm
    subst this
    exact List.Forall₂.nil
  | cons s S ih =>
    cases B with
    | nil => simp at hlen
    | cons b B =>
      simp only [List.length_cons, Nat.add_right_cancel_iff] at hlen
      have h0 := h 0 (by simp)
      simp only [List.take_zero, List.sum_nil, add_zero] at h0
      refine List.Forall₂.cons h0 (ih B hlen _ _ ?_)
      intro k hk
      have := h (k + 1) (by simpa using hk)
      simp only [List.take_succ_cons, List.sum_cons] at this
      omega

/-- Run in ascending order, burst times give every position a waiting time that is at most
the one the position has in any other order of the same burst times. -/
theorem waitsFrom_sorted_le (S : List Int) (hs : S.Sorted (fun a b => a ≤ b)) (B : List Int)
    (hp : B.Perm S) :
    List.Forall₂ (fun x y => x ≤ y) (waitsFrom 0 S) (waitsFrom 0 B) := by
  apply waitsFrom_le S B hp.length_eq.symm
  intro k hk
  have hsub : (B.take k).Subperm S := (List.take_sublist k B).subperm.trans hp.subperm
  have := take_sum_le_of_subperm S hs (B.take k) hsub
  have hl : (B.take k).length = k := by
    rw [List.length_take, hp.length_eq]
    omega
  rw [hl] at this
  omega

theorem sum_burst_nonneg (ps : List Process) (hb : ∀ p ∈ ps, 0 ≤ p.burstTime) (L : List Nat) :
    0 ≤ (L.map (fun i => (ps.getD i default).burstTime)).sum := by
  apply List.sum_nonneg
  intro x hx
  obtain ⟨i, -, rfl⟩ := List.mem_map.mp hx
  by_cases hi : i < ps.length
  · apply hb
    rw [List.getD_eq_getElem _ _ hi]
    exact List.getElem_mem _
  · rw [List.getD_eq_default _ _ (Nat.le_of_not_lt hi)]
    exact le_refl _

/-- An iteration of `simulatePriority` or `simulateSJF` on processes that all arrive at
`a`: either it only moves the clock, or it dispatches a position not yet dispatched, at or
after `a`, which is put behind the order so far. -/
theorem orderInv_schedStep (R : Process → Process → Prop)
    (hRdesc : ∀ q p, R q p → descriptor p = descriptor q)
    (select : List Process → List Bool → Int → Option Nat × Int) (ps : List Process)
    (hsel : selectSound R select ps) (a : Int)
    (hdom : ∀ p ∈ ps, p.arrivalTime = a) (hfit : fitsInt ps)
    (s s' : SchedState) (hinv : schedInv R ps s) (hf : schedFits ps s) (L : List Nat)
    (hord : orderInv ps a s L) (h : schedStep select s = some s') :
    (s'.done = s.done ∧ orderInv ps a s' L) ∨
    ∃ best, (select s.processes s.done s.currentTime).1 = some best ∧ a ≤ s.currentTime ∧
      s'.done = s.done.set best true ∧ best < ps.length ∧ s.done.getD best false = false ∧
      orderInv ps a s' (L ++ [best]) := by
  have hinv0 := hinv
  obtain ⟨htr, hlen, -⟩ := hinv
  obtain ⟨hnd, hmem, htw, hclock⟩ := hord
  have hfields : ∀ i, i < ps.length →
      (s.processes.getD i default).arrivalTime = a ∧
      (s.processes.getD i default).burstTime = (ps.getD i default).burstTime := by
    intro i hi
    have hd := hRdesc _ _ (htr.2 i hi)
    simp only [descriptor, Prod.mk.injEq] at hd
    refine ⟨?_, hd.2.2.1⟩
    rw [hd.2.1]
    apply hdom
    rw [List.getD_eq_getElem _ _ hi]
    exact List.getElem_mem _
  have hsum := sum_burst_nonneg ps (fun p hp => (hfit p hp).2.1) L
  obtain ⟨-, hcase⟩ := schedStep_cases select s s' h
  rcases hcase with ⟨hnone, hnext, hs'⟩ | ⟨best, hsome, hs'⟩
  · left
    obtain ⟨-, -, hex⟩ := nextArrivalScan_spec s.processes s.done
    rcases hex with hex | ⟨i, hi, hdone, harrive⟩
    · exact absurd hex hnext
    · have hi' : i < ps.length := by rw [← htr.1]; exact hi
      have hnr := (hsel s.processes s.done s.currentTime htr).1 hnone i hi
      have hnexta : nextArrivalScan s.processes s.done = a := by
        rw [← harrive]
        exact (hfields i hi').1
      rw [hs']
      refine ⟨rfl, hnd, hmem, htw, ?_⟩
      rcases hclock with ⟨hnil, -⟩ | hc
      · left
        exact ⟨hnil, by show nextArrivalScan s.processes s.done ≤ a; omega⟩
      · exfalso
        apply hnr
        refine ⟨hdone, ?_⟩
        rw [(hfields i hi').1]
        omega
  · right
    obtain ⟨hb, hready⟩ := (hsel s.processes s.done s.currentTime htr).2 best hsome
    have hb' : best < ps.length := by rw [← htr.1]; exact hb
    have hbd : best < s.done.length := by rw [hlen]; exact hb'
    obtain ⟨hba, hbb⟩ := hfields best hb'
    have hat : a ≤ s.currentTime := by
      have := hready.2
      rw [hba] at this
      exact this
    have hnow : s.currentTime = a + (L.map (fun i => (ps.getD i default).burstTime)).sum := by
      rcases hclock with ⟨hnil, hle⟩ | hc
      · rw [hnil]
        simp only [List.map_nil, List.sum_nil, add_zero]
        omega
      · exact hc
    have hnotin : best ∉ L := by
      intro hin
      have := ((hmem best).mp hin).2
      rw [hready.1] at this
      exact absurd this (by decide)
    obtain ⟨-, f2, f3, f4⟩ := schedDispatch_fields s best
    obtain ⟨-, -, -, -, e5, e6, -⟩ :=
      dispatch_exact R hRdesc ps hfit s hinv0 hf best hb' hready
    rw [← (dispatch_fields _ _).2.2.2.2.2.2.2, e5] at f3
    rw [e6] at f4
    refine ⟨best, hsome, hat, by rw [hs']; exact f2, hb', hready.1, ?_⟩
    rw [hs']
    refine ⟨?_, ?_, ?_, ?_⟩
    · rw [List.nodup_append]
      refine ⟨hnd, List.nodup_singleton _, ?_⟩
      intro x hx hx'
      rw [List.mem_singleton.mp hx'] at hx
      exact hnotin hx
    · intro i
      rw [f2]
      constructor
      · intro hi
        rcases List.mem_append.mp hi with hiL | hib
        · obtain ⟨h1, h2⟩ := (hmem i).mp hiL
          have hne : best ≠ i := fun hbi => hnotin (hbi ▸ hiL)
          rw [getD_set_other _ _ _ _ _ hne]
          exact ⟨h1, h2⟩
        · rw [List.mem_singleton.mp hib, getD_set_self _ _ _ _ hbd]
          exact ⟨hb', rfl⟩
      · rintro ⟨h1, h2⟩
        by_cases hbi : best = i
        · rw [← hbi]
          exact List.mem_append.mpr (Or.inr (List.mem_singleton.mpr rfl))
        · rw [getD_set_other _ _ _ _ _ hbi] at h2
          exact List.mem_append.mpr (Or.inl ((hmem i).mpr ⟨h1, h2⟩))
    · rw [f4, htw, hba, hnow, List.map_append, List.map_singleton, waitsFrom_append,
        accumulate_append]
      congr 2
      push_cast
      ring
    · right
      rw [f3, hbb, hnow, List.map_append, List.map_singleton, List.sum_append,
        List.sum_singleton]
      ring

theorem map_burst_range (ps : List Process) :
    (List.range ps.length).map (fun i => (ps.getD i default).burstTime) =
      ps.map (fun p => p.burstTime) := by
  apply List.ext_getElem
  · simp
  · intro i h1 h2
    have hi : i < ps.length := by simpa using h2
    simp only [List.getElem_map, List.getElem_range]
    rw [List.getD_eq_getElem _ _ hi]

theorem orderInv_init (ps : List Process) (a : Int) (f : Process → Process) (t : Int)
    (ht : t ≤ a) :
    orderInv ps a { processes := ps.map f, done := List.replicate ps.length false,
                    currentTime := t, completed := 0, totalWaiting := 0,
                    totalTurnaround := 0 } [] := by
  refine ⟨List.nodup_nil, ?_, rfl, Or.inl ⟨rfl, ht⟩⟩
  intro i
  constructor
  · intro hi
    exact absurd hi (List.not_mem_nil i)
  · rintro ⟨-, hd⟩
    simp only [] at hd
    rw [getD_replicate_false] at hd
    exact absurd hd (by decide)

/-- The main loop of `simulatePriority` and of `simulateSJF` on processes that all arrive
at `a`, with no clock that leaves the `int` range, is left within `2 * n + 1` iterations,
with the total waiting time accumulated by running all burst times one after another in
some order `L` of the positions; a property `Extra` of the order that every dispatch keeps
holds of `L`. -/
theorem sched_run_order (R : Process → Process → Prop)
    (hRdisp : ∀ q p t, R q p → R q (dispatch t p))
    (hRdesc : ∀ q p, R q p → descriptor p = descriptor q)
    (select : List Process → List Bool → Int → Option Nat × Int) (ps : List Process)
    (hsel : selectSound R select ps) (a : Int)
    (hdom : ∀ p ∈ ps, p.arrivalTime = a) (ha : a < INT_MAX) (hfit : fitsInt ps)
    (Extra : SchedState → List Nat → Prop)
    (hidle : ∀ s s' L, s'.done = s.done → Extra s L → Extra s' L)
    (hdisp : ∀ s s' L best, schedInv R ps s → Extra s L →
      (select s.processes s.done s.currentTime).1 = some best → a ≤ s.currentTime →
      s'.done = s.done.set best true → best < ps.length → s.done.getD best false = false →
      Extra s' (L ++ [best]))
    (f : Process → Process) (hf : ∀ q, R q (f q)) (t : Int) (h0 : 0 ≤ t) (ht : t ≤ a)
    (hExtra : Extra { processes := ps.map f, done := List.replicate ps.length false,
                      currentTime := t, completed := 0, totalWaiting := 0,
                      totalTurnaround := 0 } [])
    (fuel : Nat) (hfuel : 2 * ps.length + 1 ≤ fuel) :
    ∃ r L, runLoop (schedStep select) fuel
        { processes := ps.map f, done := List.replicate ps.length false,
          currentTime := t, completed := 0, totalWaiting := 0, totalTurnaround := 0 } =
        some r ∧
      L.Perm (List.range ps.length) ∧
      r.totalWaiting =
        accumulate 0 (waitsFrom 0 (L.map (fun i => (ps.getD i default).burstTime))) ∧
      Extra r L := by
  have htot : t + totalBurst ps ≤ INT_MAX := by
    cases ps with
    | nil => simp only [totalBurst, List.map_nil, List.sum_nil, add_zero]; omega
    | cons p rest =>
      have h1 := hfit p (List.mem_cons_self _ _)
      have h2 := hdom p (List.mem_cons_self _ _)
      omega
  obtain ⟨r, hr, -, hinv, ⟨-, L, hord, hex⟩, hdone⟩ := sched_run R hRdisp hRdesc select ps
    hsel (fun p hp => by rw [hdom p hp]; exact ha)
    (fun s => schedFits ps s ∧ ∃ L, orderInv ps a s L ∧ Extra s L)
    (fun s s' hi hI hs => by
      obtain ⟨hfits, L, hord, hex⟩ := hI
      refine ⟨schedFits_schedStep R hRdesc select ps hsel hfit s s' hi hfits hs, ?_⟩
      rcases orderInv_schedStep R hRdesc select ps hsel a hdom hfit s s' hi hfits L hord hs
        with ⟨hd, hord'⟩ | ⟨best, hsome, hat, hd, hb, hnd, hord'⟩
      · exact ⟨L, hord', hidle s s' L hd hex⟩
      · exact ⟨L ++ [best], hord', hdisp s s' L best hi hex hsome hat hd hb hnd⟩)
    f hf t ⟨schedFits_init ps hfit f t h0 htot, [], orderInv_init ps a f t ht, hExtra⟩
    fuel hfuel
  obtain ⟨hnd, hmem, htw, -⟩ := hord
  refine ⟨r, L, hr, ?_, htw, hex⟩
  rw [List.perm_ext_iff_of_nodup hnd (List.nodup_range _)]
  intro i
  rw [hmem, List.mem_range]
  constructor
  · exact fun h => h.1
  · exact fun h => ⟨h, hdone i h⟩

/-- A dispatch of `simulateSJF` on processes that all arrive at `a` puts a burst time
behind the order so far that is not below any burst time of the order and not above any
burst time still to run. -/
theorem ascendingInv_dispatch (ps : List Process) (a : Int)
    (hdom : ∀ p ∈ ps, p.arrivalTime = a) (s s' : SchedState) (L : List Nat) (best : Nat)
    (hinv : schedInv sameDescriptor ps s) (hasc : ascendingInv ps s L)
    (hsome : (sjfSelect s.processes s.done s.currentTime).1 = some best)
    (hat : a ≤ s.currentTime) (hd : s'.done = s.done.set best true) (hb : best < ps.length)
    (hnd : s.done.getD best false = false) : ascendingInv ps s' (L ++ [best]) := by
  obtain ⟨htr, hlen, -⟩ := hinv
  obtain ⟨hsorted, hbelow⟩ := hasc
  have hfields : ∀ i, i < ps.length →
      (s.processes.getD i default).arrivalTime = a ∧
      (s.processes.getD i default).burstTime = (ps.getD i default).burstTime := by
    intro i hi
    have hdesc := htr.2 i hi
    simp only [sameDescriptor, descriptor, Prod.mk.injEq] at hdesc
    refine ⟨?_, hdesc.2.2.1⟩
    rw [hdesc.2.1]
    apply hdom
    rw [List.getD_eq_getElem _ _ hi]
    exact List.getElem_mem _
  obtain ⟨-, -, -, hmin⟩ := (sjfSelect_spec s.processes s.done s.currentTime).2 best hsome
  have hbest : ∀ i, i < ps.length → s.done.getD i false = false →
      (ps.getD best default).burstTime ≤ (ps.getD i default).burstTime := by
    intro i hi hdi
    have hready : isReady s.processes s.done s.currentTime i :=
      ⟨hdi, by rw [(hfields i hi).1]; exact hat⟩
    have := hmin i (by rw [htr.1]; exact hi) hready
    rw [(hfields best hb).2, (hfields i hi).2] at this
    rcases this with hlt | ⟨heq, -⟩
    · omega
    · omega
  constructor
  · rw [List.map_append, List.map_singleton]
    refine List.pairwise_append.mpr ⟨hsorted, List.pairwise_singleton _ _, ?_⟩
    intro x hx y hy
    obtain ⟨j, hj, rfl⟩ := List.mem_map.mp hx
    rw [List.mem_singleton.mp hy]
    exact hbelow j hj best hb hnd
  · intro j hj i hi hdi
    rw [hd] at hdi
    have hib : best ≠ i := by
      intro hbi
      rw [← hbi, getD_set_self _ _ _ _ (by rw [hlen]; exact hb)] at hdi
      exact absurd hdi (by decide)
    rw [getD_set_other _ _ _ _ _ hib] at hdi
    rcases List.mem_append.mp hj with hjL | hjb
    · exact hbelow j hjL i hi hdi
    · rw [List.mem_singleton.mp hjb]
      exact hbest i hi hdi

theorem ascendingInv_idle (ps : List Process) (s s' : SchedState) (L : List Nat)
    (hd : s'.done = s.done) (h : ascendingInv ps s L) : ascendingInv ps s' L := by
  unfold ascendingInv at h ⊢
  rw [hd]
  exact h

theorem ascendingInv_init (ps : List Process) (f : Process → Process) (t : Int) :
    ascendingInv ps { processes := ps.map f, done := List.replicate ps.length false,
                      currentTime := t, completed := 0, totalWaiting := 0,
                      totalTurnaround := 0 } [] :=
  ⟨List.Pairwise.nil, fun j hj => absurd hj (List.not_mem_nil j)⟩

/-- On processes that all arrive at `a`, with no clock that leaves the `int` range,
`simulatePriority` returns the average of the waiting times accumulated by running the
burst times one after another in some order. -/
theorem simulatePriority_order (ps : List Process) (hne : ps ≠ []) (a : Int)
    (hdom : ∀ p ∈ ps, p.arrivalTime = a ∧ p.initialPriority < INT_MAX) (ha : a < INT_MAX)
    (hfit : fitsInt ps) (fuel : Nat) (hfuel : 2 * ps.length + 1 ≤ fuel) :
    ∃ r B, simulatePriority fuel ps = some r ∧ B.Perm (ps.map (fun p => p.burstTime)) ∧
      r.1.avgWaiting = toDouble (accumulate 0 (waitsFrom 0 B) / ps.length) := by
  have ha0 : 0 ≤ a := by
    cases ps with
    | nil => exact absurd rfl hne
    | cons p rest =>
      have h1 := hfit p (List.mem_cons_self _ _)
      have h2 := (hdom p (List.mem_cons_self _ _)).1
      omega
  obtain ⟨st, L, hst, hperm, htw, -⟩ := sched_run_order samePriority samePriority_dispatch
    (fun q p h => h.1) prioritySelect ps
    (selectSound_priority ps (fun p hp => (hdom p hp).2)) a
    (fun p hp => (hdom p hp).1) ha hfit (fun _ _ => True)
    (fun _ _ _ _ _ => trivial) (fun _ _ _ _ _ _ _ _ _ _ _ => trivial)
    resetRunPriority (fun q => ⟨rfl, rfl⟩) 0 (le_refl _) ha0 trivial fuel hfuel
  refine ⟨_, L.map (fun i => (ps.getD i default).burstTime),
    simulatePriority_of_run ps hne fuel st hst, ?_, ?_⟩
  · have := hperm.map (fun i => (ps.getD i default).burstTime)
    rw [map_burst_range] at this
    exact this
  · show toDouble (st.totalWaiting / (ps.length : ℚ)) = _
    rw [htw]

/-- On processes that all arrive at `a`, with no clock that leaves the `int` range,
`simulateSJF` returns the average of the waiting times accumulated by running the burst
times one after another in ascending order. -/
theorem simulateSJF_order (ps : List Process) (hne : ps ≠ []) (a : Int)
    (hdom : ∀ p ∈ ps, p.arrivalTime = a ∧ p.burstTime < INT_MAX) (ha : a < INT_MAX)
    (hfit : fitsInt ps) (fuel : Nat) (hfuel : 2 * ps.length + 1 ≤ fuel) :
    ∃ r B, simulateSJF fuel ps = some r ∧ B.Perm (ps.map (fun p => p.burstTime)) ∧
      B.Sorted (fun x y => x ≤ y) ∧
      r.1.avgWaiting = toDouble (accumulate 0 (waitsFrom 0 B) / ps.length) := by
  have hpos : 0 < ps.length := List.length_pos.mpr hne
  have harr : ∀ p ∈ ps, p.arrivalTime < INT_MAX := fun p hp => by
    rw [(hdom p hp).1]
    exact ha
  obtain ⟨h0, -⟩ := earliestArrivalScan_fits ps resetRun (fun _ => rfl) hne hfit
  have ht : earliestArrivalScan (ps.map resetRun) ≤ a := by
    have h1 := (earliestArrivalScan_spec (ps.map resetRun)).2.1 0 (by simpa using hpos)
    rw [getD_map_of_lt resetRun ps 0 default default hpos] at h1
    have h2 : (ps.getD 0 default).arrivalTime = a := by
      apply (hdom _ _).1
      rw [List.getD_eq_getElem _ _ hpos]
      exact List.getElem_mem _
    have h3 : (resetRun (ps.getD 0 default)).arrivalTime = (ps.getD 0 default).arrivalTime :=
      rfl
    omega
  obtain ⟨st, L, hst, hperm, htw, hasc⟩ := sched_run_order sameDescriptor
    sameDescriptor_dispatch (fun q p h => h) sjfSelect ps
    (selectSound_sjf ps (fun p hp => (hdom p hp).2)) a
    (fun p hp => (hdom p hp).1) ha hfit (ascendingInv ps)
    (fun s s' L hd h => ascendingInv_idle ps s s' L hd h)
    (fun s s' L best hinv hasc hsome hat hd hb hnd =>
      ascendingInv_dispatch ps a (fun p hp => (hdom p hp).1) s s' L best hinv hasc hsome hat
        hd hb hnd)
    resetRun (fun q => rfl) (earliestArrivalScan (ps.map resetRun)) h0 ht
    (ascendingInv_init ps resetRun _) fuel hfuel
  refine ⟨_, L.map (fun i => (ps.getD i default).burstTime),
    simulateSJF_of_run ps hne harr fuel st hst, ?_, hasc.1, ?_⟩
  · have := hperm.map (fun i => (ps.getD i default).burstTime)
    rw [map_burst_range] at this
    exact this
  · show toDouble (st.totalWaiting / (ps.length : ℚ)) = _
    rw [htw]

theorem fcfsLoop_delay (a : Int) (l : List Process) (hl : ∀ p ∈ l, p.arrivalTime = a)
    (t : Int) (hfit : fcfsFits t l) (tw tt : ℚ) :
    (fcfsLoop l t tw tt).2.1 =
      accumulate tw (waitsFrom (max t a - a) (l.map (fun p => p.burstTime))) := by
  induction l generalizing t tw tt with
  | nil => rfl
  | cons q rest ih =>
    have hqa := hl q (List.mem_cons_self _ _)
    obtain ⟨⟨f1, f2, f3, f4⟩, hrest⟩ := fcfsFits_cons t q rest hfit
    obtain ⟨e1, e2, -⟩ := fcfsBody_exact t q f1 f2 f3 f4
    rw [hqa] at e1 e2
    have hmax : max ((fcfsBody t q).finishTime) a - a = (max t a - a) + q.burstTime := by
      rw [e1]
      have := le_max_right t a
      rw [max_eq_left (by omega)]
      ring
    have hstep : (fcfsLoop (q :: rest) t tw tt).2.1 =
        (fcfsLoop rest (fcfsBody t q).finishTime (toDouble (tw + (fcfsBody t q).waitingTime))
          (toDouble (tt + (fcfsBody t q).turnaroundTime))).2.1 := rfl
    rw [hstep, ih (fun p hp => hl p (List.mem_cons_of_mem _ hp)) _ hrest, hmax, e2]
    rfl

/-- On processes that all arrive at `a`, with no clock that leaves the `int` range,
`simulateFCFS` returns the average of the waiting times accumulated by running the burst
times one after another in the order of its table. -/
theorem simulateFCFS_order_delay (ps : List Process) (hne : ps ≠ []) (a : Int)
    (hdom : ∀ p ∈ ps, p.arrivalTime = a) (hfit : fitsInt ps) :
    ∃ B : List Int, B.Perm (ps.map (fun p => p.burstTime)) ∧
      (simulateFCFS ps).1.avgWaiting = toDouble (accumulate 0 (waitsFrom 0 B) / ps.length) := by
  have hlen : ps.length ≠ 0 := fun h => hne (List.length_eq_zero.mp h)
  have hperm := List.perm_insertionSort fcfsLe ps
  have hdom' : ∀ p ∈ ps.insertionSort fcfsLe, p.arrivalTime = a :=
    fun p hp => hdom p (hperm.mem_iff.mp hp)
  have ha0 : 0 ≤ a := by
    cases ps with
    | nil => exact absurd rfl hne
    | cons p rest =>
      have h1 := hfit p (List.mem_cons_self _ _)
      have h2 := hdom p (List.mem_cons_self _ _)
      omega
  have htot := fcfsLoop_delay a (ps.insertionSort fcfsLe) hdom' 0 (fcfsFits_sorted ps hfit) 0 0
  rw [max_eq_right ha0, sub_self] at htot
  refine ⟨(ps.insertionSort fcfsLe).map (fun p => p.burstTime), hperm.map _, ?_⟩
  unfold simulateFCFS
  simp only [hlen, if_false]
  rw [htot]

/-- With one arrival time for all processes, burst times and priorities below `INT_MAX` and
no clock that leaves the `int` range: at a bound on the iterations that suffices,
`simulateSJF` and `simulatePriority` return, and the average waiting time of
`simulateSJF` is at most the one of `simulateFCFS` and the one of `simulatePriority`. -/
theorem sjf_least_waiting (ps : List Process) (hne : ps ≠ []) (a : Int)
    (hdom : ∀ p ∈ ps, p.arrivalTime = a ∧ 1 ≤ p.burstTime ∧ p.burstTime < INT_MAX ∧
      p.initialPriority < INT_MAX)
    (hfit : fitsInt ps) (fuel : Nat) (hfuel : 2 * ps.length + 1 ≤ fuel) :
    ∃ rS rP, simulateSJF fuel ps = some rS ∧ simulatePriority fuel ps = some rP ∧
      rS.1.avgWaiting ≤ (simulateFCFS ps).1.avgWaiting ∧
      rS.1.avgWaiting ≤ rP.1.avgWaiting := by
  have hn : (0 : ℚ) ≤ (ps.length : ℚ) := Nat.cast_nonneg _
  have ha : a < INT_MAX := by
    cases ps with
    | nil => exact absurd rfl hne
    | cons p rest =>
      have h1 := arrival_lt_of_fits _ hfit (fun q hq => (hdom q hq).2.1) p
        (List.mem_cons_self _ _)
      rw [(hdom p (List.mem_cons_self _ _)).1] at h1
      exact h1
  obtain ⟨BF, hBF, hF⟩ := simulateFCFS_order_delay ps hne a (fun p hp => (hdom p hp).1) hfit
  obtain ⟨rS, BS, hrS, hBS, hsorted, hS⟩ := simulateSJF_order ps hne a
    (fun p hp => ⟨(hdom p hp).1, (hdom p hp).2.2.1⟩) ha hfit fuel hfuel
  obtain ⟨rP, BP, hrP, hBP, hP⟩ := simulatePriority_order ps hne a
    (fun p hp => ⟨(hdom p hp).1, (hdom p hp).2.2.2⟩) ha hfit fuel hfuel
  have h1 := accumulate_mono _ _ (waitsFrom_sorted_le BS hsorted BF (hBF.trans hBS.symm)) 0 0
    (le_refl _)
  have h2 := accumulate_mono _ _ (waitsFrom_sorted_le BS hsorted BP (hBP.trans hBS.symm)) 0 0
    (le_refl _)
  refine ⟨rS, rP, hrS, hrP, ?_, ?_⟩
  · rw [hS, hF]
    exact toDouble_mono _ _ (div_le_div_of_nonneg_right h1 hn)
  · rw [hS, hP]
    exact toDouble_mono _ _ (div_le_div_of_nonneg_right h2 hn)


/-- C22, amended: SJF is optimal among the non-preemptive engines when all processes
arrive together and no clock leaves the `int` range.  For every non-empty process list
with `1 ≤ burstTime < INT_MAX`, `initialPriority < INT_MAX` and one common
`arrivalTime ≥ 0` that, with the sum of all burst times added, is at most `INT_MAX`,
`simulateSJF` and `simulatePriority` return within `2n+1` iterations of their loops, and
the `avgWaiting` returned by `simulateSJF` is less than or equal to the `avgWaiting`
returned by `simulateFCFS` and to the `avgWaiting` returned by `simulatePriority` on the
same list.  Unique ids and a lower bound on the priorities are not needed. -/
theorem sjf_optimal (ps : List Process) (hne : ps ≠ []) (a : Int)
    (hdom : ∀ p ∈ ps, p.arrivalTime = a ∧ 1 ≤ p.burstTime ∧ p.burstTime < INT_MAX ∧
      p.initialPriority < INT_MAX)
    (hfit : fitsInt ps) :
    (∀ fuel, 2 * ps.length + 1 ≤ fuel →
      ∃ rS rP, simulateSJF fuel ps = some rS ∧ simulatePriority fuel ps = some rP) ∧
    ∀ fuel rS, simulateSJF fuel ps = some rS →
      rS.1.avgWaiting ≤ (simulateFCFS ps).1.avgWaiting ∧
      ∀ fuel' rP, simulatePriority fuel' ps = some rP →
        rS.1.avgWaiting ≤ rP.1.avgWaiting := by
  constructor
  · intro fuel hfuel
    obtain ⟨rS, rP, hS, hP, -⟩ := sjf_least_waiting ps hne a hdom hfit fuel hfuel
    exact ⟨rS, rP, hS, hP⟩
  · intro fuel rS hrS
    have key : ∀ fuel' : Nat, ∃ rP', simulateSJF (fuel + fuel' + (2 * ps.length + 1)) ps =
        some rS ∧ simulatePriority (fuel + fuel' + (2 * ps.length + 1)) ps = some rP' ∧
        rS.1.avgWaiting ≤ (simulateFCFS ps).1.avgWaiting ∧
        rS.1.avgWaiting ≤ rP'.1.avgWaiting := by
      intro fuel'
      obtain ⟨rS', rP', hS, hP, h1, h2⟩ := sjf_least_waiting ps hne a hdom hfit
        (fuel + fuel' + (2 * ps.length + 1)) (Nat.le_add_left _ _)
      have hS' := simulateSJF_fuel_add fuel (fuel' + (2 * ps.length + 1)) ps rS hrS
      rw [← Nat.add_assoc] at hS'
      rw [hS'] at hS
      cases hS
      exact ⟨rP', hS', hP, h1, h2⟩
    obtain ⟨-, -, -, hfcfs, -⟩ := key 0
    refine ⟨hfcfs, ?_⟩
    intro fuel' rP hrP
    obtain ⟨rP', -, hP, -, h2⟩ := key fuel'
    have hP' := simulatePriority_fuel_add fuel' (fuel + (2 * ps.length + 1)) ps rP hrP
    have hfu : fuel' + (fuel + (2 * ps.length + 1)) = fuel + fuel' + (2 * ps.length + 1) := by
      omega
    rw [hfu, hP] at hP'
    cases hP'
    exact h2

/-- On the list `{id=1,burst=5,priority=1}, {id=2,burst=2,priority=2},
{id=3,burst=3,priority=3}`, all arriving at `0`, `simulateSJF` returns the `double`
nearest to `7/3` (printed as `2.3333333333333335`) as average waiting time, and
`simulateFCFS` and `simulatePriority` return `4`. -/
theorem sjf_optimal_witness :
    (togetherExample ≠ [] ∧
      (∀ p ∈ togetherExample, p.arrivalTime = 0 ∧ 1 ≤ p.burstTime ∧ p.burstTime < INT_MAX ∧
        p.initialPriority < INT_MAX) ∧ fitsInt togetherExample) ∧
    ((simulateSJF 7 togetherExample).map (fun r => r.1.avgWaiting) =
        some (5254199565265579 / 2251799813685248) ∧
      (simulateFCFS togetherExample).1.avgWaiting = 4 ∧
      (simulatePriority 7 togetherExample).map (fun r => r.1.avgWaiting) = some 4) ∧
    ((∀ fuel, 2 * togetherExample.length + 1 ≤ fuel →
      ∃ rS rP, simulateSJF fuel togetherExample = some rS ∧
        simulatePriority fuel togetherExample = some rP) ∧
    ∀ fuel rS, simulateSJF fuel togetherExample = some rS →
      rS.1.avgWaiting ≤ (simulateFCFS togetherExample).1.avgWaiting ∧
      ∀ fuel' rP, simulatePriority fuel' togetherExample = some rP →
        rS.1.avgWaiting ≤ rP.1.avgWaiting) :=
  ⟨⟨by decide, by decide, by decide⟩, ⟨by decide!, by decide!, by decide!⟩,
    sjf_optimal togetherExample (by decide) 0 (by decide) (by decide)⟩

/-- C22 as stated fails on lists it covers: non-empty, with unique ids, `burstTime ≥ 1`,
`initialPriority ≥ 1` and the common `arrivalTime = 0`.  On
`{id=1,burst=2000000000,priority=1}, {id=2,burst=2000000000,priority=2},
{id=3,burst=1,priority=3}` the finish time `4000000000` of the second process does not fit
an `int`: in `simulateFCFS` and `simulatePriority` the clock is left at `-294967296`, the
third process starts at `0` and waits `0`, and the waiting times `0, 2000000000, 0` have
the average `666666666.6666666`; `simulateSJF` runs the third process first and leaves
the waiting times `1, 2000000001, 0`, with the average `666666667.3333334`, which is
greater.  And an engine may not return: no bound on the iterations lets `simulateSJF`
return an average for the process of burst time `INT_MAX`, nor `simulatePriority` for the
process of priority `INT_MAX`. -/
theorem sjf_optimal_overflow :
    (overflowThreeExample ≠ [] ∧ (overflowThreeExample.map (fun p => p.id)).Nodup ∧
      ∀ p ∈ overflowThreeExample, p.arrivalTime = 0 ∧ 1 ≤ p.burstTime ∧
        p.burstTime < INT_MAX ∧ 1 ≤ p.initialPriority ∧ p.initialPriority < INT_MAX) ∧
    ¬ fitsInt overflowThreeExample ∧
    (simulateFCFS overflowThreeExample).2.map (fun p => (p.id, p.waitingTime)) =
      [(1, 0), (2, 2000000000), (3, 0)] ∧
    (simulateFCFS overflowThreeExample).1.avgWaiting = 5592405333333333 / 8388608 ∧
    (simulatePriority 7 overflowThreeExample).map (fun r => r.1.avgWaiting) =
      some (5592405333333333 / 8388608) ∧
    (simulateSJF 7 overflowThreeExample).map
        (fun r => r.2.map (fun p => (p.id, p.waitingTime))) =
      some [(1, 1), (2, 2000000001), (3, 0)] ∧
    (simulateSJF 7 overflowThreeExample).map (fun r => r.1.avgWaiting) =
      some (5592405338925739 / 8388608) ∧
    (¬ ∃ rS, simulateSJF 7 overflowThreeExample = some rS ∧
      rS.1.avgWaiting ≤ (simulateFCFS overflowThreeExample).1.avgWaiting) ∧
    (¬ ∃ rS rP, simulateSJF 7 overflowThreeExample = some rS ∧
      simulatePriority 7 overflowThreeExample = some rP ∧
      rS.1.avgWaiting ≤ rP.1.avgWaiting) ∧
    (maxBurstExample ≠ [] ∧ (maxBurstExample.map (fun p => p.id)).Nodup ∧
      ∀ p ∈ maxBurstExample, p.arrivalTime = 0 ∧ 1 ≤ p.burstTime ∧ 1 ≤ p.initialPriority) ∧
    fitsInt maxBurstExample ∧
    (∀ fuel, ¬ ∃ rS, simulateSJF fuel maxBurstExample = some rS ∧
      rS.1.avgWaiting ≤ (simulateFCFS maxBurstExample).1.avgWaiting) ∧
    (maxPriorityExample ≠ [] ∧ (maxPriorityExample.map (fun p => p.id)).Nodup ∧
      ∀ p ∈ maxPriorityExample,
        p.arrivalTime = 0 ∧ 1 ≤ p.burstTime ∧ 1 ≤ p.initialPriority) ∧
    fitsInt maxPriorityExample ∧
    (∀ fuel, ¬ ∃ rS rP, simulateSJF 3 maxPriorityExample = some rS ∧
      simulatePriority fuel maxPriorityExample = some rP ∧
      rS.1.avgWaiting ≤ rP.1.avgWaiting) ∧
    (simulateSJF 3 maxPriorityExample).isSome = true := by
  have hF : (simulateFCFS overflowThreeExample).1.avgWaiting =
      5592405333333333 / 8388608 := by decide!
  have hP : (simulatePriority 7 overflowThreeExample).map (fun r => r.1.avgWaiting) =
      some (5592405333333333 / 8388608) := by decide!
  have hS : (simulateSJF 7 overflowThreeExample).map (fun r => r.1.avgWaiting) =
      some (5592405338925739 / 8388608) := by decide!
  have hlt : ¬ ((5592405338925739 : ℚ) / 8388608 ≤ 5592405333333333 / 8388608) := by
    norm_num
  refine ⟨⟨by decide, by decide, by decide⟩, by decide, by decide, hF, hP, by decide, hS,
    ?_, ?_, ⟨by decide, by decide, by decide⟩, by decide, fun fuel => ?_,
    ⟨by decide, by decide, by decide⟩, by decide, fun fuel => ?_, by decide⟩
  · rintro ⟨rS, hrS, hle⟩
    rw [hrS] at hS
    simp only [Option.map_some', Option.some.injEq] at hS
    rw [hS, hF] at hle
    exact hlt hle
  · rintro ⟨rS, rP, hrS, hrP, hle⟩
    rw [hrS] at hS
    rw [hrP] at hP
    simp only [Option.map_some', Option.some.injEq] at hS hP
    rw [hS, hP] at hle
    exact hlt hle
  · rintro ⟨r, hr, -⟩
    have h := runLoop_none_of_fixed sjfStep _ sjfStep_maxBurst fuel
    have he : earliestArrivalScan (maxBurstExample.map resetRun) ≠ INT_MAX := by decide
    have hlen : maxBurstExample.length ≠ 0 := by decide
    unfold simulateSJF at hr
    simp only [hlen, he, if_false, h] at hr
    exact absurd hr (by simp)
  · rintro ⟨rS, rP, -, hr, -⟩
    have h := runLoop_none_of_fixed priorityStep _ priorityStep_maxPriority fuel
    have hlen : maxPriorityExample.length ≠ 0 := by decide
    unfold simulatePriority at hr
    simp only [hlen, if_false, h] at hr
    exact absurd hr (by simp)

/-! ## Completed processes: the two equations when no clock leaves the `int` range -/

theorem metricsOk_of_wrap (p : Process) (hw : metricsWrap p) (ha : 0 ≤ p.arrivalTime)
    (hb : 0 ≤ p.burstTime) (hb' : p.burstTime ≤ INT_MAX) (h1 : p.arrivalTime ≤ p.finishTime)
    (h2 : p.finishTime ≤ INT_MAX) : metricsOk p := by
  obtain ⟨w1, w2⟩ := hw
  have e1 : wrap32 (p.finishTime - p.arrivalTime) = p.finishTime - p.arrivalTime :=
    wrap32_of_bounds _ (by omega) (by omega)
  rw [e1] at w1
  have e2 : wrap32 (p.turnaroundTime - p.burstTime) = p.turnaroundTime - p.burstTime := by
    apply wrap32_of_inInt
    unfold INT_MAX at hb' h2
    unfold inInt
    omega
  rw [e2] at w2
  exact ⟨w1, w2⟩

theorem burst_le_INT_MAX (ps : List Process) (hfit : fitsInt ps) :
    ∀ p ∈ ps, p.burstTime ≤ INT_MAX := by
  intro p hp
  have h1 := hfit p hp
  have h2 := burst_le_totalBurst ps (fun q hq => (hfit q hq).2.1) p hp
  omega

/-- With no clock that leaves the `int` range, every row of `simulateFCFS` has the two
equations. -/
theorem fcfs_rows_metricsOk (ps : List Process) (hfit : fitsInt ps) :
    ∀ p ∈ (simulateFCFS ps).2, metricsOk p := by
  intro p hp
  obtain ⟨k, hk⟩ := List.mem_iff_getElem?.mp hp
  rw [simulateFCFS_rows] at hk
  obtain ⟨h1, h2, h3, h4⟩ := fcfsLoop_recurrence _ 0 0 0 k p (fcfsFits_sorted ps hfit) hk
  unfold metricsOk
  omega

theorem selectReady_priority : selectReady prioritySelect := by
  intro processes done t a h
  obtain ⟨h1, h2, -⟩ := (prioritySelect_spec processes done t).2 a h
  exact ⟨h1, h2⟩

theorem selectReady_sjf : selectReady sjfSelect := by
  intro processes done t a h
  obtain ⟨h1, h2, -⟩ := (sjfSelect_spec processes done t).2 a h
  exact ⟨h1, h2⟩

/-- An iteration of `simulatePriority` or `simulateSJF`, entered with a clock that leaves
room for the burst times still to run, keeps the room and the two equations of every
process dispatched. -/
theorem exactFlagged_schedStep (R : Process → Process → Prop)
    (hRdisp : ∀ q p t, R q p → R q (dispatch t p))
    (hRdesc : ∀ q p, R q p → descriptor p = descriptor q)
    (select : List Process → List Bool → Int → Option Nat × Int) (ps : List Process)
    (hsel : selectReady select) (hfit : fitsInt ps)
    (s s' : SchedState) (hinv : schedInv R ps s) (hf : schedFits ps s)
    (hex : exactFlagged s.processes s.done) (h : schedStep select s = some s') :
    schedInv R ps s' ∧ schedFits ps s' ∧ exactFlagged s'.processes s'.done := by
  have hinv0 := hinv
  obtain ⟨htr, hlen, hcount⟩ := hinv
  obtain ⟨-, hcase⟩ := schedStep_cases select s s' h
  rcases hcase with ⟨hnone, hnext, rfl⟩ | ⟨best, hsome, rfl⟩
  · refine ⟨⟨htr, hlen, hcount⟩, ?_, hex⟩
    obtain ⟨-, -, hx⟩ := nextArrivalScan_spec s.processes s.done
    rcases hx with hx | ⟨i, hi, hdone, harrive⟩
    · exact absurd hx hnext
    · have hi' : i < ps.length := by rw [← htr.1]; exact hi
      obtain ⟨-, -, a0, -, a1⟩ := fits_facts R hRdesc ps s.processes htr hfit i hi'
      have := (pendingBurst_bounds ps s.done (fun p hp => (hfit p hp).2.1)).2
      unfold schedFits
      simp only []
      rw [← harrive]
      exact ⟨a0, by omega⟩
  · obtain ⟨hb, hready⟩ := hsel s.processes s.done s.currentTime best hsome
    have hb' : best < ps.length := by rw [← htr.1]; exact hb
    have hcnt := count_false_set_true s.done best (by omega) hready.1
    obtain ⟨b0, a0, h1, h2, h3, h4, h5⟩ :=
      dispatch_exact R hRdesc ps hfit s hinv0 hf best hb' hready
    obtain ⟨f1, f2, f3, -⟩ := schedDispatch_fields s best
    obtain ⟨-, d2, d3, -⟩ := dispatch_fields s.currentTime (s.processes.getD best default)
    refine ⟨⟨?_, ?_, ?_⟩, ?_, ?_⟩
    · unfold schedDispatch
      exact tracksBy_set R ps _ htr best _ (fun _ => hRdisp _ _ _ (htr.2 best hb'))
    · unfold schedDispatch
      simp [hlen]
    · unfold schedDispatch
      simp only []
      omega
    · unfold schedFits
      rw [f2, f3, ← (dispatch_fields _ _).2.2.2.2.2.2.2, h3]
      exact ⟨by have := hf.1; omega, h1⟩
    · intro i hi hflag
      rw [f1] at hi ⊢
      rw [f2] at hflag
      rw [List.length_set] at hi
      by_cases hib : best = i
      · subst hib
        rw [getD_set_self _ _ _ _ hb]
        unfold metricsOk
        rw [h3, h4, h5, d2, d3]
        constructor <;> ring
      · rw [getD_set_other _ _ _ _ _ hib] at hflag ⊢
        exact hex i hi hflag

theorem exactFlagged_init (ps : List Process) (f : Process → Process) :
    exactFlagged (ps.map f) (List.replicate ps.length false) := by
  intro i _ hflag
  rw [getD_replicate_false] at hflag
  exact absurd hflag (by decide)

theorem exact_priority (ps : List Process) (hfit : fitsInt ps) (k : Nat) :
    exactFlagged (iterate priorityStep k (priorityInit ps)).processes
      (iterate priorityStep k (priorityInit ps)).done := by
  have htot : (0 : Int) + totalBurst ps ≤ INT_MAX := by
    cases ps with
    | nil => decide
    | cons p rest => exact totalBurst_fits _ (List.cons_ne_nil _ _) hfit
  exact (iterate_inv priorityStep
    (fun s => schedInv samePriority ps s ∧ schedFits ps s ∧ exactFlagged s.processes s.done)
    (fun a b ha hab => exactFlagged_schedStep samePriority samePriority_dispatch
      (fun q p h => h.1) prioritySelect ps selectReady_priority hfit a b ha.1 ha.2.1 ha.2.2 hab)
    k (priorityInit ps)
    ⟨schedInv_init samePriority ps resetRunPriority (fun q => ⟨rfl, rfl⟩) 0,
      schedFits_init ps hfit resetRunPriority 0 (le_refl _) htot,
      exactFlagged_init ps resetRunPriority⟩).2.2

theorem exact_sjf (ps : List Process) (hne : ps ≠ []) (hfit : fitsInt ps) (k : Nat) :
    exactFlagged (iterate sjfStep k (sjfInit ps)).processes
      (iterate sjfStep k (sjfInit ps)).done := by
  obtain ⟨h0, h1⟩ := earliestArrivalScan_fits ps resetRun (fun _ => rfl) hne hfit
  exact (iterate_inv sjfStep
    (fun s => schedInv sameDescriptor ps s ∧ schedFits ps s ∧
      exactFlagged s.processes s.done)
    (fun a b ha hab => exactFlagged_schedStep sameDescriptor sameDescriptor_dispatch
      (fun q p h => h) sjfSelect ps selectReady_sjf hfit a b ha.1 ha.2.1 ha.2.2 hab)
    k (sjfInit ps)
    ⟨schedInv_init sameDescriptor ps resetRun (fun q => rfl) _,
      schedFits_init ps hfit resetRun _ h0 h1, exactFlagged_init ps resetRun⟩).2.2

/-- An iteration of `simulateDynamicPriority`, entered with a clock that leaves room for
the time still to run, keeps the room and the two equations of every process flagged
finished. -/
theorem dynRoom_dynStep (ps : List Process) (hfit : fitsInt ps)
    (s s' : DynState) (hinv : dynRoom ps s) (h : dynStep s = some s') : dynRoom ps s' := by
  obtain ⟨htr, hrem, t0, t1, hex⟩ := hinv
  have htr' := tracksBy_dynStep sameDescriptor ps (fun q p p' hR hd _ => hd.trans hR)
    (fun fin best t q p i => sameDescriptor_ageOne fin best t q p i) s s' htr h
  have hn : s.processes.length = ps.length := htr.1
  have hb0 : ∀ p ∈ ps, 0 ≤ p.burstTime := fun p hp => (hfit p hp).2.1
  obtain ⟨hc, hcase⟩ := dynStep_cases s s' h
  rcases hcase with ⟨hnone, hnext, rfl⟩ | ⟨best, hsome, rfl⟩
  · obtain ⟨-, -, hx⟩ := nextArrivalScan_spec s.processes s.finished
    rcases hx with hx | ⟨i, hi, hfin, harrive⟩
    · exact absurd hx hnext
    · rw [hn] at hi
      obtain ⟨-, -, a0, -, a1⟩ :=
        fits_facts sameDescriptor (fun q p h => h) ps s.processes htr hfit i hi
      have htot := totalRemaining_le ps s.processes hn hrem hb0
      refine ⟨htr, hrem, ?_, ?_, hex⟩
      · show 0 ≤ nextArrivalScan s.processes s.finished
        rw [← harrive]
        exact a0
      · show nextArrivalScan s.processes s.finished + (totalRemaining s.processes : Int) ≤ _
        rw [← harrive]
        omega
  · obtain ⟨hb, hrun, -, -⟩ := (dynSelect_spec s.processes s.finished s.currentTime).2 best hsome
    have hb' : best < ps.length := by rw [← hn]; exact hb
    obtain ⟨hfin, harr, hpos⟩ := hrun
    obtain ⟨f1, f2, f3, f4, f5⟩ := dynRunStep_fields s best
    obtain ⟨r1, -, r3⟩ := dynRunStep_remaining s best hb
    have hstep := totalRemaining_step s.processes (dynRunStep s best).processes best f2 hb
      (fun i hi hib => (r3 i hi hib).1) r1 hpos
    have hw : wrap32 (s.currentTime + 1) = s.currentTime + 1 :=
      wrap32_of_bounds _ (by omega) (by omega)
    rw [hw] at f1 f3 f5
    obtain ⟨e1, e2, a0, b0, a1⟩ :=
      fits_facts sameDescriptor (fun q p h => h) ps s.processes htr hfit best hb'
    refine ⟨htr', ?_, by rw [f1]; omega, by rw [f1]; omega, ?_⟩
    · intro i hi
      by_cases hib : i = best
      · rw [hib, r1]
        have := hrem best hb'
        omega
      · rw [(r3 i (by omega) hib).1]
        exact hrem i hi
    · intro i hi hflag
      rw [f2] at hi
      by_cases hib : i = best
      · subst hib
        by_cases hz : (consume 1
            (startIfUnset s.currentTime (s.processes.getD i default))).remainingTime = 0
        · rw [(f3 hz).2.2 hb]
          obtain ⟨-, g2, g3, -, -, -, -, g8⟩ := finishAt_fields (s.currentTime + 1)
            (consume 1 (startIfUnset s.currentTime (s.processes.getD i default)))
          obtain ⟨-, c2, c3, -⟩ := consume_fields 1
            (startIfUnset s.currentTime (s.processes.getD i default))
          obtain ⟨-, s2, s3, -⟩ := startIfUnset_fields s.currentTime
            (s.processes.getD i default)
          have hbm := burst_le_INT_MAX ps hfit _ (by
            rw [List.getD_eq_getElem _ _ hb']
            exact List.getElem_mem _ : ps.getD i default ∈ ps)
          apply metricsOk_of_wrap _ (metricsWrap_finishAt _ _)
          · rw [g2, c2, s2]; exact a0
          · rw [g3, c3, s3]; exact b0
          · rw [g3, c3, s3, e2]; exact hbm
          · rw [g2, c2, s2, g8]; omega
          · rw [g8]; omega
        · rw [(f4 hz).1, hfin] at hflag
          exact absurd hflag (by decide)
      · have hflag' : s.finished.getD i false = true := by
          by_cases hz : (consume 1
              (startIfUnset s.currentTime (s.processes.getD best default))).remainingTime = 0
          · rw [(f3 hz).1, getD_set_other _ _ _ _ _ (Ne.symm hib)] at hflag
            exact hflag
          · rw [(f4 hz).1] at hflag
            exact hflag
        have hm := hex i hi hflag'
        rw [f5 i hi hib]
        obtain ⟨-, g2, g3, -, -, -, g7, g8, g9⟩ := ageOne_fields s.finished best
          (s.currentTime + 1) i (s.processes.getD i default)
        unfold metricsOk at hm ⊢
        rw [g2, g3, g7, g8, g9]
        exact hm

theorem dynRoom_init (ps : List Process) (hne : ps ≠ []) (hfit : fitsInt ps) :
    dynRoom ps (dynInit ps) := by
  obtain ⟨h0, h1⟩ := earliestArrivalScan_fits ps resetRunPriority (fun _ => rfl) hne hfit
  have hlen : (ps.map resetRunPriority).length = ps.length := by simp
  have hrem : ∀ i, i < ps.length →
      ((ps.map resetRunPriority).getD i default).remainingTime ≤
        (ps.getD i default).burstTime := by
    intro i hi
    rw [getD_map_of_lt resetRunPriority ps i default default hi]
    exact le_refl _
  have htot := totalRemaining_le ps _ hlen hrem (fun p hp => (hfit p hp).2.1)
  refine ⟨tracksBy_map sameDescriptor ps resetRunPriority (fun q => rfl), hrem, h0, ?_,
    exactFlagged_init ps resetRunPriority⟩
  show earliestArrivalScan (ps.map resetRunPriority) +
    (totalRemaining (ps.map resetRunPriority) : Int) ≤ INT_MAX
  omega

theorem exact_dyn (ps : List Process) (hne : ps ≠ []) (hfit : fitsInt ps) (k : Nat) :
    exactFlagged (iterate dynStep k (dynInit ps)).processes
      (iterate dynStep k (dynInit ps)).finished :=
  (iterate_inv dynStep (dynRoom ps) (fun a b ha hab => dynRoom_dynStep ps hfit a b ha hab) k
    (dynInit ps) (dynRoom_init ps hne hfit)).2.2.2.2

/-- An iteration of `simulateRoundRobin` with a quantum that is not negative, entered with
a clock that leaves room for the time still to run, keeps the burst times and the two
equations of every process flagged finished. -/
theorem rrExact_rrStep (ps : List Process) (hfit : fitsInt ps) (quantum : Int)
    (hquantum : 0 ≤ quantum) (s s' : RRState) (hinv : rrInv ps s) (hroom : rrFits ps s)
    (hex : rrExact ps s) (h : rrStep quantum s = some s') : rrExact ps s' := by
  obtain ⟨-, idx, rq, iq, t, hre, rfl⟩ := rrStep_cases quantum s s' h
  obtain ⟨-, hct, hqmem, -, hclk⟩ := rrRefill_facts ps s hinv idx rq iq t hre
  obtain ⟨hlen, -, hfl, hproc, -⟩ := hinv
  obtain ⟨hburst, hflagged⟩ := hex
  obtain ⟨hidx, harridx⟩ := hqmem idx (List.mem_cons_self _ _)
  have hidx' : idx < s.processes.length := by rw [hlen]; exact hidx
  obtain ⟨-, s2, s3, -, -, s6, s7, s8, s9⟩ :=
    startIfUnset_fields t (s.processes.getD idx default)
  obtain ⟨-, c2, c3, -, -, -, -, c8, c9, c10⟩ := consume_fields
    (min quantum (startIfUnset t (s.processes.getD idx default)).remainingTime)
    (startIfUnset t (s.processes.getD idx default))
  have hrem0 : 0 ≤ (s.processes.getD idx default).remainingTime := (hproc idx hidx).2
  have hrt0 : 0 ≤ min quantum (startIfUnset t (s.processes.getD idx default)).remainingTime := by
    rw [s6]
    exact le_min hquantum hrem0
  have hrtle : min quantum (startIfUnset t (s.processes.getD idx default)).remainingTime ≤
      (s.processes.getD idx default).remainingTime := by
    rw [s6]
    exact min_le_right _ _
  obtain ⟨⟨hlo, -⟩, hroom1, hroomarr⟩ := hroom
  have htroom : t + (totalRemaining s.processes : Int) ≤ INT_MAX := by
    rcases hclk with hc | ⟨a, ha, hav⟩
    · rw [hc]
      exact hroom1
    · rw [← hav]
      apply hroomarr
      rw [List.getD_eq_getElem _ _ ha]
      exact List.getElem_mem _
  have hremtot := remaining_le_total s.processes idx hidx'
  have hmem : ps.getD idx default ∈ ps := by
    rw [List.getD_eq_getElem _ _ hidx]
    exact List.getElem_mem _
  obtain ⟨a0, b0, -⟩ := hfit _ hmem
  have hbm := burst_le_INT_MAX ps hfit _ hmem
  have hw : wrap32 (t + min quantum (startIfUnset t (s.processes.getD idx default)).remainingTime) =
      t + min quantum (startIfUnset t (s.processes.getD idx default)).remainingTime := by
    apply wrap32_of_inInt
    unfold INT_MAX at htroom
    unfold inInt
    omega
  unfold rrExact rrRunSlice
  simp only []
  split_ifs with hz
  · constructor
    · intro i hi
      by_cases hib : idx = i
      · subst hib
        rw [getD_set_self _ _ _ _ (by simpa using hidx'),
          (finishAt_fields _ _).2.2.1, c3, s3]
        exact hburst idx hi
      · rw [getD_set_other _ _ _ _ _ hib, getD_set_other _ _ _ _ _ hib]
        exact hburst i hi
    · intro i hi hflag
      simp only [List.length_set] at hi
      by_cases hib : idx = i
      · subst hib
        rw [getD_set_self _ _ _ _ (by simpa using hidx')]
        obtain ⟨-, g2, g3, -, -, -, -, g8⟩ := finishAt_fields
          (wrap32 (t + min quantum (startIfUnset t (s.processes.getD idx default)).remainingTime))
          (consume (min quantum (startIfUnset t (s.processes.getD idx default)).remainingTime)
            (startIfUnset t (s.processes.getD idx default)))
        have harr := (hproc idx hidx).1
        have hbur := hburst idx hidx
        apply metricsOk_of_wrap _ (metricsWrap_finishAt _ _)
        · rw [g2, c2, s2, harr]; exact a0
        · rw [g3, c3, s3, hbur]; exact b0
        · rw [g3, c3, s3, hbur]; exact hbm
        · rw [g2, c2, s2, g8, hw, harr]; omega
        · rw [g8, hw]; omega
      · rw [getD_set_other _ _ _ _ _ hib] at hflag
        rw [getD_set_other _ _ _ _ _ hib, getD_set_other _ _ _ _ _ hib]
        exact hflagged i hi hflag
  · constructor
    · intro i hi
      by_cases hib : idx = i
      · subst hib
        rw [getD_set_self _ _ _ _ hidx', c3, s3]
        exact hburst idx hi
      · rw [getD_set_other _ _ _ _ _ hib]
        exact hburst i hi
    · intro i hi hflag
      simp only [List.length_set] at hi
      by_cases hib : idx = i
      · subst hib
        rw [getD_set_self _ _ _ _ hidx']
        have := hflagged idx hi hflag
        unfold metricsOk at this ⊢
        rw [c2, c3, c8, c9, c10, s2, s3, s7, s8, s9]
        exact this
      · rw [getD_set_other _ _ _ _ _ hib]
        exact hflagged i hi hflag

theorem rrExact_init (ps : List Process) : rrExact ps (rrInit ps) := by
  constructor
  · intro i hi
    show ((ps.map resetRun).getD i default).burstTime = _
    rw [getD_map_of_lt resetRun ps i default default hi]
    rfl
  · intro i _ hflag
    have hf : (rrInit ps).finished.getD i false = false := getD_replicate_false _ _
    rw [hf] at hflag
    exact absurd hflag (by decide)

theorem exact_rr (ps : List Process) (hne : ps ≠ []) (hfit : fitsInt ps) (quantum : Int)
    (hquantum : 0 ≤ quantum) (k : Nat) :
    exactFlagged (iterate (rrStep quantum) k (rrInit ps)).processes
      (iterate (rrStep quantum) k (rrInit ps)).finished := by
  have hdom : ∀ p ∈ ps, inInt p.arrivalTime ∧ 0 ≤ p.burstTime ∧
      p.arrivalTime + totalBurst ps ≤ INT_MAX := by
    intro p hp
    obtain ⟨h1, h2, h3⟩ := hfit p hp
    have h4 := totalBurst_nonneg ps (fun q hq => (hfit q hq).2.1)
    refine ⟨?_, h2, h3⟩
    unfold INT_MAX at h3
    unfold inInt
    omega
  exact (iterate_inv (rrStep quantum) (fun s => rrInv ps s ∧ rrFits ps s ∧ rrExact ps s)
    (fun a b ha hab => ⟨(rrInv_rrStep ps quantum hquantum a b ha.1 ha.2.1 hab).1,
      (rrInv_rrStep ps quantum hquantum a b ha.1 ha.2.1 hab).2.1,
      rrExact_rrStep ps hfit quantum hquantum a b ha.1 ha.2.1 ha.2.2 hab⟩) k (rrInit ps)
    ⟨rrInv_init ps hne (fun p hp => (hfit p hp).2.1), rrFits_init ps hne hdom,
      rrExact_init ps⟩).2.2.2

theorem exact_rows (processes : List Process) (flags : List Bool)
    (hflag : flagInv processes flags) (hex : exactFlagged processes flags) :
    ∀ p ∈ processes, p.finishTime ≠ -1 → metricsOk p := by
  intro p hp hfin
  obtain ⟨i, hi, hpi⟩ := List.mem_iff_getElem.mp hp
  have hget : processes.getD i default = p := by
    rw [List.getD_eq_getElem _ _ hi, hpi]
  cases hf : flags.getD i false with
  | true =>
    have := hex i hi hf
    rw [hget] at this
    exact this
  | false =>
    have := (hflag.2 i hi).2 hf
    rw [hget] at this
    exact absurd this hfin

/-- C4, amended: when no clock leaves the `int` range, every process that an engine marks
as completed has `turnaroundTime = finishTime - arrivalTime` and
`waitingTime = turnaroundTime - burstTime`.  For every non-empty input list with
`arrivalTime ≥ 0`, `burstTime ≥ 0` and every arrival time plus the sum of all burst times
at most `INT_MAX`, and every `quantum ≥ 1`: for `simulateFCFS` the two equations hold of
every row; for `simulateRoundRobin`, `simulatePriority`, `simulateSJF` and
`simulateDynamicPriority` they hold, after any number `k` of iterations of the main loop,
of every process whose completion flag is set, and so of every row with a `finishTime`
set that the engine returns. -/
theorem completed_metrics (ps : List Process) (hne : ps ≠ []) (hfit : fitsInt ps)
    (quantum : Int) (hq : 1 ≤ quantum) :
    (∀ p ∈ (simulateFCFS ps).2, metricsOk p) ∧
    (∀ k, exactFlagged (iterate (rrStep quantum) k (rrInit ps)).processes
      (iterate (rrStep quantum) k (rrInit ps)).finished) ∧
    (∀ k, exactFlagged (iterate priorityStep k (priorityInit ps)).processes
      (iterate priorityStep k (priorityInit ps)).done) ∧
    (∀ k, exactFlagged (iterate sjfStep k (sjfInit ps)).processes
      (iterate sjfStep k (sjfInit ps)).done) ∧
    (∀ k, exactFlagged (iterate dynStep k (dynInit ps)).processes
      (iterate dynStep k (dynInit ps)).finished) ∧
    (∀ fuel r, simulateRoundRobin fuel ps quantum = some r →
      ∀ p ∈ r.rows, p.finishTime ≠ -1 → metricsOk p) ∧
    (∀ fuel r, simulatePriority fuel ps = some r →
      ∀ p ∈ r.2, p.finishTime ≠ -1 → metricsOk p) ∧
    (∀ fuel r, simulateSJF fuel ps = some r →
      ∀ p ∈ r.2, p.finishTime ≠ -1 → metricsOk p) ∧
    (∀ fuel r, simulateDynamicPriority fuel ps = some r →
      ∀ p ∈ r.rows, p.finishTime ≠ -1 → metricsOk p) := by
  have hq0 : 0 ≤ quantum := by omega
  refine ⟨fcfs_rows_metricsOk ps hfit, exact_rr ps hne hfit quantum hq0,
    exact_priority ps hfit, exact_sjf ps hne hfit, exact_dyn ps hne hfit, ?_, ?_, ?_, ?_⟩
  · intro fuel r h
    rcases simulateRoundRobin_rows fuel ps quantum r h with h0 | hl
    · rw [h0]
      intro p hp
      cases hp
    · cases hs : runLoop (rrStep quantum) fuel (rrInit ps) with
      | none => simp [hs] at hl
      | some st =>
        simp only [hs, Option.map_some', Option.some.injEq, Prod.mk.injEq] at hl
        have h1 := flagInv_rr ps quantum fuel
        have h2 := exact_rr ps hne hfit quantum hq0 fuel
        rw [← (runLoop_eq_iterate _ fuel _ st hs).1, hl.1] at h1 h2
        exact exact_rows _ _ h1 h2
  · intro fuel r h
    rcases simulatePriority_rows fuel ps r h with h0 | hl
    · rw [h0]
      intro p hp
      cases hp
    · cases hs : runLoop priorityStep fuel (priorityInit ps) with
      | none => simp [hs] at hl
      | some st =>
        simp only [hs, Option.map_some', Option.some.injEq] at hl
        have h1 := flagInv_priority ps fuel
        have h2 := exact_priority ps hfit fuel
        rw [← (runLoop_eq_iterate _ fuel _ st hs).1, hl] at h1 h2
        exact exact_rows _ _ h1 h2
  · intro fuel r h
    rcases simulateSJF_rows fuel ps r h with h0 | hl
    · rw [h0]
      intro p hp
      cases hp
    · cases hs : runLoop sjfStep fuel (sjfInit ps) with
      | none => simp [hs] at hl
      | some st =>
        simp only [hs, Option.map_some', Option.some.injEq] at hl
        have h1 := flagInv_sjf ps fuel
        have h2 := exact_sjf ps hne hfit fuel
        rw [← (runLoop_eq_iterate _ fuel _ st hs).1, hl] at h1 h2
        exact exact_rows _ _ h1 h2
  · intro fuel r h
    rcases simulateDynamicPriority_rows fuel ps r h with h0 | hl
    · rw [h0]
      intro p hp
      cases hp
    · cases hs : runLoop dynStep fuel (dynInit ps) with
      | none => simp [hs] at hl
      | some st =>
        simp only [hs, Option.map_some', Option.some.injEq, Prod.mk.injEq] at hl
        have h1 := flagInv_dyn ps fuel
        have h2 := exact_dyn ps hne hfit fuel
        rw [← (runLoop_eq_iterate _ fuel _ st hs).1, hl.1] at h1 h2
        exact exact_rows _ _ h1 h2

/-- C4 as amended, at the list `{id=1,arrival=2,burst=3,priority=2},
{id=2,arrival=0,burst=2,priority=3}, {id=3,arrival=9,burst=1,priority=1}` with quantum
`2`: the rows of `simulateFCFS` have the two equations, and so has every row of
`simulateRoundRobin` whose `finishTime` is set. -/
theorem completed_metrics_witness :
    (smallExample ≠ [] ∧ fitsInt smallExample ∧ (1 : Int) ≤ 2) ∧
    (simulateFCFS smallExample).2.map
        (fun p => (p.arrivalTime, p.burstTime, p.finishTime, p.turnaroundTime,
          p.waitingTime)) =
      [(0, 2, 2, 2, 0), (2, 3, 5, 3, 0), (9, 1, 10, 1, 0)] ∧
    (∀ p ∈ (simulateFCFS smallExample).2, metricsOk p) ∧
    (simulateRoundRobin 9 smallExample 2).map
        (fun r => r.rows.map (fun p => (p.arrivalTime, p.burstTime, p.finishTime,
          p.turnaroundTime, p.waitingTime))) =
      some [(2, 3, 5, 3, 0), (0, 2, 4, 4, 2), (9, 1, -1, 0, 0)] ∧
    (∀ fuel r, simulateRoundRobin fuel smallExample 2 = some r →
      ∀ p ∈ r.rows, p.finishTime ≠ -1 → metricsOk p) :=
  ⟨⟨by decide, by decide, by decide⟩, by decide,
    (completed_metrics smallExample (by decide) (by decide) 2 (by decide)).1, by decide,
    (completed_metrics smallExample (by decide) (by decide) 2 (by decide)).2.2.2.2.2.1⟩

/-- C4 as stated fails on lists it covers (non-empty, `arrivalTime ≥ 0`, `burstTime ≥ 1`)
where a clock passes `INT_MAX`.  On
`{id=1,arrival=0,burst=1500000000}, {id=2,arrival=0,burst=1500000000}` the second finish
time `3000000000` does not fit an `int`: `simulateFCFS`, `simulatePriority` and
`simulateSJF` return the second row with `finishTime = -1294967296`,
`turnaroundTime = -1294967296` and `waitingTime = 1500000000`, which is not
`turnaroundTime - burstTime = -2794967296`.  On `{id=1,arrival=2147483646,burst=2}`
`simulateRoundRobin` with quantum `1` and `simulateDynamicPriority` return the row with
`finishTime = -2147483648` and `turnaroundTime = 2`, which is not
`finishTime - arrivalTime = -4294967294`. -/
theorem completed_metrics_overflow :
    (overflowExample ≠ [] ∧ ∀ p ∈ overflowExample, 0 ≤ p.arrivalTime ∧ 1 ≤ p.burstTime) ∧
    ¬ fitsInt overflowExample ∧
    (simulateFCFS overflowExample).2.map
        (fun p => (p.arrivalTime, p.burstTime, p.finishTime, p.turnaroundTime,
          p.waitingTime)) =
      [(0, 1500000000, 1500000000, 1500000000, 0),
        (0, 1500000000, -1294967296, -1294967296, 1500000000)] ∧
    (∃ p ∈ (simulateFCFS overflowExample).2, p.finishTime ≠ -1 ∧ ¬ metricsOk p) ∧
    (simulatePriority 5 overflowExample).map
        (fun r => r.2.map (fun p => (p.finishTime, p.turnaroundTime, p.waitingTime,
          decide (metricsOk p)))) =
      some [(1500000000, 1500000000, 0, true),
        (-1294967296, -1294967296, 1500000000, false)] ∧
    (simulateSJF 5 overflowExample).map
        (fun r => r.2.map (fun p => (p.finishTime, p.turnaroundTime, p.waitingTime,
          decide (metricsOk p)))) =
      some [(1500000000, 1500000000, 0, true),
        (-1294967296, -1294967296, 1500000000, false)] ∧
    (lateBurstExample ≠ [] ∧ ∀ p ∈ lateBurstExample, 0 ≤ p.arrivalTime ∧ 1 ≤ p.burstTime) ∧
    ¬ fitsInt lateBurstExample ∧
    (simulateRoundRobin 5 lateBurstExample 1).map
        (fun r => r.rows.map (fun p => (p.arrivalTime, p.finishTime, p.turnaroundTime,
          p.waitingTime, decide (metricsOk p)))) =
      some [(2147483646, -2147483648, 2, 0, false)] ∧
    (simulateDynamicPriority 5 lateBurstExample).map
        (fun r => r.rows.map (fun p => (p.arrivalTime, p.finishTime, p.turnaroundTime,
          p.waitingTime, decide (metricsOk p)))) =
      some [(2147483646, -2147483648, 2, 0, false)] :=
  ⟨⟨by decide, by decide⟩, by decide, by decide, by decide, by decide, by decide,
    ⟨by decide, by decide⟩, by decide, by decide, by decide⟩

end Lab3
